import Mathlib

set_option linter.all false

/-! # A shallow embedding of `mm.c`

`mm.c` is a 64-bit explicit-free-list allocator with boundary tags, footers
only on free blocks, a `prev_alloc` bit in each header, a capped best-fit
search and eager coalescing.

The embedding keeps the shape of the C source:

* memory is a total map from byte addresses to bytes, and every header,
  footer and link is an eight-byte little-endian word read from it;
* `size_t`, `word_t` and pointers are natural numbers below `2 ^ 64`, and
  every C operation that can wrap is reduced modulo `2 ^ 64`;
* the two globals `heap_start` and `free_start` are fields of the state, the
  null pointer is `0`;
* loops are run with an explicit step budget, and a loop that does not finish
  within the budget reports `Fault.out_of_fuel`;
* `coalesce` loads the header at a pointer it computes from the word before
  the block, a word that a caller can write: `coalesce_checked`,
  `free_checked` and `place_checked` run that load against the arena and
  report `Fault.bad_load` when it falls outside; `coalesce` and the functions
  that call it give the state of a call that returns.

The definitions come first.  The second part proves that the allocator keeps
the heap well formed along every call sequence whose requests do not make
`size + wsize` wrap (`reach_small_good`), with the invariants of the data model
as corollaries.  The third part evaluates the allocator on call sequences with
an oversized request and states the properties of the specification.
-/

namespace MM

/-! ## Machine words -/

/-- The number of values of a 64-bit word. -/
abbrev W : Nat := 18446744073709551616

/-- Unsigned 64-bit addition. -/
def wadd (a b : Nat) : Nat := (a + b) % W

/-- Unsigned 64-bit subtraction. -/
def wsub (a b : Nat) : Nat := (a + W - b % W) % W

/-- Unsigned 64-bit multiplication. -/
def wmul (a b : Nat) : Nat := (a * b) % W

/-! ## Basic constants -/

/-- Word and header size in bytes: `sizeof(word_t)`. -/
abbrev wsize : Nat := 8

/-- Double word size in bytes. -/
abbrev dsize : Nat := 16

/-- Minimum block size: header, two links and a footer. -/
abbrev min_block_size : Nat := 32

/-- The amount by which the heap is first extended. -/
abbrev chunksize : Nat := 1792

/-- Bit 0 of a header: the block is allocated. -/
abbrev alloc_mask : Nat := 1

/-- Bit 1 of a header: the block before this one is allocated. -/
abbrev prev_alloc_mask : Nat := 2

/-- The mask `~(word_t)0xF`. -/
abbrev size_mask : Nat := 18446744073709551600

/-- The mask `~prev_alloc_mask` at 64 bits. -/
abbrev not_prev_alloc_mask : Nat := 18446744073709551613

/-! ## Memory -/

/-- Byte-addressed memory. -/
abbrev Mem : Type := Nat → Nat

/-- Reads the eight bytes at `a` as a little-endian word. -/
def read_word (m : Mem) (a : Nat) : Nat :=
  m a % 256 + 256 * (m (a + 1) % 256 + 256 * (m (a + 2) % 256 + 256 * (m (a + 3) % 256
    + 256 * (m (a + 4) % 256 + 256 * (m (a + 5) % 256 + 256 * (m (a + 6) % 256
    + 256 * (m (a + 7) % 256)))))))

/-- Stores the word `v` in the eight bytes at `a`, little-endian. -/
def write_word (m : Mem) (a v : Nat) : Mem :=
  fun x => if a ≤ x ∧ x < a + 8 then v / 256 ^ (x - a) % 256 else m x

/-- Stores one byte, as a caller does when it fills a payload. -/
def write_byte (m : Mem) (a v : Nat) : Mem :=
  fun x => if x = a then v % 256 else m x

/-- The effect of `memcpy(dst, src, n)` on regions that do not overlap. -/
def mem_copy (m : Mem) (dst src n : Nat) : Mem :=
  fun x => if dst ≤ x ∧ x < dst + n then m (src + (x - dst)) else m x

/-- The effect of `memset(dst, 0, n)`. -/
def mem_zero (m : Mem) (dst n : Nat) : Mem :=
  fun x => if dst ≤ x ∧ x < dst + n then 0 else m x

/-! ## Allocator state -/

/-- The reasons for which a call does not return: a loop that runs out of its
step budget, a division by zero, a load from an address outside the arena. -/
inductive Fault where
  | out_of_fuel
  | div_by_zero
  | bad_load
  deriving DecidableEq, Repr

/-- The allocator state: the memory, the arena handed out by the
memory-growth collaborator, and the two globals of `mm.c`. -/
structure Heap where
  /-- Contents of memory. -/
  mem : Mem
  /-- Address of the first byte of the arena. -/
  lo : Nat
  /-- Number of bytes of the arena handed out so far. -/
  brk : Nat
  /-- Number of bytes the collaborator can hand out in total. -/
  cap : Nat
  /-- The global `heap_start`: the first block header. -/
  heap_start : Nat
  /-- The global `free_start`: the head of the free list. -/
  free_start : Nat

/-- Modelled from the spec: the memory-growth collaborator `mem_sbrk`, which
is declared in `memlib.h` and not part of the source.  It extends the arena by
`incr` bytes and returns the address of the appended span, contiguous with the
arena, or fails when no more address space is available. -/
def mem_sbrk (s : Heap) (incr : Nat) : Option (Heap × Nat) :=
  if s.brk + incr ≤ s.cap then some ({ s with brk := s.brk + incr }, s.lo + s.brk)
  else none

/-- Stores a word in the memory of a state. -/
def store (s : Heap) (a v : Nat) : Heap := { s with mem := write_word s.mem a v }

/-- Loads a word from the memory of a state. -/
def load (s : Heap) (a : Nat) : Nat := read_word s.mem a

/-! ## Encoding layer -/

/-- The larger of two sizes. -/
def max (x y : Nat) : Nat := if x > y then x else y

/-- Rounds `size` up to the next multiple of `n`, at 64 bits. -/
def round_up (size n : Nat) : Nat := wmul n (wadd size (wsub n 1) / n)

/-- A header word for a size and an allocation status. -/
def pack (size : Nat) (alloc : Bool) : Nat := if alloc then size ||| alloc_mask else size

/-- The size field of a header word. -/
def extract_size (word : Nat) : Nat := word &&& size_mask

/-- The allocated bit of a header word. -/
def extract_alloc (word : Nat) : Bool := word &&& alloc_mask != 0

/-- The `prev_alloc` bit of a header word, left in place: `0` or `2`. -/
def extract_prev_alloc (word : Nat) : Nat := word &&& prev_alloc_mask

/-- The header word of a block. -/
def header (s : Heap) (block : Nat) : Nat := load s block

/-- The `prev` link of a block, the first payload word. -/
def block_prev (s : Heap) (block : Nat) : Nat := load s (wadd block 8)

/-- The `next` link of a block, the second payload word. -/
def block_next (s : Heap) (block : Nat) : Nat := load s (wadd block 16)

/-- Assigns `block->prev`. -/
def set_block_prev (s : Heap) (block v : Nat) : Heap := store s (wadd block 8) v

/-- Assigns `block->next`. -/
def set_block_next (s : Heap) (block v : Nat) : Heap := store s (wadd block 16) v

/-- The size of a block, read from its header. -/
def get_size (s : Heap) (block : Nat) : Nat := extract_size (header s block)

/-- The payload size of a block: the block size minus the header. -/
def get_payload_size (s : Heap) (block : Nat) : Nat := wsub (get_size s block) wsize

/-- The allocated bit of a block, read from its header. -/
def get_alloc (s : Heap) (block : Nat) : Bool := extract_alloc (header s block)

/-- Sets or clears the `prev_alloc` bit of a block header. -/
def set_prev_alloc (s : Heap) (block : Nat) (state : Bool) : Heap :=
  if block ≠ 0 then
    if state then store s block (header s block ||| prev_alloc_mask)
    else store s block (header s block &&& not_prev_alloc_mask)
  else s

/-- Writes a block header. -/
def write_header (s : Heap) (block size : Nat) (alloc : Bool) : Heap :=
  store s block (pack size alloc)

/-- Writes a block footer, at the place given by the size in the header. -/
def write_footer (s : Heap) (block size : Nat) (alloc : Bool) : Heap :=
  store s (wsub (wadd (wadd block 8) (get_size s block)) dsize) (pack size alloc)

/-! ## Block geometry -/

/-- The next block in address order. -/
def find_next (s : Heap) (block : Nat) : Nat := wadd block (get_size s block)

/-- The address of the word before a header: the footer of the previous block. -/
def find_prev_footer (block : Nat) : Nat := wsub block 8

/-- The previous block in address order, from the footer before the header. -/
def find_prev (s : Heap) (block : Nat) : Nat :=
  wsub block (extract_size (load s (find_prev_footer block)))

/-- The block of a payload pointer. -/
def payload_to_header (bp : Nat) : Nat := wsub bp 8

/-- The payload pointer of a block. -/
def header_to_payload (block : Nat) : Nat := wadd block 8

/-! ## Free list -/

/-- Inserts a block at the head of the free list. -/
def prepend_to_free_list (s : Heap) (block : Nat) : Heap :=
  if s.free_start = 0 then
    let s1 := set_block_prev s block 0
    let s2 := set_block_next s1 block 0
    { s2 with free_start := block }
  else
    let s1 := set_block_prev s block 0
    let s2 := set_block_next s1 block s1.free_start
    let s3 := set_block_prev s2 s2.free_start block
    { s3 with free_start := block }

/-- Unlinks a block from the free list, by the four cases of its links. -/
def remove_from_free_list (s : Heap) (block : Nat) : Heap :=
  if s.free_start = 0 then s
  else
    let prev := block_prev s block
    let next := block_next s block
    if prev = 0 ∧ next = 0 then { s with free_start := 0 }
    else if prev = 0 ∧ next ≠ 0 then
      let s1 := { s with free_start := next }
      set_block_prev s1 s1.free_start 0
    else if prev ≠ 0 ∧ next = 0 then set_block_next s (block_prev s block) 0
    else if prev ≠ 0 ∧ next ≠ 0 then
      let s1 := set_block_next s prev next
      set_block_prev s1 next prev
    else s

/-! ## Coalescing engine -/

/-- Merges a free block with its free neighbours and puts the result at the
head of the free list.  Returns the new state and the surviving block of a
call that returns; the load `leftSize = get_size(left)` that the source runs
before its tests, and that can fall outside the arena, is in
`coalesce_checked`. -/
def coalesce (s : Heap) (block : Nat) : Heap × Nat :=
  let blockSize := get_size s block
  let left := find_prev s block
  let right := find_next s block
  let isLeftFree : Bool := if left = 0 then false else extract_prev_alloc (header s block) == 0
  let isRightFree : Bool := if right = 0 then false else !get_alloc s right
  if isLeftFree && isRightFree then
    let leftSize := get_size s left
    let rightSize := get_size s right
    let alloc_bit := extract_prev_alloc (header s left)
    let s1 := set_prev_alloc s (find_next s right) false
    let s2 := remove_from_free_list s1 left
    let s3 := remove_from_free_list s2 right
    let s4 := write_header s3 left (wadd (wadd leftSize blockSize) rightSize) false
    let s5 := write_footer s4 left (wadd (wadd leftSize blockSize) rightSize) false
    let s6 := set_prev_alloc s5 left (alloc_bit != 0)
    (prepend_to_free_list s6 left, left)
  else if isLeftFree then
    let leftSize := get_size s left
    let s1 := remove_from_free_list s left
    let alloc_bit := extract_prev_alloc (header s1 left)
    let s2 := write_header s1 left (wadd leftSize blockSize) false
    let s3 := write_footer s2 left (wadd leftSize blockSize) false
    let s4 := set_prev_alloc s3 left (alloc_bit != 0)
    let s5 := set_prev_alloc s4 right false
    (prepend_to_free_list s5 left, left)
  else if isRightFree then
    let rightSize := get_size s right
    let s1 := set_prev_alloc s (find_next s right) false
    let s2 := remove_from_free_list s1 right
    let alloc_bit := extract_prev_alloc (header s2 block)
    let s3 := write_header s2 block (wadd blockSize rightSize) false
    let s4 := write_footer s3 block (wadd blockSize rightSize) false
    let s5 := set_prev_alloc s4 block (alloc_bit != 0)
    (prepend_to_free_list s5 block, block)
  else
    let s1 := prepend_to_free_list s block
    (set_prev_alloc s1 right false, block)

/-! ## Allocator core -/

/-- Extends the heap by `size` bytes rounded up to a double word, turns the new
span into a free block over the old epilogue, writes a new epilogue and
coalesces.  Returns the null pointer and the unchanged state when the arena
cannot grow. -/
def extend_heap (s : Heap) (size : Nat) : Heap × Nat :=
  let size := round_up size dsize
  match mem_sbrk s size with
  | none => (s, 0)
  | some (s0, bp) =>
    let block := payload_to_header bp
    let alloc_bit := extract_prev_alloc (header s0 block)
    let s1 := write_header s0 block size false
    let s2 := write_footer s1 block size false
    let s3 := set_prev_alloc s2 block (alloc_bit != 0)
    let block_next := find_next s3 block
    let s4 := write_header s3 block_next 0 true
    coalesce s4 block

/-- Initialises the heap: prologue footer, epilogue header, and a first free
block of `chunksize` bytes. -/
def mm_init (s : Heap) : Heap × Bool :=
  match mem_sbrk s (2 * wsize) with
  | none => (s, false)
  | some (s0, start) =>
    let s1 := store s0 start (pack 0 true)
    let s2 := store s1 (wadd start 8) (pack 0 true)
    let s3 := { s2 with heap_start := wadd start 8 }
    let s4 := set_prev_alloc s3 s3.heap_start true
    let s5 := { s4 with free_start := 0 }
    let r := extend_heap s5 chunksize
    if r.2 = 0 then (r.1, false) else (r.1, true)

/-- Marks `block` allocated for a request of `asize` bytes, splitting off the
rest as a free block when it is at least a minimum block. -/
def place (s : Heap) (block asize : Nat) : Heap :=
  let csize := get_size s block
  if wsub csize asize ≥ min_block_size then
    let alloc_bit := extract_prev_alloc (header s block)
    let s1 := write_header s block asize true
    let s2 := set_prev_alloc s1 block (alloc_bit != 0)
    let s3 := remove_from_free_list s2 block
    let block_next := find_next s3 block
    let s4 := write_header s3 block_next (wsub csize asize) false
    let s5 := write_footer s4 block_next (wsub csize asize) false
    let s6 := set_prev_alloc s5 block_next true
    (coalesce s6 block_next).1
  else
    let alloc_bit := extract_prev_alloc (header s block)
    let s1 := write_header s block csize true
    let s2 := set_prev_alloc s1 block (alloc_bit != 0)
    let s3 := set_prev_alloc s2 (find_next s2 block) true
    remove_from_free_list s3 block

/-- The loop of `find_fit`: `block` is the current node, `smallestFit` the best
candidate so far and `n` the number of candidates seen. -/
def find_fit_loop (s : Heap) (asize : Nat) : Nat → Nat → Nat → Nat → Except Fault Nat
  | 0, _, _, _ => .error .out_of_fuel
  | fuel + 1, block, smallestFit, n =>
    if block = 0 then .ok smallestFit
    else if !get_alloc s block && decide (asize ≤ get_size s block) then
      let best :=
        if smallestFit ≠ 0 then
          if extract_size (header s smallestFit) > extract_size (header s block) then block
          else smallestFit
        else block
      if n + 1 ≥ 18 then .ok best
      else find_fit_loop s asize fuel (block_next s block) best (n + 1)
    else find_fit_loop s asize fuel (block_next s block) smallestFit n

/-- The fit policy: the smallest of the first 18 free-list nodes that fit. -/
def find_fit (fuel : Nat) (s : Heap) (asize : Nat) : Except Fault Nat :=
  find_fit_loop s asize fuel s.free_start 0 0

/-- The allocation entry point.  Returns the new state and the payload pointer,
null when the request is empty or the arena cannot grow. -/
def malloc (fuel : Nat) (s : Heap) (size : Nat) : Except Fault (Heap × Nat) :=
  let s := if s.heap_start = 0 then (mm_init s).1 else s
  if size = 0 then .ok (s, 0)
  else
    let asize := round_up (wadd size wsize) dsize
    let asize := if asize < min_block_size then min_block_size else asize
    match find_fit fuel s asize with
    | .error e => .error e
    | .ok block =>
      if block = 0 then
        let extendsize := max asize chunksize
        let r := extend_heap s extendsize
        if r.2 = 0 then .ok (r.1, 0)
        else .ok (place r.1 r.2 asize, header_to_payload r.2)
      else .ok (place s block asize, header_to_payload block)

/-- The deallocation entry point. -/
def free (s : Heap) (bp : Nat) : Heap :=
  if bp = 0 then s
  else
    let block := payload_to_header bp
    let size := get_size s block
    let alloc_bit := extract_prev_alloc (header s block)
    let s1 := write_header s block size false
    let s2 := write_footer s1 block size false
    let s3 := set_prev_alloc s2 block (alloc_bit != 0)
    (coalesce s3 block).1

/-- The reallocation entry point: a fresh allocation, a copy of the smaller of
the request and the old payload size, and a release of the old block. -/
def realloc (fuel : Nat) (s : Heap) (ptr size : Nat) : Except Fault (Heap × Nat) :=
  let block := payload_to_header ptr
  if size = 0 then .ok (free s ptr, 0)
  else if ptr = 0 then malloc fuel s size
  else
    match malloc fuel s size with
    | .error e => .error e
    | .ok (s1, newptr) =>
      if newptr = 0 then .ok (s1, 0)
      else
        let copysize := get_payload_size s1 block
        let copysize := if size < copysize then size else copysize
        let s2 := { s1 with mem := mem_copy s1.mem newptr ptr copysize }
        .ok (free s2 ptr, newptr)

/-- The zeroed-allocation entry point.  The overflow check divides by
`elements`. -/
def calloc (fuel : Nat) (s : Heap) (elements size : Nat) : Except Fault (Heap × Nat) :=
  let asize := wmul elements size
  if elements = 0 then .error .div_by_zero
  else if asize / elements ≠ size then .ok (s, 0)
  else
    match malloc fuel s asize with
    | .error e => .error e
    | .ok (s1, bp) =>
      if bp = 0 then .ok (s1, 0)
      else .ok ({ s1 with mem := mem_zero s1.mem bp asize }, bp)

/-! ## Integrity checker -/

/-- The test that ends an address-order walk: size zero and allocated. -/
def is_epilogue (s : Heap) (block : Nat) : Bool :=
  get_size s block == 0 && get_alloc s block

/-- The loop of `no_adjacent_free_blocks`. -/
def no_adjacent_free_blocks_loop (s : Heap) : Nat → Nat → Except Fault Bool
  | 0, _ => .error .out_of_fuel
  | fuel + 1, current =>
    if is_epilogue s current then .ok true
    else if !get_alloc s current && !get_alloc s (find_next s current) then .ok false
    else no_adjacent_free_blocks_loop s fuel (find_next s current)

/-- Checks that no two blocks adjacent in address order are both free. -/
def no_adjacent_free_blocks (fuel : Nat) (s : Heap) : Except Fault Bool :=
  no_adjacent_free_blocks_loop s fuel s.heap_start

/-- The address-order loop of `correct_num_free_blocks`: counts free blocks. -/
def implicit_count_loop (s : Heap) : Nat → Nat → Nat → Except Fault Nat
  | 0, _, _ => .error .out_of_fuel
  | fuel + 1, current, count =>
    if is_epilogue s current then .ok count
    else implicit_count_loop s fuel (find_next s current)
      (if get_alloc s current then count else count + 1)

/-- The free-list loop of `correct_num_free_blocks`: counts list nodes. -/
def explicit_count_loop (s : Heap) : Nat → Nat → Nat → Except Fault Nat
  | 0, _, _ => .error .out_of_fuel
  | fuel + 1, current, count =>
    if current = 0 then .ok count
    else explicit_count_loop s fuel (block_next s current) (count + 1)

/-- Counts the free blocks by both walks.  Both branches of the final
comparison return `1`. -/
def correct_num_free_blocks (fuel : Nat) (s : Heap) : Except Fault Bool :=
  match implicit_count_loop s fuel s.heap_start 0 with
  | .error e => .error e
  | .ok implicit_count =>
    match explicit_count_loop s fuel s.free_start 0 with
    | .error e => .error e
    | .ok explicit_count => if explicit_count = implicit_count then .ok true else .ok true

/-- The loop of `detect_cycle`, with a slow and a fast pointer. -/
def detect_cycle_loop (s : Heap) : Nat → Nat → Nat → Except Fault Bool
  | 0, _, _ => .error .out_of_fuel
  | fuel + 1, slow, fast =>
    if slow ≠ 0 ∧ fast ≠ 0 ∧ block_next s fast ≠ 0 then
      let slow1 := block_next s slow
      let fast1 := block_next s (block_next s fast)
      if slow1 = fast1 then .ok true else detect_cycle_loop s fuel slow1 fast1
    else .ok false

/-- Returns `1` when the free list has a cycle and `0` when it has none. -/
def detect_cycle (fuel : Nat) (s : Heap) : Except Fault Bool :=
  detect_cycle_loop s fuel s.free_start s.free_start

/-- The loop of `checkAllPrevAllocBits`: compares the `prev_alloc` bit of each
block with the allocated bit of the word before its header. -/
def checkAllPrevAllocBits_loop (s : Heap) : Nat → Nat → Except Fault Bool
  | 0, _ => .error .out_of_fuel
  | fuel + 1, current =>
    if is_epilogue s current then .ok true
    else
      let prev_alloc : Bool := extract_prev_alloc (header s current) == 2
      let actual_prev_alloc := extract_alloc (load s (find_prev_footer current))
      if prev_alloc != actual_prev_alloc then .ok false
      else checkAllPrevAllocBits_loop s fuel (find_next s current)

/-- Checks the `prev_alloc` bit of every block before the epilogue. -/
def checkAllPrevAllocBits (fuel : Nat) (s : Heap) : Except Fault Bool :=
  checkAllPrevAllocBits_loop s fuel s.heap_start

/-- The heap checker: the four checks in order, stopping at the first that
fails. -/
def mm_checkheap (fuel : Nat) (s : Heap) : Except Fault Bool :=
  match no_adjacent_free_blocks fuel s with
  | .error e => .error e
  | .ok r1 =>
    if !r1 then .ok false
    else
      match detect_cycle fuel s with
      | .error e => .error e
      | .ok r2 =>
        if !r2 then .ok false
        else
          match correct_num_free_blocks fuel s with
          | .error e => .error e
          | .ok r3 =>
            if !r3 then .ok false
            else
              match checkAllPrevAllocBits fuel s with
              | .error e => .error e
              | .ok r4 => if !r4 then .ok false else .ok true

/-! ## Results of calls -/

/-- Equality of call results is decidable when it is for values and faults. -/
instance instDecidableEqExcept {ε α : Type} [DecidableEq ε] [DecidableEq α] :
    DecidableEq (Except ε α)
  | .ok a, .ok b =>
    if h : a = b then isTrue (by rw [h]) else isFalse (by intro h2; cases h2; exact h rfl)
  | .error a, .error b =>
    if h : a = b then isTrue (by rw [h]) else isFalse (by intro h2; cases h2; exact h rfl)
  | .ok _, .error _ => isFalse (by intro h; cases h)
  | .error _, .ok _ => isFalse (by intro h; cases h)

/-- The state a call leaves behind; `s` when the call does not return. -/
def after (r : Except Fault (Heap × Nat)) (s : Heap) : Heap :=
  match r with
  | .ok (t, _) => t
  | .error _ => s

/-- The pointer a call returns, when it returns. -/
def ret (r : Except Fault (Heap × Nat)) : Option Nat :=
  match r with
  | .ok (_, p) => some p
  | .error _ => none

/-- A caller stores the byte `v` at address `a`. -/
def poke (s : Heap) (a v : Nat) : Heap := { s with mem := write_byte s.mem a v }

/-! ## Valid call sequences -/

/-- A state in which the allocator has not run yet: both globals are null, the
arena is empty, its first address is 16-byte aligned and not null, and all the
addresses the collaborator can hand out fit in 64 bits. -/
def Boot (s : Heap) : Prop :=
  s.heap_start = 0 ∧ s.free_start = 0 ∧ s.brk = 0 ∧ 0 < s.lo ∧ s.lo % 16 = 0 ∧ s.lo + s.cap < W

/-- The list of live pointers after a call returned `p`. -/
def track (p : Nat) (live : List Nat) : List Nat := if p = 0 then live else p :: live

/-- The list of live pointers after `realloc(p, n)` returned `q`. -/
def retrack (p n q : Nat) (live : List Nat) : List Nat :=
  if n = 0 then live.erase p else if q = 0 then live else q :: live.erase p

/-- The relation `Reach s live` holds when `s` is the state after a valid call
sequence and `live` lists the pointers that were returned and not freed since.  A valid
sequence starts with a successful `mm_init`; sizes are any 64-bit values;
`free` and `realloc` are called on live pointers only; the caller writes only
inside the payload of a live pointer. -/
inductive Reach : Heap → List Nat → Prop where
  | init (s0 : Heap) : Boot s0 → (mm_init s0).2 = true → Reach (mm_init s0).1 []
  | malloc (fuel n : Nat) (s t : Heap) (live : List Nat) (p : Nat) :
      Reach s live → n < W → malloc fuel s n = .ok (t, p) → Reach t (track p live)
  | calloc (fuel c n : Nat) (s t : Heap) (live : List Nat) (p : Nat) :
      Reach s live → c < W → n < W → calloc fuel s c n = .ok (t, p) → Reach t (track p live)
  | free (s : Heap) (live : List Nat) (p : Nat) :
      Reach s live → p ∈ live → Reach (free s p) (live.erase p)
  | realloc (fuel n : Nat) (s t : Heap) (live : List Nat) (p q : Nat) :
      Reach s live → p ∈ live → n < W → realloc fuel s p n = .ok (t, q) →
      Reach t (retrack p n q live)
  | write (s : Heap) (live : List Nat) (p a v : Nat) :
      Reach s live → p ∈ live → p ≤ a → a < p + get_payload_size s (payload_to_header p) →
      Reach (poke s a v) live

/-! ## The invariants of the data model -/

/-- The `k`-th block of the address-order walk from `heap_start`. -/
def nth_block (s : Heap) : Nat → Nat
  | 0 => s.heap_start
  | k + 1 => find_next s (nth_block s k)

/-- The walk reaches its `k`-th block: no block before it is the epilogue. -/
def reaches (s : Heap) (k : Nat) : Prop :=
  ∀ j, j < k → is_epilogue s (nth_block s j) = false

/-- The `k`-th node of the chain of `next` links from `free_start`; null once
the chain has ended. -/
def nth_free (s : Heap) : Nat → Nat
  | 0 => s.free_start
  | k + 1 => if nth_free s k = 0 then 0 else block_next s (nth_free s k)

/-- The `prev_alloc` bit of a block as a boolean. -/
def prev_alloc_bit (s : Heap) (block : Nat) : Bool := extract_prev_alloc (header s block) != 0

/-- Every live pointer is a multiple of 16. -/
def PointersAligned (live : List Nat) : Prop := ∀ p, p ∈ live → p % 16 = 0

/-- The payloads of two distinct live pointers do not overlap. -/
def PayloadsDisjoint (s : Heap) (live : List Nat) : Prop :=
  ∀ p q, p ∈ live → q ∈ live → p ≠ q →
    p + get_payload_size s (payload_to_header p) ≤ q ∨
    q + get_payload_size s (payload_to_header q) ≤ p

/-- The `prev_alloc` bit of every block of the walk, the epilogue included, is
the allocated bit of the block before it; the first block counts the prologue
as allocated. -/
def PrevAllocExact (s : Heap) : Prop :=
  prev_alloc_bit s s.heap_start = true ∧
  ∀ k, reaches s (k + 1) →
    prev_alloc_bit s (nth_block s (k + 1)) = get_alloc s (nth_block s k)

/-- No two consecutive blocks of the walk are both free. -/
def NoAdjacentFree (s : Heap) : Prop :=
  ∀ k, reaches s (k + 1) →
    ¬ (get_alloc s (nth_block s k) = false ∧ get_alloc s (nth_block s (k + 1)) = false)

/-- The chain of `next` links from `free_start` ends, visits no block twice,
and visits exactly the free blocks of the walk. -/
def FreeListExact (s : Heap) : Prop :=
  ∃ n, (∀ i, i < n → nth_free s i ≠ 0) ∧ nth_free s n = 0 ∧
    (∀ i j, i < j → j < n → nth_free s i ≠ nth_free s j) ∧
    ∀ b, (∃ i, i < n ∧ nth_free s i = b) ↔
      (∃ k, reaches s k ∧ nth_block s k = b ∧ get_alloc s b = false)

/-- The head of the free list has a null `prev`, and `a->next->prev == a` for
every node `a` of the list that has a successor. -/
def LinksConsistent (s : Heap) : Prop :=
  (s.free_start ≠ 0 → block_prev s s.free_start = 0) ∧
  ∀ k, nth_free s k ≠ 0 → block_next s (nth_free s k) ≠ 0 →
    block_prev s (block_next s (nth_free s k)) = nth_free s k

/-- Every block of the walk before the epilogue has a size that is a multiple
of 16 and at least `min_block_size`, and the walk ends at an epilogue. -/
def SizesOk (s : Heap) : Prop :=
  (∀ k, reaches s k → is_epilogue s (nth_block s k) = false →
    get_size s (nth_block s k) % 16 = 0 ∧ min_block_size ≤ get_size s (nth_block s k)) ∧
  ∃ k, reaches s k ∧ is_epilogue s (nth_block s k) = true

/-! ## A call sequence with an oversized request -/

/-- An arena of one mebibyte at address 4096, zero-filled, before `mm_init`. -/
def fresh : Heap :=
  { mem := fun _ => 0, lo := 4096, brk := 0, cap := 1048576, heap_start := 0, free_start := 0 }

/-- The largest `size_t`. -/
abbrev SIZE_MAX : Nat := 18446744073709551615

/-- The state after `mm_init()`. -/
def h1 : Heap := (mm_init fresh).1

/-- The state after `p = malloc(56)`, which returns `p = 4112`. -/
def h2 : Heap := after (malloc 2 h1 56) h1

/-- The caller stores the words `48` at `p`, `1698` at `p + 24` and `4176` at
`p + 40`, byte by byte. -/
def h3 : Heap := poke (poke (poke (poke (poke h2 4112 48) 4136 162) 4137 6) 4152 80) 4153 16

/-- The state after `q = realloc(p, SIZE_MAX)`, which returns `q = 4176`. -/
def h4 : Heap := after (realloc 3 h3 4112 SIZE_MAX) h3

/-- The state after `r = malloc(24)`, which returns `r = 4184`. -/
def h5 : Heap := after (malloc 4 h4 24) h4

/-- The caller stores the words `16` at `p + 24` and `1680` at `p + 40`. -/
def g3 : Heap := poke (poke (poke h2 4136 16) 4152 144) 4153 6

/-- The state after `q = realloc(p, SIZE_MAX)` from `g3`. -/
def g4 : Heap := after (realloc 3 g3 4112 SIZE_MAX) g3

/-! ## The abstract heap -/

/-- An abstract block: its size in bytes and whether it is allocated. -/
structure Blk where
  /-- Size of the block, header included. -/
  size : Nat
  /-- Whether the block is allocated. -/
  alloc : Bool

/-- The header word for a size, an allocated flag and a `prev_alloc` flag. -/
def hd (size : Nat) (alloc pa : Bool) : Nat :=
  size + (if alloc then 1 else 0) + (if pa then 2 else 0)

/-- The number of bytes a list of blocks covers. -/
def total : List Blk → Nat
  | [] => 0
  | b :: bs => b.size + total bs

/-- The allocated flag of the last block of a list; `pa` for the empty list. -/
def last_alloc : Bool → List Blk → Bool
  | pa, [] => pa
  | _, b :: bs => last_alloc b.alloc bs

/-- The block `b` lies at address `a`: its size is a multiple of 16 and at
least 32, its header holds its size, its flag and the flag `pa` of the block
before it, and when it is free its last word is a footer with its size. -/
def BlockAt (m : Mem) (a : Nat) (pa : Bool) (b : Blk) : Prop :=
  b.size % 16 = 0 ∧ 32 ≤ b.size ∧ read_word m a = hd b.size b.alloc pa ∧
    (b.alloc = false → read_word m (a + b.size - 8) = b.size)

/-- The blocks `bs` lie one after the other from address `a`, the block before
`a` having the allocated flag `pa`, and no free block follows a free block. -/
def Seg (m : Mem) : Nat → Bool → List Blk → Prop
  | _, _, [] => True
  | a, pa, b :: bs =>
    BlockAt m a pa b ∧ (b.alloc = false → pa = true) ∧ Seg m (a + b.size) b.alloc bs

/-- The addresses of the free blocks of a list of blocks that starts at `a`. -/
def free_addrs : Nat → List Blk → List Nat
  | _, [] => []
  | a, b :: bs =>
    if b.alloc then free_addrs (a + b.size) bs else a :: free_addrs (a + b.size) bs

/-- The payload pointers of the allocated blocks of a list of blocks that
starts at `a`. -/
def live_ptrs : Nat → List Blk → List Nat
  | _, [] => []
  | a, b :: bs =>
    if b.alloc then (a + 8) :: live_ptrs (a + b.size) bs else live_ptrs (a + b.size) bs

/-- The nodes `fl` form a segment of a doubly linked list in memory: `h` is the
first node, or `out` when there is none, `p` is the `prev` link of the first
node, each `next` link leads to the following node, and the last `next` link is
`out`. -/
def FSeg (m : Mem) : Nat → Nat → List Nat → Nat → Prop
  | _, h, [], out => h = out
  | p, h, x :: xs, out =>
    h = x ∧ x ≠ 0 ∧ read_word m (x + 8) = p ∧ FSeg m x (read_word m (x + 16)) xs out

/-- The nodes `fl` form a doubly linked list that ends with a null link. -/
def FList (m : Mem) (p h : Nat) (fl : List Nat) : Prop := FSeg m p h fl 0

/-- The last element of a list of nodes, or `p` when the list is empty. -/
def last_or (p : Nat) : List Nat → Nat
  | [] => p
  | x :: xs => last_or x xs

/-- The first element of a list of nodes, or `out` when the list is empty. -/
def head_or (out : Nat) : List Nat → Nat
  | [] => out
  | x :: _ => x

/-- The flag bits of a header word. -/
def flags (alloc pa : Bool) : Nat := (if alloc then 1 else 0) + (if pa then 2 else 0)

/-- The sizes of the blocks of a list are multiples of 16 and at least 32. -/
def Sized (bs : List Blk) : Prop := ∀ b, b ∈ bs → b.size % 16 = 0 ∧ 32 ≤ b.size

/-- The byte `x` belongs to a header, or to the footer of a free block, of the
blocks `bs` laid out from `a`. -/
def Meta : Nat → List Blk → Nat → Prop
  | _, [], _ => False
  | a, b :: bs, x =>
    (a ≤ x ∧ x < a + 8) ∨ (b.alloc = false ∧ a + b.size - 8 ≤ x ∧ x < a + b.size) ∨
      Meta (a + b.size) bs x

/-- The nodes of a list are distinct, sit at addresses that are 8 modulo 16,
and their links lie below `2 ^ 64`. -/
def Nodes (fl : List Nat) : Prop := fl.Nodup ∧ ∀ x, x ∈ fl → x % 16 = 8 ∧ x + 24 < W

/-- The state `s` represents the blocks `bs` and the free list `fl`. -/
structure Inv (s : Heap) (bs : List Blk) (fl : List Nat) : Prop where
  lo_pos : 0 < s.lo
  lo_al : s.lo % 16 = 0
  fits : s.lo + s.cap < W
  brk_le : s.brk ≤ s.cap
  hs : s.heap_start = s.lo + 8
  brk_eq : s.brk = total bs + 16
  prologue : read_word s.mem s.lo = 1
  seg : Seg s.mem (s.lo + 8) true bs
  epi : read_word s.mem (s.lo + 8 + total bs) = hd 0 true (last_alloc true bs)
  flist : FList s.mem 0 s.free_start fl
  perm : fl.Perm (free_addrs (s.lo + 8) bs)

/-- The blocks `post` lie from address `a` up to the epilogue, the `prev_alloc`
flag of the first of them, or of the epilogue when there is none, being
arbitrary. -/
def Tail (m : Mem) (a : Nat) : List Blk → Prop
  | [] => ∃ q, read_word m a = hd 0 true q
  | c :: rest =>
    (∃ q, BlockAt m a q c) ∧ Seg m (a + c.size) c.alloc rest ∧
      read_word m (a + c.size + total rest) = hd 0 true (last_alloc c.alloc rest)

/-- The allocated flag of the first block of a list; `true` for the empty
list, whose place is taken by the epilogue. -/
def first_alloc : List Blk → Bool
  | [] => true
  | c :: _ => c.alloc

/-- The size of the first block of a list; `0` for the empty list, whose place
is taken by the epilogue. -/
def first_size : List Blk → Nat
  | [] => 0
  | c :: _ => c.size

/-- The state before `coalesce` runs on a block: the blocks `pre` lie before
it, the block is free with a header and a footer of size `bsize`, it is not in
the free list, the blocks `post` follow it, and the free list holds the free
blocks of `pre` and `post`. -/
structure PreCo (s : Heap) (pre : List Blk) (bsize : Nat) (post : List Blk)
    (fl : List Nat) : Prop where
  lo_pos : 0 < s.lo
  lo_al : s.lo % 16 = 0
  fits : s.lo + s.cap < W
  brk_le : s.brk ≤ s.cap
  hs : s.heap_start = s.lo + 8
  brk_eq : s.brk = total pre + bsize + total post + 16
  prologue : read_word s.mem s.lo = 1
  seg_pre : Seg s.mem (s.lo + 8) true pre
  blk : BlockAt s.mem (s.lo + 8 + total pre) (last_alloc true pre) ⟨bsize, false⟩
  tail : Tail s.mem (s.lo + 8 + total pre + bsize) post
  flist : FList s.mem 0 s.free_start fl
  perm : fl.Perm (free_addrs (s.lo + 8) pre ++ free_addrs (s.lo + 8 + total pre + bsize) post)

/-- The facts about addresses and nodes that every case of `coalesce` uses. -/
structure Geo (s : Heap) (pre : List Blk) (bsize : Nat) (post : List Blk) (fl : List Nat) :
    Prop where
  szpre : Sized pre
  szpost : Sized post
  bs16 : bsize % 16 = 0
  bs32 : 32 ≤ bsize
  tp16 : total pre % 16 = 0
  tq16 : total post % 16 = 0
  wlim : s.lo + 8 + total pre + bsize + total post + 8 < W
  node : ∀ y, y ∈ fl → y % 16 = 8 ∧ y ≠ 0 ∧
    ((s.lo + 8 ≤ y ∧ y + 32 ≤ s.lo + 8 + total pre ∧ y ∈ free_addrs (s.lo + 8) pre) ∨
     (s.lo + 8 + total pre + bsize ≤ y ∧
      y + 32 ≤ s.lo + 8 + total pre + bsize + total post ∧
      y ∈ free_addrs (s.lo + 8 + total pre + bsize) post))
  nodup : fl.Nodup

/-- Two states have the same arena and the same `heap_start`. -/
def SameArena (s t : Heap) : Prop :=
  t.lo = s.lo ∧ t.brk = s.brk ∧ t.cap = s.cap ∧ t.heap_start = s.heap_start

/-- The state `s` is well formed and `live` lists the payload pointers of its
allocated blocks. -/
def Good (s : Heap) (live : List Nat) : Prop :=
  ∃ bs fl, Inv s bs fl ∧ live.Perm (live_ptrs (s.lo + 8) bs)

/-! ## Auxiliary definitions of the general development -/

/-- The state `mm_init` hands to `extend_heap`. -/
def init_state (s : Heap) : Heap :=
  { (store (store (store { s with brk := 16 } s.lo (hd 0 true false))
      (s.lo + 8) (hd 0 true false)) (s.lo + 8) (hd 0 true true)) with
        heap_start := s.lo + 8, free_start := 0 }

/-- The block size `malloc` computes for a request of `size` bytes. -/
def adjusted (size : Nat) : Nat :=
  if round_up (wadd size wsize) dsize < min_block_size then min_block_size
  else round_up (wadd size wsize) dsize

/-- The largest request for which `size + wsize` rounded up to `dsize` does not
wrap: `SIZE_MAX - 23`. -/
abbrev max_request : Nat := 18446744073709551592

/-- The restriction of `Reach` to the call sequences in which every `malloc`
and `realloc` request is at most `max_request`, and every `calloc` product is
at most `max_request` or does not fit in 64 bits. -/
inductive ReachSmall : Heap → List Nat → Prop where
  | init (s0 : Heap) : Boot s0 → (mm_init s0).2 = true → ReachSmall (mm_init s0).1 []
  | malloc (fuel n : Nat) (s t : Heap) (live : List Nat) (p : Nat) :
      ReachSmall s live → n ≤ max_request → malloc fuel s n = .ok (t, p) →
      ReachSmall t (track p live)
  | calloc (fuel c n : Nat) (s t : Heap) (live : List Nat) (p : Nat) :
      ReachSmall s live → c < W → n < W → (c * n ≤ max_request ∨ W ≤ c * n) →
      calloc fuel s c n = .ok (t, p) → ReachSmall t (track p live)
  | free (s : Heap) (live : List Nat) (p : Nat) :
      ReachSmall s live → p ∈ live → ReachSmall (free s p) (live.erase p)
  | realloc (fuel n : Nat) (s t : Heap) (live : List Nat) (p q : Nat) :
      ReachSmall s live → p ∈ live → n ≤ max_request → realloc fuel s p n = .ok (t, q) →
      ReachSmall t (retrack p n q live)
  | write (s : Heap) (live : List Nat) (p a v : Nat) :
      ReachSmall s live → p ∈ live → p ≤ a →
      a < p + get_payload_size s (payload_to_header p) → ReachSmall (poke s a v) live

/-! ## A call sequence that reuses freed memory -/

/-- The state after `p1 = malloc(24)` on the fresh heap `h1`: `p1 = 4112`. -/
def u1 : Heap := after (malloc 2 h1 24) h1

/-- The state after `p2 = malloc(1800)`, which grows the arena: `p2 = 4144`. -/
def u2 : Heap := after (malloc 3 u1 1800) u1

/-- The state after `p3 = malloc(16)`: `p3 = 5952`. -/
def u3 : Heap := after (malloc 3 u2 16) u2

/-- The state after `free(p2)`. -/
def u4 : Heap := free u3 4144

/-- The state after `malloc(32)`. -/
def u5 : Heap := after (malloc 4 u4 32) u4

/-! ## An arena that cannot grow -/

/-- An arena at address 4096 with room for the sentinels and one chunk only. -/
def tiny : Heap :=
  { mem := fun _ => 0, lo := 4096, brk := 0, cap := 1808, heap_start := 0, free_start := 0 }

/-- The state after `mm_init()` on `tiny`. -/
def t1 : Heap := (mm_init tiny).1

/-! ## Tiling of the arena -/

/-- The sum of the sizes of the first `k` blocks of the address-order walk. -/
def block_sizes (s : Heap) : Nat → Nat
  | 0 => 0
  | k + 1 => block_sizes s k + get_size s (nth_block s k)

/-- The blocks tile the arena between the sentinels: the word before
`heap_start` is the prologue footer `pack(0, true)`, and the walk from
`heap_start` reaches a header of size zero with the allocated bit set that
occupies the last eight bytes of the arena, the sizes of the blocks before it
adding up to the arena size minus 16. -/
def Tiles (s : Heap) : Prop :=
  load s (wsub s.heap_start 8) = pack 0 true ∧
  ∃ k, reaches s k ∧ is_epilogue s (nth_block s k) = true ∧
    nth_block s k + 8 = s.lo + s.brk ∧ block_sizes s k = s.brk - 16

/-- The caller stores the word `1` at `p + 24`, in the payload of `p = 4112`. -/
def e3 : Heap := poke h2 4136 1

/-- The state after `q = realloc(p, SIZE_MAX)` from `e3`. -/
def e4 : Heap := after (realloc 3 e3 4112 SIZE_MAX) e3

/-! ## Content kept by `realloc` -/

/-- The first `min(n, m)` bytes at `q` in `t` are the first `min(n, m)` bytes at
`p` in `s`, where `m` is the payload size of the block of `p` in `s`. -/
def CopyKept (s t : Heap) (p q n : Nat) : Prop :=
  ∀ i, i < Nat.min n (get_payload_size s (payload_to_header p)) → t.mem (q + i) = s.mem (p + i)

/-- The state after `q = realloc(p, SIZE_MAX)` from `h2`, whose payloads hold
zeros. -/
def v4 : Heap := after (realloc 3 h2 4112 SIZE_MAX) h2

/-! ## The fit policy -/

/-- The test `find_fit` applies to a node: the allocated bit of its header is
clear and its size is at least `asize`. -/
def fits (s : Heap) (asize b : Nat) : Bool :=
  !get_alloc s b && decide (asize ≤ get_size s b)

/-- The nodes `fl` are the chain of `next` links from `h`, which ends with a
null link: an acyclic free list, in list order. -/
def NextChain (s : Heap) : Nat → List Nat → Prop
  | h, [] => h = 0
  | h, x :: xs => h = x ∧ x ≠ 0 ∧ NextChain s (block_next s x) xs

/-- The nodes of the list that pass the test of `find_fit`, in list order,
truncated to the first 18. -/
def candidates (s : Heap) (asize : Nat) (fl : List Nat) : List Nat :=
  (fl.filter (fits s asize)).take 18

/-- The node `r` is the first element of `q` whose size is the minimum size
over `q`. -/
def FirstMin (s : Heap) (q : List Nat) (r : Nat) : Prop :=
  ∃ pre post, q = pre ++ r :: post ∧ (∀ x, x ∈ pre → get_size s r < get_size s x) ∧
    (∀ x, x ∈ post → get_size s r ≤ get_size s x)

/-- The update of `smallestFit` in the loop of `find_fit`. -/
def pick (s : Heap) (best b : Nat) : Nat :=
  if best ≠ 0 then
    if extract_size (header s best) > extract_size (header s b) then b else best
  else b

/-! ## The neighbours of a block in the walk -/

/-- The left neighbour of the `k`-th block of the walk is a free block; the
first block has the prologue for left neighbour, which counts as allocated. -/
def left_is_free (s : Heap) (k : Nat) : Bool :=
  decide (k ≠ 0) && !get_alloc s (nth_block s (k - 1))

/-- The right neighbour of the `k`-th block of the walk is a free block. -/
def right_is_free (s : Heap) (k : Nat) : Bool := !get_alloc s (nth_block s (k + 1))

/-- Where the block that `free` leaves starts: at the left neighbour when that
is free, at the block otherwise. -/
def merged_start (s : Heap) (k : Nat) : Nat :=
  if left_is_free s k then nth_block s (k - 1) else nth_block s k

/-- The size of the block that `free` leaves: the size of the block plus the
sizes of its free neighbours. -/
def merged_size (s : Heap) (k : Nat) : Nat :=
  get_size s (nth_block s k) + (if left_is_free s k then get_size s (nth_block s (k - 1)) else 0) +
    (if right_is_free s k then get_size s (nth_block s (k + 1)) else 0)

/-- The state after `A = malloc(100)` on the fresh heap `h1`: `A = 4112`. -/
def ab1 : Heap := after (malloc 2 h1 100) h1

/-- The state after `B = malloc(100)`: `B = 4224`. -/
def ab2 : Heap := after (malloc 2 ab1 100) ab1

/-- The state after `free(A)`. -/
def ab3 : Heap := free ab2 4112

/-- The state after `free(B)`. -/
def ab4 : Heap := free ab3 4224

/-! ## Membership in the free list -/

/-- The block `b` is a node of the chain of `next` links from `free_start`. -/
def InFreeList (s : Heap) (b : Nat) : Prop := b ≠ 0 ∧ ∃ k, nth_free s k = b

/-! ## Heaps that differ in the word before a block -/

/-- The two tests by which `coalesce` picks one of its four cases: whether it
takes the left neighbour for free, and whether it takes the right neighbour for
free. -/
def coalesce_case (s : Heap) (block : Nat) : Bool × Bool :=
  let left := find_prev s block
  let right := find_next s block
  (if left = 0 then false else extract_prev_alloc (header s block) == 0,
   if right = 0 then false else !get_alloc s right)

/-- The states `s` and `t` have the same globals and the same arena bounds, and
the same memory except, possibly, in the word before address `a`, the bytes
from `a - 8` to `a - 1`. -/
def DifferOnlyBefore (a : Nat) (s t : Heap) : Prop :=
  t.lo = s.lo ∧ t.brk = s.brk ∧ t.cap = s.cap ∧ t.heap_start = s.heap_start ∧
    t.free_start = s.free_start ∧ ∀ x, (x + 8 < a ∨ a ≤ x) → t.mem x = s.mem x

/-- The word before address `a` holds in `t` what it holds in `s`. -/
def WordKept (a : Nat) (s t : Heap) : Prop := ∀ x, a ≤ x + 8 → x < a → t.mem x = s.mem x

/-- Two runs, from `s1` to `r1` and from `s2` to `r2`, that have written the
same values at the same addresses, none of them in the word before `a`. -/
def Twin (a : Nat) (s1 s2 r1 r2 : Heap) : Prop :=
  DifferOnlyBefore a r1 r2 ∧ WordKept a s1 r1 ∧ WordKept a s2 r2

/-- The state in which `free(B)` calls `coalesce` in the scenario `ab2`: the
header and the footer of the block of `B`, at 4216, are rewritten as free with
the `prev_alloc` flag kept. The block before it, that of `A`, is allocated. -/
def fb1 : Heap :=
  set_prev_alloc (write_footer (write_header ab2 4216 112 false) 4216 112 false) 4216 true

/-- The state `fb1` after the last payload word of `A`, the word at 4208 that
precedes the header of the block of `B`, is overwritten with `1048576`. -/
def fb2 : Heap := store fb1 4208 1048576

/-! ## The checks of the heap checker on reachable states -/

/-- The state `h2` after the caller stores the byte `1` at `p + 48`, the first
byte of the last payload word of `p = 4112`. -/
def k2 : Heap := poke h2 4160 1

/-! ## The bound on internal fragmentation -/

/-- The least multiple of 16 that is at least `n`. -/
def least_multiple_16 (n : Nat) : Nat := 16 * ((n + 15) / 16)

/-- The block size that a request of `n` bytes calls for, in the words of the
bound on fragmentation: the larger of 32 and the least multiple of 16 that is
at least `n + 8`. -/
def asize_of (n : Nat) : Nat := Nat.max 32 (least_multiple_16 (n + 8))

/-! ## The free list as a sequence -/

/-- The sequence of the nodes of the free list, by the walk along the `next`
links from `cur` to the null link. -/
def free_list_nodes (s : Heap) : Nat → Nat → Except Fault (List Nat)
  | 0, _ => .error .out_of_fuel
  | fuel + 1, cur =>
    if cur = 0 then .ok []
    else
      match free_list_nodes s fuel (block_next s cur) with
      | .ok l => .ok (cur :: l)
      | .error e => .error e

/-- The list operation that the insertion into the free list is to implement:
the block becomes the first element. -/
def seq_insert (b : Nat) (l : List Nat) : List Nat := b :: l

/-- The list operation that the removal from the free list is to implement:
the block is taken out, the other elements keep their order. -/
def seq_remove (b : Nat) (l : List Nat) : List Nat := l.erase b

/-- The nodes of a sequence are block addresses: 8 modulo 16, with their link
words below `2 ^ 64`. -/
def BlockAddrs (l : List Nat) : Prop := ∀ x, x ∈ l → x % 16 = 8 ∧ x + 24 < W

/-! ## The load through `left` in `coalesce` -/

/-- Modelled from the spec: the memory a call may load from is the arena that
the memory-growth collaborator has handed out, the bytes from `lo` to
`lo + brk`.  The word at `a` lies in it when its eight bytes do. -/
def in_arena (s : Heap) (a : Nat) : Bool := decide (s.lo ≤ a ∧ a + 8 ≤ s.lo + s.brk)

/-- The call `coalesce(block)` with the load it runs before its tests:
`left = find_prev(block)` is computed from the word before the header, and
when `left` is not null the source loads `leftSize = get_size(left)`, whatever
the `prev_alloc` bit of the block says.  The call faults when that word lies
outside the arena, and otherwise returns what `coalesce` gives. -/
def coalesce_checked (s : Heap) (block : Nat) : Except Fault (Heap × Nat) :=
  let left := find_prev s block
  if left = 0 then .ok (coalesce s block)
  else if in_arena s left then .ok (coalesce s block)
  else .error .bad_load

/-- The call `free(bp)` with the load of `coalesce` checked. -/
def free_checked (s : Heap) (bp : Nat) : Except Fault Heap :=
  if bp = 0 then .ok s
  else
    let block := payload_to_header bp
    let size := get_size s block
    let alloc_bit := extract_prev_alloc (header s block)
    let s1 := write_header s block size false
    let s2 := write_footer s1 block size false
    let s3 := set_prev_alloc s2 block (alloc_bit != 0)
    match coalesce_checked s3 block with
    | .ok r => .ok r.1
    | .error e => .error e

/-- The call `place(block, asize)` with the load of `coalesce` checked: the
branch that splits calls `coalesce` on the rest of the block. -/
def place_checked (s : Heap) (block asize : Nat) : Except Fault Heap :=
  let csize := get_size s block
  if wsub csize asize ≥ min_block_size then
    let alloc_bit := extract_prev_alloc (header s block)
    let s1 := write_header s block asize true
    let s2 := set_prev_alloc s1 block (alloc_bit != 0)
    let s3 := remove_from_free_list s2 block
    let block_next := find_next s3 block
    let s4 := write_header s3 block_next (wsub csize asize) false
    let s5 := write_footer s4 block_next (wsub csize asize) false
    let s6 := set_prev_alloc s5 block_next true
    match coalesce_checked s6 block_next with
    | .ok r => .ok r.1
    | .error e => .error e
  else
    let alloc_bit := extract_prev_alloc (header s block)
    let s1 := write_header s block csize true
    let s2 := set_prev_alloc s1 block (alloc_bit != 0)
    let s3 := set_prev_alloc s2 (find_next s2 block) true
    .ok (remove_from_free_list s3 block)

/-- The fault of a call that does not return. -/
def fault_of {α : Type} (r : Except Fault α) : Option Fault :=
  match r with
  | .ok _ => none
  | .error e => some e

/-- The state in which `coalesce` runs inside `free(bp)`: the header and the
footer of the block are rewritten as free, the `prev_alloc` bit is kept. -/
def free_entry (s : Heap) (bp : Nat) : Heap :=
  let block := payload_to_header bp
  let size := get_size s block
  let alloc_bit := extract_prev_alloc (header s block)
  let s1 := write_header s block size false
  let s2 := write_footer s1 block size false
  set_prev_alloc s2 block (alloc_bit != 0)

/-- The state in which `coalesce` runs inside the splitting branch of
`place(block, asize)`, on the rest of the block. -/
def place_entry (s : Heap) (block asize : Nat) : Heap :=
  let csize := get_size s block
  let alloc_bit := extract_prev_alloc (header s block)
  let s1 := write_header s block asize true
  let s2 := set_prev_alloc s1 block (alloc_bit != 0)
  let s3 := remove_from_free_list s2 block
  let block_next := find_next s3 block
  let s4 := write_header s3 block_next (wsub csize asize) false
  let s5 := write_footer s4 block_next (wsub csize asize) false
  set_prev_alloc s5 block_next true

/-! ## Call sequences that reach the load -/

/-- The state `ab2`, after `A = malloc(100)` and `B = malloc(100)`, once the
caller has stored the byte `16` at `A + 98`, in the last payload word of `A`:
that word, at 4208, then holds `1048576`. -/
def abw : Heap := poke ab2 4210 16

/-- The state `ab1`, after `A = malloc(100)`, once the caller has stored the
byte `16` at `A + 18`: the word at 4128 then holds `1048576`. -/
def pw1 : Heap := poke ab1 4130 16

/-- The state after `free(A)` from `pw1`: one free block of 1792 bytes at 4104,
with the caller's word still at 4128. -/
def pw2 : Heap := free pw1 4112

/-! # Part II: the heap invariant

The allocator keeps the heap well formed along every call sequence whose
requests do not make `size + wsize` wrap. -/

/-! ## Words in memory -/

theorem read_word_lt (m : Mem) (a : Nat) : read_word m a < W := by
  have hW : W = 18446744073709551616 := rfl
  unfold read_word
  omega

theorem write_word_at (m : Mem) (a v i : Nat) (h : i < 8) :
    write_word m a v (a + i) = v / 256 ^ i % 256 := by
  unfold write_word
  have : a ≤ a + i ∧ a + i < a + 8 := by omega
  simp [this]

theorem read_write_same (m : Mem) (a v : Nat) : read_word (write_word m a v) a = v % W := by
  unfold read_word
  have h0 := write_word_at m a v 0 (by omega)
  rw [Nat.add_zero] at h0
  rw [h0, write_word_at m a v 1 (by omega), write_word_at m a v 2 (by omega),
    write_word_at m a v 3 (by omega), write_word_at m a v 4 (by omega),
    write_word_at m a v 5 (by omega), write_word_at m a v 6 (by omega),
    write_word_at m a v 7 (by omega)]
  have hW : W = 18446744073709551616 := rfl
  norm_num
  omega

theorem write_word_out (m : Mem) (a v x : Nat) (h : x < a ∨ a + 8 ≤ x) :
    write_word m a v x = m x := by
  unfold write_word
  have : ¬ (a ≤ x ∧ x < a + 8) := by omega
  simp [this]

theorem read_write_other (m : Mem) (a v b : Nat) (h : a + 8 ≤ b ∨ b + 8 ≤ a) :
    read_word (write_word m a v) b = read_word m b := by
  unfold read_word
  rw [write_word_out m a v b (by omega), write_word_out m a v (b + 1) (by omega),
    write_word_out m a v (b + 2) (by omega), write_word_out m a v (b + 3) (by omega),
    write_word_out m a v (b + 4) (by omega), write_word_out m a v (b + 5) (by omega),
    write_word_out m a v (b + 6) (by omega), write_word_out m a v (b + 7) (by omega)]

theorem read_word_congr (m n : Mem) (b : Nat) (h : ∀ x, b ≤ x → x < b + 8 → n x = m x) :
    read_word n b = read_word m b := by
  unfold read_word
  rw [h b (by omega) (by omega), h (b + 1) (by omega) (by omega), h (b + 2) (by omega) (by omega),
    h (b + 3) (by omega) (by omega), h (b + 4) (by omega) (by omega),
    h (b + 5) (by omega) (by omega), h (b + 6) (by omega) (by omega),
    h (b + 7) (by omega) (by omega)]

/-! ## Words in a state -/

@[simp] theorem store_lo (s : Heap) (a v : Nat) : (store s a v).lo = s.lo := rfl
@[simp] theorem store_brk (s : Heap) (a v : Nat) : (store s a v).brk = s.brk := rfl
@[simp] theorem store_cap (s : Heap) (a v : Nat) : (store s a v).cap = s.cap := rfl
@[simp] theorem store_heap_start (s : Heap) (a v : Nat) :
    (store s a v).heap_start = s.heap_start := rfl
@[simp] theorem store_free_start (s : Heap) (a v : Nat) :
    (store s a v).free_start = s.free_start := rfl

theorem store_mem (s : Heap) (a v : Nat) : (store s a v).mem = write_word s.mem a v := rfl

theorem load_lt (s : Heap) (a : Nat) : load s a < W := read_word_lt s.mem a

theorem load_store_eq (s : Heap) (a v : Nat) (h : v < W) : load (store s a v) a = v := by
  unfold load store
  simp only
  rw [read_write_same, Nat.mod_eq_of_lt h]

theorem load_store_ne (s : Heap) (a v b : Nat) (h : a + 8 ≤ b ∨ b + 8 ≤ a) :
    load (store s a v) b = load s b := by
  unfold load store
  exact read_write_other s.mem a v b h

theorem store_mem_out (s : Heap) (a v x : Nat) (h : x < a ∨ a + 8 ≤ x) :
    (store s a v).mem x = s.mem x := write_word_out s.mem a v x h

/-! ## Word arithmetic without wrap -/

theorem wadd_eq (a b : Nat) (h : a + b < W) : wadd a b = a + b := Nat.mod_eq_of_lt h

theorem wsub_eq (a b : Nat) (h : b ≤ a) (ha : a < W) : wsub a b = a - b := by
  have hW : W = 18446744073709551616 := rfl
  rw [hW] at ha
  show (a + 18446744073709551616 - b % 18446744073709551616) % 18446744073709551616 = a - b
  omega

theorem wmul_eq (a b : Nat) (h : a * b < W) : wmul a b = a * b := Nat.mod_eq_of_lt h

/-! ## Header words -/

theorem land_low (q r k : Nat) (hr : r < 16) (hk : k < 16) :
    (2 ^ 4 * q + r) &&& k = r &&& k := by
  apply Nat.eq_of_testBit_eq
  intro i
  rw [Nat.testBit_and, Nat.testBit_and]
  by_cases hi : i < 4
  · rw [Nat.testBit_mul_pow_two_add q (by omega : r < 2 ^ 4)]
    simp [hi]
  · have : k.testBit i = false := by
      apply Nat.testBit_lt_two_pow
      calc k < 16 := hk
        _ = 2 ^ 4 := by norm_num
        _ ≤ 2 ^ i := Nat.pow_le_pow_right (by norm_num) (by omega)
    simp [this]

theorem land_high (q r k : Nat) (hq : q < 2 ^ 60) (hr : r < 16) (hk : k < 16) :
    (2 ^ 4 * q + r) &&& (2 ^ 4 * (2 ^ 60 - 1) + k) = 2 ^ 4 * q + (r &&& k) := by
  have hrk : r &&& k < 2 ^ 4 := Nat.lt_of_le_of_lt Nat.and_le_left hr
  apply Nat.eq_of_testBit_eq
  intro i
  rw [Nat.testBit_and, Nat.testBit_mul_pow_two_add q (by omega : r < 2 ^ 4),
    Nat.testBit_mul_pow_two_add (2 ^ 60 - 1) (by omega : k < 2 ^ 4),
    Nat.testBit_mul_pow_two_add q hrk]
  by_cases hi : i < 4
  · simp [hi]
  · simp only [hi, if_false, Nat.testBit_two_pow_sub_one]
    by_cases hj : i - 4 < 60
    · simp [hj]
    · have : q.testBit (i - 4) = false := by
        apply Nat.testBit_lt_two_pow
        exact Nat.lt_of_lt_of_le hq (Nat.pow_le_pow_right (by norm_num) (by omega))
      simp [this]

theorem lor_low (q r k : Nat) (hr : r < 16) (hk : k < 16) :
    (2 ^ 4 * q + r) ||| k = 2 ^ 4 * q + (r ||| k) := by
  have hrk : r ||| k < 2 ^ 4 := Nat.or_lt_two_pow (by omega) (by omega)
  rw [Nat.mul_add_lt_is_or (by omega : r < 2 ^ 4), Nat.mul_add_lt_is_or hrk, Nat.or_assoc]

theorem hd_eq (size : Nat) (alloc pa : Bool) (h : size % 16 = 0) :
    hd size alloc pa = 2 ^ 4 * (size / 16) + flags alloc pa := by
  unfold hd flags
  omega

theorem flags_lt (alloc pa : Bool) : flags alloc pa < 16 := by
  cases alloc <;> cases pa <;> decide

theorem hd_lt (size : Nat) (alloc pa : Bool) (h : size % 16 = 0) (hs : size < W) :
    hd size alloc pa < W := by
  have hW : W = 18446744073709551616 := rfl
  have := flags_lt alloc pa
  unfold hd
  unfold flags at this
  omega

theorem extract_size_hd (size : Nat) (alloc pa : Bool) (h : size % 16 = 0) (hs : size < W) :
    extract_size (hd size alloc pa) = size := by
  have hW : W = 18446744073709551616 := rfl
  have hq : size / 16 < 2 ^ 60 := by
    have : (2 : Nat) ^ 60 = 1152921504606846976 := by norm_num
    omega
  unfold extract_size
  rw [hd_eq size alloc pa h]
  have e : size_mask = 2 ^ 4 * (2 ^ 60 - 1) + 0 := by norm_num
  rw [e, land_high _ _ _ hq (flags_lt alloc pa) (by omega), Nat.and_zero]
  omega

theorem extract_alloc_hd (size : Nat) (alloc pa : Bool) (h : size % 16 = 0) :
    extract_alloc (hd size alloc pa) = alloc := by
  unfold extract_alloc
  rw [hd_eq size alloc pa h, land_low _ _ _ (flags_lt alloc pa) (by decide)]
  cases alloc <;> cases pa <;> decide

theorem extract_prev_alloc_hd (size : Nat) (alloc pa : Bool) (h : size % 16 = 0) :
    extract_prev_alloc (hd size alloc pa) = if pa then 2 else 0 := by
  unfold extract_prev_alloc
  rw [hd_eq size alloc pa h, land_low _ _ _ (flags_lt alloc pa) (by decide)]
  cases alloc <;> cases pa <;> decide

theorem hd_set (size : Nat) (alloc pa : Bool) (h : size % 16 = 0) :
    hd size alloc pa ||| prev_alloc_mask = hd size alloc true := by
  rw [hd_eq size alloc pa h, hd_eq size alloc true h, lor_low _ _ _ (flags_lt alloc pa) (by decide)]
  cases alloc <;> cases pa <;> rfl

theorem hd_clear (size : Nat) (alloc pa : Bool) (h : size % 16 = 0) (hs : size < W) :
    hd size alloc pa &&& not_prev_alloc_mask = hd size alloc false := by
  have hW : W = 18446744073709551616 := rfl
  have hq : size / 16 < 2 ^ 60 := by
    have : (2 : Nat) ^ 60 = 1152921504606846976 := by norm_num
    omega
  rw [hd_eq size alloc pa h, hd_eq size alloc false h]
  have e : not_prev_alloc_mask = 2 ^ 4 * (2 ^ 60 - 1) + 13 := by norm_num
  rw [e, land_high _ _ _ hq (flags_lt alloc pa) (by omega)]
  cases alloc <;> cases pa <;> rfl

theorem pack_eq (size : Nat) (alloc : Bool) (h : size % 16 = 0) :
    pack size alloc = hd size alloc false := by
  unfold pack
  cases alloc
  · simp [hd]
  · simp only [if_true]
    have := hd_eq size false false h
    have e : size = 2 ^ 4 * (size / 16) + 0 := by omega
    rw [hd_eq size true false h]
    conv_lhs => rw [e]
    rw [lor_low _ _ _ (by decide) (by decide)]
    rfl

/-! ## Lists of blocks -/

theorem total_append (l1 l2 : List Blk) : total (l1 ++ l2) = total l1 + total l2 := by
  induction l1 with
  | nil => simp [total]
  | cons b l ih => simp [total, ih, Nat.add_assoc]

theorem last_alloc_append (pa : Bool) (l1 l2 : List Blk) :
    last_alloc pa (l1 ++ l2) = last_alloc (last_alloc pa l1) l2 := by
  induction l1 generalizing pa with
  | nil => rfl
  | cons b l ih => simp [last_alloc, ih]

theorem free_addrs_append (a : Nat) (l1 l2 : List Blk) :
    free_addrs a (l1 ++ l2) = free_addrs a l1 ++ free_addrs (a + total l1) l2 := by
  induction l1 generalizing a with
  | nil => simp [free_addrs, total]
  | cons b l ih =>
    simp only [List.cons_append, free_addrs, total, List.append_eq]
    rw [ih, Nat.add_assoc]
    split <;> simp

theorem live_ptrs_append (a : Nat) (l1 l2 : List Blk) :
    live_ptrs a (l1 ++ l2) = live_ptrs a l1 ++ live_ptrs (a + total l1) l2 := by
  induction l1 generalizing a with
  | nil => simp [live_ptrs, total]
  | cons b l ih =>
    simp only [List.cons_append, live_ptrs, total, List.append_eq]
    rw [ih, Nat.add_assoc]
    split <;> simp

theorem seg_append (m : Mem) (a : Nat) (pa : Bool) (l1 l2 : List Blk) :
    Seg m a pa (l1 ++ l2) ↔ Seg m a pa l1 ∧ Seg m (a + total l1) (last_alloc pa l1) l2 := by
  induction l1 generalizing a pa with
  | nil => simp [Seg, total, last_alloc]
  | cons b l ih =>
    simp only [List.cons_append, Seg, total, last_alloc, List.append_eq]
    rw [ih, Nat.add_assoc]
    simp only [and_assoc]

theorem seg_sized (m : Mem) (a : Nat) (pa : Bool) (bs : List Blk) (h : Seg m a pa bs) :
    Sized bs := by
  induction bs generalizing a pa with
  | nil => intro b hb; simp at hb
  | cons c l ih =>
    intro b hb
    rcases List.mem_cons.1 hb with rfl | hb
    · exact ⟨h.1.1, h.1.2.1⟩
    · exact ih _ _ h.2.2 b hb

theorem sized_append (l1 l2 : List Blk) : Sized (l1 ++ l2) ↔ Sized l1 ∧ Sized l2 := by
  unfold Sized
  constructor
  · intro h
    exact ⟨fun b hb => h b (List.mem_append_left _ hb), fun b hb => h b (List.mem_append_right _ hb)⟩
  · rintro ⟨h1, h2⟩ b hb
    rcases List.mem_append.1 hb with hb | hb
    · exact h1 b hb
    · exact h2 b hb

theorem sized_cons (b : Blk) (l : List Blk) :
    Sized (b :: l) ↔ (b.size % 16 = 0 ∧ 32 ≤ b.size) ∧ Sized l := by
  unfold Sized
  simp

theorem total_mod (bs : List Blk) (h : Sized bs) : total bs % 16 = 0 := by
  induction bs with
  | nil => rfl
  | cons b l ih =>
    have h1 := (sized_cons b l).1 h
    have := ih h1.2
    simp only [total]
    omega

theorem free_addrs_range (a : Nat) (bs : List Blk) (h : Sized bs) (x : Nat)
    (hx : x ∈ free_addrs a bs) : a ≤ x ∧ x + 32 ≤ a + total bs ∧ x % 16 = a % 16 := by
  induction bs generalizing a with
  | nil => simp [free_addrs] at hx
  | cons b l ih =>
    have h1 := (sized_cons b l).1 h
    simp only [free_addrs] at hx
    simp only [total]
    have rec_ : x ∈ free_addrs (a + b.size) l → a ≤ x ∧ x + 32 ≤ a + (b.size + total l) ∧
        x % 16 = a % 16 := by
      intro hx
      have := ih (a + b.size) h1.2 hx
      omega
    split at hx
    · exact rec_ hx
    · rcases List.mem_cons.1 hx with rfl | hx
      · omega
      · exact rec_ hx

theorem live_ptrs_range (a : Nat) (bs : List Blk) (h : Sized bs) (p : Nat)
    (hp : p ∈ live_ptrs a bs) : a + 8 ≤ p ∧ p + 24 ≤ a + total bs ∧ p % 16 = (a + 8) % 16 := by
  induction bs generalizing a with
  | nil => simp [live_ptrs] at hp
  | cons b l ih =>
    have h1 := (sized_cons b l).1 h
    simp only [live_ptrs] at hp
    simp only [total]
    have rec_ : p ∈ live_ptrs (a + b.size) l → a + 8 ≤ p ∧ p + 24 ≤ a + (b.size + total l) ∧
        p % 16 = (a + 8) % 16 := by
      intro hp
      have := ih (a + b.size) h1.2 hp
      omega
    split at hp
    · rcases List.mem_cons.1 hp with rfl | hp
      · omega
      · exact rec_ hp
    · exact rec_ hp

theorem free_addrs_nodup (a : Nat) (bs : List Blk) (h : Sized bs) : (free_addrs a bs).Nodup := by
  induction bs generalizing a with
  | nil => simp [free_addrs]
  | cons b l ih =>
    have h1 := (sized_cons b l).1 h
    simp only [free_addrs]
    split
    · exact ih _ h1.2
    · refine List.nodup_cons.2 ⟨fun hx => ?_, ih _ h1.2⟩
      have := free_addrs_range _ _ h1.2 _ hx
      omega

theorem live_ptrs_nodup (a : Nat) (bs : List Blk) (h : Sized bs) : (live_ptrs a bs).Nodup := by
  induction bs generalizing a with
  | nil => simp [live_ptrs]
  | cons b l ih =>
    have h1 := (sized_cons b l).1 h
    simp only [live_ptrs]
    split
    · refine List.nodup_cons.2 ⟨fun hx => ?_, ih _ h1.2⟩
      have := live_ptrs_range _ _ h1.2 _ hx
      omega
    · exact ih _ h1.2

theorem free_addrs_split (a : Nat) (bs : List Blk) (x : Nat) (hx : x ∈ free_addrs a bs) :
    ∃ pre b post, bs = pre ++ b :: post ∧ b.alloc = false ∧ x = a + total pre := by
  induction bs generalizing a with
  | nil => simp [free_addrs] at hx
  | cons c l ih =>
    simp only [free_addrs] at hx
    have rec_ : x ∈ free_addrs (a + c.size) l →
        ∃ pre b post, c :: l = pre ++ b :: post ∧ b.alloc = false ∧ x = a + total pre := by
      intro hx
      obtain ⟨pre, b, post, e, hb, hxa⟩ := ih _ hx
      exact ⟨c :: pre, b, post, by simp [e], hb, by simp only [total]; omega⟩
    split at hx
    · exact rec_ hx
    · rename_i hc
      rcases List.mem_cons.1 hx with rfl | hx
      · exact ⟨[], c, l, rfl, by simpa using hc, by simp [total]⟩
      · exact rec_ hx

theorem live_ptrs_split (a : Nat) (bs : List Blk) (p : Nat) (hp : p ∈ live_ptrs a bs) :
    ∃ pre b post, bs = pre ++ b :: post ∧ b.alloc = true ∧ p = a + total pre + 8 := by
  induction bs generalizing a with
  | nil => simp [live_ptrs] at hp
  | cons c l ih =>
    simp only [live_ptrs] at hp
    have rec_ : p ∈ live_ptrs (a + c.size) l →
        ∃ pre b post, c :: l = pre ++ b :: post ∧ b.alloc = true ∧ p = a + total pre + 8 := by
      intro hp
      obtain ⟨pre, b, post, e, hb, hpa⟩ := ih _ hp
      exact ⟨c :: pre, b, post, by simp [e], hb, by simp only [total]; omega⟩
    split at hp
    · rename_i hc
      rcases List.mem_cons.1 hp with rfl | hp
      · exact ⟨[], c, l, rfl, hc, by simp [total]⟩
      · exact rec_ hp
    · exact rec_ hp

/-! ## Frames for blocks -/

theorem blockat_congr (m n : Mem) (a : Nat) (pa : Bool) (b : Blk)
    (hh : read_word n a = read_word m a)
    (hf : b.alloc = false → read_word n (a + b.size - 8) = read_word m (a + b.size - 8))
    (h : BlockAt m a pa b) : BlockAt n a pa b := by
  refine ⟨h.1, h.2.1, hh.trans h.2.2.1, fun hb => ?_⟩
  rw [hf hb]
  exact h.2.2.2 hb

theorem seg_frame (m n : Mem) (a : Nat) (pa : Bool) (bs : List Blk)
    (hmn : ∀ x, a ≤ x → x < a + total bs → n x = m x) (h : Seg m a pa bs) : Seg n a pa bs := by
  induction bs generalizing a pa with
  | nil => trivial
  | cons b l ih =>
    simp only [total] at hmn
    have hb := h.1
    refine ⟨blockat_congr m n a pa b ?_ ?_ hb, h.2.1, ih _ _ ?_ h.2.2⟩
    · exact read_word_congr _ _ _ (fun x h1 h2 => hmn x h1 (by have := hb.2.1; omega))
    · intro _
      exact read_word_congr _ _ _ (fun x h1 h2 => hmn x (by have := hb.2.1; omega)
        (by have := hb.2.1; omega))
    · intro x h1 h2
      exact hmn x (by omega) (by omega)

/-! ## Frames for lists of nodes -/

theorem fseg_congr (m n : Mem) (p h : Nat) (fl : List Nat) (out : Nat)
    (hmn : ∀ x, x ∈ fl → read_word n (x + 8) = read_word m (x + 8) ∧
      read_word n (x + 16) = read_word m (x + 16))
    (hf : FSeg m p h fl out) : FSeg n p h fl out := by
  induction fl generalizing p h with
  | nil => exact hf
  | cons x xs ih =>
    obtain ⟨h1, h2, h3, h4⟩ := hf
    have hx := hmn x (by simp)
    refine ⟨h1, h2, hx.1.trans h3, ?_⟩
    rw [hx.2]
    exact ih _ _ (fun y hy => hmn y (List.mem_cons_of_mem _ hy)) h4

theorem fseg_append (m : Mem) (p h : Nat) (l1 l2 : List Nat) (out : Nat) :
    FSeg m p h (l1 ++ l2) out ↔
      ∃ mid, FSeg m p h l1 mid ∧ FSeg m (last_or p l1) mid l2 out := by
  induction l1 generalizing p h with
  | nil =>
    simp only [List.nil_append, FSeg, last_or]
    constructor
    · intro hf; exact ⟨h, rfl, hf⟩
    · rintro ⟨mid, rfl, hf⟩; exact hf
  | cons x xs ih =>
    simp only [List.cons_append, FSeg, last_or, List.append_eq]
    rw [ih]
    constructor
    · rintro ⟨h1, h2, h3, mid, h4, h5⟩
      exact ⟨mid, ⟨h1, h2, h3, h4⟩, h5⟩
    · rintro ⟨mid, ⟨h1, h2, h3, h4⟩, h5⟩
      exact ⟨h1, h2, h3, mid, h4, h5⟩

theorem fseg_ne_zero (m : Mem) (p h : Nat) (fl : List Nat) (out : Nat)
    (hf : FSeg m p h fl out) (x : Nat) (hx : x ∈ fl) : x ≠ 0 := by
  induction fl generalizing p h with
  | nil => simp at hx
  | cons y ys ih =>
    rcases List.mem_cons.1 hx with rfl | hx
    · exact hf.2.1
    · exact ih _ _ hf.2.2.2 hx

theorem fseg_head (m : Mem) (p h : Nat) (fl : List Nat) (out : Nat)
    (hf : FSeg m p h fl out) : h = head_or out fl := by
  cases fl with
  | nil => exact hf
  | cons y ys => exact hf.1

/-! ## Metadata bytes -/

theorem meta_append (a : Nat) (l1 l2 : List Blk) (x : Nat) :
    Meta a (l1 ++ l2) x ↔ Meta a l1 x ∨ Meta (a + total l1) l2 x := by
  induction l1 generalizing a with
  | nil => simp [Meta, total]
  | cons b l ih =>
    simp only [List.cons_append, Meta, total, List.append_eq]
    rw [ih, Nat.add_assoc]
    simp only [or_assoc]

theorem meta_range (a : Nat) (bs : List Blk) (h : Sized bs) (x : Nat) (hx : Meta a bs x) :
    a ≤ x ∧ x < a + total bs := by
  induction bs generalizing a with
  | nil => exact hx.elim
  | cons b l ih =>
    have h1 := (sized_cons b l).1 h
    simp only [total]
    rcases hx with hx | hx | hx
    · omega
    · omega
    · have := ih _ h1.2 hx
      omega

theorem meta_not_link (a : Nat) (bs : List Blk) (h : Sized bs) (x y : Nat)
    (hy : y ∈ free_addrs a bs) (hx : Meta a bs x) : x < y + 8 ∨ y + 24 ≤ x := by
  induction bs generalizing a with
  | nil => exact hx.elim
  | cons b l ih =>
    have h1 := (sized_cons b l).1 h
    simp only [free_addrs] at hy
    have hy2 : (b.alloc = false ∧ y = a) ∨ y ∈ free_addrs (a + b.size) l := by
      split at hy
      · exact Or.inr hy
      · rename_i hb
        rcases List.mem_cons.1 hy with rfl | hy
        · exact Or.inl ⟨by simpa using hb, rfl⟩
        · exact Or.inr hy
    rcases hx with hx | hx | hx
    · rcases hy2 with ⟨_, rfl⟩ | hy2
      · omega
      · have := free_addrs_range _ _ h1.2 _ hy2
        omega
    · rcases hy2 with ⟨_, rfl⟩ | hy2
      · omega
      · have := free_addrs_range _ _ h1.2 _ hy2
        omega
    · rcases hy2 with ⟨_, rfl⟩ | hy2
      · have := meta_range _ _ h1.2 _ hx
        omega
      · exact ih _ h1.2 hy2 hx

theorem seg_frame_meta (m n : Mem) (a : Nat) (pa : Bool) (bs : List Blk)
    (hmn : ∀ x, Meta a bs x → n x = m x) (h : Seg m a pa bs) : Seg n a pa bs := by
  induction bs generalizing a pa with
  | nil => trivial
  | cons b l ih =>
    have hb := h.1
    refine ⟨blockat_congr m n a pa b ?_ ?_ hb, h.2.1, ih _ _ ?_ h.2.2⟩
    · exact read_word_congr _ _ _ (fun x h1 h2 => hmn x (Or.inl ⟨h1, h2⟩))
    · intro hf
      exact read_word_congr _ _ _ (fun x h1 h2 => hmn x (Or.inr (Or.inl ⟨hf, h1, by
        have := hb.2.1; omega⟩)))
    · intro x hx
      exact hmn x (Or.inr (Or.inr hx))

/-! ## The free-list operations -/

theorem fseg_write_other (m : Mem) (p h : Nat) (l : List Nat) (out w v : Nat)
    (hw : ∀ y, y ∈ l → (w + 8 ≤ y + 8 ∨ y + 16 ≤ w) ∧ (w + 8 ≤ y + 16 ∨ y + 24 ≤ w))
    (hf : FSeg m p h l out) : FSeg (write_word m w v) p h l out := by
  refine fseg_congr m _ p h l out (fun y hy => ?_) hf
  have := hw y hy
  exact ⟨read_write_other _ _ _ _ (by omega), read_write_other _ _ _ _ (by omega)⟩

theorem nodes_cons (x : Nat) (l : List Nat) :
    Nodes (x :: l) ↔ x ∉ l ∧ (x % 16 = 8 ∧ x + 24 < W) ∧ Nodes l := by
  unfold Nodes
  simp only [List.nodup_cons, List.mem_cons, forall_eq_or_imp]
  tauto

theorem nodes_append (l1 l2 : List Nat) (h : Nodes (l1 ++ l2)) : Nodes l1 ∧ Nodes l2 := by
  unfold Nodes at *
  obtain ⟨h1, h2⟩ := h
  rw [List.nodup_append] at h1
  exact ⟨⟨h1.1, fun x hx => h2 x (List.mem_append_left _ hx)⟩,
    ⟨h1.2.1, fun x hx => h2 x (List.mem_append_right _ hx)⟩⟩

/-- Writing the `prev` link of the first node of a segment. -/
theorem fseg_set_prev (m : Mem) (p n : Nat) (l : List Nat) (out v : Nat) (hv : v < W)
    (hn : Nodes (n :: l)) (hf : FSeg m p n (n :: l) out) :
    FSeg (write_word m (n + 8) v) v n (n :: l) out := by
  obtain ⟨hnl, hn1, hn2⟩ := (nodes_cons n l).1 hn
  obtain ⟨-, h2, -, h4⟩ := hf
  refine ⟨rfl, h2, ?_, ?_⟩
  · rw [read_write_same, Nat.mod_eq_of_lt hv]
  · rw [read_write_other _ _ _ _ (by omega)]
    refine fseg_write_other m n _ l out _ v (fun y hy => ?_) h4
    have hy1 := hn2.2 y hy
    have : y ≠ n := fun e => hnl (e ▸ hy)
    omega

/-- Writing the `next` link of the last node of a segment. -/
theorem fseg_set_next (m : Mem) (p h : Nat) (l : List Nat) (q out v : Nat) (hv : v < W)
    (hn : Nodes (l ++ [q])) (hf : FSeg m p h (l ++ [q]) out) :
    FSeg (write_word m (q + 16) v) p h (l ++ [q]) v := by
  rw [fseg_append] at hf ⊢
  obtain ⟨mid, h1, h2⟩ := hf
  obtain ⟨hm, hq0, hq1, -⟩ := h2
  have hq := hn.2 q (by simp)
  have hnd := hn.1
  rw [List.nodup_append] at hnd
  refine ⟨mid, fseg_write_other m p h l mid _ v (fun y hy => ?_) h1, hm, hq0, ?_, ?_⟩
  · have hy1 := hn.2 y (List.mem_append_left _ hy)
    have : y ≠ q := fun e => hnd.2.2 hy (by simp [e])
    omega
  · rw [read_write_other _ _ _ _ (by omega)]
    exact hq1
  · show read_word (write_word m (q + 16) v) (q + 16) = v
    rw [read_write_same, Nat.mod_eq_of_lt hv]

theorem list_snoc_cases (l : List Nat) : l = [] ∨ ∃ l' q, l = l' ++ [q] := by
  rcases List.eq_nil_or_concat l with h | ⟨l', q, h⟩
  · exact Or.inl h
  · exact Or.inr ⟨l', q, by simpa using h⟩

theorem last_or_snoc (p : Nat) (l : List Nat) (q : Nat) : last_or p (l ++ [q]) = q := by
  induction l generalizing p with
  | nil => rfl
  | cons x xs ih => simp [last_or, ih]

theorem prepend_nil (s : Heap) (b : Nat) (h : s.free_start = 0) :
    prepend_to_free_list s b =
      { s with mem := write_word (write_word s.mem (wadd b 8) 0) (wadd b 16) 0,
               free_start := b } := by
  simp [prepend_to_free_list, h, set_block_prev, set_block_next, store]

theorem prepend_cons (s : Heap) (b : Nat) (h : s.free_start ≠ 0) :
    prepend_to_free_list s b =
      { s with mem := write_word (write_word (write_word s.mem (wadd b 8) 0) (wadd b 16)
                 s.free_start) (wadd s.free_start 8) b,
               free_start := b } := by
  simp [prepend_to_free_list, h, set_block_prev, set_block_next, store]

theorem remove_sole (s : Heap) (b : Nat) (h : s.free_start ≠ 0) (hp : block_prev s b = 0)
    (hn : block_next s b = 0) : remove_from_free_list s b = { s with free_start := 0 } := by
  simp [remove_from_free_list, h, hp, hn]

theorem remove_head (s : Heap) (b : Nat) (h : s.free_start ≠ 0) (hp : block_prev s b = 0)
    (hn : block_next s b ≠ 0) :
    remove_from_free_list s b =
      { s with mem := write_word s.mem (wadd (block_next s b) 8) 0,
               free_start := block_next s b } := by
  simp [remove_from_free_list, h, hp, hn, set_block_prev, store]

theorem remove_tail (s : Heap) (b : Nat) (h : s.free_start ≠ 0) (hp : block_prev s b ≠ 0)
    (hn : block_next s b = 0) :
    remove_from_free_list s b =
      { s with mem := write_word s.mem (wadd (block_prev s b) 16) 0 } := by
  simp [remove_from_free_list, h, hp, hn, set_block_next, store]

theorem remove_inner (s : Heap) (b : Nat) (h : s.free_start ≠ 0) (hp : block_prev s b ≠ 0)
    (hn : block_next s b ≠ 0) :
    remove_from_free_list s b =
      { s with mem := write_word (write_word s.mem (wadd (block_prev s b) 16) (block_next s b))
                 (wadd (block_next s b) 8) (block_prev s b) } := by
  simp [remove_from_free_list, h, hp, hn, set_block_next, set_block_prev, store]

theorem prepend_spec (s : Heap) (fl : List Nat) (b : Nat)
    (hf : FList s.mem 0 s.free_start fl) (hn : Nodes (b :: fl)) (hb0 : b ≠ 0) :
    FList (prepend_to_free_list s b).mem 0 (prepend_to_free_list s b).free_start (b :: fl) ∧
    (prepend_to_free_list s b).free_start = b ∧
    (prepend_to_free_list s b).lo = s.lo ∧ (prepend_to_free_list s b).brk = s.brk ∧
    (prepend_to_free_list s b).cap = s.cap ∧
    (prepend_to_free_list s b).heap_start = s.heap_start ∧
    ∀ x, (∀ y, y ∈ b :: fl → x < y + 8 ∨ y + 24 ≤ x) →
      (prepend_to_free_list s b).mem x = s.mem x := by
  obtain ⟨hbl, hb1, hn2⟩ := (nodes_cons b fl).1 hn
  have e8 : wadd b 8 = b + 8 := wadd_eq _ _ (by omega)
  have e16 : wadd b 16 = b + 16 := wadd_eq _ _ (by omega)
  have hW : W = 18446744073709551616 := rfl
  cases fl with
  | nil =>
    have h0 : s.free_start = 0 := hf
    rw [prepend_nil s b h0, e8, e16]
    refine ⟨⟨rfl, hb0, ?_, ?_⟩, rfl, rfl, rfl, rfl, rfl, fun x hx => ?_⟩
    · dsimp only
      rw [read_write_other _ _ _ _ (by omega), read_write_same]
      rfl
    · show read_word _ (b + 16) = 0
      dsimp only
      rw [read_write_same]
      rfl
    · have := hx b (by simp)
      dsimp only
      rw [write_word_out _ _ _ _ (by omega), write_word_out _ _ _ _ (by omega)]
  | cons h t =>
    obtain ⟨hh, hh0, hhp, ht⟩ := hf
    obtain ⟨hht, hh1, hn3⟩ := (nodes_cons h t).1 hn2
    have hne : s.free_start ≠ 0 := by rw [hh]; exact hh0
    have hbh : b ≠ h := fun e => hbl (by simp [e])
    have eh8 : wadd h 8 = h + 8 := wadd_eq _ _ (by omega)
    rw [prepend_cons s b hne, e8, e16, hh, eh8]
    refine ⟨⟨rfl, hb0, ?_, ?_⟩, rfl, rfl, rfl, rfl, rfl, fun x hx => ?_⟩
    · dsimp only
      rw [read_write_other _ _ _ _ (by omega), read_write_other _ _ _ _ (by omega),
        read_write_same]
      rfl
    · dsimp only
      have e : read_word (write_word (write_word (write_word s.mem (b + 8) 0) (b + 16) h)
          (h + 8) b) (b + 16) = h := by
        rw [read_write_other _ _ _ _ (by omega), read_write_same, Nat.mod_eq_of_lt (by omega)]
      rw [e]
      refine fseg_set_prev _ 0 h t 0 b (by omega) hn2 ?_
      refine fseg_write_other _ _ _ _ _ _ _ (fun y hy => ?_) ?_
      · have hy1 := hn2.2 y hy
        have : b ≠ y := fun e => hbl (e ▸ hy)
        omega
      · refine fseg_write_other _ _ _ _ _ _ _ (fun y hy => ?_) ⟨rfl, hh0, hhp, ht⟩
        have hy1 := hn2.2 y hy
        have : b ≠ y := fun e => hbl (e ▸ hy)
        omega
    · have h1 := hx b (by simp)
      have h2 := hx h (by simp)
      dsimp only
      rw [write_word_out _ _ _ _ (by omega), write_word_out _ _ _ _ (by omega),
        write_word_out _ _ _ _ (by omega)]

theorem remove_spec (s : Heap) (fl : List Nat) (b : Nat)
    (hf : FList s.mem 0 s.free_start fl) (hn : Nodes fl) (hb : b ∈ fl) :
    FList (remove_from_free_list s b).mem 0 (remove_from_free_list s b).free_start
      (fl.erase b) ∧
    (remove_from_free_list s b).lo = s.lo ∧ (remove_from_free_list s b).brk = s.brk ∧
    (remove_from_free_list s b).cap = s.cap ∧
    (remove_from_free_list s b).heap_start = s.heap_start ∧
    ∀ x, (∀ y, y ∈ fl → y ≠ b → x < y + 8 ∨ y + 24 ≤ x) →
      (remove_from_free_list s b).mem x = s.mem x := by
  have hW : W = 18446744073709551616 := rfl
  obtain ⟨l1, l2, rfl⟩ := List.append_of_mem hb
  have hnd := hn.1
  rw [List.nodup_append] at hnd
  have hb1 : b ∉ l1 := fun h => hnd.2.2 h (by simp)
  have hb2 : b ∉ l2 := (List.nodup_cons.1 hnd.2.1).1
  have he : (l1 ++ b :: l2).erase b = l1 ++ l2 := by
    rw [List.erase_append_right _ hb1, List.erase_cons_head]
  rw [he]
  have hbn := hn.2 b (by simp)
  have e8 : wadd b 8 = b + 8 := wadd_eq _ _ (by omega)
  have e16 : wadd b 16 = b + 16 := wadd_eq _ _ (by omega)
  have hf0 := hf
  unfold FList at hf
  rw [fseg_append] at hf
  obtain ⟨mid, hf1, hmid, hb0, hbp, hf2⟩ := hf
  subst hmid
  have hfs : s.free_start ≠ 0 := by
    have := fseg_head _ _ _ _ _ hf0
    rw [this]
    cases l1 with
    | nil => exact hb0
    | cons x xs => exact hf1.2.1
  have hprev : block_prev s mid = last_or 0 l1 := by
    unfold block_prev load
    rw [e8]
    exact hbp
  have hnext : block_next s mid = head_or 0 l2 := by
    unfold block_next load
    rw [e16]
    exact fseg_head _ _ _ _ _ hf2
  have hn12 := nodes_append _ _ hn
  have hnl2 : Nodes l2 := ((nodes_cons mid l2).1 hn12.2).2.2
  rcases list_snoc_cases l1 with rfl | ⟨l1', q, rfl⟩
  · -- the block is the head
    have hp0 : block_prev s mid = 0 := hprev
    cases l2 with
    | nil =>
      have hn0 : block_next s mid = 0 := hnext
      rw [remove_sole s mid hfs hp0 hn0]
      exact ⟨rfl, rfl, rfl, rfl, rfl, fun x _ => rfl⟩
    | cons n t =>
      have hn0 : block_next s mid = n := hnext
      have hnn : n ≠ 0 := hf2.2.1
      have hnb := hnl2.2 n (by simp)
      have en8 : wadd n 8 = n + 8 := wadd_eq _ _ (by omega)
      rw [remove_head s mid hfs hp0 (by rw [hn0]; exact hnn), hn0, en8]
      refine ⟨?_, rfl, rfl, rfl, rfl, fun x hx => ?_⟩
      · have := fseg_head _ _ _ _ _ hf2
        rw [this] at hf2
        exact fseg_set_prev s.mem mid n t 0 0 (by omega) hnl2 hf2
      · have := hx n (by simp) (fun e => hb2 (by simp [← e]))
        exact write_word_out _ _ _ _ (by omega)
  · -- the block has a predecessor
    have hq : block_prev s mid = q := by rw [hprev, last_or_snoc]
    have hqn := hn12.1.2 q (by simp)
    have hq0 : q ≠ 0 := fseg_ne_zero _ _ _ _ _ hf1 q (by simp)
    have eq16 : wadd q 16 = q + 16 := wadd_eq _ _ (by omega)
    have hqb : q ≠ mid := fun e => hb1 (by simp [← e])
    cases l2 with
    | nil =>
      have hn0 : block_next s mid = 0 := hnext
      rw [remove_tail s mid hfs (by rw [hq]; exact hq0) hn0, hq, eq16, List.append_nil]
      refine ⟨fseg_set_next s.mem 0 _ l1' q mid 0 (by omega) hn12.1 hf1, rfl, rfl, rfl, rfl,
        fun x hx => ?_⟩
      have := hx q (by simp) hqb
      exact write_word_out _ _ _ _ (by omega)
    | cons n t =>
      have hn0 : block_next s mid = n := hnext
      have hnn : n ≠ 0 := hf2.2.1
      have hnb := hnl2.2 n (by simp)
      have en8 : wadd n 8 = n + 8 := wadd_eq _ _ (by omega)
      rw [remove_inner s mid hfs (by rw [hq]; exact hq0) (by rw [hn0]; exact hnn), hq, hn0,
        eq16, en8]
      refine ⟨?_, rfl, rfl, rfl, rfl, fun x hx => ?_⟩
      · unfold FList
        rw [fseg_append]
        have a1 := fseg_set_next s.mem 0 _ l1' q mid n (by omega) hn12.1 hf1
        refine ⟨n, ?_, ?_⟩
        · refine fseg_write_other _ _ _ _ _ _ _ (fun y hy => ?_) a1
          have hy1 := hn12.1.2 y hy
          have : y ≠ n := fun e => hnd.2.2 hy (by simp [e])
          omega
        · rw [last_or_snoc]
          have := fseg_head _ _ _ _ _ hf2
          rw [this] at hf2
          refine fseg_set_prev _ mid n t 0 q (by omega) hnl2 ?_
          refine fseg_write_other _ _ _ _ _ _ _ (fun y hy => ?_) hf2
          have hy1 := hnl2.2 y hy
          have : y ≠ q := fun e => hnd.2.2 (show q ∈ l1' ++ [q] by simp) (by simp [← e, hy])
          omega
      · have h1 := hx q (by simp) hqb
        have h2 := hx n (by simp) (fun e => hb2 (by simp [← e]))
        dsimp only
        rw [write_word_out _ _ _ _ (by omega), write_word_out _ _ _ _ (by omega)]

/-! ## Steps of the allocator as stores -/

theorem set_prev_alloc_eq (s : Heap) (blk size : Nat) (al pa st : Bool) (h0 : blk ≠ 0)
    (hh : load s blk = hd size al pa) (h16 : size % 16 = 0) (hs : size < W) :
    set_prev_alloc s blk st = store s blk (hd size al st) := by
  unfold set_prev_alloc header
  rw [hh]
  cases st
  · simp [h0, hd_clear size al pa h16 hs]
  · simp [h0, hd_set size al pa h16]

theorem write_header_eq (s : Heap) (blk size : Nat) (al : Bool) (h16 : size % 16 = 0) :
    write_header s blk size al = store s blk (hd size al false) := by
  unfold write_header
  rw [pack_eq size al h16]

theorem get_size_eq (s : Heap) (blk size : Nat) (al pa : Bool)
    (hh : load s blk = hd size al pa) (h16 : size % 16 = 0) (hs : size < W) :
    get_size s blk = size := by
  unfold get_size header
  rw [hh, extract_size_hd size al pa h16 hs]

theorem get_alloc_eq (s : Heap) (blk size : Nat) (al pa : Bool)
    (hh : load s blk = hd size al pa) (h16 : size % 16 = 0) :
    get_alloc s blk = al := by
  unfold get_alloc header
  rw [hh, extract_alloc_hd size al pa h16]

theorem prev_alloc_eq (s : Heap) (blk size : Nat) (al pa : Bool)
    (hh : load s blk = hd size al pa) (h16 : size % 16 = 0) :
    extract_prev_alloc (header s blk) = if pa then 2 else 0 := by
  unfold header
  rw [hh, extract_prev_alloc_hd size al pa h16]

theorem write_footer_eq (s : Heap) (blk gs size : Nat) (al : Bool)
    (hg : get_size s blk = gs) (h8 : 8 ≤ gs) (hw : blk + 8 + gs < W) (h16 : size % 16 = 0) :
    write_footer s blk size al = store s (blk + gs - 8) (hd size al false) := by
  have hW : W = 18446744073709551616 := rfl
  have hd16 : dsize = 16 := rfl
  unfold write_footer
  rw [hd16, hg, pack_eq size al h16, wadd_eq blk 8 (by omega), wadd_eq (blk + 8) gs hw,
    wsub_eq _ _ (by omega) hw]
  congr 1
  omega

theorem find_next_eq (s : Heap) (blk gs : Nat) (hg : get_size s blk = gs) (hw : blk + gs < W) :
    find_next s blk = blk + gs := by
  unfold find_next
  rw [hg, wadd_eq _ _ hw]

theorem flist_store (s : Heap) (h : Nat) (fl : List Nat) (w v : Nat)
    (hw : ∀ y, y ∈ fl → w + 8 ≤ y + 8 ∨ y + 24 ≤ w)
    (hf : FList s.mem 0 h fl) : FList (store s w v).mem 0 h fl := by
  refine fseg_write_other s.mem 0 h fl 0 w v (fun y hy => ?_) hf
  have := hw y hy
  omega

/-! ## Frames in terms of the free blocks -/

theorem seg_frame_links (m n : Mem) (a : Nat) (pa : Bool) (bs : List Blk)
    (hmn : ∀ x, a ≤ x → x < a + total bs →
      (∀ y, y ∈ free_addrs a bs → x < y + 8 ∨ y + 24 ≤ x) → n x = m x)
    (h : Seg m a pa bs) : Seg n a pa bs := by
  have hsz := seg_sized m a pa bs h
  refine seg_frame_meta m n a pa bs (fun x hx => ?_) h
  have hr := meta_range a bs hsz x hx
  exact hmn x hr.1 hr.2 (fun y hy => meta_not_link a bs hsz x y hy hx)

theorem last_alloc_false (pa : Bool) (bs : List Blk) (h : last_alloc pa bs = false)
    (hpa : pa = true) : ∃ l b, bs = l ++ [b] ∧ b.alloc = false := by
  induction bs generalizing pa with
  | nil => simp [last_alloc, hpa] at h
  | cons c t ih =>
    cases t with
    | nil => exact ⟨[], c, rfl, h⟩
    | cons d t2 =>
      by_cases hc : c.alloc = true
      · obtain ⟨l, b, e, hb⟩ := ih c.alloc h hc
        exact ⟨c :: l, b, by simp [e], hb⟩
      · -- the next block is free as well, which a segment excludes; still a list fact
        have h2 : last_alloc d.alloc t2 = false := h
        by_cases hd : d.alloc = true
        · obtain ⟨l, b, e, hb⟩ := ih true (by simpa [last_alloc] using h2) rfl
          exact ⟨c :: l, b, by simp [e], hb⟩
        · cases t2 with
          | nil => exact ⟨[c], d, rfl, by simpa using hd⟩
          | cons e2 t3 =>
            obtain ⟨l, b, e, hb⟩ := ih true (by simpa [last_alloc] using h2) rfl
            exact ⟨c :: l, b, by simp [e], hb⟩

theorem seg_tail (m : Mem) (a : Nat) (pa : Bool) (post : List Blk) (h : Seg m a pa post)
    (he : read_word m (a + total post) = hd 0 true (last_alloc pa post)) : Tail m a post := by
  cases post with
  | nil => exact ⟨pa, by simpa [total, last_alloc] using he⟩
  | cons c rest =>
    refine ⟨⟨pa, h.1⟩, h.2.2, ?_⟩
    simpa [total, last_alloc, Nat.add_assoc] using he

/-! ## Rebuilding the invariant around one free block -/

theorem rebuild (s t : Heap) (pre post : List Blk) (sz : Nat) (fl2 : List Nat)
    (lo_pos : 0 < s.lo) (lo_al : s.lo % 16 = 0) (fits : s.lo + s.cap < W)
    (brk_le : s.brk ≤ s.cap) (hs : s.heap_start = s.lo + 8)
    (brk_eq : s.brk = total pre + sz + total post + 16)
    (prologue : read_word s.mem s.lo = 1)
    (hpre : Seg s.mem (s.lo + 8) true pre) (hpa : last_alloc true pre = true)
    (htail : Tail s.mem (s.lo + 8 + total pre + sz) post) (hfa : first_alloc post = true)
    (hsz : sz % 16 = 0 ∧ 32 ≤ sz)
    (tlo : t.lo = s.lo) (tbrk : t.brk = s.brk) (tcap : t.cap = s.cap)
    (ths : t.heap_start = s.heap_start)
    (hframe : ∀ x, (x < s.lo + 8 + total pre ∨ s.lo + 8 + total pre + sz + 8 ≤ x) →
      (∀ y, y ∈ free_addrs (s.lo + 8) pre ++ free_addrs (s.lo + 8 + total pre + sz) post →
        x < y + 8 ∨ y + 24 ≤ x) → t.mem x = s.mem x)
    (hL : read_word t.mem (s.lo + 8 + total pre) = hd sz false true)
    (hF : read_word t.mem (s.lo + 8 + total pre + sz - 8) = sz)
    (hR : read_word t.mem (s.lo + 8 + total pre + sz) = hd (first_size post) true false)
    (hfl : FList t.mem 0 t.free_start fl2)
    (hperm : fl2.Perm ((s.lo + 8 + total pre) ::
      (free_addrs (s.lo + 8) pre ++ free_addrs (s.lo + 8 + total pre + sz) post))) :
    Inv t (pre ++ ⟨sz, false⟩ :: post) fl2 := by
  have hszpre := seg_sized _ _ _ _ hpre
  have hszpost : Sized post := by
    cases post with
    | nil => intro b hb; simp at hb
    | cons c rest =>
      obtain ⟨⟨q, hc⟩, hrest, -⟩ := htail
      exact (sized_cons c rest).2 ⟨⟨hc.1, hc.2.1⟩, seg_sized _ _ _ _ hrest⟩
  have hnode : ∀ y, y ∈ free_addrs (s.lo + 8) pre ++
      free_addrs (s.lo + 8 + total pre + sz) post →
      (s.lo + 8 ≤ y ∧ y + 32 ≤ s.lo + 8 + total pre) ∨
      (s.lo + 8 + total pre + sz ≤ y ∧ y + 32 ≤ s.lo + 8 + total pre + sz + total post) := by
    intro y hy
    rcases List.mem_append.1 hy with hy | hy
    · have := free_addrs_range _ _ hszpre _ hy
      exact Or.inl ⟨this.1, this.2.1⟩
    · have := free_addrs_range _ _ hszpost _ hy
      exact Or.inr ⟨this.1, this.2.1⟩
  refine ⟨by rw [tlo]; exact lo_pos, by rw [tlo]; exact lo_al, by rw [tlo, tcap]; exact fits,
    by rw [tbrk, tcap]; exact brk_le, by rw [ths, tlo]; exact hs, ?_, ?_, ?_, ?_, hfl, ?_⟩
  · rw [tbrk, brk_eq, total_append]
    simp only [total]
    omega
  · rw [tlo, ← prologue]
    refine read_word_congr _ _ _ (fun x h1 h2 => hframe x (by omega) (fun y hy => ?_))
    have := hnode y hy
    omega
  · rw [tlo, seg_append]
    constructor
    · refine seg_frame_links _ _ _ _ _ (fun x h1 h2 hl => hframe x (by omega) (fun y hy => ?_))
        hpre
      rcases List.mem_append.1 hy with hy | hy
      · exact hl y hy
      · have := free_addrs_range _ _ hszpost _ hy
        omega
    · rw [hpa]
      refine ⟨⟨hsz.1, hsz.2, hL, fun _ => hF⟩, fun _ => rfl, ?_⟩
      cases post with
      | nil => trivial
      | cons c rest =>
        obtain ⟨⟨q, hc⟩, hrest, -⟩ := htail
        have hca : c.alloc = true := hfa
        have hcf : c.alloc = false → False := fun h => by rw [hca] at h; cases h
        refine ⟨⟨hc.1, hc.2.1, ?_, fun h => (hcf h).elim⟩, fun h => (hcf h).elim, ?_⟩
        · rw [hca]; exact hR
        · refine seg_frame_links _ _ _ _ _
            (fun x h1 h2 hl => hframe x (by have := hc.2.1; dsimp only at h1; omega)
              (fun y hy => ?_)) hrest
          rcases List.mem_append.1 hy with hy | hy
          · have := free_addrs_range _ _ hszpre _ hy
            dsimp only at h1
            omega
          · simp only [free_addrs, hca, if_true] at hy
            exact hl y hy
  · rw [tlo, total_append, last_alloc_append]
    simp only [total, last_alloc]
    cases post with
    | nil =>
      simp only [total, last_alloc, first_size] at hR ⊢
      rw [← hR]
      congr 1
      omega
    | cons c rest =>
      obtain ⟨⟨q, hc⟩, hrest, hepi⟩ := htail
      simp only [total, last_alloc]
      rw [← hepi]
      have e : s.lo + 8 + (total pre + (sz + (c.size + total rest))) =
          s.lo + 8 + total pre + sz + c.size + total rest := by omega
      rw [e]
      refine read_word_congr _ _ _ (fun x h1 h2 => hframe x (by have := hc.2.1; omega)
        (fun y hy => ?_))
      have := hnode y hy
      simp only [total] at this
      omega
  · rw [tlo, free_addrs_append]
    simp only [free_addrs, Bool.false_eq_true, if_false]
    have e : s.lo + 8 + total pre + sz = s.lo + 8 + total pre + sz := rfl
    exact hperm.trans List.perm_middle.symm

/-! ## Facts that hold before `coalesce` -/

theorem tail_sized (m : Mem) (a : Nat) (post : List Blk) (h : Tail m a post) : Sized post := by
  cases post with
  | nil => intro b hb; simp at hb
  | cons c rest =>
    obtain ⟨⟨q, hc⟩, hrest, -⟩ := h
    exact (sized_cons c rest).2 ⟨⟨hc.1, hc.2.1⟩, seg_sized _ _ _ _ hrest⟩

theorem tail_head (m : Mem) (a : Nat) (post : List Blk) (h : Tail m a post) :
    ∃ q, read_word m a = hd (first_size post) (first_alloc post) q ∧
      first_size post % 16 = 0 := by
  cases post with
  | nil =>
    obtain ⟨q, hq⟩ := h
    exact ⟨q, hq, rfl⟩
  | cons c rest =>
    obtain ⟨⟨q, hc⟩, -, -⟩ := h
    exact ⟨q, hc.2.2.1, hc.1⟩

theorem free_addrs_first (a : Nat) (post : List Blk) (h : first_alloc post = true) (y : Nat)
    (hy : y ∈ free_addrs a post) : y ∈ free_addrs (a + first_size post) post.tail := by
  cases post with
  | nil => simp [free_addrs] at hy
  | cons c rest =>
    have hc : c.alloc = true := h
    simpa [free_addrs, hc, first_size] using hy

theorem preco_geo (s : Heap) (pre : List Blk) (bsize : Nat) (post : List Blk) (fl : List Nat)
    (h : PreCo s pre bsize post fl) : Geo s pre bsize post fl := by
  have hW : W = 18446744073709551616 := rfl
  have szpre := seg_sized _ _ _ _ h.seg_pre
  have szpost := tail_sized _ _ _ h.tail
  have tp := total_mod _ szpre
  have tq := total_mod _ szpost
  have b1 := h.blk.1
  have b2 := h.blk.2.1
  dsimp only at b1 b2
  have hlo := h.lo_al
  have hbrk := h.brk_eq
  have hfits := h.fits
  have hble := h.brk_le
  refine ⟨szpre, szpost, b1, b2, tp, tq, by omega, fun y hy => ?_, ?_⟩
  · have hy2 := h.perm.subset hy
    rcases List.mem_append.1 hy2 with hy3 | hy3
    · have := free_addrs_range _ _ szpre _ hy3
      exact ⟨by omega, by omega, Or.inl ⟨this.1, this.2.1, hy3⟩⟩
    · have := free_addrs_range _ _ szpost _ hy3
      exact ⟨by omega, by omega, Or.inr ⟨this.1, this.2.1, hy3⟩⟩
  · refine h.perm.nodup_iff.2 ?_
    rw [List.nodup_append]
    refine ⟨free_addrs_nodup _ _ szpre, free_addrs_nodup _ _ szpost, fun y h1 h2 => ?_⟩
    have r1 := free_addrs_range _ _ szpre _ h1
    have r2 := free_addrs_range _ _ szpost _ h2
    omega

theorem geo_nodes (s : Heap) (pre : List Blk) (bsize : Nat) (post : List Blk) (fl : List Nat)
    (g : Geo s pre bsize post fl) : Nodes fl := by
  refine ⟨g.nodup, fun y hy => ?_⟩
  have := g.node y hy
  have := g.wlim
  omega

/-! ## The branch taken by `coalesce` -/

theorem co_header (s : Heap) (pre : List Blk) (bsize : Nat) (post : List Blk) (fl : List Nat)
    (h : PreCo s pre bsize post fl) :
    load s (s.lo + 8 + total pre) = hd bsize false (last_alloc true pre) := h.blk.2.2.1

theorem co_size (s : Heap) (pre : List Blk) (bsize : Nat) (post : List Blk) (fl : List Nat)
    (h : PreCo s pre bsize post fl) : get_size s (s.lo + 8 + total pre) = bsize := by
  have g := preco_geo _ _ _ _ _ h
  have := g.wlim
  exact get_size_eq s _ bsize false _ (co_header _ _ _ _ _ h) g.bs16 (by omega)

theorem co_next (s : Heap) (pre : List Blk) (bsize : Nat) (post : List Blk) (fl : List Nat)
    (h : PreCo s pre bsize post fl) :
    find_next s (s.lo + 8 + total pre) = s.lo + 8 + total pre + bsize := by
  have g := preco_geo _ _ _ _ _ h
  have := g.wlim
  exact find_next_eq s _ bsize (co_size _ _ _ _ _ h) (by omega)

theorem co_right (s : Heap) (pre : List Blk) (bsize : Nat) (post : List Blk) (fl : List Nat)
    (h : PreCo s pre bsize post fl) :
    (if s.lo + 8 + total pre + bsize = 0 then false
      else !get_alloc s (s.lo + 8 + total pre + bsize)) = !first_alloc post := by
  obtain ⟨q, hq, h16⟩ := tail_head _ _ _ h.tail
  have : s.lo + 8 + total pre + bsize ≠ 0 := by omega
  rw [if_neg this, get_alloc_eq s _ _ _ q hq h16]

theorem co_left_alloc (s : Heap) (pre : List Blk) (bsize : Nat) (post : List Blk)
    (fl : List Nat) (h : PreCo s pre bsize post fl) (hpa : last_alloc true pre = true) :
    (if find_prev s (s.lo + 8 + total pre) = 0 then false
      else extract_prev_alloc (header s (s.lo + 8 + total pre)) == 0) = false := by
  have g := preco_geo _ _ _ _ _ h
  rw [prev_alloc_eq s _ bsize false _ (co_header _ _ _ _ _ h) g.bs16, hpa]
  split <;> rfl

theorem coalesce_none_eq (s : Heap) (pre : List Blk) (bsize : Nat) (post : List Blk)
    (fl : List Nat) (h : PreCo s pre bsize post fl) (hpa : last_alloc true pre = true)
    (hfa : first_alloc post = true) :
    coalesce s (s.lo + 8 + total pre) =
      (set_prev_alloc (prepend_to_free_list s (s.lo + 8 + total pre))
        (s.lo + 8 + total pre + bsize) false, s.lo + 8 + total pre) := by
  unfold coalesce
  simp only [co_next _ _ _ _ _ h, co_left_alloc _ _ _ _ _ h hpa, co_right _ _ _ _ _ h, hfa]
  simp

theorem post_node_far (a : Nat) (post : List Blk) (hs : Sized post)
    (h : first_alloc post = true) (y : Nat) (hy : y ∈ free_addrs a post) :
    a + first_size post ≤ y ∧ 32 ≤ first_size post := by
  cases post with
  | nil => simp [free_addrs] at hy
  | cons c rest =>
    have hc : c.alloc = true := h
    have h1 := (sized_cons c rest).1 hs
    simp only [free_addrs, hc, if_true] at hy
    have := free_addrs_range _ _ h1.2 _ hy
    exact ⟨this.1, h1.1.2⟩

theorem coalesce_none (s : Heap) (pre : List Blk) (bsize : Nat) (post : List Blk)
    (fl : List Nat) (h : PreCo s pre bsize post fl) (hpa : last_alloc true pre = true)
    (hfa : first_alloc post = true) :
    Inv (coalesce s (s.lo + 8 + total pre)).1 (pre ++ ⟨bsize, false⟩ :: post)
      ((s.lo + 8 + total pre) :: fl) ∧
    (coalesce s (s.lo + 8 + total pre)).2 = s.lo + 8 + total pre := by
  have hW : W = 18446744073709551616 := rfl
  have g := preco_geo _ _ _ _ _ h
  have hn := geo_nodes _ _ _ _ _ g
  have hlo := h.lo_al
  have hlp := h.lo_pos
  have hwl := g.wlim
  have hb16 := g.bs16
  have hb32 := g.bs32
  have htp := g.tp16
  rw [coalesce_none_eq _ _ _ _ _ h hpa hfa]
  refine ⟨?_, rfl⟩
  -- where the nodes are
  have far : ∀ y, y ∈ fl → y % 16 = 8 ∧ (y + 32 ≤ s.lo + 8 + total pre ∨
      s.lo + 8 + total pre + bsize + 32 ≤ y) := by
    intro y hy
    obtain ⟨m16, -, hy2 | hy2⟩ := g.node y hy
    · exact ⟨m16, Or.inl hy2.2.1⟩
    · have := post_node_far _ _ g.szpost hfa y hy2.2.2
      exact ⟨m16, Or.inr (by omega)⟩
  have hna : Nodes ((s.lo + 8 + total pre) :: fl) := by
    refine (nodes_cons _ _).2 ⟨fun hm => ?_, ⟨by omega, by omega⟩, hn⟩
    have := far _ hm
    omega
  obtain ⟨p1, p2, p3, p4, p5, p6, p7⟩ :=
    prepend_spec s fl (s.lo + 8 + total pre) h.flist hna (by omega)
  obtain ⟨q, hq, h16⟩ := tail_head _ _ _ h.tail
  rw [hfa] at hq
  have hfs : first_size post < W := by
    have := g.szpost
    cases post with
    | nil => simp [first_size]
    | cons c rest => simp only [first_size, total] at hwl ⊢; omega
  -- bytes that `prepend_to_free_list` leaves alone
  have keep : ∀ x, (x < s.lo + 8 + total pre + 8 ∨ s.lo + 8 + total pre + 24 ≤ x) →
      (∀ y, y ∈ fl → x < y + 8 ∨ y + 24 ≤ x) →
      (prepend_to_free_list s (s.lo + 8 + total pre)).mem x = s.mem x := by
    intro x hx hl
    refine p7 x (fun y hy => ?_)
    rcases List.mem_cons.1 hy with rfl | hy
    · omega
    · exact hl y hy
  have hr1 : load (prepend_to_free_list s (s.lo + 8 + total pre))
      (s.lo + 8 + total pre + bsize) = hd (first_size post) true q := by
    unfold load
    rw [← hq]
    refine read_word_congr _ _ _ (fun x h1 h2 => keep x (by omega) (fun y hy => ?_))
    have := far y hy
    omega
  rw [set_prev_alloc_eq _ _ _ true q false (by omega) hr1 h16 hfs]
  have hv : hd (first_size post) true false < W := hd_lt _ _ _ h16 hfs
  dsimp only
  refine rebuild s _ pre post bsize _ h.lo_pos h.lo_al h.fits h.brk_le h.hs h.brk_eq h.prologue
    h.seg_pre hpa h.tail hfa ⟨hb16, hb32⟩ (by simp [p3]) (by simp [p4]) (by simp [p5])
    (by simp [p6]) ?_ ?_ ?_ ?_ ?_ ?_
  · intro x hx hl
    rw [store_mem_out _ _ _ _ (by omega)]
    refine keep x (by omega) (fun y hy => hl y (h.perm.subset hy))
  · rw [store_mem, read_write_other _ _ _ _ (by omega)]
    have := co_header _ _ _ _ _ h
    rw [hpa] at this
    refine Eq.trans ?_ this
    refine read_word_congr _ _ _ (fun x h1 h2 => keep x (by omega) (fun y hy => ?_))
    have := far y hy
    omega
  · have hf := h.blk.2.2.2 rfl
    dsimp only at hf
    rw [store_mem, read_write_other _ _ _ _ (by omega)]
    refine Eq.trans ?_ hf
    refine read_word_congr _ _ _ (fun x h1 h2 => keep x (by omega) (fun y hy => ?_))
    have := far y hy
    omega
  · rw [store_mem, read_write_same, Nat.mod_eq_of_lt hv]
  · rw [store_free_start]
    refine flist_store _ _ _ _ _ (fun y hy => ?_) p1
    rcases List.mem_cons.1 hy with rfl | hy
    · omega
    · have := far y hy
      omega
  · exact List.Perm.cons _ h.perm

/-! ## Words that the free-list operations leave alone -/

theorem remove_keeps (s : Heap) (fl : List Nat) (b : Nat)
    (hf : FList s.mem 0 s.free_start fl) (hn : Nodes fl) (hb : b ∈ fl) (w : Nat)
    (hw : ∀ y, y ∈ fl → y ≠ b → w + 8 ≤ y + 8 ∨ y + 24 ≤ w) :
    load (remove_from_free_list s b) w = load s w := by
  obtain ⟨-, -, -, -, -, p⟩ := remove_spec s fl b hf hn hb
  unfold load
  refine read_word_congr _ _ _ (fun x h1 h2 => p x (fun y hy hyb => ?_))
  have := hw y hy hyb
  omega

theorem prepend_keeps (s : Heap) (fl : List Nat) (b : Nat)
    (hf : FList s.mem 0 s.free_start fl) (hn : Nodes (b :: fl)) (hb0 : b ≠ 0) (w : Nat)
    (hw : ∀ y, y ∈ b :: fl → w + 8 ≤ y + 8 ∨ y + 24 ≤ w) :
    load (prepend_to_free_list s b) w = load s w := by
  obtain ⟨-, -, -, -, -, -, p⟩ := prepend_spec s fl b hf hn hb0
  unfold load
  refine read_word_congr _ _ _ (fun x h1 h2 => p x (fun y hy => ?_))
  have := hw y hy
  omega

theorem nodes_erase (fl : List Nat) (b : Nat) (h : Nodes fl) : Nodes (fl.erase b) :=
  ⟨h.1.erase b, fun x hx => h.2 x (List.mem_of_mem_erase hx)⟩

theorem mem_erase_ne (fl : List Nat) (b y : Nat) (h : fl.Nodup) (hy : y ∈ fl.erase b) :
    y ∈ fl ∧ y ≠ b :=
  ⟨List.mem_of_mem_erase hy, fun e => by
    subst e
    exact (List.Nodup.not_mem_erase h) hy⟩

/-! ## The right neighbour is free -/

theorem seg_first_alloc (m : Mem) (a : Nat) (l : List Blk) (h : Seg m a false l) :
    first_alloc l = true := by
  cases l with
  | nil => rfl
  | cons c rest =>
    by_contra hc
    have hc2 : c.alloc = false := by simpa [first_alloc] using hc
    have := h.2.1 hc2
    cases this

theorem seg_head (m : Mem) (a : Nat) (pa : Bool) (l : List Blk) (h : Seg m a pa l)
    (he : read_word m (a + total l) = hd 0 true (last_alloc pa l)) :
    read_word m a = hd (first_size l) (first_alloc l) pa ∧ first_size l % 16 = 0 := by
  cases l with
  | nil => exact ⟨by simpa [total, last_alloc] using he, rfl⟩
  | cons c rest => exact ⟨h.1.2.2.1, h.1.1⟩

theorem first_size_le (l : List Blk) : first_size l ≤ total l := by
  cases l with
  | nil => exact Nat.le_refl _
  | cons c rest => simp [first_size, total]

/-! ## The end of every merging case -/

theorem store_comm (s : Heap) (a v b w : Nat) (h : a + 8 ≤ b ∨ b + 8 ≤ a) :
    store (store s a v) b w = store (store s b w) a v := by
  unfold store
  congr 1
  funext x
  simp only [write_word]
  by_cases h1 : a ≤ x ∧ x < a + 8
  · have h2 : ¬ (b ≤ x ∧ x < b + 8) := by omega
    simp [h1, h2]
  · simp [h1]

theorem merge_finish (s u : Heap) (pre post : List Blk) (sz L R : Nat) (flu : List Nat)
    (lo_pos : 0 < s.lo) (lo_al : s.lo % 16 = 0) (fits : s.lo + s.cap < W)
    (brk_le : s.brk ≤ s.cap) (hs : s.heap_start = s.lo + 8)
    (brk_eq : s.brk = total pre + sz + total post + 16)
    (prologue : read_word s.mem s.lo = 1)
    (hLdef : L = s.lo + 8 + total pre) (hRdef : R = s.lo + 8 + total pre + sz)
    (hpre : Seg s.mem (s.lo + 8) true pre) (hpa : last_alloc true pre = true)
    (htail : Tail s.mem R post) (hfa : first_alloc post = true)
    (hsz : sz % 16 = 0 ∧ 32 ≤ sz)
    (ulo : u.lo = s.lo) (ubrk : u.brk = s.brk) (ucap : u.cap = s.cap)
    (uhs : u.heap_start = s.heap_start)
    (uframe : ∀ x, (x < L ∨ R + 8 ≤ x) →
      (∀ y, y ∈ free_addrs (s.lo + 8) pre ++ free_addrs R post → x < y + 8 ∨ y + 24 ≤ x) →
      u.mem x = s.mem x)
    (uR : read_word u.mem R = hd (first_size post) true false)
    (ufl : FList u.mem 0 u.free_start flu)
    (uperm : flu.Perm (free_addrs (s.lo + 8) pre ++ free_addrs R post)) :
    Inv (prepend_to_free_list (store (store (store u L (hd sz false false)) (R - 8)
      (hd sz false false)) L (hd sz false true)) L) (pre ++ ⟨sz, false⟩ :: post) (L :: flu) := by
  have hW : W = 18446744073709551616 := rfl
  have hszpre := seg_sized _ _ _ _ hpre
  have hszpost := tail_sized _ _ _ htail
  have htp := total_mod _ hszpre
  have hvs0 : hd sz false false < W := hd_lt _ _ _ hsz.1 (by omega)
  have hvs1 : hd sz false true < W := hd_lt _ _ _ hsz.1 (by omega)
  have far : ∀ y, y ∈ flu → (y % 16 = 8 ∧ y + 24 < W) ∧ (y + 32 ≤ L ∨ R + 32 ≤ y) := by
    intro y hy
    rcases List.mem_append.1 (uperm.subset hy) with hy2 | hy2
    · have := free_addrs_range _ _ hszpre _ hy2
      exact ⟨by omega, by omega⟩
    · have := free_addrs_range _ _ hszpost _ hy2
      have := post_node_far _ _ hszpost hfa y hy2
      exact ⟨by omega, by omega⟩
  have hnd : flu.Nodup := by
    refine uperm.nodup_iff.2 ?_
    rw [List.nodup_append]
    refine ⟨free_addrs_nodup _ _ hszpre, free_addrs_nodup _ _ hszpost, fun y h1 h2 => ?_⟩
    have r1 := free_addrs_range _ _ hszpre _ h1
    have r2 := free_addrs_range _ _ hszpost _ h2
    omega
  have hna : Nodes (L :: flu) := by
    refine (nodes_cons _ _).2 ⟨fun hm => ?_, ⟨by omega, by omega⟩, hnd, fun y hy => (far y hy).1⟩
    have := far _ hm
    omega
  have f3 : FList (store u L (hd sz false false)).mem 0 u.free_start flu :=
    flist_store _ _ _ _ _ (fun y hy => by have := far y hy; omega) ufl
  have f4 : FList (store (store u L (hd sz false false)) (R - 8) (hd sz false false)).mem 0
      u.free_start flu :=
    flist_store _ _ _ _ _ (fun y hy => by have := far y hy; omega) f3
  have f5 : FList (store (store (store u L (hd sz false false)) (R - 8) (hd sz false false)) L
      (hd sz false true)).mem 0 u.free_start flu :=
    flist_store _ _ _ _ _ (fun y hy => by have := far y hy; omega) f4
  obtain ⟨p1, p2, p3, p4, p5, p6, p7⟩ := prepend_spec _ _ L f5 hna (by omega)
  have pk : ∀ w, (w + 8 ≤ L + 8 ∨ L + 24 ≤ w) → (w = L ∨ w = R ∨ w + 8 = R) →
      read_word (prepend_to_free_list (store (store (store u L (hd sz false false)) (R - 8)
        (hd sz false false)) L (hd sz false true)) L).mem w =
      read_word (store (store (store u L (hd sz false false)) (R - 8)
        (hd sz false false)) L (hd sz false true)).mem w := by
    intro w hw1 hw2
    refine prepend_keeps _ _ _ f5 hna (by omega) w (fun y hy => ?_)
    rcases List.mem_cons.1 hy with rfl | hy
    · omega
    · have := far y hy
      omega
  subst hLdef
  subst hRdef
  refine rebuild s _ pre post sz _ lo_pos lo_al fits brk_le hs brk_eq prologue hpre hpa htail hfa
    hsz (by rw [p3]; simp [ulo]) (by rw [p4]; simp [ubrk]) (by rw [p5]; simp [ucap])
    (by rw [p6]; simp [uhs]) ?_ ?_ ?_ ?_ p1 (List.Perm.cons _ uperm)
  · intro x hx hl
    rw [p7 x (fun y hy => ?_), store_mem_out _ _ _ _ (by omega), store_mem_out _ _ _ _ (by omega),
      store_mem_out _ _ _ _ (by omega)]
    · exact uframe x hx hl
    · rcases List.mem_cons.1 hy with rfl | hy
      · omega
      · exact hl y (uperm.subset hy)
  · rw [pk _ (by omega) (by omega), store_mem, read_write_same, Nat.mod_eq_of_lt hvs1]
  · rw [pk _ (by omega) (by omega), store_mem, read_write_other _ _ _ _ (by omega), store_mem,
      read_write_same, Nat.mod_eq_of_lt hvs0]
    simp [hd]
  · rw [pk _ (by omega) (by omega), store_mem, read_write_other _ _ _ _ (by omega), store_mem,
      read_write_other _ _ _ _ (by omega), store_mem, read_write_other _ _ _ _ (by omega)]
    exact uR

theorem coalesce_right (s : Heap) (pre : List Blk) (bsize : Nat) (c : Blk) (rest : List Blk)
    (fl : List Nat) (h : PreCo s pre bsize (c :: rest) fl)
    (hpa : last_alloc true pre = true) (hc : c.alloc = false) :
    Inv (coalesce s (s.lo + 8 + total pre)).1 (pre ++ ⟨bsize + c.size, false⟩ :: rest)
      ((s.lo + 8 + total pre) :: fl.erase (s.lo + 8 + total pre + bsize)) ∧
    (coalesce s (s.lo + 8 + total pre)).2 = s.lo + 8 + total pre := by
  have hW : W = 18446744073709551616 := rfl
  have g := preco_geo _ _ _ _ _ h
  have hn := geo_nodes _ _ _ _ _ g
  have hlo := h.lo_al
  have hlp := h.lo_pos
  have hwl := g.wlim
  have hb16 := g.bs16
  have hb32 := g.bs32
  have htp := g.tp16
  obtain ⟨⟨q, hcb⟩, hrest, hepi⟩ := h.tail
  have hc16 := hcb.1
  have hc32 := hcb.2.1
  simp only [total] at hwl
  have hfr : first_alloc rest = true := by
    rw [hc] at hrest
    exact seg_first_alloc _ _ _ hrest
  have hszrest : Sized rest := ((sized_cons c rest).1 g.szpost).2
  -- the word after the right neighbour
  obtain ⟨hR0, hfs16⟩ := seg_head _ _ _ _ hrest hepi
  rw [hc, hfr] at hR0
  have hfsle := first_size_le rest
  -- where the nodes are
  have hrm : s.lo + 8 + total pre + bsize ∈ fl := by
    refine h.perm.symm.subset (List.mem_append_right _ ?_)
    simp [free_addrs, hc]
  have far : ∀ y, y ∈ fl → y ≠ s.lo + 8 + total pre + bsize →
      y % 16 = 8 ∧ (y + 32 ≤ s.lo + 8 + total pre ∨
        (s.lo + 8 + total pre + bsize + c.size + 32 ≤ y ∧
          y ∈ free_addrs (s.lo + 8 + total pre + bsize + c.size) rest)) := by
    intro y hy hne
    obtain ⟨m16, -, hy2 | hy2⟩ := g.node y hy
    · exact ⟨m16, Or.inl hy2.2.1⟩
    · have hy3 := hy2.2.2
      simp only [free_addrs, hc, Bool.false_eq_true, if_false, List.mem_cons] at hy3
      rcases hy3 with hy3 | hy3
      · exact (hne hy3).elim
      · have := post_node_far _ _ hszrest hfr y hy3
        exact ⟨m16, Or.inr ⟨by omega, hy3⟩⟩
  -- the branch
  have e1 : get_size s (s.lo + 8 + total pre) = bsize := co_size _ _ _ _ _ h
  have e2 : find_next s (s.lo + 8 + total pre) = s.lo + 8 + total pre + bsize :=
    co_next _ _ _ _ _ h
  have e3 : get_size s (s.lo + 8 + total pre + bsize) = c.size :=
    get_size_eq s _ c.size c.alloc q hcb.2.2.1 hc16 (by omega)
  have e4 : find_next s (s.lo + 8 + total pre + bsize) =
      s.lo + 8 + total pre + bsize + c.size := find_next_eq s _ _ e3 (by omega)
  have e5 : set_prev_alloc s (s.lo + 8 + total pre + bsize + c.size) false =
      store s (s.lo + 8 + total pre + bsize + c.size) (hd (first_size rest) true false) :=
    set_prev_alloc_eq s _ _ true false false (by omega) hR0 hfs16 (by omega)
  have hvR : hd (first_size rest) true false < W := hd_lt _ _ _ hfs16 (by omega)
  have hsz16 : (bsize + c.size) % 16 = 0 := by omega
  have hvs0 : hd (bsize + c.size) false false < W := hd_lt _ _ _ hsz16 (by omega)
  have hvs1 : hd (bsize + c.size) false true < W := hd_lt _ _ _ hsz16 (by omega)
  -- state 1: the header after the right neighbour is rewritten
  have f1 : FList (store s (s.lo + 8 + total pre + bsize + c.size)
      (hd (first_size rest) true false)).mem 0 s.free_start fl := by
    refine flist_store _ _ _ _ _ (fun y hy => ?_) h.flist
    by_cases hy2 : y = s.lo + 8 + total pre + bsize
    · omega
    · have := far y hy hy2
      omega
  -- state 2: the right neighbour leaves the free list
  obtain ⟨r1, r2, r3, r4, r5, r6⟩ := remove_spec _ fl (s.lo + 8 + total pre + bsize) f1 hn hrm
  have k2 : ∀ w, (∀ y, y ∈ fl → y ≠ s.lo + 8 + total pre + bsize →
      w + 8 ≤ y + 8 ∨ y + 24 ≤ w) →
      (w + 8 ≤ s.lo + 8 + total pre + bsize + c.size ∨
        s.lo + 8 + total pre + bsize + c.size + 8 ≤ w) →
      load (remove_from_free_list (store s (s.lo + 8 + total pre + bsize + c.size)
        (hd (first_size rest) true false)) (s.lo + 8 + total pre + bsize)) w = load s w := by
    intro w hw1 hw2
    rw [remove_keeps _ fl _ f1 hn hrm w hw1, load_store_ne _ _ _ _ (by omega)]
  have l2 : load (remove_from_free_list (store s (s.lo + 8 + total pre + bsize + c.size)
      (hd (first_size rest) true false)) (s.lo + 8 + total pre + bsize))
      (s.lo + 8 + total pre) = hd bsize false true := by
    rw [k2 _ (fun y hy hne => by have := far y hy hne; omega) (by omega)]
    have := co_header _ _ _ _ _ h
    rw [hpa] at this
    exact this
  have e6 : extract_prev_alloc (header (remove_from_free_list
      (store s (s.lo + 8 + total pre + bsize + c.size) (hd (first_size rest) true false))
      (s.lo + 8 + total pre + bsize)) (s.lo + 8 + total pre)) = 2 := by
    rw [prev_alloc_eq _ _ bsize false true l2 hb16]
    rfl
  have e7 : wadd bsize c.size = bsize + c.size := wadd_eq _ _ (by omega)
  -- the result state
  have eq : coalesce s (s.lo + 8 + total pre) =
      (prepend_to_free_list (store (store (store (remove_from_free_list
        (store s (s.lo + 8 + total pre + bsize + c.size) (hd (first_size rest) true false))
        (s.lo + 8 + total pre + bsize)) (s.lo + 8 + total pre)
        (hd (bsize + c.size) false false))
        (s.lo + 8 + total pre + (bsize + c.size) - 8) (hd (bsize + c.size) false false))
        (s.lo + 8 + total pre) (hd (bsize + c.size) false true))
        (s.lo + 8 + total pre), s.lo + 8 + total pre) := by
    have hfa : first_alloc (c :: rest) = false := hc
    unfold coalesce
    simp only [e2, co_left_alloc _ _ _ _ _ h hpa, co_right _ _ _ _ _ h, hfa, e1, e3, e4, e5, e6,
      e7, Bool.false_and, Bool.not_false, if_true, Bool.false_eq_true, if_false]
    rw [write_header_eq _ _ _ _ hsz16]
    rw [write_footer_eq _ _ (bsize + c.size) _ _
      (get_size_eq _ _ _ false false (load_store_eq _ _ _ hvs0) hsz16 (by omega))
      (by omega) (by omega) hsz16]
    rw [set_prev_alloc_eq _ _ (bsize + c.size) false false _ (by omega)
      (by rw [load_store_ne _ _ _ _ (by omega), load_store_eq _ _ _ hvs0]) hsz16 (by omega)]
    rfl
  rw [eq]
  refine ⟨?_, rfl⟩
  dsimp only
  have ea : s.lo + 8 + total pre + (bsize + c.size) = s.lo + 8 + total pre + bsize + c.size := by
    omega
  have hl2 : ∀ x, (∀ y, y ∈ free_addrs (s.lo + 8) pre ++
      free_addrs (s.lo + 8 + total pre + (bsize + c.size)) rest → x < y + 8 ∨ y + 24 ≤ x) →
      ∀ y, y ∈ fl → y ≠ s.lo + 8 + total pre + bsize → x < y + 8 ∨ y + 24 ≤ x := by
    intro x hl y hy hne
    rcases (far y hy hne).2 with hy2 | hy2
    · rcases (g.node y hy).2.2 with hy3 | hy3
      · exact hl y (List.mem_append_left _ hy3.2.2)
      · omega
    · exact hl y (List.mem_append_right _ (by rw [ea]; exact hy2.2))
  refine merge_finish s _ pre rest (bsize + c.size) _ _ _ h.lo_pos h.lo_al h.fits h.brk_le h.hs
    (by have := h.brk_eq; simp only [total] at this; omega) h.prologue rfl rfl
    h.seg_pre hpa (by rw [ea]; rw [hc] at hrest hepi; exact seg_tail _ _ _ _ hrest hepi) hfr
    ⟨hsz16, by omega⟩ (by simp [r2]) (by simp [r3]) (by simp [r4]) (by simp [r5]) ?_ ?_ r1 ?_
  · intro x hx hl
    rw [r6 x (hl2 x hl), store_mem_out _ _ _ _ (by omega)]
  · have := remove_keeps _ fl _ f1 hn hrm (s.lo + 8 + total pre + (bsize + c.size))
      (fun y hy hne => by have := far y hy hne; omega)
    unfold load at this
    rw [this, store_mem, ea, read_write_same, Nat.mod_eq_of_lt hvR]
  · have hp := h.perm.erase (s.lo + 8 + total pre + bsize)
    refine hp.trans ?_
    have hnot : s.lo + 8 + total pre + bsize ∉ free_addrs (s.lo + 8) pre := by
      intro hm
      have := free_addrs_range _ _ g.szpre _ hm
      omega
    rw [List.erase_append_right _ hnot]
    simp only [free_addrs, hc, Bool.false_eq_true, if_false, List.erase_cons_head]
    rw [ea]

/-! ## The left neighbour is free -/

/-- What a free left neighbour looks like: its footer is the word before the
current header, and it is a node of the free list. -/
theorem left_free (s : Heap) (pre2 : List Blk) (l : Blk) (bsize : Nat) (post : List Blk)
    (fl : List Nat) (h : PreCo s (pre2 ++ [l]) bsize post fl) (hl : l.alloc = false) :
    last_alloc true (pre2 ++ [l]) = false ∧ last_alloc true pre2 = true ∧
      Seg s.mem (s.lo + 8) true pre2 ∧
      BlockAt s.mem (s.lo + 8 + total pre2) true l ∧
      find_prev s (s.lo + 8 + total (pre2 ++ [l])) = s.lo + 8 + total pre2 ∧
      s.lo + 8 + total pre2 ∈ fl ∧
      s.lo + 8 + total (pre2 ++ [l]) = s.lo + 8 + total pre2 + l.size := by
  have hW : W = 18446744073709551616 := rfl
  have g := preco_geo _ _ _ _ _ h
  have hwl := g.wlim
  have hseg := h.seg_pre
  rw [seg_append] at hseg
  obtain ⟨hs1, hs2⟩ := hseg
  obtain ⟨hb, hadj, -⟩ := hs2
  have hp2 := hadj hl
  rw [hp2] at hb
  have hl16 := hb.1
  have hl32 := hb.2.1
  have hft := hb.2.2.2 hl
  rw [total_append] at hwl ⊢
  simp only [total] at hwl ⊢
  refine ⟨by rw [last_alloc_append]; exact hl, hp2, hs1, hb, ?_, ?_, by omega⟩
  · unfold find_prev find_prev_footer
    rw [wsub_eq _ 8 (by omega) (by omega)]
    have e : s.lo + 8 + (total pre2 + (l.size + 0)) - 8 = s.lo + 8 + total pre2 + l.size - 8 := by
      omega
    have hld : load s (s.lo + 8 + (total pre2 + (l.size + 0)) - 8) = hd l.size false false := by
      unfold load
      rw [e, hft]
      simp [hd]
    rw [hld, extract_size_hd _ _ _ hl16 (by omega), wsub_eq _ _ (by omega) (by omega)]
    omega
  · refine h.perm.symm.subset (List.mem_append_left _ ?_)
    rw [free_addrs_append]
    refine List.mem_append_right _ ?_
    simp [free_addrs, hl]

theorem co_left_free (s : Heap) (pre2 : List Blk) (l : Blk) (bsize : Nat) (post : List Blk)
    (fl : List Nat) (h : PreCo s (pre2 ++ [l]) bsize post fl) (hl : l.alloc = false) :
    (if find_prev s (s.lo + 8 + total (pre2 ++ [l])) = 0 then false
      else extract_prev_alloc (header s (s.lo + 8 + total (pre2 ++ [l]))) == 0) = true := by
  have g := preco_geo _ _ _ _ _ h
  obtain ⟨hpa, -, -, -, hfp, -, -⟩ := left_free _ _ _ _ _ _ h hl
  rw [prev_alloc_eq s _ bsize false _ (co_header _ _ _ _ _ h) g.bs16, hpa, hfp,
    if_neg (by omega)]
  rfl

/-- Where the nodes of the free list are when the left neighbour is free. -/
theorem left_nodes (s : Heap) (pre2 : List Blk) (l : Blk) (bsize : Nat) (post : List Blk)
    (fl : List Nat) (h : PreCo s (pre2 ++ [l]) bsize post fl) (hl : l.alloc = false)
    (y : Nat) (hy : y ∈ fl) (hne : y ≠ s.lo + 8 + total pre2) :
    y % 16 = 8 ∧
    ((y + 32 ≤ s.lo + 8 + total pre2 ∧ y ∈ free_addrs (s.lo + 8) pre2) ∨
     (s.lo + 8 + total pre2 + l.size + bsize ≤ y ∧
      y ∈ free_addrs (s.lo + 8 + total pre2 + l.size + bsize) post)) := by
  have g := preco_geo _ _ _ _ _ h
  have hsz2 : Sized pre2 := ((sized_append _ _).1 g.szpre).1
  obtain ⟨m16, -, hy2 | hy2⟩ := g.node y hy
  · have hy3 := hy2.2.2
    rw [free_addrs_append] at hy3
    rcases List.mem_append.1 hy3 with hy4 | hy4
    · have := free_addrs_range _ _ hsz2 _ hy4
      exact ⟨m16, Or.inl ⟨this.2.1, hy4⟩⟩
    · simp only [free_addrs, hl, Bool.false_eq_true, if_false, List.mem_cons,
        List.not_mem_nil, or_false] at hy4
      exact (hne hy4).elim
  · have e : s.lo + 8 + total (pre2 ++ [l]) + bsize = s.lo + 8 + total pre2 + l.size + bsize := by
      rw [total_append]
      simp only [total]
      omega
    rw [e] at hy2
    exact ⟨m16, Or.inr ⟨hy2.1, hy2.2.2⟩⟩

theorem coalesce_left_eq (s : Heap) (pre2 : List Blk) (l : Blk) (bsize : Nat)
    (post : List Blk) (fl : List Nat) (h : PreCo s (pre2 ++ [l]) bsize post fl)
    (hl : l.alloc = false) (hfa : first_alloc post = true) :
    coalesce s (s.lo + 8 + total (pre2 ++ [l])) =
      (prepend_to_free_list (store (store (store (store
        (remove_from_free_list s (s.lo + 8 + total pre2))
        (s.lo + 8 + total pre2 + (l.size + bsize)) (hd (first_size post) true false))
        (s.lo + 8 + total pre2) (hd (l.size + bsize) false false))
        (s.lo + 8 + total pre2 + (l.size + bsize) - 8) (hd (l.size + bsize) false false))
        (s.lo + 8 + total pre2) (hd (l.size + bsize) false true))
        (s.lo + 8 + total pre2), s.lo + 8 + total pre2) := by
  have hW : W = 18446744073709551616 := rfl
  have g := preco_geo _ _ _ _ _ h
  have hn := geo_nodes _ _ _ _ _ g
  have hlo := h.lo_al
  have hlp := h.lo_pos
  have hwl := g.wlim
  have hb16 := g.bs16
  have hb32 := g.bs32
  obtain ⟨hpa, hpa2, hseg2, hlb, hfp, hlm, ea⟩ := left_free _ _ _ _ _ _ h hl
  have hl16 := hlb.1
  have hl32 := hlb.2.1
  have htp2 := total_mod _ (seg_sized _ _ _ _ hseg2)
  rw [ea] at hwl
  obtain ⟨q, hq, h16⟩ := tail_head _ _ _ h.tail
  rw [hfa, ea] at hq
  have hfsle := first_size_le post
  have far := left_nodes _ _ _ _ _ _ h hl
  have far3 : ∀ y, y ∈ fl → y ≠ s.lo + 8 + total pre2 →
      y + 32 ≤ s.lo + 8 + total pre2 ∨ s.lo + 8 + total pre2 + l.size + bsize + 32 ≤ y := by
    intro y hy hne
    rcases (far y hy hne).2 with hy2 | hy2
    · exact Or.inl hy2.1
    · have := post_node_far _ _ g.szpost hfa y hy2.2
      exact Or.inr (by omega)
  have e1 : get_size s (s.lo + 8 + total (pre2 ++ [l])) = bsize := co_size _ _ _ _ _ h
  have e2 : find_next s (s.lo + 8 + total (pre2 ++ [l])) =
      s.lo + 8 + total pre2 + l.size + bsize := by
    rw [co_next _ _ _ _ _ h, ea]
  have e3 : get_size s (s.lo + 8 + total pre2) = l.size :=
    get_size_eq s _ l.size l.alloc true hlb.2.2.1 hl16 (by omega)
  have hsz16 : (l.size + bsize) % 16 = 0 := by omega
  have hvs0 : hd (l.size + bsize) false false < W := hd_lt _ _ _ hsz16 (by omega)
  have hvs1 : hd (l.size + bsize) false true < W := hd_lt _ _ _ hsz16 (by omega)
  have k1 : ∀ w, (∀ y, y ∈ fl → y ≠ s.lo + 8 + total pre2 → w + 8 ≤ y + 8 ∨ y + 24 ≤ w) →
      load (remove_from_free_list s (s.lo + 8 + total pre2)) w = load s w :=
    fun w hw => remove_keeps s fl _ h.flist hn hlm w hw
  have l1 : load (remove_from_free_list s (s.lo + 8 + total pre2)) (s.lo + 8 + total pre2) =
      hd l.size false true := by
    rw [k1 _ (fun y hy hne => by have := far3 y hy hne; omega)]
    have := hlb.2.2.1
    rw [hl] at this
    exact this
  have e4 : extract_prev_alloc (header (remove_from_free_list s (s.lo + 8 + total pre2))
      (s.lo + 8 + total pre2)) = 2 := by
    rw [prev_alloc_eq _ _ l.size false true l1 hl16]
    rfl
  have e5 : wadd l.size bsize = l.size + bsize := wadd_eq _ _ (by omega)
  have cr : (if s.lo + 8 + total pre2 + l.size + bsize = 0 then false
      else !get_alloc s (s.lo + 8 + total pre2 + l.size + bsize)) = false := by
    have := co_right _ _ _ _ _ h
    rw [ea] at this
    rw [this, hfa]
    rfl
  have cl : (if s.lo + 8 + total pre2 = 0 then false
      else extract_prev_alloc (header s (s.lo + 8 + total (pre2 ++ [l]))) == 0) = true := by
    have := co_left_free _ _ _ _ _ _ h hl
    rw [hfp] at this
    exact this
  have e6 : ((2 : Nat) != 0) = true := rfl
  unfold coalesce
  simp only [cl, cr, hfp, e1, e2, e3, e4, e5, e6,
    Bool.and_false, Bool.false_eq_true, if_false, if_true]
  rw [write_header_eq _ _ _ _ hsz16]
  rw [write_footer_eq _ _ (l.size + bsize) _ _
    (get_size_eq _ _ _ false false (load_store_eq _ _ _ hvs0) hsz16 (by omega))
    (by omega) (by omega) hsz16]
  rw [set_prev_alloc_eq _ (s.lo + 8 + total pre2) (l.size + bsize) false false true (by omega)
    (by rw [load_store_ne _ _ _ _ (by omega), load_store_eq _ _ _ hvs0]) hsz16 (by omega)]
  have lr : load (store (store (store (remove_from_free_list s (s.lo + 8 + total pre2))
      (s.lo + 8 + total pre2) (hd (l.size + bsize) false false))
      (s.lo + 8 + total pre2 + (l.size + bsize) - 8) (hd (l.size + bsize) false false))
      (s.lo + 8 + total pre2) (hd (l.size + bsize) false true))
      (s.lo + 8 + total pre2 + l.size + bsize) = hd (first_size post) true q := by
    rw [load_store_ne _ _ _ _ (by omega), load_store_ne _ _ _ _ (by omega),
      load_store_ne _ _ _ _ (by omega),
      k1 _ (fun y hy hne => by have := far3 y hy hne; omega)]
    exact hq
  rw [set_prev_alloc_eq _ _ (first_size post) true q false (by omega) lr h16 (by omega)]
  have er : s.lo + 8 + total pre2 + l.size + bsize = s.lo + 8 + total pre2 + (l.size + bsize) := by
    omega
  rw [er, store_comm _ (s.lo + 8 + total pre2) _ (s.lo + 8 + total pre2 + (l.size + bsize)) _
    (by omega),
    store_comm _ (s.lo + 8 + total pre2 + (l.size + bsize) - 8) _
      (s.lo + 8 + total pre2 + (l.size + bsize)) _ (by omega),
    store_comm _ (s.lo + 8 + total pre2) _ (s.lo + 8 + total pre2 + (l.size + bsize)) _
      (by omega)]

theorem coalesce_left (s : Heap) (pre2 : List Blk) (l : Blk) (bsize : Nat)
    (post : List Blk) (fl : List Nat) (h : PreCo s (pre2 ++ [l]) bsize post fl)
    (hl : l.alloc = false) (hfa : first_alloc post = true) :
    Inv (coalesce s (s.lo + 8 + total (pre2 ++ [l]))).1
      (pre2 ++ ⟨l.size + bsize, false⟩ :: post)
      ((s.lo + 8 + total pre2) :: fl.erase (s.lo + 8 + total pre2)) ∧
    (coalesce s (s.lo + 8 + total (pre2 ++ [l]))).2 = s.lo + 8 + total pre2 := by
  have hW : W = 18446744073709551616 := rfl
  have g := preco_geo _ _ _ _ _ h
  have hn := geo_nodes _ _ _ _ _ g
  have hlo := h.lo_al
  have hlp := h.lo_pos
  have hwl := g.wlim
  have hb16 := g.bs16
  have hb32 := g.bs32
  obtain ⟨hpa, hpa2, hseg2, hlb, hfp, hlm, ea⟩ := left_free _ _ _ _ _ _ h hl
  have hl16 := hlb.1
  have hl32 := hlb.2.1
  have htp2 := total_mod _ (seg_sized _ _ _ _ hseg2)
  rw [ea] at hwl
  obtain ⟨q, hq, h16⟩ := tail_head _ _ _ h.tail
  have hfsle := first_size_le post
  have far := left_nodes _ _ _ _ _ _ h hl
  have er : s.lo + 8 + total pre2 + l.size + bsize = s.lo + 8 + total pre2 + (l.size + bsize) := by
    omega
  have er2 : s.lo + 8 + total (pre2 ++ [l]) + bsize =
      s.lo + 8 + total pre2 + (l.size + bsize) := by omega
  have far3 : ∀ y, y ∈ fl → y ≠ s.lo + 8 + total pre2 →
      y + 32 ≤ s.lo + 8 + total pre2 ∨ s.lo + 8 + total pre2 + l.size + bsize + 32 ≤ y := by
    intro y hy hne
    rcases (far y hy hne).2 with hy2 | hy2
    · exact Or.inl hy2.1
    · have := post_node_far _ _ g.szpost hfa y hy2.2
      exact Or.inr (by omega)
  have hvR : hd (first_size post) true false < W := hd_lt _ _ _ h16 (by omega)
  obtain ⟨r1, r2, r3, r4, r5, r6⟩ := remove_spec s fl (s.lo + 8 + total pre2) h.flist hn hlm
  rw [coalesce_left_eq _ _ _ _ _ _ h hl hfa]
  refine ⟨?_, rfl⟩
  dsimp only
  refine merge_finish s _ pre2 post (l.size + bsize) _ _ _ h.lo_pos h.lo_al h.fits h.brk_le h.hs
    (by have := h.brk_eq; rw [total_append] at this; simp only [total] at this; omega)
    h.prologue rfl rfl hseg2 hpa2 (by rw [← er2]; exact h.tail) hfa
    ⟨by omega, by omega⟩ (by simp [r2]) (by simp [r3]) (by simp [r4]) (by simp [r5]) ?_ ?_ ?_ ?_
  · intro x hx hlk
    rw [store_mem_out _ _ _ _ (by omega)]
    refine r6 x (fun y hy hne => ?_)
    rcases (far y hy hne).2 with hy2 | hy2
    · exact hlk y (List.mem_append_left _ hy2.2)
    · exact hlk y (List.mem_append_right _ (by rw [← er]; exact hy2.2))
  · rw [store_mem, read_write_same, Nat.mod_eq_of_lt hvR]
  · rw [store_free_start]
    refine flist_store _ _ _ _ _ (fun y hy => ?_) r1
    obtain ⟨hy1, hy2⟩ := mem_erase_ne _ _ _ g.nodup hy
    have := far3 y hy1 hy2
    omega
  · have hp := h.perm.erase (s.lo + 8 + total pre2)
    refine hp.trans ?_
    rw [free_addrs_append]
    have hnot : s.lo + 8 + total pre2 ∉ free_addrs (s.lo + 8) pre2 := by
      intro hm
      have := free_addrs_range _ _ (seg_sized _ _ _ _ hseg2) _ hm
      omega
    rw [List.append_assoc, List.erase_append_right _ hnot]
    simp only [free_addrs, hl, Bool.false_eq_true, if_false, List.cons_append, List.nil_append,
      List.erase_cons_head]
    rw [er2]

/-! ## Both neighbours are free -/

/-- Where the nodes of the free list are when both neighbours are free. -/
theorem both_nodes (s : Heap) (pre2 : List Blk) (l : Blk) (bsize : Nat) (c : Blk)
    (rest : List Blk) (fl : List Nat) (h : PreCo s (pre2 ++ [l]) bsize (c :: rest) fl)
    (hl : l.alloc = false) (hc : c.alloc = false)
    (y : Nat) (hy : y ∈ fl) (hne : y ≠ s.lo + 8 + total pre2)
    (hne2 : y ≠ s.lo + 8 + total pre2 + l.size + bsize) :
    y % 16 = 8 ∧
    ((y + 32 ≤ s.lo + 8 + total pre2 ∧ y ∈ free_addrs (s.lo + 8) pre2) ∨
     (s.lo + 8 + total pre2 + l.size + bsize + c.size + 32 ≤ y ∧
      y ∈ free_addrs (s.lo + 8 + total pre2 + l.size + bsize + c.size) rest)) := by
  obtain ⟨m16, hy2 | hy2⟩ := left_nodes _ _ _ _ _ _ h hl y hy hne
  · exact ⟨m16, Or.inl hy2⟩
  · have g := preco_geo _ _ _ _ _ h
    obtain ⟨-, hrest, -⟩ := h.tail
    rw [hc] at hrest
    have hfr := seg_first_alloc _ _ _ hrest
    have hszrest : Sized rest := ((sized_cons c rest).1 g.szpost).2
    have hy3 := hy2.2
    simp only [free_addrs, hc, Bool.false_eq_true, if_false, List.mem_cons] at hy3
    rcases hy3 with hy3 | hy3
    · exact (hne2 hy3).elim
    · have := post_node_far _ _ hszrest hfr y hy3
      exact ⟨m16, Or.inr ⟨by omega, hy3⟩⟩

theorem coalesce_both_eq (s : Heap) (pre2 : List Blk) (l : Blk) (bsize : Nat) (c : Blk)
    (rest : List Blk) (fl : List Nat) (h : PreCo s (pre2 ++ [l]) bsize (c :: rest) fl)
    (hl : l.alloc = false) (hc : c.alloc = false) :
    coalesce s (s.lo + 8 + total (pre2 ++ [l])) =
      (prepend_to_free_list (store (store (store
        (remove_from_free_list (remove_from_free_list
          (store s (s.lo + 8 + total pre2 + (l.size + bsize + c.size))
            (hd (first_size rest) true false))
          (s.lo + 8 + total pre2)) (s.lo + 8 + total pre2 + l.size + bsize))
        (s.lo + 8 + total pre2) (hd (l.size + bsize + c.size) false false))
        (s.lo + 8 + total pre2 + (l.size + bsize + c.size) - 8)
        (hd (l.size + bsize + c.size) false false))
        (s.lo + 8 + total pre2) (hd (l.size + bsize + c.size) false true))
        (s.lo + 8 + total pre2), s.lo + 8 + total pre2) := by
  have hW : W = 18446744073709551616 := rfl
  have g := preco_geo _ _ _ _ _ h
  have hn := geo_nodes _ _ _ _ _ g
  have hlo := h.lo_al
  have hlp := h.lo_pos
  have hwl := g.wlim
  have hb16 := g.bs16
  have hb32 := g.bs32
  obtain ⟨hpa, hpa2, hseg2, hlb, hfp, hlm, ea⟩ := left_free _ _ _ _ _ _ h hl
  have hl16 := hlb.1
  have hl32 := hlb.2.1
  have htp2 := total_mod _ (seg_sized _ _ _ _ hseg2)
  rw [ea] at hwl
  simp only [total] at hwl
  obtain ⟨⟨q, hcb⟩, hrest, hepi⟩ := h.tail
  rw [ea] at hcb hrest hepi
  have hc16 := hcb.1
  have hc32 := hcb.2.1
  rw [hc] at hrest hepi
  have hfr := seg_first_alloc _ _ _ hrest
  obtain ⟨hR0, hfs16⟩ := seg_head _ _ _ _ hrest hepi
  rw [hfr] at hR0
  have hfsle := first_size_le rest
  have far := both_nodes _ _ _ _ _ _ _ h hl hc
  have e1 : get_size s (s.lo + 8 + total (pre2 ++ [l])) = bsize := co_size _ _ _ _ _ h
  have e2 : find_next s (s.lo + 8 + total (pre2 ++ [l])) =
      s.lo + 8 + total pre2 + l.size + bsize := by
    rw [co_next _ _ _ _ _ h, ea]
  have e3 : get_size s (s.lo + 8 + total pre2) = l.size :=
    get_size_eq s _ l.size l.alloc true hlb.2.2.1 hl16 (by omega)
  have e3b : get_size s (s.lo + 8 + total pre2 + l.size + bsize) = c.size :=
    get_size_eq s _ c.size c.alloc q hcb.2.2.1 hc16 (by omega)
  have e3c : find_next s (s.lo + 8 + total pre2 + l.size + bsize) =
      s.lo + 8 + total pre2 + l.size + bsize + c.size := find_next_eq s _ _ e3b (by omega)
  have e4 : extract_prev_alloc (header s (s.lo + 8 + total pre2)) = 2 := by
    have := hlb.2.2.1
    rw [prev_alloc_eq _ _ l.size l.alloc true this hl16]
    rfl
  have e5 : wadd (wadd l.size bsize) c.size = l.size + bsize + c.size := by
    rw [wadd_eq l.size bsize (by omega), wadd_eq _ _ (by omega)]
  have e7 : set_prev_alloc s (s.lo + 8 + total pre2 + l.size + bsize + c.size) false =
      store s (s.lo + 8 + total pre2 + l.size + bsize + c.size)
        (hd (first_size rest) true false) :=
    set_prev_alloc_eq s _ _ true false false (by omega) hR0 hfs16 (by omega)
  have hsz16 : (l.size + bsize + c.size) % 16 = 0 := by omega
  have hvs0 : hd (l.size + bsize + c.size) false false < W := hd_lt _ _ _ hsz16 (by omega)
  have cr : (if s.lo + 8 + total pre2 + l.size + bsize = 0 then false
      else !get_alloc s (s.lo + 8 + total pre2 + l.size + bsize)) = true := by
    have := co_right _ _ _ _ _ h
    rw [ea] at this
    rw [this]
    simp [first_alloc, hc]
  have cl : (if s.lo + 8 + total pre2 = 0 then false
      else extract_prev_alloc (header s (s.lo + 8 + total (pre2 ++ [l]))) == 0) = true := by
    have := co_left_free _ _ _ _ _ _ h hl
    rw [hfp] at this
    exact this
  have e6 : ((2 : Nat) != 0) = true := rfl
  have er : s.lo + 8 + total pre2 + l.size + bsize + c.size =
      s.lo + 8 + total pre2 + (l.size + bsize + c.size) := by omega
  unfold coalesce
  simp only [cl, cr, hfp, e1, e2, e3, e3b, e3c, e4, e5, e6, e7, Bool.and_self, if_true]
  rw [write_header_eq _ _ _ _ hsz16]
  rw [write_footer_eq _ _ (l.size + bsize + c.size) _ _
    (get_size_eq _ _ _ false false (load_store_eq _ _ _ hvs0) hsz16 (by omega))
    (by omega) (by omega) hsz16]
  rw [set_prev_alloc_eq _ (s.lo + 8 + total pre2) (l.size + bsize + c.size) false false true
    (by omega)
    (by rw [load_store_ne _ _ _ _ (by omega), load_store_eq _ _ _ hvs0]) hsz16 (by omega)]
  rw [er]

theorem coalesce_both (s : Heap) (pre2 : List Blk) (l : Blk) (bsize : Nat) (c : Blk)
    (rest : List Blk) (fl : List Nat) (h : PreCo s (pre2 ++ [l]) bsize (c :: rest) fl)
    (hl : l.alloc = false) (hc : c.alloc = false) :
    Inv (coalesce s (s.lo + 8 + total (pre2 ++ [l]))).1
      (pre2 ++ ⟨l.size + bsize + c.size, false⟩ :: rest)
      ((s.lo + 8 + total pre2) ::
        (fl.erase (s.lo + 8 + total pre2)).erase (s.lo + 8 + total pre2 + l.size + bsize)) ∧
    (coalesce s (s.lo + 8 + total (pre2 ++ [l]))).2 = s.lo + 8 + total pre2 := by
  have hW : W = 18446744073709551616 := rfl
  have g := preco_geo _ _ _ _ _ h
  have hn := geo_nodes _ _ _ _ _ g
  have hlo := h.lo_al
  have hlp := h.lo_pos
  have hwl := g.wlim
  have hb16 := g.bs16
  have hb32 := g.bs32
  obtain ⟨hpa, hpa2, hseg2, hlb, hfp, hlm, ea⟩ := left_free _ _ _ _ _ _ h hl
  have hl16 := hlb.1
  have hl32 := hlb.2.1
  have htp2 := total_mod _ (seg_sized _ _ _ _ hseg2)
  rw [ea] at hwl
  simp only [total] at hwl
  obtain ⟨⟨q, hcb⟩, hrest, hepi⟩ := h.tail
  rw [ea] at hcb hrest hepi
  have hc16 := hcb.1
  have hc32 := hcb.2.1
  rw [hc] at hrest hepi
  have hfr := seg_first_alloc _ _ _ hrest
  obtain ⟨hR0, hfs16⟩ := seg_head _ _ _ _ hrest hepi
  rw [hfr] at hR0
  have hfsle := first_size_le rest
  have far := both_nodes _ _ _ _ _ _ _ h hl hc
  have er : s.lo + 8 + total pre2 + l.size + bsize + c.size =
      s.lo + 8 + total pre2 + (l.size + bsize + c.size) := by omega
  have hvR : hd (first_size rest) true false < W := hd_lt _ _ _ hfs16 (by omega)
  have hrm : s.lo + 8 + total pre2 + l.size + bsize ∈ fl := by
    refine h.perm.symm.subset (List.mem_append_right _ ?_)
    rw [ea]
    simp [free_addrs, hc]
  have hrm2 : s.lo + 8 + total pre2 + l.size + bsize ∈ fl.erase (s.lo + 8 + total pre2) :=
    (List.mem_erase_of_ne (by omega)).2 hrm
  -- state 1
  have f1 : FList (store s (s.lo + 8 + total pre2 + (l.size + bsize + c.size))
      (hd (first_size rest) true false)).mem 0 s.free_start fl := by
    refine flist_store _ _ _ _ _ (fun y hy => ?_) h.flist
    by_cases hy1 : y = s.lo + 8 + total pre2
    · omega
    · by_cases hy2 : y = s.lo + 8 + total pre2 + l.size + bsize
      · omega
      · have := far y hy hy1 hy2
        omega
  obtain ⟨r1, r2, r3, r4, r5, r6⟩ := remove_spec _ fl (s.lo + 8 + total pre2) f1 hn hlm
  have hn2 := nodes_erase fl (s.lo + 8 + total pre2) hn
  obtain ⟨t1, t2, t3, t4, t5, t6⟩ :=
    remove_spec _ _ (s.lo + 8 + total pre2 + l.size + bsize) r1 hn2 hrm2
  have far2 : ∀ y, y ∈ (fl.erase (s.lo + 8 + total pre2)).erase
      (s.lo + 8 + total pre2 + l.size + bsize) →
      y % 16 = 8 ∧
      ((y + 32 ≤ s.lo + 8 + total pre2 ∧ y ∈ free_addrs (s.lo + 8) pre2) ∨
       (s.lo + 8 + total pre2 + l.size + bsize + c.size + 32 ≤ y ∧
        y ∈ free_addrs (s.lo + 8 + total pre2 + l.size + bsize + c.size) rest)) := by
    intro y hy
    obtain ⟨hy1, hy2⟩ := mem_erase_ne _ _ _ hn2.1 hy
    obtain ⟨hy3, hy4⟩ := mem_erase_ne _ _ _ g.nodup hy1
    exact far y hy3 hy4 hy2
  rw [coalesce_both_eq _ _ _ _ _ _ _ h hl hc]
  refine ⟨?_, rfl⟩
  dsimp only
  refine merge_finish s _ pre2 rest (l.size + bsize + c.size) _ _ _ h.lo_pos h.lo_al h.fits
    h.brk_le h.hs
    (by have := h.brk_eq; rw [total_append] at this; simp only [total] at this; omega)
    h.prologue rfl rfl hseg2 hpa2 (by rw [← er]; exact seg_tail _ _ _ _ hrest hepi) hfr
    ⟨by omega, by omega⟩ (by rw [t2, r2]; rfl) (by rw [t3, r3]; rfl) (by rw [t4, r4]; rfl)
    (by rw [t5, r5]; rfl) ?_ ?_ t1 ?_
  · intro x hx hlk
    have hl3 : ∀ y, y ∈ fl → y ≠ s.lo + 8 + total pre2 → x < y + 8 ∨ y + 24 ≤ x := by
      intro y hy hne
      by_cases hy2 : y = s.lo + 8 + total pre2 + l.size + bsize
      · omega
      · rcases (far y hy hne hy2).2 with hy3 | hy3
        · exact hlk y (List.mem_append_left _ hy3.2)
        · exact hlk y (List.mem_append_right _ (by rw [← er]; exact hy3.2))
    rw [t6 x (fun y hy hne => hl3 y (List.mem_of_mem_erase hy)
      (mem_erase_ne _ _ _ g.nodup hy).2), r6 x hl3, store_mem_out _ _ _ _ (by omega)]
  · have k2 := remove_keeps _ _ _ r1 hn2 hrm2 (s.lo + 8 + total pre2 + (l.size + bsize + c.size))
      (fun y hy hne => by
        obtain ⟨hy3, hy4⟩ := mem_erase_ne _ _ _ g.nodup hy
        have := far y hy3 hy4 hne
        omega)
    have k1 := remove_keeps _ _ _ f1 hn hlm (s.lo + 8 + total pre2 + (l.size + bsize + c.size))
      (fun y hy hne => by
        by_cases hy2 : y = s.lo + 8 + total pre2 + l.size + bsize
        · omega
        · have := far y hy hne hy2
          omega)
    unfold load at k1 k2
    rw [k2, k1, store_mem, read_write_same, Nat.mod_eq_of_lt hvR]
  · have hp := (h.perm.erase (s.lo + 8 + total pre2)).erase
      (s.lo + 8 + total pre2 + l.size + bsize)
    refine hp.trans ?_
    rw [free_addrs_append]
    have hnot : s.lo + 8 + total pre2 ∉ free_addrs (s.lo + 8) pre2 := by
      intro hm
      have := free_addrs_range _ _ (seg_sized _ _ _ _ hseg2) _ hm
      omega
    have hnot2 : s.lo + 8 + total pre2 + l.size + bsize ∉ free_addrs (s.lo + 8) pre2 := by
      intro hm
      have := free_addrs_range _ _ (seg_sized _ _ _ _ hseg2) _ hm
      omega
    rw [List.append_assoc, List.erase_append_right _ hnot]
    simp only [free_addrs, hl, hc, Bool.false_eq_true, if_false, List.cons_append,
      List.nil_append, List.erase_cons_head]
    rw [List.erase_append_right _ hnot2, ea, List.erase_cons_head, er]

/-! ## The arena and `heap_start` are left alone -/

theorem same_refl (s : Heap) : SameArena s s := ⟨rfl, rfl, rfl, rfl⟩

theorem same_trans (s t u : Heap) (h1 : SameArena s t) (h2 : SameArena t u) : SameArena s u :=
  ⟨h2.1.trans h1.1, h2.2.1.trans h1.2.1, h2.2.2.1.trans h1.2.2.1, h2.2.2.2.trans h1.2.2.2⟩

theorem same_store (s : Heap) (a v : Nat) : SameArena s (store s a v) := ⟨rfl, rfl, rfl, rfl⟩

theorem same_set_prev_alloc (s : Heap) (b : Nat) (st : Bool) :
    SameArena s (set_prev_alloc s b st) := by
  unfold set_prev_alloc
  split
  · split <;> exact same_store _ _ _
  · exact same_refl s

theorem same_write_header (s : Heap) (b z : Nat) (al : Bool) :
    SameArena s (write_header s b z al) := same_store _ _ _

theorem same_write_footer (s : Heap) (b z : Nat) (al : Bool) :
    SameArena s (write_footer s b z al) := same_store _ _ _

theorem same_prepend (s : Heap) (b : Nat) : SameArena s (prepend_to_free_list s b) := by
  unfold prepend_to_free_list
  split <;> exact ⟨rfl, rfl, rfl, rfl⟩

theorem same_remove (s : Heap) (b : Nat) : SameArena s (remove_from_free_list s b) := by
  by_cases h : s.free_start = 0
  · have : remove_from_free_list s b = s := by simp [remove_from_free_list, h]
    rw [this]
    exact same_refl s
  · by_cases hp : block_prev s b = 0
    · by_cases hn : block_next s b = 0
      · rw [remove_sole s b h hp hn]
        exact ⟨rfl, rfl, rfl, rfl⟩
      · rw [remove_head s b h hp hn]
        exact ⟨rfl, rfl, rfl, rfl⟩
    · by_cases hn : block_next s b = 0
      · rw [remove_tail s b h hp hn]
        exact ⟨rfl, rfl, rfl, rfl⟩
      · rw [remove_inner s b h hp hn]
        exact ⟨rfl, rfl, rfl, rfl⟩

theorem same_coalesce (s : Heap) (a : Nat) : SameArena s (coalesce s a).1 := by
  unfold coalesce
  dsimp only
  generalize (if find_prev s a = 0 then false
    else extract_prev_alloc (header s a) == 0) = lf
  generalize (if find_next s a = 0 then false else !get_alloc s (find_next s a)) = rf
  cases lf <;> cases rf <;>
    simp only [Bool.and_self, Bool.and_false, Bool.false_and, Bool.false_eq_true, if_true,
      if_false, Bool.and_true]
  · refine same_trans _ _ _ ?_ (same_set_prev_alloc _ _ _)
    exact same_prepend _ _
  · refine same_trans _ _ _ ?_ (same_prepend _ _)
    refine same_trans _ _ _ ?_ (same_set_prev_alloc _ _ _)
    refine same_trans _ _ _ ?_ (same_write_footer _ _ _ _)
    refine same_trans _ _ _ ?_ (same_write_header _ _ _ _)
    refine same_trans _ _ _ ?_ (same_remove _ _)
    exact same_set_prev_alloc _ _ _
  · refine same_trans _ _ _ ?_ (same_prepend _ _)
    refine same_trans _ _ _ ?_ (same_set_prev_alloc _ _ _)
    refine same_trans _ _ _ ?_ (same_set_prev_alloc _ _ _)
    refine same_trans _ _ _ ?_ (same_write_footer _ _ _ _)
    refine same_trans _ _ _ ?_ (same_write_header _ _ _ _)
    exact same_remove _ _
  · refine same_trans _ _ _ ?_ (same_prepend _ _)
    refine same_trans _ _ _ ?_ (same_set_prev_alloc _ _ _)
    refine same_trans _ _ _ ?_ (same_write_footer _ _ _ _)
    refine same_trans _ _ _ ?_ (same_write_header _ _ _ _)
    refine same_trans _ _ _ ?_ (same_remove _ _)
    refine same_trans _ _ _ ?_ (same_remove _ _)
    exact same_set_prev_alloc _ _ _

/-! ## `coalesce` restores the invariant -/

theorem coalesce_spec (s : Heap) (pre : List Blk) (bsize : Nat) (post : List Blk)
    (fl : List Nat) (h : PreCo s pre bsize post fl) :
    ∃ pre2 post2 sz fl2,
      Inv (coalesce s (s.lo + 8 + total pre)).1 (pre2 ++ ⟨sz, false⟩ :: post2)
        ((coalesce s (s.lo + 8 + total pre)).2 :: fl2) ∧
      (coalesce s (s.lo + 8 + total pre)).2 = s.lo + 8 + total pre2 ∧
      bsize ≤ sz ∧
      total pre2 + sz + total post2 = total pre + bsize + total post ∧
      live_ptrs (s.lo + 8) (pre2 ++ ⟨sz, false⟩ :: post2) =
        live_ptrs (s.lo + 8) pre ++ live_ptrs (s.lo + 8 + total pre + bsize) post ∧
      (last_alloc true pre = true → pre2 = pre) := by
  by_cases hpa : last_alloc true pre = true
  · cases post with
    | nil =>
      obtain ⟨h1, h2⟩ := coalesce_none s pre bsize [] fl h hpa rfl
      refine ⟨pre, [], bsize, fl, by rw [h2]; exact h1, h2, Nat.le_refl _, rfl, ?_, fun _ => rfl⟩
      rw [live_ptrs_append]
      simp [live_ptrs]
    | cons c rest =>
      by_cases hc : c.alloc = true
      · obtain ⟨h1, h2⟩ := coalesce_none s pre bsize (c :: rest) fl h hpa hc
        refine ⟨pre, c :: rest, bsize, fl, by rw [h2]; exact h1, h2, Nat.le_refl _, rfl, ?_,
          fun _ => rfl⟩
        rw [live_ptrs_append]
        simp [live_ptrs]
      · have hc2 : c.alloc = false := by simpa using hc
        obtain ⟨h1, h2⟩ := coalesce_right s pre bsize c rest fl h hpa hc2
        refine ⟨pre, rest, bsize + c.size, _, by rw [h2]; exact h1, h2, by omega,
          by simp only [total]; omega, ?_, fun _ => rfl⟩
        rw [live_ptrs_append]
        simp only [live_ptrs, hc2, Bool.false_eq_true, if_false]
        congr 2
        omega
  · have hpa2 : last_alloc true pre = false := by simpa using hpa
    obtain ⟨pre2, l, rfl, hl⟩ := last_alloc_false _ _ hpa2 rfl
    have ht : total (pre2 ++ [l]) = total pre2 + l.size := by
      rw [total_append]
      simp [total]
    cases post with
    | nil =>
      obtain ⟨h1, h2⟩ := coalesce_left s pre2 l bsize [] fl h hl rfl
      refine ⟨pre2, [], l.size + bsize, _, by rw [h2]; exact h1, h2, by omega,
        by rw [ht]; omega, ?_, fun hx => absurd hx hpa⟩
      rw [live_ptrs_append, live_ptrs_append]
      simp [live_ptrs, hl]
    | cons c rest =>
      by_cases hc : c.alloc = true
      · obtain ⟨h1, h2⟩ := coalesce_left s pre2 l bsize (c :: rest) fl h hl hc
        refine ⟨pre2, c :: rest, l.size + bsize, _, by rw [h2]; exact h1, h2, by omega,
          by rw [ht]; omega, ?_, fun hx => absurd hx hpa⟩
        rw [live_ptrs_append, live_ptrs_append]
        simp only [live_ptrs, hl, Bool.false_eq_true, if_false, hc, if_true, List.append_nil]
        rw [ht]
        congr 3 <;> omega
      · have hc2 : c.alloc = false := by simpa using hc
        obtain ⟨h1, h2⟩ := coalesce_both s pre2 l bsize c rest fl h hl hc2
        refine ⟨pre2, rest, l.size + bsize + c.size, _, by rw [h2]; exact h1, h2, by omega,
          by rw [ht]; simp only [total]; omega, ?_, fun hx => absurd hx hpa⟩
        rw [live_ptrs_append, live_ptrs_append]
        simp only [live_ptrs, hl, hc2, Bool.false_eq_true, if_false, List.append_nil]
        rw [ht]
        congr 2
        omega

/-! ## `free` -/

theorem tail_frame (m n : Mem) (a : Nat) (post : List Blk)
    (hmn : ∀ x, a ≤ x → n x = m x) (h : Tail m a post) : Tail n a post := by
  cases post with
  | nil =>
    obtain ⟨q, hq⟩ := h
    exact ⟨q, (read_word_congr _ _ _ (fun x h1 _ => hmn x h1)).trans hq⟩
  | cons c rest =>
    obtain ⟨⟨q, hc⟩, hrest, hepi⟩ := h
    refine ⟨⟨q, blockat_congr m n a q c ?_ ?_ hc⟩, ?_, ?_⟩
    · exact read_word_congr _ _ _ (fun x h1 _ => hmn x h1)
    · intro _
      exact read_word_congr _ _ _ (fun x h1 _ => hmn x (by have := hc.2.1; omega))
    · exact seg_frame m n _ _ _ (fun x h1 _ => hmn x (by omega)) hrest
    · exact (read_word_congr _ _ _ (fun x h1 _ => hmn x (by omega))).trans hepi

/-- The facts about an allocated block of a well-formed heap. -/
theorem inv_block (s : Heap) (pre : List Blk) (b : Blk) (post : List Blk) (fl : List Nat)
    (h : Inv s (pre ++ b :: post) fl) :
    Seg s.mem (s.lo + 8) true pre ∧
    BlockAt s.mem (s.lo + 8 + total pre) (last_alloc true pre) b ∧
    (b.alloc = false → last_alloc true pre = true) ∧
    Seg s.mem (s.lo + 8 + total pre + b.size) b.alloc post ∧
    read_word s.mem (s.lo + 8 + total pre + b.size + total post) =
      hd 0 true (last_alloc b.alloc post) ∧
    s.brk = total pre + b.size + total post + 16 := by
  have hseg := h.seg
  rw [seg_append] at hseg
  obtain ⟨h1, h2, h3, h4⟩ := hseg
  have hepi := h.epi
  rw [total_append, last_alloc_append] at hepi
  simp only [total, last_alloc] at hepi
  have hb := h.brk_eq
  rw [total_append] at hb
  simp only [total] at hb
  refine ⟨h1, h2, h3, h4, ?_, by omega⟩
  rw [← hepi]
  congr 1
  omega

/-- Turning an allocated block into a free block with a header and a footer
gives the state that `coalesce` expects. -/
theorem release_preco (s : Heap) (pre : List Blk) (size : Nat) (post : List Blk)
    (fl : List Nat) (h : Inv s (pre ++ ⟨size, true⟩ :: post) fl) :
    PreCo (store (store (store s (s.lo + 8 + total pre) (hd size false false))
      (s.lo + 8 + total pre + size - 8) (hd size false false))
      (s.lo + 8 + total pre) (hd size false (last_alloc true pre))) pre size post fl := by
  have hW : W = 18446744073709551616 := rfl
  obtain ⟨hpre, hb, -, hpost, hepi, hbrk⟩ := inv_block _ _ _ _ _ h
  dsimp only at hb hpost hepi hbrk
  have hb16 : size % 16 = 0 := hb.1
  have hb32 : 32 ≤ size := hb.2.1
  have hhd : read_word s.mem (s.lo + 8 + total pre) = hd size true (last_alloc true pre) :=
    hb.2.2.1
  have hlo := h.lo_al
  have hfits := h.fits
  have hble := h.brk_le
  have hszpre := seg_sized _ _ _ _ hpre
  have hszpost := seg_sized _ _ _ _ hpost
  have htp := total_mod _ hszpre
  have hv0 : hd size false false < W := hd_lt _ _ _ hb16 (by omega)
  have hv1 : hd size false (last_alloc true pre) < W := hd_lt _ _ _ hb16 (by omega)
  have out : ∀ x, (x < s.lo + 8 + total pre ∨ s.lo + 8 + total pre + size ≤ x) →
      (store (store (store s (s.lo + 8 + total pre) (hd size false false))
        (s.lo + 8 + total pre + size - 8) (hd size false false))
        (s.lo + 8 + total pre) (hd size false (last_alloc true pre))).mem x = s.mem x := by
    intro x hx
    rw [store_mem_out _ _ _ _ (by omega), store_mem_out _ _ _ _ (by omega),
      store_mem_out _ _ _ _ (by omega)]
  refine ⟨h.lo_pos, h.lo_al, h.fits, h.brk_le, h.hs, hbrk, ?_, ?_, ?_, ?_, ?_, ?_⟩ <;>
    simp only [store_lo, store_free_start]
  · exact (read_word_congr _ _ _ (fun x h1 h2 => out x (by omega))).trans h.prologue
  · exact seg_frame _ _ _ _ _ (fun x h1 h2 => out x (by omega)) hpre
  · refine ⟨hb16, hb32, ?_, fun _ => ?_⟩
    · rw [store_mem, read_write_same, Nat.mod_eq_of_lt hv1]
    · dsimp only
      rw [store_mem, read_write_other _ _ _ _ (by omega), store_mem, read_write_same,
        Nat.mod_eq_of_lt hv0]
      simp [hd]
  · exact tail_frame _ _ _ _ (fun x h1 => out x (by omega)) (seg_tail _ _ _ _ hpost hepi)
  · have hnode : ∀ y, y ∈ fl → y + 32 ≤ s.lo + 8 + total pre ∨
        s.lo + 8 + total pre + size ≤ y := by
      intro y hy
      have hy2 := h.perm.subset hy
      rw [free_addrs_append] at hy2
      simp only [free_addrs, if_true] at hy2
      rcases List.mem_append.1 hy2 with hy3 | hy3
      · have := free_addrs_range _ _ hszpre _ hy3
        omega
      · have := free_addrs_range _ _ hszpost _ hy3
        omega
    refine flist_store _ _ _ _ _ (fun y hy => by have := hnode y hy; omega) ?_
    refine flist_store _ _ _ _ _ (fun y hy => by have := hnode y hy; omega) ?_
    exact flist_store _ _ _ _ _ (fun y hy => by have := hnode y hy; omega) h.flist
  · have hp := h.perm
    rw [free_addrs_append] at hp
    simpa [free_addrs] using hp

theorem free_eq (s : Heap) (pre : List Blk) (size : Nat) (post : List Blk)
    (fl : List Nat) (h : Inv s (pre ++ ⟨size, true⟩ :: post) fl) :
    free s (s.lo + 8 + total pre + 8) =
      (coalesce (store (store (store s (s.lo + 8 + total pre) (hd size false false))
        (s.lo + 8 + total pre + size - 8) (hd size false false))
        (s.lo + 8 + total pre) (hd size false (last_alloc true pre)))
        (s.lo + 8 + total pre)).1 := by
  have hW : W = 18446744073709551616 := rfl
  obtain ⟨hpre, hb, -, hpost, hepi, hbrk⟩ := inv_block _ _ _ _ _ h
  dsimp only at hb hpost hepi hbrk
  have hb16 : size % 16 = 0 := hb.1
  have hb32 : 32 ≤ size := hb.2.1
  have hhd : read_word s.mem (s.lo + 8 + total pre) = hd size true (last_alloc true pre) :=
    hb.2.2.1
  have hfits := h.fits
  have hble := h.brk_le
  have hv0 : hd size false false < W := hd_lt _ _ _ hb16 (by omega)
  have e0 : payload_to_header (s.lo + 8 + total pre + 8) = s.lo + 8 + total pre := by
    unfold payload_to_header
    rw [wsub_eq _ _ (by omega) (by omega)]
    omega
  have e1 : get_size s (s.lo + 8 + total pre) = size :=
    get_size_eq s _ size true _ hhd hb16 (by omega)
  have e2 : (extract_prev_alloc (header s (s.lo + 8 + total pre)) != 0) =
      last_alloc true pre := by
    rw [prev_alloc_eq s _ size true _ hhd hb16]
    cases last_alloc true pre <;> rfl
  unfold free
  rw [if_neg (by omega)]
  simp only [e0, e1, e2]
  rw [write_header_eq _ _ _ _ hb16]
  rw [write_footer_eq _ _ size _ _
    (get_size_eq _ _ _ false false (load_store_eq _ _ _ hv0) hb16 (by omega))
    (by omega) (by omega) hb16]
  rw [set_prev_alloc_eq _ _ size false false _ (by omega)
    (by rw [load_store_ne _ _ _ _ (by omega), load_store_eq _ _ _ hv0]) hb16 (by omega)]

theorem free_good (s : Heap) (live : List Nat) (p : Nat) (h : Good s live) (hp : p ∈ live) :
    Good (free s p) (live.erase p) ∧ SameArena s (free s p) := by
  obtain ⟨bs, fl, hinv, hperm⟩ := h
  obtain ⟨pre, b, post, rfl, hb, rfl⟩ := live_ptrs_split _ _ _ (hperm.subset hp)
  obtain ⟨size, al⟩ := b
  dsimp only at hb
  subst hb
  have hpc := release_preco _ _ _ _ _ hinv
  have heq := free_eq _ _ _ _ _ hinv
  obtain ⟨pre2, post2, sz, fl2, h1, h2, h3, h4, h5, -⟩ := coalesce_spec _ _ _ _ _ hpc
  have hsame := same_coalesce (store (store (store s (s.lo + 8 + total pre) (hd size false false))
        (s.lo + 8 + total pre + size - 8) (hd size false false))
        (s.lo + 8 + total pre) (hd size false (last_alloc true pre))) (s.lo + 8 + total pre)
  have hlo : (free s (s.lo + 8 + total pre + 8)).lo = s.lo := by
    rw [heq, hsame.1]
    rfl
  refine ⟨⟨_, _, by rw [heq]; exact h1, ?_⟩, by rw [heq]; exact hsame⟩
  rw [hlo]
  simp only [store_lo] at h5
  rw [h5]
  have hszs := seg_sized _ _ _ _ hinv.seg
  have hnd := live_ptrs_nodup (s.lo + 8) _ hszs
  have hp2 := hperm.erase (s.lo + 8 + total pre + 8)
  refine hp2.trans ?_
  rw [live_ptrs_append]
  have hnot : s.lo + 8 + total pre + 8 ∉ live_ptrs (s.lo + 8) pre := by
    intro hm
    have := live_ptrs_range _ _ ((sized_append _ _).1 hszs).1 _ hm
    omega
  rw [List.erase_append_right _ hnot]
  simp [live_ptrs]

/-! ## `extend_heap` -/

theorem round_up_eq (size : Nat) (h16 : size % 16 = 0) (hw : size + 15 < W) :
    round_up size dsize = size := by
  have hW : W = 18446744073709551616 := rfl
  have hd16 : dsize = 16 := rfl
  unfold round_up
  rw [hd16, wsub_eq 16 1 (by omega) (by omega), wadd_eq _ _ (by omega), wmul_eq _ _ (by omega)]
  omega

theorem round_up_ge (size : Nat) (hw : size + 15 < W) :
    round_up size dsize % 16 = 0 ∧ size ≤ round_up size dsize ∧
      round_up size dsize < size + 16 := by
  have hW : W = 18446744073709551616 := rfl
  have hd16 : dsize = 16 := rfl
  unfold round_up
  rw [hd16, wsub_eq 16 1 (by omega) (by omega), wadd_eq _ _ (by omega), wmul_eq _ _ (by omega)]
  omega

theorem extend_fail (s : Heap) (size : Nat) (h16 : size % 16 = 0) (hw : size + 15 < W)
    (hc : ¬ s.brk + size ≤ s.cap) : extend_heap s size = (s, 0) := by
  unfold extend_heap
  simp only [round_up_eq size h16 hw, mem_sbrk, if_neg hc]

/-- The state on which `extend_heap` calls `coalesce`. -/
theorem extend_eq (s : Heap) (bs : List Blk) (fl : List Nat) (size : Nat)
    (h : Inv s bs fl) (h16 : size % 16 = 0) (h32 : 32 ≤ size)
    (hc : s.brk + size ≤ s.cap) :
    extend_heap s size =
      coalesce (store (store (store (store { s with brk := s.brk + size }
        (s.lo + 8 + total bs) (hd size false false))
        (s.lo + 8 + total bs + size - 8) (hd size false false))
        (s.lo + 8 + total bs) (hd size false (last_alloc true bs)))
        (s.lo + 8 + total bs + size) (hd 0 true false)) (s.lo + 8 + total bs) := by
  have hW : W = 18446744073709551616 := rfl
  have hfits := h.fits
  have hble := h.brk_le
  have hbrk := h.brk_eq
  have hv0 : hd size false false < W := hd_lt _ _ _ h16 (by omega)
  have hv1 : hd size false (last_alloc true bs) < W := hd_lt _ _ _ h16 (by omega)
  have e0 : payload_to_header (s.lo + s.brk) = s.lo + 8 + total bs := by
    unfold payload_to_header
    rw [wsub_eq _ _ (by omega) (by omega)]
    omega
  have hepi : load { s with brk := s.brk + size } (s.lo + 8 + total bs) =
      hd 0 true (last_alloc true bs) := h.epi
  have e2 : (extract_prev_alloc (header { s with brk := s.brk + size }
      (s.lo + 8 + total bs)) != 0) = last_alloc true bs := by
    rw [prev_alloc_eq _ _ 0 true _ hepi rfl]
    cases last_alloc true bs <;> rfl
  unfold extend_heap
  simp only [round_up_eq size h16 (by omega), mem_sbrk, if_pos hc, e0, e2]
  rw [write_header_eq _ _ _ _ h16]
  rw [write_footer_eq _ _ size _ _
    (get_size_eq _ _ _ false false (load_store_eq _ _ _ hv0) h16 (by omega))
    (by omega) (by omega) h16]
  rw [set_prev_alloc_eq _ _ size false false _ (by omega)
    (by rw [load_store_ne _ _ _ _ (by omega), load_store_eq _ _ _ hv0]) h16 (by omega)]
  rw [find_next_eq _ _ size
    (get_size_eq _ _ _ false _ (load_store_eq _ _ _ hv1) h16 (by omega)) (by omega)]
  rw [write_header_eq _ _ _ _ (by rfl)]

theorem extend_preco (s : Heap) (bs : List Blk) (fl : List Nat) (size : Nat)
    (h : Inv s bs fl) (h16 : size % 16 = 0) (h32 : 32 ≤ size)
    (hc : s.brk + size ≤ s.cap) :
    PreCo (store (store (store (store { s with brk := s.brk + size }
        (s.lo + 8 + total bs) (hd size false false))
        (s.lo + 8 + total bs + size - 8) (hd size false false))
        (s.lo + 8 + total bs) (hd size false (last_alloc true bs)))
        (s.lo + 8 + total bs + size) (hd 0 true false)) bs size [] fl := by
  have hW : W = 18446744073709551616 := rfl
  have hfits := h.fits
  have hble := h.brk_le
  have hbrk := h.brk_eq
  have hlo := h.lo_al
  have hszs := seg_sized _ _ _ _ h.seg
  have htp := total_mod _ hszs
  have hv0 : hd size false false < W := hd_lt _ _ _ h16 (by omega)
  have hv1 : hd size false (last_alloc true bs) < W := hd_lt _ _ _ h16 (by omega)
  have out : ∀ x, x < s.lo + 8 + total bs →
      (store (store (store (store { s with brk := s.brk + size }
        (s.lo + 8 + total bs) (hd size false false))
        (s.lo + 8 + total bs + size - 8) (hd size false false))
        (s.lo + 8 + total bs) (hd size false (last_alloc true bs)))
        (s.lo + 8 + total bs + size) (hd 0 true false)).mem x = s.mem x := by
    intro x hx
    rw [store_mem_out _ _ _ _ (by omega), store_mem_out _ _ _ _ (by omega),
      store_mem_out _ _ _ _ (by omega), store_mem_out _ _ _ _ (by omega)]
  refine ⟨h.lo_pos, h.lo_al, h.fits, hc, h.hs, ?_, ?_, ?_, ?_, ?_, ?_, ?_⟩ <;>
    simp only [store_lo, store_free_start, store_brk, total]
  · omega
  · exact (read_word_congr _ _ _ (fun x h1 h2 => out x (by omega))).trans h.prologue
  · exact seg_frame _ _ _ _ _ (fun x h1 h2 => out x (by omega)) h.seg
  · refine ⟨h16, h32, ?_, fun _ => ?_⟩
    · rw [store_mem, read_write_other _ _ _ _ (by omega), store_mem, read_write_same,
        Nat.mod_eq_of_lt hv1]
    · dsimp only
      rw [store_mem, read_write_other _ _ _ _ (by omega), store_mem,
        read_write_other _ _ _ _ (by omega), store_mem, read_write_same, Nat.mod_eq_of_lt hv0]
      simp [hd]
  · refine ⟨false, ?_⟩
    rw [store_mem, read_write_same]
    rfl
  · have hnode : ∀ y, y ∈ fl → y + 32 ≤ s.lo + 8 + total bs := by
      intro y hy
      have := free_addrs_range _ _ hszs _ (h.perm.subset hy)
      omega
    refine flist_store _ _ _ _ _ (fun y hy => by have := hnode y hy; omega) ?_
    refine flist_store _ _ _ _ _ (fun y hy => by have := hnode y hy; omega) ?_
    refine flist_store _ _ _ _ _ (fun y hy => by have := hnode y hy; omega) ?_
    exact flist_store _ _ _ _ _ (fun y hy => by have := hnode y hy; omega) h.flist
  · simpa [free_addrs] using h.perm

theorem extend_spec (s : Heap) (bs : List Blk) (fl : List Nat) (size : Nat)
    (h : Inv s bs fl) (h16 : size % 16 = 0) (h32 : 32 ≤ size)
    (hc : s.brk + size ≤ s.cap) :
    ∃ pre2 post2 sz fl2,
      Inv (extend_heap s size).1 (pre2 ++ ⟨sz, false⟩ :: post2)
        ((extend_heap s size).2 :: fl2) ∧
      (extend_heap s size).2 = s.lo + 8 + total pre2 ∧ size ≤ sz ∧
      live_ptrs (s.lo + 8) (pre2 ++ ⟨sz, false⟩ :: post2) = live_ptrs (s.lo + 8) bs ∧
      (extend_heap s size).1.lo = s.lo := by
  have hpc := extend_preco s bs fl size h h16 h32 hc
  have heq := extend_eq s bs fl size h h16 h32 hc
  obtain ⟨pre2, post2, sz, fl2, h1, h2, h3, h4, h5, -⟩ := coalesce_spec _ _ _ _ _ hpc
  have hsame := same_coalesce (store (store (store (store { s with brk := s.brk + size }
        (s.lo + 8 + total bs) (hd size false false))
        (s.lo + 8 + total bs + size - 8) (hd size false false))
        (s.lo + 8 + total bs) (hd size false (last_alloc true bs)))
        (s.lo + 8 + total bs + size) (hd 0 true false)) (s.lo + 8 + total bs)
  simp only [store_lo] at h1 h2 h5
  refine ⟨pre2, post2, sz, fl2, by rw [heq]; exact h1, by rw [heq]; exact h2, h3, ?_, ?_⟩
  · rw [h5]
    simp [live_ptrs]
  · rw [heq, hsame.1]
    rfl

/-! ## `mm_init` -/

theorem init_eq (s : Heap) (hb : Boot s) (hc : 16 ≤ s.cap) :
    mm_init s =
      if (extend_heap (init_state s) chunksize).2 = 0
      then ((extend_heap (init_state s) chunksize).1, false)
      else ((extend_heap (init_state s) chunksize).1, true) := by
  have hW : W = 18446744073709551616 := rfl
  obtain ⟨h1, h2, h3, h4, h5, h6⟩ := hb
  have e8 : wadd s.lo 8 = s.lo + 8 := wadd_eq _ _ (by omega)
  have hv : hd 0 true false < W := by decide
  have hsb : mem_sbrk s (2 * wsize) = some ({ s with brk := 16 }, s.lo) := by
    unfold mem_sbrk
    rw [if_pos (by rw [h3]; exact hc), h3]
    rfl
  have hl : load { (store (store { s with brk := 16 } s.lo (hd 0 true false))
      (s.lo + 8) (hd 0 true false)) with heap_start := s.lo + 8 } (s.lo + 8) =
      hd 0 true false := load_store_eq _ _ _ hv
  have hsp := set_prev_alloc_eq { (store (store { s with brk := 16 } s.lo (hd 0 true false))
      (s.lo + 8) (hd 0 true false)) with heap_start := s.lo + 8 } (s.lo + 8) 0 true false true
      (by omega) hl rfl (by omega)
  unfold mm_init
  simp only [hsb, e8]
  rw [pack_eq 0 true rfl, hsp]
  rfl

theorem init_inv (s : Heap) (hb : Boot s) (hc : 16 ≤ s.cap) : Inv (init_state s) [] [] := by
  have hW : W = 18446744073709551616 := rfl
  obtain ⟨h1, h2, h3, h4, h5, h6⟩ := hb
  have hv : hd 0 true false < W := by decide
  have hv2 : hd 0 true true < W := by decide
  refine ⟨h4, h5, h6, hc, rfl, ?_, ?_, trivial, ?_, ?_, List.Perm.refl _⟩
  · show 16 = 16 + total []
    rfl
  · show read_word (write_word (write_word (write_word s.mem s.lo (hd 0 true false))
      (s.lo + 8) (hd 0 true false)) (s.lo + 8) (hd 0 true true)) s.lo = hd 0 true false
    rw [read_write_other _ _ _ _ (by omega), read_write_other _ _ _ _ (by omega),
      read_write_same]
    rfl
  · show read_word (write_word (write_word (write_word s.mem s.lo (hd 0 true false))
      (s.lo + 8) (hd 0 true false)) (s.lo + 8) (hd 0 true true)) (s.lo + 8 + total []) = _
    show read_word _ (s.lo + 8 + 0) = _
    rw [Nat.add_zero, read_write_same]
    rfl
  · exact rfl

theorem init_good (s : Heap) (hb : Boot s) (hr : (mm_init s).2 = true) :
    Good (mm_init s).1 [] ∧ (mm_init s).1.lo = s.lo := by
  have hW : W = 18446744073709551616 := rfl
  by_cases hc : 16 ≤ s.cap
  · rw [init_eq s hb hc] at hr ⊢
    by_cases he : (extend_heap (init_state s) chunksize).2 = 0
    · rw [if_pos he] at hr
      cases hr
    · rw [if_neg he]
      have hi := init_inv s hb hc
      by_cases hcap : (init_state s).brk + chunksize ≤ (init_state s).cap
      · obtain ⟨pre2, post2, sz, fl2, h1, h2, h3, h4, h5⟩ :=
          extend_spec (init_state s) [] [] chunksize hi (by decide) (by decide) hcap
        refine ⟨⟨_, _, h1, ?_⟩, h5⟩
        have hlo : (extend_heap (init_state s) chunksize).1.lo = (init_state s).lo := h5
        rw [hlo, h4]
        exact List.Perm.refl _
      · exact absurd (congrArg Prod.snd (extend_fail (init_state s) chunksize (by decide)
          (by decide) (by omega))) he
  · exfalso
    have : mm_init s = (s, false) := by
      unfold mm_init mem_sbrk
      rw [if_neg (by rw [hb.2.2.1]; exact hc)]
    rw [this] at hr
    cases hr

/-! ## Rebuilding the invariant around one allocated block -/

theorem tail_sized2 (m : Mem) (a : Nat) (post : List Blk) (h : Tail m a post) : Sized post := by
  cases post with
  | nil => intro b hb; simp at hb
  | cons c rest =>
    obtain ⟨⟨q, hc⟩, hrest, -⟩ := h
    exact (sized_cons c rest).2 ⟨⟨hc.1, hc.2.1⟩, seg_sized _ _ _ _ hrest⟩

theorem inv_nodes (s : Heap) (bs : List Blk) (fl : List Nat) (h : Inv s bs fl) : Nodes fl := by
  have hW : W = 18446744073709551616 := rfl
  have hsz := seg_sized _ _ _ _ h.seg
  refine ⟨(h.perm.nodup_iff).2 (free_addrs_nodup _ _ hsz), fun x hx => ?_⟩
  have := free_addrs_range _ _ hsz _ (h.perm.subset hx)
  have := h.lo_al
  have := h.fits
  have := h.brk_le
  have := h.brk_eq
  omega

theorem rebuild_alloc (s t : Heap) (pre post : List Blk) (sz : Nat) (fl2 : List Nat)
    (lo_pos : 0 < s.lo) (lo_al : s.lo % 16 = 0) (fits : s.lo + s.cap < W)
    (brk_le : s.brk ≤ s.cap) (hs : s.heap_start = s.lo + 8)
    (brk_eq : s.brk = total pre + sz + total post + 16)
    (prologue : read_word s.mem s.lo = 1)
    (hpre : Seg s.mem (s.lo + 8) true pre)
    (htail : Tail s.mem (s.lo + 8 + total pre + sz) post)
    (hsz : sz % 16 = 0 ∧ 32 ≤ sz)
    (tlo : t.lo = s.lo) (tbrk : t.brk = s.brk) (tcap : t.cap = s.cap)
    (ths : t.heap_start = s.heap_start)
    (hframe : ∀ x, (x < s.lo + 8 + total pre ∨ s.lo + 8 + total pre + 8 ≤ x) →
      (x < s.lo + 8 + total pre + sz ∨ s.lo + 8 + total pre + sz + 8 ≤ x) →
      (∀ y, y ∈ free_addrs (s.lo + 8) pre ++ free_addrs (s.lo + 8 + total pre + sz) post →
        x < y + 8 ∨ y + 24 ≤ x) → t.mem x = s.mem x)
    (hL : read_word t.mem (s.lo + 8 + total pre) = hd sz true (last_alloc true pre))
    (hR : read_word t.mem (s.lo + 8 + total pre + sz) =
      hd (first_size post) (first_alloc post) true)
    (hfl : FList t.mem 0 t.free_start fl2)
    (hperm : fl2.Perm
      (free_addrs (s.lo + 8) pre ++ free_addrs (s.lo + 8 + total pre + sz) post)) :
    Inv t (pre ++ ⟨sz, true⟩ :: post) fl2 := by
  have hszpre := seg_sized _ _ _ _ hpre
  have hszpost : Sized post := tail_sized2 _ _ _ htail
  have hnode : ∀ y, y ∈ free_addrs (s.lo + 8) pre ++
      free_addrs (s.lo + 8 + total pre + sz) post →
      (s.lo + 8 ≤ y ∧ y + 32 ≤ s.lo + 8 + total pre) ∨
      (s.lo + 8 + total pre + sz ≤ y ∧ y + 32 ≤ s.lo + 8 + total pre + sz + total post) := by
    intro y hy
    rcases List.mem_append.1 hy with hy | hy
    · have := free_addrs_range _ _ hszpre _ hy
      exact Or.inl ⟨this.1, this.2.1⟩
    · have := free_addrs_range _ _ hszpost _ hy
      exact Or.inr ⟨this.1, this.2.1⟩
  refine ⟨by rw [tlo]; exact lo_pos, by rw [tlo]; exact lo_al, by rw [tlo, tcap]; exact fits,
    by rw [tbrk, tcap]; exact brk_le, by rw [ths, tlo]; exact hs, ?_, ?_, ?_, ?_, hfl, ?_⟩
  · rw [tbrk, brk_eq, total_append]
    simp only [total]
    omega
  · rw [tlo, ← prologue]
    refine read_word_congr _ _ _ (fun x h1 h2 => hframe x (by omega) (by omega) (fun y hy => ?_))
    have := hnode y hy
    omega
  · rw [tlo, seg_append]
    constructor
    · refine seg_frame_links _ _ _ _ _
        (fun x h1 h2 hl => hframe x (by omega) (by omega) (fun y hy => ?_)) hpre
      rcases List.mem_append.1 hy with hy | hy
      · exact hl y hy
      · have := free_addrs_range _ _ hszpost _ hy
        omega
    · have hcf : (true = false) → False := fun h => by cases h
      refine ⟨⟨hsz.1, hsz.2, hL, fun hc => (hcf hc).elim⟩, fun hc => (hcf hc).elim, ?_⟩
      show Seg t.mem (s.lo + 8 + total pre + sz) true post
      cases post with
      | nil => trivial
      | cons c rest =>
        obtain ⟨⟨q, hc⟩, hrest, -⟩ := htail
        have hc32 := hc.2.1
        refine ⟨⟨hc.1, hc.2.1, hR, fun hf => ?_⟩, fun _ => rfl, ?_⟩
        · refine Eq.trans ?_ (hc.2.2.2 hf)
          refine read_word_congr _ _ _
            (fun x h1 h2 => hframe x (by omega) (by omega) (fun y hy => ?_))
          rcases List.mem_append.1 hy with hy | hy
          · have := free_addrs_range _ _ hszpre _ hy
            omega
          · exact meta_not_link _ _ hszpost x y hy (Or.inr (Or.inl ⟨hf, by omega, by omega⟩))
        · refine seg_frame_links _ _ _ _ _
            (fun x h1 h2 hl => hframe x (by omega) (by omega) (fun y hy => ?_)) hrest
          rcases List.mem_append.1 hy with hy | hy
          · have := free_addrs_range _ _ hszpre _ hy
            omega
          · simp only [free_addrs] at hy
            split at hy
            · exact hl y hy
            · rcases List.mem_cons.1 hy with rfl | hy
              · omega
              · exact hl y hy
  · rw [tlo, total_append, last_alloc_append]
    simp only [total, last_alloc]
    cases post with
    | nil =>
      simp only [total, last_alloc, first_size, first_alloc] at hR ⊢
      rw [← hR]
      congr 1
      omega
    | cons c rest =>
      obtain ⟨⟨q, hc⟩, hrest, hepi⟩ := htail
      simp only [total, last_alloc]
      rw [← hepi]
      have e : s.lo + 8 + (total pre + (sz + (c.size + total rest))) =
          s.lo + 8 + total pre + sz + c.size + total rest := by omega
      rw [e]
      refine read_word_congr _ _ _ (fun x h1 h2 => hframe x (by have := hc.2.1; omega)
        (by have := hc.2.1; omega) (fun y hy => ?_))
      have := hnode y hy
      simp only [total] at this
      omega
  · rw [tlo, free_addrs_append]
    simp only [free_addrs, if_true]
    have e : s.lo + 8 + total pre + sz = s.lo + 8 + total pre + sz := rfl
    exact hperm

/-! ## `place` without a split -/

theorem perm_erase_block (fl : List Nat) (a : Nat) (pre : List Blk) (sz : Nat) (post : List Blk)
    (hsz : Sized (pre ++ ⟨sz, false⟩ :: post))
    (hp : fl.Perm (free_addrs a (pre ++ ⟨sz, false⟩ :: post))) :
    (fl.erase (a + total pre)).Perm (free_addrs a pre ++ free_addrs (a + total pre + sz) post) := by
  refine (hp.erase (a + total pre)).trans ?_
  rw [free_addrs_append]
  have hnot : a + total pre ∉ free_addrs a pre := by
    intro hm
    have := free_addrs_range _ _ ((sized_append _ _).1 hsz).1 _ hm
    omega
  rw [List.erase_append_right _ hnot]
  simp [free_addrs]

theorem block_nodes (s : Heap) (pre : List Blk) (b : Blk) (post : List Blk) (fl : List Nat)
    (h : Inv s (pre ++ b :: post) fl) (y : Nat) (hy : y ∈ fl) :
    (y + 32 ≤ s.lo + 8 + total pre ∧ y ∈ free_addrs (s.lo + 8) pre) ∨
    (y = s.lo + 8 + total pre ∧ b.alloc = false) ∨
    (s.lo + 8 + total pre + b.size ≤ y ∧
      y ∈ free_addrs (s.lo + 8 + total pre + b.size) post) := by
  have hsz := seg_sized _ _ _ _ h.seg
  have hy2 := h.perm.subset hy
  rw [free_addrs_append] at hy2
  simp only [free_addrs] at hy2
  rcases List.mem_append.1 hy2 with hy3 | hy3
  · have := free_addrs_range _ _ ((sized_append _ _).1 hsz).1 _ hy3
    exact Or.inl ⟨by omega, hy3⟩
  · have hszpost := ((sized_cons _ _).1 ((sized_append _ _).1 hsz).2).2
    split at hy3
    · have := free_addrs_range _ _ hszpost _ hy3
      exact Or.inr (Or.inr ⟨by omega, hy3⟩)
    · rename_i hb
      rcases List.mem_cons.1 hy3 with rfl | hy3
      · exact Or.inr (Or.inl ⟨rfl, by simpa using hb⟩)
      · have := free_addrs_range _ _ hszpost _ hy3
        exact Or.inr (Or.inr ⟨by omega, hy3⟩)

/-- Taking a free block out of the free list once its header says allocated and
the block after it has its `prev_alloc` flag set. -/
theorem alloc_finish (s u : Heap) (pre : List Blk) (csize : Nat) (post : List Blk)
    (fl : List Nat) (h : Inv s (pre ++ ⟨csize, false⟩ :: post) fl)
    (hsame : SameArena s u) (hfs : u.free_start = s.free_start)
    (hframe : ∀ x, (x < s.lo + 8 + total pre ∨ s.lo + 8 + total pre + 8 ≤ x) →
      (x < s.lo + 8 + total pre + csize ∨ s.lo + 8 + total pre + csize + 8 ≤ x) →
      u.mem x = s.mem x)
    (hL : read_word u.mem (s.lo + 8 + total pre) = hd csize true true)
    (hR : read_word u.mem (s.lo + 8 + total pre + csize) =
      hd (first_size post) (first_alloc post) true) :
    Inv (remove_from_free_list u (s.lo + 8 + total pre)) (pre ++ ⟨csize, true⟩ :: post)
      (fl.erase (s.lo + 8 + total pre)) := by
  have hW : W = 18446744073709551616 := rfl
  obtain ⟨hpre, hb, hpa, hpost, hepi, hbrk⟩ := inv_block _ _ _ _ _ h
  have hpa1 : last_alloc true pre = true := hpa rfl
  have hb32 : 32 ≤ csize := hb.2.1
  have hnodes := inv_nodes _ _ _ h
  have hszs := seg_sized _ _ _ _ h.seg
  have hmem : s.lo + 8 + total pre ∈ fl := by
    refine h.perm.symm.subset ?_
    rw [free_addrs_append]
    simp [free_addrs]
  have hnode := block_nodes _ _ _ _ _ h
  dsimp only at hnode hpost hepi hbrk
  have hfu : FList u.mem 0 u.free_start fl := by
    rw [hfs]
    refine fseg_congr _ _ _ _ _ _ (fun y hy => ?_) h.flist
    have := hnode y hy
    have := (hnodes.2 y hy).1
    constructor <;>
      exact read_word_congr _ _ _ (fun x h1 h2 => hframe x (by omega) (by omega))
  obtain ⟨r1, r2, r3, r4, r5, r6⟩ := remove_spec u fl _ hfu hnodes hmem
  have hperm := perm_erase_block fl (s.lo + 8) pre csize post hszs h.perm
  have hfr : ∀ x, (∀ y, y ∈ free_addrs (s.lo + 8) pre ++
      free_addrs (s.lo + 8 + total pre + csize) post → x < y + 8 ∨ y + 24 ≤ x) →
      (remove_from_free_list u (s.lo + 8 + total pre)).mem x = u.mem x := by
    intro x hx
    refine r6 x (fun y hy hne => hx y ?_)
    rcases hnode y hy with hy1 | hy1 | hy1
    · exact List.mem_append_left _ hy1.2
    · exact absurd hy1.1 hne
    · exact List.mem_append_right _ hy1.2
  have hrange : ∀ y, y ∈ free_addrs (s.lo + 8) pre ++
      free_addrs (s.lo + 8 + total pre + csize) post →
      y + 32 ≤ s.lo + 8 + total pre ∨ s.lo + 8 + total pre + csize ≤ y := by
    intro y hy
    have hy2 := hperm.symm.subset hy
    have hy3 := mem_erase_ne _ _ _ hnodes.1 hy2
    rcases hnode y hy3.1 with hy1 | hy1 | hy1
    · exact Or.inl hy1.1
    · exact absurd hy1.1 hy3.2
    · exact Or.inr hy1.1
  refine rebuild_alloc s _ pre post csize _ h.lo_pos h.lo_al h.fits h.brk_le h.hs hbrk
    h.prologue hpre (seg_tail _ _ _ _ hpost hepi) ⟨hb.1, hb.2.1⟩
    (r2.trans hsame.1) (r3.trans hsame.2.1) (r4.trans hsame.2.2.1) (r5.trans hsame.2.2.2)
    (fun x h1 h2 h3 => (hfr x h3).trans (hframe x h1 h2)) ?_ ?_ r1 hperm
  · rw [hpa1]
    refine Eq.trans ?_ hL
    refine read_word_congr _ _ _ (fun x h1 h2 => hfr x (fun y hy => ?_))
    have := hrange y hy
    omega
  · refine Eq.trans ?_ hR
    refine read_word_congr _ _ _ (fun x h1 h2 => hfr x (fun y hy => ?_))
    have := hrange y hy
    omega

theorem tail_frame_links (m n : Mem) (a : Nat) (post : List Blk)
    (hmn : ∀ x, a ≤ x → (∀ y, y ∈ free_addrs a post → x < y + 8 ∨ y + 24 ≤ x) → n x = m x)
    (h : Tail m a post) : Tail n a post := by
  have hsz := tail_sized2 _ _ _ h
  cases post with
  | nil =>
    obtain ⟨q, hq⟩ := h
    refine ⟨q, (read_word_congr _ _ _ (fun x h1 _ => hmn x h1 (fun y hy => ?_))).trans hq⟩
    simp [free_addrs] at hy
  | cons c rest =>
    obtain ⟨⟨q, hc⟩, hrest, hepi⟩ := h
    have hc32 := hc.2.1
    refine ⟨⟨q, blockat_congr m n a q c ?_ ?_ hc⟩, ?_, ?_⟩
    · exact read_word_congr _ _ _ (fun x h1 h2 => hmn x h1
        (fun y hy => meta_not_link _ _ hsz x y hy (Or.inl ⟨h1, h2⟩)))
    · intro hf
      exact read_word_congr _ _ _ (fun x h1 h2 => hmn x (by omega)
        (fun y hy => meta_not_link _ _ hsz x y hy (Or.inr (Or.inl ⟨hf, by omega, by omega⟩))))
    · refine seg_frame_links m n _ _ _ (fun x h1 h2 hl => hmn x (by omega) (fun y hy => ?_)) hrest
      simp only [free_addrs] at hy
      split at hy
      · exact hl y hy
      · rcases List.mem_cons.1 hy with rfl | hy
        · omega
        · exact hl y hy
    · refine (read_word_congr _ _ _ (fun x h1 _ => hmn x (by omega) (fun y hy => ?_))).trans hepi
      have := free_addrs_range _ _ hsz _ hy
      simp only [total] at this
      omega

/-! ## `place` -/

theorem place_whole (s : Heap) (pre : List Blk) (csize : Nat) (post : List Blk)
    (fl : List Nat) (asize : Nat) (h : Inv s (pre ++ ⟨csize, false⟩ :: post) fl)
    (ha : asize ≤ csize) (hlt : csize - asize < 32) :
    Inv (place s (s.lo + 8 + total pre) asize) (pre ++ ⟨csize, true⟩ :: post)
      (fl.erase (s.lo + 8 + total pre)) ∧
    SameArena s (place s (s.lo + 8 + total pre) asize) := by
  have hW : W = 18446744073709551616 := rfl
  obtain ⟨hpre, hb, hpa, hpost, hepi, hbrk⟩ := inv_block _ _ _ _ _ h
  dsimp only at hb hpost hepi hbrk
  have hpa1 : last_alloc true pre = true := hpa rfl
  have hb16 : csize % 16 = 0 := hb.1
  have hb32 : 32 ≤ csize := hb.2.1
  have hhd : read_word s.mem (s.lo + 8 + total pre) = hd csize false true := by
    have := hb.2.2.1
    rw [hpa1] at this
    exact this
  have hfits := h.fits
  have hble := h.brk_le
  obtain ⟨q, hq, hfs16⟩ := tail_head _ _ _ (seg_tail _ _ _ _ hpost hepi)
  have hfsw : first_size post < W := by
    have := read_word_lt s.mem (s.lo + 8 + total pre + csize)
    rw [hq] at this
    unfold hd at this
    omega
  have hv0 : hd csize true false < W := hd_lt _ _ _ hb16 (by omega)
  have hv1 : hd csize true true < W := hd_lt _ _ _ hb16 (by omega)
  have hv2 : hd (first_size post) (first_alloc post) true < W := hd_lt _ _ _ hfs16 hfsw
  have e1 : get_size s (s.lo + 8 + total pre) = csize :=
    get_size_eq s _ csize false true hhd hb16 (by omega)
  have ew : wsub csize asize = csize - asize := wsub_eq _ _ ha (by omega)
  have e2 : (extract_prev_alloc (header s (s.lo + 8 + total pre)) != 0) = true := by
    rw [prev_alloc_eq s _ csize false true hhd hb16]
    rfl
  have hc : ¬ (csize - asize ≥ min_block_size) := by
    show ¬ (32 ≤ csize - asize)
    omega
  have heq : place s (s.lo + 8 + total pre) asize =
      remove_from_free_list (store (store (store s (s.lo + 8 + total pre) (hd csize true false))
        (s.lo + 8 + total pre) (hd csize true true)) (s.lo + 8 + total pre + csize)
        (hd (first_size post) (first_alloc post) true)) (s.lo + 8 + total pre) := by
    unfold place
    simp only [e1, ew, if_neg hc, e2]
    rw [write_header_eq _ _ _ _ hb16]
    rw [set_prev_alloc_eq _ (s.lo + 8 + total pre) csize true false true (by omega)
      (load_store_eq _ _ _ hv0) hb16 (by omega)]
    rw [find_next_eq _ (s.lo + 8 + total pre) csize
      (get_size_eq _ _ csize true true (load_store_eq _ _ _ hv1) hb16 (by omega)) (by omega)]
    rw [set_prev_alloc_eq _ (s.lo + 8 + total pre + csize) (first_size post) (first_alloc post)
      q true (by omega) ?_ hfs16 hfsw]
    rw [load_store_ne _ _ _ _ (by omega), load_store_ne _ _ _ _ (by omega)]
    exact hq
  rw [heq]
  have hsame : SameArena s (store (store (store s (s.lo + 8 + total pre) (hd csize true false))
        (s.lo + 8 + total pre) (hd csize true true)) (s.lo + 8 + total pre + csize)
        (hd (first_size post) (first_alloc post) true)) :=
    same_trans _ _ _ (same_store _ _ _) (same_trans _ _ _ (same_store _ _ _) (same_store _ _ _))
  refine ⟨alloc_finish s (store (store (store s (s.lo + 8 + total pre) (hd csize true false))
        (s.lo + 8 + total pre) (hd csize true true)) (s.lo + 8 + total pre + csize)
        (hd (first_size post) (first_alloc post) true)) pre csize post fl h hsame rfl
        (fun x h1 h2 => ?_) ?_ ?_, same_trans _ _ _ hsame (same_remove _ _)⟩
  · rw [store_mem_out _ _ _ _ (by omega), store_mem_out _ _ _ _ (by omega),
      store_mem_out _ _ _ _ (by omega)]
  · rw [store_mem, read_write_other _ _ _ _ (by omega), store_mem, read_write_same,
      Nat.mod_eq_of_lt hv1]
  · rw [store_mem, read_write_same, Nat.mod_eq_of_lt hv2]

/-! ## `place` with a split -/

/-- The state after `place` has rewritten the header of the block and taken the
block out of the free list. -/
theorem split_remove (s : Heap) (pre : List Blk) (csize : Nat) (post : List Blk)
    (fl : List Nat) (asize : Nat) (h : Inv s (pre ++ ⟨csize, false⟩ :: post) fl)
    (h16 : asize % 16 = 0) (hw : asize < W) :
    FList (remove_from_free_list (store (store s (s.lo + 8 + total pre) (hd asize true false))
        (s.lo + 8 + total pre) (hd asize true true)) (s.lo + 8 + total pre)).mem 0
      (remove_from_free_list (store (store s (s.lo + 8 + total pre) (hd asize true false))
        (s.lo + 8 + total pre) (hd asize true true)) (s.lo + 8 + total pre)).free_start
      (fl.erase (s.lo + 8 + total pre)) ∧
    SameArena s (remove_from_free_list (store (store s (s.lo + 8 + total pre)
      (hd asize true false)) (s.lo + 8 + total pre) (hd asize true true))
      (s.lo + 8 + total pre)) ∧
    (∀ x, (x < s.lo + 8 + total pre ∨ s.lo + 8 + total pre + 8 ≤ x) →
      (∀ y, y ∈ free_addrs (s.lo + 8) pre ++ free_addrs (s.lo + 8 + total pre + csize) post →
        x < y + 8 ∨ y + 24 ≤ x) →
      (remove_from_free_list (store (store s (s.lo + 8 + total pre) (hd asize true false))
        (s.lo + 8 + total pre) (hd asize true true)) (s.lo + 8 + total pre)).mem x = s.mem x) ∧
    read_word (remove_from_free_list (store (store s (s.lo + 8 + total pre)
      (hd asize true false)) (s.lo + 8 + total pre) (hd asize true true))
      (s.lo + 8 + total pre)).mem (s.lo + 8 + total pre) = hd asize true true := by
  have hW : W = 18446744073709551616 := rfl
  obtain ⟨hpre, hb, hpa, hpost, hepi, hbrk⟩ := inv_block _ _ _ _ _ h
  dsimp only at hb hpost hepi hbrk
  have hb32 : 32 ≤ csize := hb.2.1
  have hnodes := inv_nodes _ _ _ h
  have hszs := seg_sized _ _ _ _ h.seg
  have hmem : s.lo + 8 + total pre ∈ fl := by
    refine h.perm.symm.subset ?_
    rw [free_addrs_append]
    simp [free_addrs]
  have hnode := block_nodes _ _ _ _ _ h
  dsimp only at hnode
  have hv1 : hd asize true true < W := hd_lt _ _ _ h16 hw
  have hfu : FList (store (store s (s.lo + 8 + total pre) (hd asize true false))
      (s.lo + 8 + total pre) (hd asize true true)).mem 0 s.free_start fl := by
    refine flist_store _ _ _ _ _ (fun y hy => by have := hnode y hy; omega) ?_
    exact flist_store _ _ _ _ _ (fun y hy => by have := hnode y hy; omega) h.flist
  obtain ⟨r1, r2, r3, r4, r5, r6⟩ := remove_spec (store (store s (s.lo + 8 + total pre)
    (hd asize true false)) (s.lo + 8 + total pre) (hd asize true true)) fl _ hfu hnodes hmem
  have hfr : ∀ x, (∀ y, y ∈ free_addrs (s.lo + 8) pre ++
      free_addrs (s.lo + 8 + total pre + csize) post → x < y + 8 ∨ y + 24 ≤ x) →
      (remove_from_free_list (store (store s (s.lo + 8 + total pre) (hd asize true false))
        (s.lo + 8 + total pre) (hd asize true true)) (s.lo + 8 + total pre)).mem x =
      (store (store s (s.lo + 8 + total pre) (hd asize true false))
        (s.lo + 8 + total pre) (hd asize true true)).mem x := by
    intro x hx
    refine r6 x (fun y hy hne => hx y ?_)
    rcases hnode y hy with hy1 | hy1 | hy1
    · exact List.mem_append_left _ hy1.2
    · exact absurd hy1.1 hne
    · exact List.mem_append_right _ hy1.2
  refine ⟨r1, ⟨r2, r3, r4, r5⟩, fun x h1 h2 => ?_, ?_⟩
  · rw [hfr x h2, store_mem_out _ _ _ _ (by omega), store_mem_out _ _ _ _ (by omega)]
  · refine Eq.trans (read_word_congr _ _ _ (fun x h1 h2 => hfr x (fun y hy => ?_))) ?_
    · have hperm := perm_erase_block fl (s.lo + 8) pre csize post hszs h.perm
      have hy3 := mem_erase_ne _ _ _ hnodes.1 (hperm.symm.subset hy)
      rcases hnode y hy3.1 with hy1 | hy1 | hy1
      · omega
      · exact absurd hy1.1 hy3.2
      · omega
    · rw [store_mem, read_write_same, Nat.mod_eq_of_lt hv1]

/-- Writing the header and the footer of the remainder of a split block gives
the state that `coalesce` expects. -/
theorem split_preco (s u : Heap) (pre : List Blk) (csize : Nat) (post : List Blk)
    (fl : List Nat) (asize : Nat) (h : Inv s (pre ++ ⟨csize, false⟩ :: post) fl)
    (h16 : asize % 16 = 0) (h32 : 32 ≤ asize) (hrem : asize + 32 ≤ csize)
    (hfl : FList u.mem 0 u.free_start (fl.erase (s.lo + 8 + total pre)))
    (hsame : SameArena s u)
    (hframe : ∀ x, (x < s.lo + 8 + total pre ∨ s.lo + 8 + total pre + 8 ≤ x) →
      (∀ y, y ∈ free_addrs (s.lo + 8) pre ++ free_addrs (s.lo + 8 + total pre + csize) post →
        x < y + 8 ∨ y + 24 ≤ x) → u.mem x = s.mem x)
    (hL : read_word u.mem (s.lo + 8 + total pre) = hd asize true true) :
    PreCo (store (store (store u (s.lo + 8 + total pre + asize) (hd (csize - asize) false false))
      (s.lo + 8 + total pre + csize - 8) (hd (csize - asize) false false))
      (s.lo + 8 + total pre + asize) (hd (csize - asize) false true))
      (pre ++ [⟨asize, true⟩]) (csize - asize) post (fl.erase (s.lo + 8 + total pre)) := by
  have hW : W = 18446744073709551616 := rfl
  obtain ⟨hpre, hb, hpa, hpost, hepi, hbrk⟩ := inv_block _ _ _ _ _ h
  dsimp only at hb hpost hepi hbrk
  have hpa1 : last_alloc true pre = true := hpa rfl
  have hb16 : csize % 16 = 0 := hb.1
  have hfits := h.fits
  have hble := h.brk_le
  have hszs := seg_sized _ _ _ _ h.seg
  have hszpre := seg_sized _ _ _ _ hpre
  have hszpost := seg_sized _ _ _ _ hpost
  have hnodes := inv_nodes _ _ _ h
  have hnode := block_nodes _ _ _ _ _ h
  dsimp only at hnode
  have hperm := perm_erase_block fl (s.lo + 8) pre csize post hszs h.perm
  have hrange : ∀ y, y ∈ free_addrs (s.lo + 8) pre ++
      free_addrs (s.lo + 8 + total pre + csize) post →
      y + 32 ≤ s.lo + 8 + total pre ∨ s.lo + 8 + total pre + csize ≤ y := by
    intro y hy
    have hy3 := mem_erase_ne _ _ _ hnodes.1 (hperm.symm.subset hy)
    rcases hnode y hy3.1 with hy1 | hy1 | hy1
    · exact Or.inl hy1.1
    · exact absurd hy1.1 hy3.2
    · exact Or.inr hy1.1
  have hr16 : (csize - asize) % 16 = 0 := by omega
  have hv0 : hd (csize - asize) false false < W := hd_lt _ _ _ hr16 (by omega)
  have hv1 : hd (csize - asize) false true < W := hd_lt _ _ _ hr16 (by omega)
  have ht : total (pre ++ [⟨asize, true⟩]) = total pre + asize := by
    rw [total_append]
    simp [total]
  have hla : last_alloc true (pre ++ [⟨asize, true⟩]) = true := by
    rw [last_alloc_append]
    rfl
  have out : ∀ x, (x < s.lo + 8 + total pre ∨ s.lo + 8 + total pre + 8 ≤ x) →
      (x < s.lo + 8 + total pre + asize ∨ s.lo + 8 + total pre + csize ≤ x) →
      (∀ y, y ∈ free_addrs (s.lo + 8) pre ++ free_addrs (s.lo + 8 + total pre + csize) post →
        x < y + 8 ∨ y + 24 ≤ x) →
      (store (store (store u (s.lo + 8 + total pre + asize) (hd (csize - asize) false false))
        (s.lo + 8 + total pre + csize - 8) (hd (csize - asize) false false))
        (s.lo + 8 + total pre + asize) (hd (csize - asize) false true)).mem x = s.mem x := by
    intro x h1 h2 h3
    rw [store_mem_out _ _ _ _ (by omega), store_mem_out _ _ _ _ (by omega),
      store_mem_out _ _ _ _ (by omega)]
    exact hframe x h1 h3
  obtain ⟨e1, e2, e3, e4⟩ := hsame
  refine ⟨?_, ?_, ?_, ?_, ?_, ?_, ?_, ?_, ?_, ?_, ?_, ?_⟩ <;>
    simp only [store_lo, store_brk, store_cap, store_heap_start, store_free_start, e1, e2, e3,
      e4, ht, hla]
  · exact h.lo_pos
  · exact h.lo_al
  · exact h.fits
  · exact h.brk_le
  · exact h.hs
  · omega
  · refine (read_word_congr _ _ _ (fun x h1 h2 => out x (by omega) (by omega)
      (fun y hy => ?_))).trans h.prologue
    rcases List.mem_append.1 hy with hy | hy
    · have := free_addrs_range _ _ hszpre _ hy
      omega
    · have := free_addrs_range _ _ hszpost _ hy
      omega
  · rw [seg_append]
    constructor
    · refine seg_frame_links _ _ _ _ _
        (fun x h1 h2 hl => out x (by omega) (by omega) (fun y hy => ?_)) hpre
      rcases List.mem_append.1 hy with hy | hy
      · exact hl y hy
      · have := free_addrs_range _ _ hszpost _ hy
        omega
    · rw [hpa1]
      have hcf : (true = false) → False := fun h => by cases h
      refine ⟨⟨h16, h32, ?_, fun hc => (hcf hc).elim⟩, fun hc => (hcf hc).elim, trivial⟩
      refine Eq.trans ?_ hL
      rw [store_mem, read_write_other _ _ _ _ (by omega), store_mem,
        read_write_other _ _ _ _ (by omega), store_mem, read_write_other _ _ _ _ (by omega)]
  · refine ⟨hr16, by show 32 ≤ csize - asize; omega, ?_, fun _ => ?_⟩
    · have e : s.lo + 8 + (total pre + asize) = s.lo + 8 + total pre + asize := by omega
      rw [e, store_mem, read_write_same, Nat.mod_eq_of_lt hv1]
    · dsimp only
      have e : s.lo + 8 + (total pre + asize) + (csize - asize) - 8 =
          s.lo + 8 + total pre + csize - 8 := by omega
      rw [e, store_mem, read_write_other _ _ _ _ (by omega), store_mem, read_write_same,
        Nat.mod_eq_of_lt hv0]
      simp [hd]
  · have e : s.lo + 8 + (total pre + asize) + (csize - asize) =
        s.lo + 8 + total pre + csize := by omega
    rw [e]
    refine tail_frame_links _ _ _ _ (fun x h1 hl => out x (by omega) (by omega)
      (fun y hy => ?_)) (seg_tail _ _ _ _ hpost hepi)
    rcases List.mem_append.1 hy with hy | hy
    · have := free_addrs_range _ _ hszpre _ hy
      omega
    · exact hl y hy
  · have hn2 : ∀ y, y ∈ fl.erase (s.lo + 8 + total pre) →
        y + 32 ≤ s.lo + 8 + total pre ∨ s.lo + 8 + total pre + csize ≤ y :=
      fun y hy => hrange y (hperm.subset hy)
    refine flist_store _ _ _ _ _ (fun y hy => by have := hn2 y hy; omega) ?_
    refine flist_store _ _ _ _ _ (fun y hy => by have := hn2 y hy; omega) ?_
    exact flist_store _ _ _ _ _ (fun y hy => by have := hn2 y hy; omega) hfl
  · have e : s.lo + 8 + (total pre + asize) + (csize - asize) =
        s.lo + 8 + total pre + csize := by omega
    rw [e, free_addrs_append]
    simpa [free_addrs] using hperm

theorem place_split_eq (s : Heap) (pre : List Blk) (csize : Nat) (post : List Blk)
    (fl : List Nat) (asize : Nat) (h : Inv s (pre ++ ⟨csize, false⟩ :: post) fl)
    (h16 : asize % 16 = 0) (h32 : 32 ≤ asize) (hrem : asize + 32 ≤ csize) :
    place s (s.lo + 8 + total pre) asize =
      (coalesce (store (store (store (remove_from_free_list
        (store (store s (s.lo + 8 + total pre) (hd asize true false))
          (s.lo + 8 + total pre) (hd asize true true)) (s.lo + 8 + total pre))
        (s.lo + 8 + total pre + asize) (hd (csize - asize) false false))
        (s.lo + 8 + total pre + csize - 8) (hd (csize - asize) false false))
        (s.lo + 8 + total pre + asize) (hd (csize - asize) false true))
        (s.lo + 8 + total pre + asize)).1 := by
  have hW : W = 18446744073709551616 := rfl
  obtain ⟨hpre, hb, hpa, hpost, hepi, hbrk⟩ := inv_block _ _ _ _ _ h
  dsimp only at hb hpost hepi hbrk
  have hpa1 : last_alloc true pre = true := hpa rfl
  have hb16 : csize % 16 = 0 := hb.1
  have hhd : read_word s.mem (s.lo + 8 + total pre) = hd csize false true := by
    have := hb.2.2.1
    rw [hpa1] at this
    exact this
  have hfits := h.fits
  have hble := h.brk_le
  have hr16 : (csize - asize) % 16 = 0 := by omega
  have hv0 : hd asize true false < W := hd_lt _ _ _ h16 (by omega)
  have hv2 : hd (csize - asize) false false < W := hd_lt _ _ _ hr16 (by omega)
  have e1 : get_size s (s.lo + 8 + total pre) = csize :=
    get_size_eq s _ csize false true hhd hb16 (by omega)
  have ew : wsub csize asize = csize - asize := wsub_eq _ _ (by omega) (by omega)
  have e2 : (extract_prev_alloc (header s (s.lo + 8 + total pre)) != 0) = true := by
    rw [prev_alloc_eq s _ csize false true hhd hb16]
    rfl
  have hc : csize - asize ≥ min_block_size := by
    show 32 ≤ csize - asize
    omega
  obtain ⟨-, -, -, f4⟩ := split_remove s pre csize post fl asize h h16 (by omega)
  unfold place
  simp only [e1, ew, if_pos hc, e2]
  rw [write_header_eq _ _ _ _ h16]
  rw [set_prev_alloc_eq _ (s.lo + 8 + total pre) asize true false true (by omega)
    (load_store_eq _ _ _ hv0) h16 (by omega)]
  generalize remove_from_free_list (store (store s (s.lo + 8 + total pre) (hd asize true false))
    (s.lo + 8 + total pre) (hd asize true true)) (s.lo + 8 + total pre) = s3 at f4 ⊢
  rw [find_next_eq s3 (s.lo + 8 + total pre) asize
    (get_size_eq _ _ asize true true f4 h16 (by omega)) (by omega)]
  rw [write_header_eq _ _ _ _ hr16]
  rw [write_footer_eq _ (s.lo + 8 + total pre + asize) (csize - asize) _ _
    (get_size_eq _ _ _ false false (load_store_eq _ _ _ hv2) hr16 (by omega))
    (by omega) (by omega) hr16]
  have e : s.lo + 8 + total pre + asize + (csize - asize) - 8 =
      s.lo + 8 + total pre + csize - 8 := by omega
  rw [e]
  rw [set_prev_alloc_eq _ (s.lo + 8 + total pre + asize) (csize - asize) false false true
    (by omega) ?_ hr16 (by omega)]
  rw [load_store_ne _ _ _ _ (by omega), load_store_eq _ _ _ hv2]

theorem place_split (s : Heap) (pre : List Blk) (csize : Nat) (post : List Blk)
    (fl : List Nat) (asize : Nat) (h : Inv s (pre ++ ⟨csize, false⟩ :: post) fl)
    (h16 : asize % 16 = 0) (h32 : 32 ≤ asize) (hrem : asize + 32 ≤ csize) :
    ∃ sz post2 fl2,
      Inv (place s (s.lo + 8 + total pre) asize)
        (pre ++ ⟨asize, true⟩ :: ⟨sz, false⟩ :: post2) fl2 ∧
      live_ptrs (s.lo + 8) (pre ++ ⟨asize, true⟩ :: ⟨sz, false⟩ :: post2) =
        live_ptrs (s.lo + 8) pre ++
          (s.lo + 8 + total pre + 8) :: live_ptrs (s.lo + 8 + total pre + csize) post ∧
      SameArena s (place s (s.lo + 8 + total pre) asize) := by
  have hW : W = 18446744073709551616 := rfl
  have heq := place_split_eq s pre csize post fl asize h h16 h32 hrem
  have hfits := h.fits
  have hble := h.brk_le
  have hbrk := h.brk_eq
  rw [total_append] at hbrk
  simp only [total] at hbrk
  obtain ⟨f1, f2, f3, f4⟩ := split_remove s pre csize post fl asize h h16 (by omega)
  have hpc := split_preco s _ pre csize post fl asize h h16 h32 hrem f1 f2 f3 f4
  have hsame : SameArena s (store (store (store (remove_from_free_list
        (store (store s (s.lo + 8 + total pre) (hd asize true false))
          (s.lo + 8 + total pre) (hd asize true true)) (s.lo + 8 + total pre))
        (s.lo + 8 + total pre + asize) (hd (csize - asize) false false))
        (s.lo + 8 + total pre + csize - 8) (hd (csize - asize) false false))
        (s.lo + 8 + total pre + asize) (hd (csize - asize) false true)) :=
    same_trans _ _ _ f2 (same_trans _ _ _ (same_store _ _ _)
      (same_trans _ _ _ (same_store _ _ _) (same_store _ _ _)))
  have ht : total (pre ++ [⟨asize, true⟩]) = total pre + asize := by
    rw [total_append]
    simp [total]
  have hla : last_alloc true (pre ++ [⟨asize, true⟩]) = true := by
    rw [last_alloc_append]
    rfl
  obtain ⟨pre2, post2, sz, fl2, h1, h2, h3, h4, h5, h6⟩ := coalesce_spec _ _ _ _ _ hpc
  have hp2 := h6 hla
  subst hp2
  rw [hsame.1, ht] at h1 h5
  have ea : s.lo + 8 + (total pre + asize) = s.lo + 8 + total pre + asize := by omega
  rw [ea] at h1 h5
  rw [← heq] at h1
  have hsc := same_coalesce (store (store (store (remove_from_free_list
        (store (store s (s.lo + 8 + total pre) (hd asize true false))
          (s.lo + 8 + total pre) (hd asize true true)) (s.lo + 8 + total pre))
        (s.lo + 8 + total pre + asize) (hd (csize - asize) false false))
        (s.lo + 8 + total pre + csize - 8) (hd (csize - asize) false false))
        (s.lo + 8 + total pre + asize) (hd (csize - asize) false true))
        (s.lo + 8 + total pre + asize)
  rw [← heq] at hsc
  refine ⟨sz, post2, _, by simpa using h1, ?_, same_trans _ _ _ hsame hsc⟩
  have e5 : (pre ++ [⟨asize, true⟩]) ++ ⟨sz, false⟩ :: post2 =
      pre ++ ⟨asize, true⟩ :: ⟨sz, false⟩ :: post2 := by simp
  rw [e5] at h5
  rw [h5, live_ptrs_append]
  have e6 : s.lo + 8 + total pre + asize + (csize - asize) = s.lo + 8 + total pre + csize := by
    omega
  rw [e6]
  simp [live_ptrs]

/-! ## `place`, both cases -/

theorem place_spec (s : Heap) (bs : List Blk) (fl : List Nat) (a asize : Nat)
    (h : Inv s bs fl) (ha : a ∈ fl) (h16 : asize % 16 = 0) (h32 : 32 ≤ asize)
    (hfit : asize ≤ get_size s a) :
    ∃ pre sz post fl2,
      Inv (place s a asize) (pre ++ ⟨sz, true⟩ :: post) fl2 ∧
      a = s.lo + 8 + total pre ∧ asize ≤ sz ∧
      (live_ptrs (s.lo + 8) (pre ++ ⟨sz, true⟩ :: post)).Perm
        ((a + 8) :: live_ptrs (s.lo + 8) bs) ∧
      SameArena s (place s a asize) := by
  have hW : W = 18446744073709551616 := rfl
  obtain ⟨pre, b, post, rfl, hb, rfl⟩ := free_addrs_split _ _ _ (h.perm.subset ha)
  obtain ⟨csize, al⟩ := b
  dsimp only at hb
  subst hb
  obtain ⟨hpre, hb, hpa, hpost, hepi, hbrk⟩ := inv_block _ _ _ _ _ h
  dsimp only at hb hpost hepi hbrk
  have hpa1 : last_alloc true pre = true := hpa rfl
  have hb16 : csize % 16 = 0 := hb.1
  have hhd : read_word s.mem (s.lo + 8 + total pre) = hd csize false true := by
    have := hb.2.2.1
    rw [hpa1] at this
    exact this
  have hfits := h.fits
  have hble := h.brk_le
  have e1 : get_size s (s.lo + 8 + total pre) = csize :=
    get_size_eq s _ csize false true hhd hb16 (by omega)
  rw [e1] at hfit
  have hlive : live_ptrs (s.lo + 8) (pre ++ ⟨csize, false⟩ :: post) =
      live_ptrs (s.lo + 8) pre ++ live_ptrs (s.lo + 8 + total pre + csize) post := by
    rw [live_ptrs_append]
    simp [live_ptrs]
  by_cases hsp : asize + 32 ≤ csize
  · obtain ⟨sz, post2, fl2, k1, k2, k3⟩ := place_split s pre csize post fl asize h h16 h32 hsp
    refine ⟨pre, asize, ⟨sz, false⟩ :: post2, fl2, k1, rfl, Nat.le_refl _, ?_, k3⟩
    rw [k2, hlive]
    exact List.perm_middle
  · obtain ⟨k1, k3⟩ := place_whole s pre csize post fl asize h hfit (by omega)
    refine ⟨pre, csize, post, _, k1, rfl, hfit, ?_, k3⟩
    rw [hlive, live_ptrs_append]
    simp only [live_ptrs, if_true]
    exact List.perm_middle

/-! ## `find_fit` -/

theorem find_fit_loop_spec (s : Heap) (asize : Nat) (all : List Nat)
    (hn : ∀ y, y ∈ all → y + 16 < W) (fl : List Nat) :
    ∀ (fuel p block best n : Nat), (∀ y, y ∈ fl → y ∈ all) → FSeg s.mem p block fl 0 →
      (best = 0 ∨ (best ∈ all ∧ asize ≤ get_size s best)) →
      (∀ r, find_fit_loop s asize fuel block best n = .ok r →
        (r = 0 ∨ (r ∈ all ∧ asize ≤ get_size s r))) ∧
      (fl.length < fuel → ∃ r, find_fit_loop s asize fuel block best n = .ok r) := by
  induction fl with
  | nil =>
    intro fuel p block best n hsub hf hbest
    have hb : block = 0 := hf
    cases fuel with
    | zero =>
      refine ⟨fun r hr => ?_, fun hlen => by simp at hlen⟩
      unfold find_fit_loop at hr
      cases hr
    | succ f =>
      have e : find_fit_loop s asize (f + 1) block best n = .ok best := by
        unfold find_fit_loop
        rw [if_pos hb]
      rw [e]
      refine ⟨fun r hr => ?_, fun _ => ⟨best, rfl⟩⟩
      cases hr
      exact hbest
  | cons x xs ih =>
    intro fuel p block best n hsub hf hbest
    obtain ⟨hbx, hx0, -, hrest⟩ := hf
    subst hbx
    cases fuel with
    | zero =>
      refine ⟨fun r hr => ?_, fun hlen => by simp at hlen⟩
      unfold find_fit_loop at hr
      cases hr
    | succ f =>
      have hxa := hsub block (List.mem_cons_self _ _)
      have hnext : block_next s block = read_word s.mem (block + 16) := by
        unfold block_next load
        rw [wadd_eq _ _ (hn block hxa)]
      have hsub2 : ∀ y, y ∈ xs → y ∈ all := fun y hy => hsub y (List.mem_cons_of_mem _ hy)
      have hlen2 : (block :: xs).length < f + 1 → xs.length < f := by
        intro hlen
        simp only [List.length_cons] at hlen
        omega
      unfold find_fit_loop
      rw [if_neg hx0, hnext]
      by_cases hc : (!get_alloc s block && decide (asize ≤ get_size s block)) = true
      · rw [if_pos hc]
        have hfit : asize ≤ get_size s block := by
          simp only [Bool.and_eq_true, decide_eq_true_eq] at hc
          exact hc.2
        have hb2 : ∀ b2, (b2 = block ∨ (b2 = best ∧ best ≠ 0)) →
            (b2 = 0 ∨ (b2 ∈ all ∧ asize ≤ get_size s b2)) := by
          rintro b2 (rfl | ⟨rfl, hne⟩)
          · exact Or.inr ⟨hxa, hfit⟩
          · exact hbest
        have hsel : (if best ≠ 0 then
              if extract_size (header s best) > extract_size (header s block) then block
              else best
            else block) = block ∨
            ((if best ≠ 0 then
              if extract_size (header s best) > extract_size (header s block) then block
              else best
            else block) = best ∧ best ≠ 0) := by
          by_cases h0 : best ≠ 0
          · rw [if_pos h0]
            by_cases h1 : extract_size (header s best) > extract_size (header s block)
            · rw [if_pos h1]
              exact Or.inl rfl
            · rw [if_neg h1]
              exact Or.inr ⟨rfl, h0⟩
          · rw [if_neg h0]
            exact Or.inl rfl
        dsimp only
        by_cases h18 : n + 1 ≥ 18
        · rw [if_pos h18]
          refine ⟨fun r hr => ?_, fun _ => ⟨_, rfl⟩⟩
          cases hr
          exact hb2 _ hsel
        · rw [if_neg h18]
          have := ih f block (read_word s.mem (block + 16)) _ (n + 1) hsub2 hrest (hb2 _ hsel)
          exact ⟨this.1, fun hlen => this.2 (hlen2 hlen)⟩
      · rw [if_neg hc]
        have := ih f block (read_word s.mem (block + 16)) best n hsub2 hrest hbest
        exact ⟨this.1, fun hlen => this.2 (hlen2 hlen)⟩

theorem find_fit_spec (fuel : Nat) (s : Heap) (bs : List Blk) (fl : List Nat) (asize : Nat)
    (h : Inv s bs fl) :
    (∀ r, find_fit fuel s asize = .ok r → (r = 0 ∨ (r ∈ fl ∧ asize ≤ get_size s r))) ∧
    (fl.length < fuel → ∃ r, find_fit fuel s asize = .ok r) := by
  have hnodes := inv_nodes _ _ _ h
  exact find_fit_loop_spec s asize fl (fun y hy => by have := (hnodes.2 y hy).2; omega) fl
    fuel 0 s.free_start 0 0 (fun y hy => hy) h.flist (Or.inl rfl)

/-! ## `malloc` -/

theorem adjusted_spec (n : Nat) (hn : n ≤ 18446744073709551592) :
    adjusted n % 16 = 0 ∧ 32 ≤ adjusted n ∧ n + 8 ≤ adjusted n ∧ adjusted n ≤ n + 32 ∧
      adjusted n + 15 < W := by
  have hW : W = 18446744073709551616 := rfl
  have e : wadd n wsize = n + 8 := wadd_eq n 8 (by omega)
  obtain ⟨h1, h2, h3⟩ := round_up_ge (n + 8) (by omega)
  unfold adjusted
  rw [e]
  by_cases hc : round_up (n + 8) dsize < min_block_size
  · rw [if_pos hc]
    have hc2 : round_up (n + 8) dsize < 32 := hc
    show 32 % 16 = 0 ∧ 32 ≤ 32 ∧ n + 8 ≤ 32 ∧ 32 ≤ n + 32 ∧ 32 + 15 < W
    omega
  · rw [if_neg hc]
    have hc2 : ¬ round_up (n + 8) dsize < 32 := hc
    omega

theorem max_spec (a : Nat) : MM.max a chunksize = a ∨ MM.max a chunksize = 1792 := by
  unfold MM.max
  by_cases h : a > chunksize
  · rw [if_pos h]
    exact Or.inl rfl
  · rw [if_neg h]
    exact Or.inr rfl

theorem max_ge (a : Nat) : a ≤ MM.max a chunksize := by
  unfold MM.max
  by_cases h : a > chunksize
  · rw [if_pos h]
  · rw [if_neg h]
    omega

theorem malloc_unfold (fuel : Nat) (s : Heap) (n : Nat) (hs : s.heap_start ≠ 0) (hn : n ≠ 0) :
    malloc fuel s n =
      match find_fit fuel s (adjusted n) with
      | .error e => .error e
      | .ok block =>
        if block = 0 then
          if (extend_heap s (MM.max (adjusted n) chunksize)).2 = 0 then
            .ok ((extend_heap s (MM.max (adjusted n) chunksize)).1, 0)
          else .ok (place (extend_heap s (MM.max (adjusted n) chunksize)).1
            (extend_heap s (MM.max (adjusted n) chunksize)).2 (adjusted n),
            header_to_payload (extend_heap s (MM.max (adjusted n) chunksize)).2)
        else .ok (place s block (adjusted n), header_to_payload block) := by
  unfold malloc
  simp only [if_neg hs, if_neg hn]
  rfl

/-- What a successful `malloc` of a request without overflow does to a
well-formed heap. -/
theorem malloc_inv (fuel : Nat) (s : Heap) (bs : List Blk) (fl : List Nat) (n : Nat)
    (h : Inv s bs fl) (h0 : n ≠ 0) (hn : n ≤ 18446744073709551592) (t : Heap) (p : Nat)
    (hr : malloc fuel s n = .ok (t, p)) :
    (p = 0 ∧ t = s) ∨
    (p ≠ 0 ∧ ∃ pre sz post fl2,
      Inv t (pre ++ ⟨sz, true⟩ :: post) fl2 ∧ p = s.lo + 8 + total pre + 8 ∧
      adjusted n ≤ sz ∧
      (live_ptrs (s.lo + 8) (pre ++ ⟨sz, true⟩ :: post)).Perm (p :: live_ptrs (s.lo + 8) bs) ∧
      t.lo = s.lo) := by
  have hW : W = 18446744073709551616 := rfl
  obtain ⟨a16, a32, a8, ale, aw⟩ := adjusted_spec n hn
  have hfits := h.fits
  have hble := h.brk_le
  have hlo := h.lo_pos
  have hs0 : s.heap_start ≠ 0 := by
    rw [h.hs]
    omega
  rw [malloc_unfold fuel s n hs0 h0] at hr
  have hff := (find_fit_spec fuel s bs fl (adjusted n) h).1
  cases hfr : find_fit fuel s (adjusted n) with
  | error e =>
    rw [hfr] at hr
    cases hr
  | ok block =>
    rw [hfr] at hr
    dsimp only at hr
    by_cases hb0 : block = 0
    · rw [if_pos hb0] at hr
      have hm16 : MM.max (adjusted n) chunksize % 16 = 0 := by
        rcases max_spec (adjusted n) with e | e <;> rw [e]
        exact a16
      have hm32 : 32 ≤ MM.max (adjusted n) chunksize := by
        have := max_ge (adjusted n)
        omega
      have hmw : MM.max (adjusted n) chunksize + 15 < W := by
        rcases max_spec (adjusted n) with e | e <;> rw [e]
        · exact aw
        · omega
      by_cases hcap : s.brk + MM.max (adjusted n) chunksize ≤ s.cap
      · obtain ⟨pre2, post2, sz, fl2, x1, x2, x3, x4, x5⟩ :=
          extend_spec s bs fl _ h hm16 hm32 hcap
        have hne : (extend_heap s (MM.max (adjusted n) chunksize)).2 ≠ 0 := by
          rw [x2]
          omega
        rw [if_neg hne] at hr
        have ht : t = place (extend_heap s (MM.max (adjusted n) chunksize)).1
            (extend_heap s (MM.max (adjusted n) chunksize)).2 (adjusted n) := by
          injection hr with hr
          exact (congrArg Prod.fst hr).symm
        have hp : p = header_to_payload (extend_heap s (MM.max (adjusted n) chunksize)).2 := by
          injection hr with hr
          exact (congrArg Prod.snd hr).symm
        obtain ⟨-, hbk, -, -, -, hbrk2⟩ := inv_block _ _ _ _ _ x1
        have hble2 := x1.brk_le
        have hfits2 := x1.fits
        dsimp only at hbk hbrk2
        rw [x5] at hbk hfits2
        rw [← x2] at hbk
        have hgs : get_size (extend_heap s (MM.max (adjusted n) chunksize)).1
            (extend_heap s (MM.max (adjusted n) chunksize)).2 = sz :=
          get_size_eq _ _ sz false _ hbk.2.2.1 hbk.1 (by omega)
        have hmg := max_ge (adjusted n)
        obtain ⟨pre, sz2, post, fl3, y1, y2, y3, y4, y5⟩ :=
          place_spec _ _ _ (extend_heap s (MM.max (adjusted n) chunksize)).2 (adjusted n) x1
            (List.mem_cons_self _ _) a16 a32 (by rw [hgs]; omega)
        rw [x5] at y2 y4
        rw [x4] at y4
        have hp2 : p = s.lo + 8 + total pre + 8 := by
          rw [hp, y2]
          unfold header_to_payload
          rw [wadd_eq]
          have hb3 := y1.brk_eq
          have hb4 := y1.brk_le
          have hb5 := y1.fits
          have hb6 := y5.1
          have hb7 := y5.2.2.1
          rw [total_append] at hb3
          omega
        refine Or.inr ⟨by omega, pre, sz2, post, fl3, by rw [ht]; exact y1, hp2, y3, ?_, ?_⟩
        · rw [hp2, ← y2]
          exact y4
        · rw [ht, y5.1, x5]
      · have hfail := extend_fail s _ hm16 hmw hcap
        rw [hfail] at hr
        dsimp only at hr
        rw [if_pos rfl] at hr
        injection hr with hr
        exact Or.inl ⟨(congrArg Prod.snd hr).symm, (congrArg Prod.fst hr).symm⟩
    · rw [if_neg hb0] at hr
      have ht : t = place s block (adjusted n) := by
        injection hr with hr
        exact (congrArg Prod.fst hr).symm
      have hp : p = header_to_payload block := by
        injection hr with hr
        exact (congrArg Prod.snd hr).symm
      rcases hff block hfr with hz | ⟨hmem, hfit⟩
      · exact absurd hz hb0
      · obtain ⟨pre, sz2, post, fl3, y1, y2, y3, y4, y5⟩ :=
          place_spec _ _ _ block (adjusted n) h hmem a16 a32 hfit
        have hp2 : p = s.lo + 8 + total pre + 8 := by
          rw [hp, y2]
          unfold header_to_payload
          rw [wadd_eq]
          have hb3 := y1.brk_eq
          have hb4 := y1.brk_le
          have hb5 := y1.fits
          have hb6 := y5.1
          have hb7 := y5.2.2.1
          rw [total_append] at hb3
          omega
        refine Or.inr ⟨by omega, pre, sz2, post, fl3, by rw [ht]; exact y1, hp2, y3, ?_, ?_⟩
        · rw [hp2, ← y2]
          exact y4
        · rw [ht, y5.1]

/-- With enough fuel for the walk of the free list, `malloc` returns. -/
theorem malloc_returns (fuel : Nat) (s : Heap) (bs : List Blk) (fl : List Nat) (n : Nat)
    (h : Inv s bs fl) (hfuel : fl.length < fuel) : ∃ r, malloc fuel s n = .ok r := by
  have hlo := h.lo_pos
  have hs0 : s.heap_start ≠ 0 := by
    rw [h.hs]
    omega
  by_cases h0 : n = 0
  · refine ⟨(s, 0), ?_⟩
    unfold malloc
    simp only [if_neg hs0, if_pos h0]
  · rw [malloc_unfold fuel s n hs0 h0]
    obtain ⟨r, hfr⟩ := (find_fit_spec fuel s bs fl (adjusted n) h).2 hfuel
    rw [hfr]
    dsimp only
    by_cases hb0 : r = 0
    · rw [if_pos hb0]
      by_cases he : (extend_heap s (MM.max (adjusted n) chunksize)).2 = 0
      · rw [if_pos he]
        exact ⟨_, rfl⟩
      · rw [if_neg he]
        exact ⟨_, rfl⟩
    · rw [if_neg hb0]
      exact ⟨_, rfl⟩

/-! ## Writes into a payload -/

theorem payload_write_inv (s : Heap) (pre : List Blk) (sz : Nat) (post : List Blk)
    (fl : List Nat) (m2 : Mem) (h : Inv s (pre ++ ⟨sz, true⟩ :: post) fl)
    (hm : ∀ x, (x < s.lo + 8 + total pre + 8 ∨ s.lo + 8 + total pre + sz ≤ x) →
      m2 x = s.mem x) :
    Inv { s with mem := m2 } (pre ++ ⟨sz, true⟩ :: post) fl := by
  obtain ⟨hpre, hb, hpa, hpost, hepi, hbrk⟩ := inv_block _ _ _ _ _ h
  dsimp only at hb hpost hepi hbrk
  have hb32 : 32 ≤ sz := hb.2.1
  have hnode := block_nodes _ _ _ _ _ h
  dsimp only at hnode
  have hcf : (true = false) → False := fun h => by cases h
  refine ⟨h.lo_pos, h.lo_al, h.fits, h.brk_le, h.hs, h.brk_eq, ?_, ?_, ?_, ?_, h.perm⟩
  · show read_word m2 s.lo = 1
    exact (read_word_congr _ _ _ (fun x h1 h2 => hm x (by omega))).trans h.prologue
  · show Seg m2 (s.lo + 8) true (pre ++ ⟨sz, true⟩ :: post)
    rw [seg_append]
    refine ⟨seg_frame _ _ _ _ _ (fun x h1 h2 => hm x (by omega)) hpre,
      blockat_congr _ _ _ _ _ (read_word_congr _ _ _ (fun x h1 h2 => hm x (by omega)))
        (fun hc => (hcf hc).elim) hb, fun hc => (hcf hc).elim, ?_⟩
    exact seg_frame _ _ _ _ _ (fun x h1 h2 => hm x (by dsimp only at h1; omega)) hpost
  · show read_word m2 (s.lo + 8 + total (pre ++ ⟨sz, true⟩ :: post)) = _
    refine Eq.trans (read_word_congr _ _ _ (fun x h1 h2 => hm x ?_)) h.epi
    rw [total_append] at h1
    simp only [total] at h1
    omega
  · refine fseg_congr _ _ _ _ _ _ (fun y hy => ?_) h.flist
    have hy2 : y + 32 ≤ s.lo + 8 + total pre ∨ s.lo + 8 + total pre + sz ≤ y := by
      rcases hnode y hy with hy1 | hy1 | hy1
      · exact Or.inl hy1.1
      · exact (hcf hy1.2).elim
      · exact Or.inr hy1.1
    constructor <;> exact read_word_congr _ _ _ (fun x h1 h2 => hm x (by omega))

theorem payload_write_good (s : Heap) (live : List Nat) (p : Nat) (m2 : Mem)
    (h : Good s live) (hp : p ∈ live)
    (hm : ∀ x, (x < p ∨ p + get_payload_size s (payload_to_header p) ≤ x) → m2 x = s.mem x) :
    Good { s with mem := m2 } live := by
  have hW : W = 18446744073709551616 := rfl
  obtain ⟨bs, fl, hinv, hperm⟩ := h
  obtain ⟨pre, b, post, rfl, hb, rfl⟩ := live_ptrs_split _ _ _ (hperm.subset hp)
  obtain ⟨sz, al⟩ := b
  dsimp only at hb
  subst hb
  obtain ⟨-, hb, -, -, -, hbrk⟩ := inv_block _ _ _ _ _ hinv
  dsimp only at hb hbrk
  have hfits := hinv.fits
  have hble := hinv.brk_le
  have hb32 : 32 ≤ sz := hb.2.1
  have e0 : payload_to_header (s.lo + 8 + total pre + 8) = s.lo + 8 + total pre := by
    unfold payload_to_header
    rw [wsub_eq _ _ (by omega) (by omega)]
    omega
  have e1 : get_size s (s.lo + 8 + total pre) = sz :=
    get_size_eq s _ sz true _ hb.2.2.1 hb.1 (by omega)
  have e2 : get_payload_size s (s.lo + 8 + total pre) = sz - 8 := by
    unfold get_payload_size
    rw [e1]
    exact wsub_eq _ 8 (by omega) (by omega)
  rw [e0, e2] at hm
  exact ⟨_, _, payload_write_inv s pre sz post fl m2 hinv (fun x hx => hm x (by omega)), hperm⟩

theorem poke_good (s : Heap) (live : List Nat) (p a v : Nat) (h : Good s live) (hp : p ∈ live)
    (h1 : p ≤ a) (h2 : a < p + get_payload_size s (payload_to_header p)) :
    Good (poke s a v) live := by
  refine payload_write_good s live p _ h hp (fun x hx => ?_)
  unfold write_byte
  rw [if_neg (by omega)]

/-! ## `malloc`, `calloc` and `realloc` on a well-formed heap -/

theorem malloc_good (fuel : Nat) (s : Heap) (live : List Nat) (n : Nat) (h : Good s live)
    (hn : n ≤ 18446744073709551592) (t : Heap) (p : Nat)
    (hr : malloc fuel s n = .ok (t, p)) :
    Good t (track p live) ∧ t.lo = s.lo ∧
      (p ≠ 0 → p ∉ live ∧ ∃ pre sz post fl2, Inv t (pre ++ ⟨sz, true⟩ :: post) fl2 ∧
        p = t.lo + 8 + total pre + 8 ∧ n + 8 ≤ sz ∧
        (p :: live).Perm (live_ptrs (t.lo + 8) (pre ++ ⟨sz, true⟩ :: post))) := by
  obtain ⟨bs, fl, hinv, hperm⟩ := h
  have hlo := hinv.lo_pos
  have hs0 : s.heap_start ≠ 0 := by
    rw [hinv.hs]
    omega
  by_cases h0 : n = 0
  · have e : malloc fuel s n = .ok (s, 0) := by
      unfold malloc
      simp only [if_neg hs0, if_pos h0]
    rw [e] at hr
    injection hr with hr
    have ht : t = s := (congrArg Prod.fst hr).symm
    have hp : p = 0 := (congrArg Prod.snd hr).symm
    subst ht
    subst hp
    exact ⟨⟨bs, fl, hinv, hperm⟩, rfl, fun hne => absurd rfl hne⟩
  · rcases malloc_inv fuel s bs fl n hinv h0 hn t p hr with ⟨hp, ht⟩ | ⟨hp, pre, sz, post, fl2,
      k1, k2, k3, k4, k5⟩
    · subst ht
      subst hp
      exact ⟨⟨bs, fl, hinv, hperm⟩, rfl, fun hne => absurd rfl hne⟩
    · have hadj := adjusted_spec n hn
      have hnot : p ∉ live := by
        intro hm
        have hnd : (p :: live_ptrs (s.lo + 8) bs).Nodup :=
          (k4.nodup_iff).1 (live_ptrs_nodup _ _ (seg_sized _ _ _ _ (k5 ▸ k1.seg)))
        exact (List.nodup_cons.1 hnd).1 (hperm.subset hm)
      have hpm : (p :: live).Perm (live_ptrs (t.lo + 8) (pre ++ ⟨sz, true⟩ :: post)) := by
        rw [k5]
        exact ((List.Perm.cons p hperm).trans k4.symm)
      refine ⟨⟨_, _, k1, ?_⟩, k5, fun _ => ⟨hnot, pre, sz, post, fl2, k1, by rw [k5]; exact k2,
        by omega, hpm⟩⟩
      unfold track
      rw [if_neg hp]
      exact hpm

theorem realloc_good (fuel : Nat) (s : Heap) (live : List Nat) (p n : Nat) (h : Good s live)
    (hp : p ∈ live) (hn : n ≤ 18446744073709551592) (t : Heap) (q : Nat)
    (hr : realloc fuel s p n = .ok (t, q)) :
    Good t (retrack p n q live) ∧ t.lo = s.lo := by
  have hp0 : p ≠ 0 := by
    obtain ⟨bs, fl, hinv, hperm⟩ := h
    have := live_ptrs_range _ _ (seg_sized _ _ _ _ hinv.seg) _ (hperm.subset hp)
    omega
  unfold realloc at hr
  by_cases h0 : n = 0
  · rw [if_pos h0] at hr
    injection hr with hr
    have ht : t = free s p := (congrArg Prod.fst hr).symm
    have hq : q = 0 := (congrArg Prod.snd hr).symm
    obtain ⟨g1, g2⟩ := free_good s live p h hp
    unfold retrack
    rw [if_pos h0, ht]
    exact ⟨g1, g2.1⟩
  · rw [if_neg h0, if_neg hp0] at hr
    cases hm : malloc fuel s n with
    | error e =>
      rw [hm] at hr
      cases hr
    | ok r =>
      obtain ⟨s1, newptr⟩ := r
      rw [hm] at hr
      dsimp only at hr
      obtain ⟨m1, m2, m3⟩ := malloc_good fuel s live n h hn s1 newptr hm
      by_cases hz : newptr = 0
      · rw [if_pos hz] at hr
        injection hr with hr
        have ht : t = s1 := (congrArg Prod.fst hr).symm
        have hq : q = 0 := (congrArg Prod.snd hr).symm
        unfold retrack
        rw [if_neg h0, if_pos hq, ht]
        unfold track at m1
        rw [if_pos hz] at m1
        exact ⟨m1, m2⟩
      · rw [if_neg hz] at hr
        injection hr with hr
        have ht := (congrArg Prod.fst hr).symm
        have hq : q = newptr := (congrArg Prod.snd hr).symm
        dsimp only at ht
        obtain ⟨hnot, pre, sz, post, fl2, k1, k2, k3, k4⟩ := m3 hz
        have hcopy : (if n < get_payload_size s1 (payload_to_header p) then n
            else get_payload_size s1 (payload_to_header p)) ≤ n := by
          split <;> omega
        have hinv2 := payload_write_inv s1 pre sz post fl2
          (mem_copy s1.mem newptr p (if n < get_payload_size s1 (payload_to_header p) then n
            else get_payload_size s1 (payload_to_header p))) k1 (fun x hx => by
            unfold mem_copy
            rw [if_neg (by omega)])
        have hg2 : Good { s1 with mem := (mem_copy s1.mem newptr p
            (if n < get_payload_size s1 (payload_to_header p) then n
              else get_payload_size s1 (payload_to_header p))) } (newptr :: live) :=
          ⟨_, _, hinv2, k4⟩
        obtain ⟨g1, g2⟩ := free_good _ _ p hg2 (List.mem_cons_of_mem _ hp)
        have hne : newptr ≠ p := fun e => hnot (e ▸ hp)
        have her : (newptr :: live).erase p = newptr :: live.erase p := by
          rw [List.erase_cons_tail]
          simpa using hne
        rw [her] at g1
        unfold retrack
        rw [if_neg h0, hq, if_neg hz, ht]
        exact ⟨g1, g2.1.trans m2⟩

theorem wmul_overflow (c n : Nat) (hc : c ≠ 0) (hw : W ≤ c * n) : wmul c n / c ≠ n := by
  have hW : W = 18446744073709551616 := rfl
  unfold wmul
  have h1 : c * n % W ≤ c * n - W := by
    rw [Nat.mod_eq_sub_mod hw]
    exact Nat.mod_le _ _
  have h2 : c * n % W < c * n := by omega
  have h3 := Nat.div_lt_of_lt_mul h2
  omega

theorem calloc_good (fuel : Nat) (s : Heap) (live : List Nat) (c n : Nat) (h : Good s live)
    (hb : c * n ≤ 18446744073709551592 ∨ W ≤ c * n) (t : Heap) (p : Nat)
    (hr : calloc fuel s c n = .ok (t, p)) :
    Good t (track p live) ∧ t.lo = s.lo := by
  have hW : W = 18446744073709551616 := rfl
  unfold calloc at hr
  by_cases hc0 : c = 0
  · rw [if_pos hc0] at hr
    cases hr
  · rw [if_neg hc0] at hr
    by_cases hov : wmul c n / c ≠ n
    · rw [if_pos hov] at hr
      injection hr with hr
      have ht : t = s := (congrArg Prod.fst hr).symm
      have hp : p = 0 := (congrArg Prod.snd hr).symm
      subst ht
      subst hp
      exact ⟨h, rfl⟩
    · rw [if_neg hov] at hr
      have hle : c * n ≤ 18446744073709551592 := by
        rcases hb with hb | hb
        · exact hb
        · exact absurd (wmul_overflow c n hc0 hb) hov
      have hwm : wmul c n = c * n := by
        unfold wmul
        exact Nat.mod_eq_of_lt (by omega)
      rw [hwm] at hr
      cases hm : malloc fuel s (c * n) with
      | error e =>
        rw [hm] at hr
        cases hr
      | ok r =>
        obtain ⟨s1, bp⟩ := r
        rw [hm] at hr
        dsimp only at hr
        obtain ⟨m1, m2, m3⟩ := malloc_good fuel s live (c * n) h hle s1 bp hm
        by_cases hz : bp = 0
        · rw [if_pos hz] at hr
          injection hr with hr
          have ht : t = s1 := (congrArg Prod.fst hr).symm
          have hp : p = 0 := (congrArg Prod.snd hr).symm
          rw [ht, hp]
          rw [hz] at m1
          exact ⟨m1, m2⟩
        · rw [if_neg hz] at hr
          injection hr with hr
          have ht := (congrArg Prod.fst hr).symm
          have hp : p = bp := (congrArg Prod.snd hr).symm
          dsimp only at ht
          obtain ⟨hnot, pre, sz, post, fl2, k1, k2, k3, k4⟩ := m3 hz
          have hinv2 := payload_write_inv s1 pre sz post fl2
            (mem_zero s1.mem bp (c * n)) k1 (fun x hx => by
              unfold mem_zero
              rw [if_neg (by omega)])
          rw [ht, hp]
          refine ⟨⟨_, _, hinv2, ?_⟩, m2⟩
          unfold track
          rw [if_neg hz]
          exact k4

/-! ## The address-order walk of a well-formed heap -/

theorem split_len (bs : List Blk) (k : Nat) (hk : k ≤ bs.length) :
    ∃ pre post, bs = pre ++ post ∧ pre.length = k :=
  ⟨bs.take k, bs.drop k, (List.take_append_drop k bs).symm, List.length_take_of_le hk⟩

/-- The header word found where the blocks `post` start, the epilogue standing
for the empty list. -/
theorem inv_header (s : Heap) (pre post : List Blk) (fl : List Nat)
    (h : Inv s (pre ++ post) fl) :
    load s (s.lo + 8 + total pre) =
      hd (first_size post) (first_alloc post) (last_alloc true pre) ∧
    first_size post % 16 = 0 ∧ s.lo + 8 + total pre + first_size post + 8 < W ∧
    (post ≠ [] → 32 ≤ first_size post) := by
  have hW : W = 18446744073709551616 := rfl
  have hfits := h.fits
  have hble := h.brk_le
  cases post with
  | nil =>
    have he := h.epi
    have hb := h.brk_eq
    rw [List.append_nil] at he hb
    refine ⟨he, rfl, ?_, fun hne => absurd rfl hne⟩
    show s.lo + 8 + total pre + 0 + 8 < W
    omega
  | cons b rest =>
    obtain ⟨-, hb, -, -, -, hbrk⟩ := inv_block _ _ _ _ _ h
    refine ⟨hb.2.2.1, hb.1, ?_, fun _ => hb.2.1⟩
    show s.lo + 8 + total pre + b.size + 8 < W
    omega

theorem walk_addr (s : Heap) (fl : List Nat) (pre : List Blk) :
    ∀ post, Inv s (pre ++ post) fl → nth_block s pre.length = s.lo + 8 + total pre := by
  induction pre using List.reverseRecOn with
  | nil =>
    intro post h
    exact h.hs
  | append_singleton l b ih =>
    intro post h
    have h2 : Inv s (l ++ b :: post) fl := by
      rw [List.append_assoc] at h
      exact h
    have e := ih (b :: post) h2
    obtain ⟨hh, h16, hw, -⟩ := inv_header s l (b :: post) fl h2
    have hsz : first_size (b :: post) = b.size := rfl
    rw [hsz] at hh h16 hw
    rw [List.length_append, List.length_singleton]
    show find_next s (nth_block s l.length) = _
    rw [e, find_next_eq s _ b.size (get_size_eq s _ b.size _ _ hh h16 (by omega)) (by omega),
      total_append]
    simp only [total]
    omega

/-- The `k`-th block of the walk, for `k` up to the number of blocks. -/
theorem walk_block (s : Heap) (pre post : List Blk) (fl : List Nat)
    (h : Inv s (pre ++ post) fl) :
    nth_block s pre.length = s.lo + 8 + total pre ∧
    get_size s (nth_block s pre.length) = first_size post ∧
    get_alloc s (nth_block s pre.length) = first_alloc post ∧
    prev_alloc_bit s (nth_block s pre.length) = last_alloc true pre ∧
    is_epilogue s (nth_block s pre.length) = post.isEmpty := by
  have hW : W = 18446744073709551616 := rfl
  have e := walk_addr s fl pre post h
  obtain ⟨hh, h16, hw, h32⟩ := inv_header s pre post fl h
  rw [e]
  have hgs := get_size_eq s _ _ _ _ hh h16 (by omega)
  have hga := get_alloc_eq s _ _ _ _ hh h16
  refine ⟨rfl, hgs, hga, ?_, ?_⟩
  · unfold prev_alloc_bit
    rw [prev_alloc_eq s _ _ _ _ hh h16]
    cases last_alloc true pre <;> rfl
  · unfold is_epilogue
    rw [hgs, hga]
    cases post with
    | nil => rfl
    | cons b rest =>
      have h3 : 32 ≤ b.size := h32 (by simp)
      have h4 : (b.size == 0) = false := by
        rw [beq_eq_false_iff_ne]
        omega
      show (b.size == 0 && b.alloc) = false
      rw [h4]
      rfl

theorem reaches_iff (s : Heap) (bs : List Blk) (fl : List Nat) (h : Inv s bs fl) (k : Nat) :
    reaches s k ↔ k ≤ bs.length := by
  constructor
  · intro hr
    by_contra hk
    have hlt : bs.length < k := by omega
    have h2 : Inv s (bs ++ []) fl := by
      rw [List.append_nil]
      exact h
    have := (walk_block s bs [] fl h2).2.2.2.2
    rw [hr bs.length hlt] at this
    cases this
  · intro hk j hj
    obtain ⟨pre, post, rfl, hlen⟩ := split_len bs j (by omega)
    have := (walk_block s pre post fl h).2.2.2.2
    rw [hlen] at this
    rw [this]
    cases post with
    | nil =>
      rw [List.append_nil] at hk
      omega
    | cons b rest => rfl

/-! ## The block invariants of the data model -/

theorem good_aligned (s : Heap) (live : List Nat) (h : Good s live) : PointersAligned live := by
  obtain ⟨bs, fl, hinv, hperm⟩ := h
  intro p hp
  have := live_ptrs_range _ _ (seg_sized _ _ _ _ hinv.seg) _ (hperm.subset hp)
  have := hinv.lo_al
  omega

/-- The block of a live pointer. -/
theorem ptr_block (s : Heap) (bs : List Blk) (fl : List Nat) (p : Nat) (h : Inv s bs fl)
    (hp : p ∈ live_ptrs (s.lo + 8) bs) :
    ∃ pre sz post, bs = pre ++ ⟨sz, true⟩ :: post ∧ p = s.lo + 8 + total pre + 8 ∧
      get_payload_size s (payload_to_header p) = sz - 8 ∧ 32 ≤ sz := by
  have hW : W = 18446744073709551616 := rfl
  obtain ⟨pre, b, post, rfl, hb, rfl⟩ := live_ptrs_split _ _ _ hp
  obtain ⟨sz, al⟩ := b
  dsimp only at hb
  subst hb
  obtain ⟨-, hb, -, -, -, hbrk⟩ := inv_block _ _ _ _ _ h
  dsimp only at hb hbrk
  have hfits := h.fits
  have hble := h.brk_le
  have hb32 : 32 ≤ sz := hb.2.1
  have e0 : payload_to_header (s.lo + 8 + total pre + 8) = s.lo + 8 + total pre := by
    unfold payload_to_header
    rw [wsub_eq _ _ (by omega) (by omega)]
    omega
  have e1 : get_size s (s.lo + 8 + total pre) = sz :=
    get_size_eq s _ sz true _ hb.2.2.1 hb.1 (by omega)
  refine ⟨pre, sz, post, rfl, rfl, ?_, hb32⟩
  unfold get_payload_size
  rw [e0, e1]
  exact wsub_eq _ 8 (by omega) (by omega)

theorem split_order (pre post pre2 post2 : List Blk) (b b2 : Blk)
    (h : pre ++ b :: post = pre2 ++ b2 :: post2) (hlt : total pre2 < total pre) :
    total pre2 + b2.size ≤ total pre := by
  rcases List.append_eq_append_iff.1 h with ⟨a, ha, hb⟩ | ⟨c, hc, hd⟩
  · -- `pre2 = pre ++ a`
    rw [ha, total_append] at hlt
    omega
  · cases c with
    | nil =>
      rw [List.append_nil] at hc
      rw [hc] at hlt
      omega
    | cons x c2 =>
      rw [List.cons_append] at hd
      injection hd with hx hrest
      rw [hc, total_append]
      simp only [total]
      rw [hx]
      omega

theorem good_disjoint (s : Heap) (live : List Nat) (h : Good s live) :
    PayloadsDisjoint s live := by
  obtain ⟨bs, fl, hinv, hperm⟩ := h
  intro p q hp hq hne
  obtain ⟨pre, sz, post, e1, e2, e3, e4⟩ := ptr_block s bs fl p hinv (hperm.subset hp)
  obtain ⟨pre2, sz2, post2, f1, f2, f3, f4⟩ := ptr_block s bs fl q hinv (hperm.subset hq)
  rw [e3, f3]
  have hcmp : total pre < total pre2 ∨ total pre2 < total pre := by
    rcases Nat.lt_trichotomy (total pre) (total pre2) with hlt | heq | hgt
    · exact Or.inl hlt
    · exact absurd (by rw [e2, f2, heq]) hne
    · exact Or.inr hgt
  rcases hcmp with hlt | hgt
  · have := split_order pre2 post2 pre post ⟨sz2, true⟩ ⟨sz, true⟩ (f1.symm.trans e1) hlt
    dsimp only at this
    left
    omega
  · have := split_order pre post pre2 post2 ⟨sz, true⟩ ⟨sz2, true⟩ (e1.symm.trans f1) hgt
    dsimp only at this
    right
    omega

/-- Two consecutive positions of the walk. -/
theorem split_succ (s : Heap) (bs : List Blk) (fl : List Nat) (h : Inv s bs fl) (k : Nat)
    (hk : k + 1 ≤ bs.length) :
    ∃ pre b rest, Inv s (pre ++ b :: rest) fl ∧ Inv s ((pre ++ [b]) ++ rest) fl ∧
      pre.length = k ∧ (pre ++ [b]).length = k + 1 := by
  obtain ⟨pre, post, rfl, hlen⟩ := split_len bs k (by omega)
  cases post with
  | nil =>
    rw [List.append_nil] at hk
    omega
  | cons b rest =>
    refine ⟨pre, b, rest, h, ?_, hlen, ?_⟩
    · rw [List.append_assoc]
      exact h
    · rw [List.length_append, hlen]
      rfl

theorem inv_prev_alloc (s : Heap) (bs : List Blk) (fl : List Nat) (h : Inv s bs fl) :
    PrevAllocExact s := by
  constructor
  · have := (walk_block s [] bs fl h).2.2.2.1
    exact this
  · intro k hk
    have hk2 := (reaches_iff s bs fl h (k + 1)).1 hk
    obtain ⟨pre, b, rest, h1, h2, l1, l2⟩ := split_succ s bs fl h k hk2
    have w1 := (walk_block s pre (b :: rest) fl h1).2.2.1
    have w2 := (walk_block s (pre ++ [b]) rest fl h2).2.2.2.1
    rw [l1] at w1
    rw [l2] at w2
    rw [w1, w2, last_alloc_append]
    rfl

theorem inv_no_adjacent (s : Heap) (bs : List Blk) (fl : List Nat) (h : Inv s bs fl) :
    NoAdjacentFree s := by
  intro k hk
  have hk2 := (reaches_iff s bs fl h (k + 1)).1 hk
  obtain ⟨pre, b, rest, h1, h2, l1, l2⟩ := split_succ s bs fl h k hk2
  have w1 := (walk_block s pre (b :: rest) fl h1).2.2.1
  have w2 := (walk_block s (pre ++ [b]) rest fl h2).2.2.1
  rw [l1] at w1
  rw [l2] at w2
  rw [w1, w2]
  rintro ⟨hb, hr⟩
  cases rest with
  | nil => cases hr
  | cons c rest2 =>
    obtain ⟨-, -, -, hpost, -, -⟩ := inv_block _ _ _ _ _ h1
    have hc : c.alloc = false := hr
    have hb2 : b.alloc = false := hb
    have := hpost.2.1 hc
    rw [hb2] at this
    cases this

theorem inv_sizes (s : Heap) (bs : List Blk) (fl : List Nat) (h : Inv s bs fl) : SizesOk s := by
  constructor
  · intro k hk hne
    have hk2 := (reaches_iff s bs fl h k).1 hk
    obtain ⟨pre, post, rfl, hlen⟩ := split_len bs k hk2
    obtain ⟨-, w2, -, -, w5⟩ := walk_block s pre post fl h
    rw [hlen] at w2 w5
    obtain ⟨-, h16, -, h32⟩ := inv_header s pre post fl h
    rw [w2]
    refine ⟨h16, h32 ?_⟩
    intro e
    rw [e] at w5
    rw [hne] at w5
    cases w5
  · refine ⟨bs.length, (reaches_iff s bs fl h _).2 (Nat.le_refl _), ?_⟩
    have h2 : Inv s (bs ++ []) fl := by
      rw [List.append_nil]
      exact h
    exact (walk_block s bs [] fl h2).2.2.2.2

/-! ## The free-list invariants of the data model -/

/-- The chain of `next` links follows the list of nodes. -/
theorem chain (s : Heap) (fl : List Nat) (hn : ∀ y, y ∈ fl → y + 24 < W) (pre : List Nat) :
    ∀ post, fl = pre ++ post → FList s.mem 0 s.free_start fl →
      FSeg s.mem (last_or 0 pre) (nth_free s pre.length) post 0 := by
  induction pre using List.reverseRecOn with
  | nil =>
    intro post e hf
    rw [List.nil_append] at e
    rw [← e]
    exact hf
  | append_singleton l x ih =>
    intro post e hf
    have e2 : fl = l ++ x :: post := by
      rw [e, List.append_assoc]
      rfl
    obtain ⟨hx, hx0, -, hrest⟩ := ih (x :: post) e2 hf
    have hxm : x ∈ fl := by
      rw [e2]
      simp
    have hnext : block_next s x = read_word s.mem (x + 16) := by
      unfold block_next load
      rw [wadd_eq _ _ (by have := hn x hxm; omega)]
    have hlast : last_or 0 (l ++ [x]) = x := last_or_snoc 0 l x
    rw [List.length_append, List.length_singleton, hlast]
    show FSeg s.mem x (if nth_free s l.length = 0 then 0 else block_next s (nth_free s l.length))
      post 0
    rw [hx, if_neg hx0, hnext]
    exact hrest

theorem split_len_nat (fl : List Nat) (k : Nat) (hk : k ≤ fl.length) :
    ∃ pre post, fl = pre ++ post ∧ pre.length = k :=
  ⟨fl.take k, fl.drop k, (List.take_append_drop k fl).symm, List.length_take_of_le hk⟩

theorem nth_free_node (s : Heap) (bs : List Blk) (fl : List Nat) (h : Inv s bs fl)
    (pre : List Nat) (x : Nat) (post : List Nat) (e : fl = pre ++ x :: post) :
    nth_free s pre.length = x ∧ x ≠ 0 ∧ block_prev s x = last_or 0 pre ∧
      block_next s x = head_or 0 post ∧
      (∀ y, head_or 0 post = y → y ≠ 0 → block_prev s y = x) := by
  have hnodes := inv_nodes _ _ _ h
  have hn : ∀ y, y ∈ fl → y + 24 < W := fun y hy => (hnodes.2 y hy).2
  obtain ⟨hx, hx0, hp, hrest⟩ := chain s fl hn pre (x :: post) e h.flist
  have hxm : x ∈ fl := by
    rw [e]
    simp
  have hnext : block_next s x = read_word s.mem (x + 16) := by
    unfold block_next load
    rw [wadd_eq _ _ (by have := hn x hxm; omega)]
  have hprev : block_prev s x = read_word s.mem (x + 8) := by
    unfold block_prev load
    rw [wadd_eq _ _ (by have := hn x hxm; omega)]
  refine ⟨hx, hx0, hprev.trans hp, hnext.trans (fseg_head _ _ _ _ _ hrest), ?_⟩
  intro y hy hy0
  cases post with
  | nil => exact absurd hy.symm hy0
  | cons z zs =>
    have hz : z = y := hy
    subst hz
    have hzm : z ∈ fl := by
      rw [e]
      simp
    unfold block_prev load
    rw [wadd_eq _ _ (by have := hn z hzm; omega)]
    exact hrest.2.2.1

theorem nth_free_end (s : Heap) (bs : List Blk) (fl : List Nat) (h : Inv s bs fl) (j : Nat) :
    nth_free s (fl.length + j) = 0 := by
  have hnodes := inv_nodes _ _ _ h
  have hn : ∀ y, y ∈ fl → y + 24 < W := fun y hy => (hnodes.2 y hy).2
  induction j with
  | zero => exact chain s fl hn fl [] (List.append_nil fl).symm h.flist
  | succ j ih =>
    show (if nth_free s (fl.length + j) = 0 then 0
      else block_next s (nth_free s (fl.length + j))) = 0
    rw [if_pos ih]

theorem nth_free_get (s : Heap) (bs : List Blk) (fl : List Nat) (h : Inv s bs fl) (i : Nat)
    (hi : i < fl.length) : nth_free s i = fl.get ⟨i, hi⟩ := by
  obtain ⟨pre, post, e, hlen⟩ := split_len_nat fl i (by omega)
  cases post with
  | nil =>
    have := congrArg List.length e
    rw [List.append_nil] at this
    omega
  | cons x post2 =>
    have h1 := (nth_free_node s bs fl h pre x post2 e).1
    rw [hlen] at h1
    rw [h1]
    subst e
    subst hlen
    show x = (pre ++ x :: post2)[pre.length]
    rw [List.getElem_append_right (Nat.le_refl _)]
    simp

theorem inv_links (s : Heap) (bs : List Blk) (fl : List Nat) (h : Inv s bs fl) :
    LinksConsistent s := by
  constructor
  · intro h0
    cases hfl : fl with
    | nil =>
      have hf := h.flist
      rw [hfl] at hf
      exact absurd hf h0
    | cons x xs =>
      obtain ⟨h1, -, h3, -, -⟩ := nth_free_node s bs fl h [] x xs hfl
      have e : s.free_start = x := h1
      rw [e]
      exact h3
  · intro k hk hnx
    by_cases hlt : k < fl.length
    · obtain ⟨pre, post, e, hlen⟩ := split_len_nat fl k (by omega)
      cases post with
      | nil =>
        have := congrArg List.length e
        rw [List.append_nil] at this
        omega
      | cons x post2 =>
        obtain ⟨h1, -, -, h4, h5⟩ := nth_free_node s bs fl h pre x post2 e
        rw [hlen] at h1
        rw [h1] at hnx ⊢
        rw [h4] at hnx ⊢
        exact h5 _ rfl hnx
    · have := nth_free_end s bs fl h (k - fl.length)
      rw [show fl.length + (k - fl.length) = k by omega] at this
      exact absurd this hk

theorem inv_free_list (s : Heap) (bs : List Blk) (fl : List Nat) (h : Inv s bs fl) :
    FreeListExact s := by
  have hnodes := inv_nodes _ _ _ h
  refine ⟨fl.length, ?_, ?_, ?_, ?_⟩
  · intro i hi
    rw [nth_free_get s bs fl h i hi]
    exact fseg_ne_zero _ _ _ _ _ h.flist _ (List.get_mem _ _ _)
  · exact nth_free_end s bs fl h 0
  · intro i j hij hj
    rw [nth_free_get s bs fl h i (by omega), nth_free_get s bs fl h j hj]
    intro e
    have := (List.Nodup.get_inj_iff hnodes.1).1 e
    have := congrArg Fin.val this
    dsimp only at this
    omega
  · intro b
    constructor
    · rintro ⟨i, hi, rfl⟩
      rw [nth_free_get s bs fl h i hi]
      have hm : fl.get ⟨i, hi⟩ ∈ free_addrs (s.lo + 8) bs :=
        h.perm.subset (List.get_mem _ _ _)
      obtain ⟨pre, c, post, e, hc, hb⟩ := free_addrs_split _ _ _ hm
      subst e
      obtain ⟨w1, -, w3, -, -⟩ := walk_block s pre (c :: post) fl h
      refine ⟨pre.length, (reaches_iff s _ fl h _).2 ?_, by rw [hb, w1], ?_⟩
      · rw [List.length_append]
        omega
      · rw [hb, ← w1, w3]
        exact hc
    · rintro ⟨k, hk, rfl, ha⟩
      have hk2 := (reaches_iff s bs fl h k).1 hk
      obtain ⟨pre, post, e, hlen⟩ := split_len bs k hk2
      subst e
      obtain ⟨w1, -, w3, -, -⟩ := walk_block s pre post fl h
      rw [hlen] at w1 w3
      rw [w3] at ha
      cases post with
      | nil => cases ha
      | cons c rest =>
        have hc : c.alloc = false := ha
        have hm : nth_block s k ∈ fl := by
          refine h.perm.symm.subset ?_
          rw [w1, free_addrs_append]
          simp [free_addrs, hc]
        obtain ⟨i, e⟩ := List.mem_iff_get.1 hm
        exact ⟨i.1, i.2, by rw [nth_free_get s _ fl h i.1 i.2]; exact e⟩

/-! ## Call sequences without oversized requests -/

theorem reach_small_reach (s : Heap) (live : List Nat) (h : ReachSmall s live) :
    Reach s live := by
  have hW : W = 18446744073709551616 := rfl
  induction h with
  | init s0 hb hr => exact Reach.init s0 hb hr
  | malloc fuel n s t live p _ hn hr ih =>
    have hn2 : n ≤ 18446744073709551592 := hn
    exact Reach.malloc fuel n s t live p ih (by show n < W; omega) hr
  | calloc fuel c n s t live p _ hc hn _ hr ih => exact Reach.calloc fuel c n s t live p ih hc hn hr
  | free s live p _ hp ih => exact Reach.free s live p ih hp
  | realloc fuel n s t live p q _ hp hn hr ih =>
    have hn2 : n ≤ 18446744073709551592 := hn
    exact Reach.realloc fuel n s t live p q ih hp (by show n < W; omega) hr
  | write s live p a v _ hp h1 h2 ih => exact Reach.write s live p a v ih hp h1 h2

/-- Every state of a call sequence without oversized requests is well formed,
and `live` lists the payload pointers of its allocated blocks. -/
theorem reach_small_good (s : Heap) (live : List Nat) (h : ReachSmall s live) :
    Good s live := by
  induction h with
  | init s0 hb hr => exact (init_good s0 hb hr).1
  | malloc fuel n s t live p _ hn hr ih => exact (malloc_good fuel s live n ih hn t p hr).1
  | calloc fuel c n s t live p _ hc hn hb hr ih =>
    exact (calloc_good fuel s live c n ih hb t p hr).1
  | free s live p _ hp ih => exact (free_good s live p ih hp).1
  | realloc fuel n s t live p q _ hp hn hr ih =>
    exact (realloc_good fuel s live p n ih hp hn t q hr).1
  | write s live p a v _ hp h1 h2 ih => exact poke_good s live p a v ih hp h1 h2

theorem small_aligned (s : Heap) (live : List Nat) (h : ReachSmall s live) :
    PointersAligned live := good_aligned s live (reach_small_good s live h)

theorem small_disjoint (s : Heap) (live : List Nat) (h : ReachSmall s live) :
    PayloadsDisjoint s live := good_disjoint s live (reach_small_good s live h)

theorem small_prev_alloc (s : Heap) (live : List Nat) (h : ReachSmall s live) :
    PrevAllocExact s := by
  obtain ⟨bs, fl, hinv, -⟩ := reach_small_good s live h
  exact inv_prev_alloc s bs fl hinv

theorem small_no_adjacent (s : Heap) (live : List Nat) (h : ReachSmall s live) :
    NoAdjacentFree s := by
  obtain ⟨bs, fl, hinv, -⟩ := reach_small_good s live h
  exact inv_no_adjacent s bs fl hinv

theorem small_free_list (s : Heap) (live : List Nat) (h : ReachSmall s live) :
    FreeListExact s := by
  obtain ⟨bs, fl, hinv, -⟩ := reach_small_good s live h
  exact inv_free_list s bs fl hinv

theorem small_links (s : Heap) (live : List Nat) (h : ReachSmall s live) :
    LinksConsistent s := by
  obtain ⟨bs, fl, hinv, -⟩ := reach_small_good s live h
  exact inv_links s bs fl hinv

theorem small_sizes (s : Heap) (live : List Nat) (h : ReachSmall s live) : SizesOk s := by
  obtain ⟨bs, fl, hinv, -⟩ := reach_small_good s live h
  exact inv_sizes s bs fl hinv

/-- In a state of a call sequence without oversized requests, `malloc` returns
for every request once the fuel exceeds the length of the free list. -/
theorem small_malloc_returns (s : Heap) (live : List Nat) (h : ReachSmall s live) :
    ∃ fuel, ∀ n, ∃ r, malloc fuel s n = .ok r := by
  obtain ⟨bs, fl, hinv, -⟩ := reach_small_good s live h
  exact ⟨fl.length + 1, fun n => malloc_returns _ s bs fl n hinv (Nat.lt_succ_self _)⟩

/-! ## What a successful `malloc` returns -/

theorem block_payload (s : Heap) (pre : List Blk) (sz : Nat) (post : List Blk) (fl : List Nat)
    (h : Inv s (pre ++ ⟨sz, true⟩ :: post) fl) :
    get_payload_size s (payload_to_header (s.lo + 8 + total pre + 8)) = sz - 8 ∧ 32 ≤ sz := by
  have hW : W = 18446744073709551616 := rfl
  obtain ⟨-, hb, -, -, -, hbrk⟩ := inv_block _ _ _ _ _ h
  dsimp only at hb hbrk
  have hfits := h.fits
  have hble := h.brk_le
  have hb32 : 32 ≤ sz := hb.2.1
  have e0 : payload_to_header (s.lo + 8 + total pre + 8) = s.lo + 8 + total pre := by
    unfold payload_to_header
    rw [wsub_eq _ _ (by omega) (by omega)]
    omega
  have e1 : get_size s (s.lo + 8 + total pre) = sz :=
    get_size_eq s _ sz true _ hb.2.2.1 hb.1 (by omega)
  refine ⟨?_, hb32⟩
  unfold get_payload_size
  rw [e0, e1]
  exact wsub_eq _ 8 (by omega) (by omega)

/-- On a well-formed heap, a successful `malloc` of at most `max_request` bytes
returns a 16-byte aligned pointer, not live before the call, to a payload of at
least the requested size. -/
theorem malloc_payload (fuel : Nat) (s : Heap) (live : List Nat) (n : Nat) (h : Good s live)
    (hn : n ≤ max_request) (t : Heap) (p : Nat) (hr : malloc fuel s n = .ok (t, p))
    (hp : p ≠ 0) :
    n ≤ get_payload_size t (payload_to_header p) ∧ p % 16 = 0 ∧ p ∉ live := by
  obtain ⟨g1, -, g3⟩ := malloc_good fuel s live n h hn t p hr
  obtain ⟨hnot, pre, sz, post, fl2, k1, k2, k3, -⟩ := g3 hp
  obtain ⟨b1, b2⟩ := block_payload t pre sz post fl2 k1
  rw [← k2] at b1
  have hal := good_aligned t _ g1 p (by unfold track; rw [if_neg hp]; exact List.mem_cons_self _ _)
  rw [b1]
  exact ⟨by omega, hal, hnot⟩

/-! # Part III: the claims -/

/-! ## Calls that return -/

/-- A call that returns a pointer is the pair of its final state and that
pointer. -/
theorem eq_ok_of_ret (r : Except Fault (Heap × Nat)) (s : Heap) (p : Nat)
    (h : ret r = some p) : r = .ok (after r s, p) := by
  cases r with
  | error e => simp [ret] at h
  | ok v =>
    obtain ⟨t, q⟩ := v
    simp only [ret, Option.some.injEq] at h
    subst h
    rfl

/-! ## The call sequence with an oversized request is valid -/

theorem boot_fresh : Boot fresh := by
  unfold Boot fresh
  decide

theorem reach_h1 : Reach h1 [] :=
  Reach.init fresh boot_fresh (by decide!)

theorem reach_h2 : Reach h2 [4112] :=
  Reach.malloc 2 56 h1 h2 [] 4112 reach_h1 (by decide)
    (eq_ok_of_ret _ h1 4112 (by decide!))

theorem reach_h3 : Reach h3 [4112] := by
  have m : (4112 : Nat) ∈ [4112] := by simp
  have r1 := Reach.write h2 [4112] 4112 4112 48 reach_h2 m (by decide) (by decide!)
  have r2 := Reach.write _ [4112] 4112 4136 162 r1 m (by decide) (by decide!)
  have r3 := Reach.write _ [4112] 4112 4137 6 r2 m (by decide) (by decide!)
  have r4 := Reach.write _ [4112] 4112 4152 80 r3 m (by decide) (by decide!)
  exact Reach.write _ [4112] 4112 4153 16 r4 m (by decide) (by decide!)

theorem reach_h4 : Reach h4 [4176] :=
  Reach.realloc 3 SIZE_MAX h3 h4 [4112] 4112 4176 reach_h3 (by simp) (by decide)
    (eq_ok_of_ret _ h3 4176 (by decide!))

theorem reach_h5 : Reach h5 [4184, 4176] :=
  Reach.malloc 4 24 h4 h5 [4176] 4184 reach_h4 (by decide)
    (eq_ok_of_ret _ h4 4184 (by decide!))

theorem reach_g3 : Reach g3 [4112] := by
  have m : (4112 : Nat) ∈ [4112] := by simp
  have r1 := Reach.write h2 [4112] 4112 4136 16 reach_h2 m (by decide) (by decide!)
  have r2 := Reach.write _ [4112] 4112 4152 144 r1 m (by decide) (by decide!)
  exact Reach.write _ [4112] 4112 4153 6 r2 m (by decide) (by decide!)

theorem reach_g4 : Reach g4 [4176] :=
  Reach.realloc 3 SIZE_MAX g3 g4 [4112] 4112 4176 reach_g3 (by simp) (by decide)
    (eq_ok_of_ret _ g3 4176 (by decide!))

/-! ## The calls before the oversized request keep the heap well formed -/

theorem reach_small_h2 : ReachSmall h2 [4112] :=
  ReachSmall.malloc 2 56 h1 h2 [] 4112 (ReachSmall.init fresh boot_fresh (by decide!))
    (by decide) (eq_ok_of_ret _ h1 4112 (by decide!))

theorem good_h2 : Good h2 [4112] := reach_small_good h2 [4112] reach_small_h2

/-! ## The heap checker -/

/-- The heap checker passes only when `detect_cycle` reports a cycle. -/
theorem checkheap_needs_cycle (fuel : Nat) (s : Heap)
    (h : mm_checkheap fuel s = .ok true) : detect_cycle fuel s = .ok true := by
  unfold mm_checkheap at h
  cases h1 : no_adjacent_free_blocks fuel s with
  | error e => simp [h1] at h
  | ok r1 =>
    cases h2 : detect_cycle fuel s with
    | error e => cases r1 <;> simp [h1, h2] at h
    | ok r2 => cases r1 <;> cases r2 <;> simp [h1, h2] at h ⊢

/-- C1, evaluated on the code: the state after a successful `mm_init` on a
fresh arena is the state after a valid call sequence, and on it `mm_checkheap`
returns false for every step budget that lets its loops finish.  The free list
holds one block and has no cycle, `detect_cycle` returns `0` for "no cycle",
and `mm_checkheap` takes `0` as a failure.  The claim says the checker returns
true after each call. -/
theorem C1_checkheap_fails_after_init :
    Reach h1 [] ∧ ∀ k, mm_checkheap (k + 2) h1 = .ok false := by
  refine ⟨reach_h1, fun k => ?_⟩
  have e0 : is_epilogue h1 h1.heap_start = false := by decide!
  have a0 : get_alloc h1 (find_next h1 h1.heap_start) = true := by decide!
  have e1 : is_epilogue h1 (find_next h1 h1.heap_start) = true := by decide!
  have n0 : block_next h1 h1.free_start = 0 := by decide!
  have c1 : no_adjacent_free_blocks (k + 2) h1 = .ok true := by
    simp [no_adjacent_free_blocks, no_adjacent_free_blocks_loop, e0, a0, e1]
  have c2 : detect_cycle (k + 2) h1 = .ok false := by
    simp [detect_cycle, detect_cycle_loop, n0]
  simp [mm_checkheap, c1, c2]

/-! ## Oversized requests -/

/-- C2, evaluated on the code: on the heap left by `mm_init`, the request
`malloc(SIZE_MAX)` has its adjusted size wrap to 16 and then raised to 32, and
it returns the non-null pointer 4112 to a block whose payload is 24 bytes.  The
claim says the payload is at least the request. -/
theorem C2_oversized_request_gets_short_payload :
    Reach h1 [] ∧ SIZE_MAX < W ∧ round_up (wadd SIZE_MAX wsize) dsize = 16 ∧
      ret (malloc 2 h1 SIZE_MAX) = some 4112 ∧
      get_payload_size (after (malloc 2 h1 SIZE_MAX) h1) (payload_to_header 4112) = 24 :=
  ⟨reach_h1, by decide, by decide, by decide!, by decide!⟩

/-- C3, evaluated on the code: after `mm_init`, `p = malloc(56)`, three words
stored in the payload of `p`, and `q = realloc(p, SIZE_MAX)`, the call
`malloc(24)` returns 4184, which is not a multiple of 16, although the arena
starts at the 16-byte aligned address 4096.  The claim says every returned
pointer is a multiple of 16. -/
theorem C3_misaligned_pointer_after_oversized_realloc :
    Reach h5 [4184, 4176] ∧ fresh.lo % 16 = 0 ∧ ¬ PointersAligned [4184, 4176] := by
  refine ⟨reach_h5, by decide, fun h => ?_⟩
  have := h 4184 (by simp)
  omega

/-- C4, evaluated on the code: after the same call sequence the live pointers
4176 and 4184 have payloads of 24 and 40 bytes, and the two ranges overlap.
The claim says the payloads of distinct live pointers are disjoint. -/
theorem C4_overlap_after_oversized_realloc :
    Reach h5 [4184, 4176] ∧ ¬ PayloadsDisjoint h5 [4184, 4176] := by
  refine ⟨reach_h5, fun h => ?_⟩
  have h := h 4184 4176 (by simp) (by simp) (by decide)
  have e1 : get_payload_size h5 (payload_to_header 4184) = 40 := by decide!
  have e2 : get_payload_size h5 (payload_to_header 4176) = 24 := by decide!
  rw [e1, e2] at h
  omega

/-! ## The initialisation done by an empty request -/

/-- C5, the claim fails as stated: on the arena before `mm_init`, where
`heap_start` is null, `malloc(0)` returns null but leaves `heap_start` at 4104
and the arena at 1808 bytes, so the state is not the one before the call. -/
theorem C5_malloc_zero_initialises :
    fresh.heap_start = 0 ∧ ret (malloc 0 fresh 0) = some 0 ∧
      (after (malloc 0 fresh 0) fresh).heap_start = 4104 ∧
      (after (malloc 0 fresh 0) fresh).brk = 1808 ∧ fresh.brk = 0 ∧
      malloc 0 fresh 0 ≠ .ok (fresh, 0) := by
  refine ⟨by decide, by decide!, by decide!, by decide!, by decide, fun h => ?_⟩
  have e : (after (malloc 0 fresh 0) fresh).brk = 1808 := by decide!
  rw [h] at e
  revert e
  decide

/-- C5, as amended: in every state `malloc(0)` returns null, and in every
state in which the allocator has been initialised, that is `heap_start` is not
null, it leaves the whole state unchanged: memory, arena, `heap_start` and
`free_start`. -/
theorem C5_malloc_zero (fuel : Nat) (s : Heap) :
    ret (malloc fuel s 0) = some 0 ∧ (s.heap_start ≠ 0 → malloc fuel s 0 = .ok (s, 0)) := by
  constructor
  · simp [malloc, ret]
  · intro h
    simp [malloc, h]

theorem C5_malloc_zero_witness :
    h1.heap_start ≠ 0 ∧ malloc 0 h1 0 = .ok (h1, 0) :=
  ⟨by decide!, (C5_malloc_zero 0 h1).2 (by decide!)⟩

/-! ## The invariants after an oversized request -/

/-- C6, evaluated on the code: after `mm_init`, `p = malloc(56)`, two words
stored in the payload of `p`, and `realloc(p, SIZE_MAX)`, the third block of
the walk, at 4200, has a clear `prev_alloc` bit while the block before it, at
4168, is allocated.  The claim says the bit equals the allocated bit of the
block before. -/
theorem C6_prev_alloc_wrong_after_oversized_realloc :
    Reach g4 [4176] ∧ ¬ PrevAllocExact g4 := by
  refine ⟨reach_g4, fun h => ?_⟩
  have h := h.2 1 (by
    intro j hj
    have : j = 0 ∨ j = 1 := by omega
    rcases this with rfl | rfl <;> decide!)
  revert h
  decide!

/-- C7, evaluated on the code: after the same call sequence the third and
fourth blocks of the walk, at 4200 and 4216, are both free.  The claim says no
two consecutive blocks of the walk are both free. -/
theorem C7_adjacent_free_after_oversized_realloc :
    Reach g4 [4176] ∧ ¬ NoAdjacentFree g4 := by
  refine ⟨reach_g4, fun h => ?_⟩
  refine h 2 (by
    intro j hj
    have : j = 0 ∨ j = 1 ∨ j = 2 := by omega
    rcases this with rfl | rfl | rfl <;> decide!) ?_
  decide!

/-- C8, evaluated on the code: after `mm_init`, `p = malloc(56)`, three words
stored in the payload of `p`, and `q = realloc(p, SIZE_MAX)`, the chain of
`next` links from `free_start` is 4104, 4200, 4176, and 4176 is not a block of
the address-order walk, which is 4104, 4168, 4200 and the epilogue.  The claim
says the chain visits exactly the free blocks of the walk. -/
theorem C8_free_list_leaves_walk_after_oversized_realloc :
    Reach h4 [4176] ∧ ¬ FreeListExact h4 := by
  refine ⟨reach_h4, fun h => ?_⟩
  obtain ⟨n, -, hz, -, hb⟩ := h
  have hn3 : 2 < n := by
    by_contra hc
    have : n = 0 ∨ n = 1 ∨ n = 2 := by omega
    rcases this with rfl | rfl | rfl <;> revert hz <;> decide!
  obtain ⟨k, hk, hkb, -⟩ := (hb 4176).1 ⟨2, hn3, by decide!⟩
  have hk3 : k ≤ 3 := by
    by_contra hc
    have := hk 3 (by omega)
    revert this
    decide!
  have : k = 0 ∨ k = 1 ∨ k = 2 ∨ k = 3 := by omega
  rcases this with rfl | rfl | rfl | rfl <;> revert hkb <;> decide!

/-- C9, evaluated on the code: after the same call sequence as for C8, the
second node of the free list, 4200, has the successor 4176, whose `prev` link
is null and not 4200.  The claim says `a->next->prev == a` for every node with
a successor. -/
theorem C9_links_inconsistent_after_oversized_realloc :
    Reach h4 [4176] ∧ ¬ LinksConsistent h4 := by
  refine ⟨reach_h4, fun h => ?_⟩
  have h := h.2 1 (by decide!) (by decide!)
  revert h
  decide!

/-- C10, evaluated on the code: after the same call sequence as for C6, the
third block of the walk, at 4200, is not the epilogue and has size 16.  The
claim says every block before the epilogue has a size of at least 32. -/
theorem C10_undersized_block_after_oversized_realloc :
    Reach g4 [4176] ∧ ¬ SizesOk g4 := by
  refine ⟨reach_g4, fun h => ?_⟩
  have h := h.1 2 (by
    intro j hj
    have : j = 0 ∨ j = 1 := by omega
    rcases this with rfl | rfl <;> decide!) (by decide!)
  have e : get_size g4 (nth_block g4 2) = 16 := by decide!
  rw [e] at h
  exact absurd h.2 (by decide)

/-! # Part IV: further claims -/

/-! ## Requests that fail -/

theorem adjusted_wf (n : Nat) :
    adjusted n % 16 = 0 ∧ 32 ≤ adjusted n ∧ adjusted n + 15 < W := by
  have hW : W = 18446744073709551616 := rfl
  have h1 : round_up (wadd n wsize) dsize % 16 = 0 ∧ round_up (wadd n wsize) dsize + 15 < W := by
    unfold round_up wmul
    have hd16 : dsize = 16 := rfl
    rw [hd16]
    have hy : wadd (wadd n wsize) (wsub 16 1) < W := Nat.mod_lt _ (by decide)
    generalize wadd (wadd n wsize) (wsub 16 1) = y at hy
    have : 16 * (y / 16) % W = 16 * (y / 16) := Nat.mod_eq_of_lt (by omega)
    rw [this]
    omega
  unfold adjusted
  by_cases hc : round_up (wadd n wsize) dsize < min_block_size
  · rw [if_pos hc]
    show 32 % 16 = 0 ∧ 32 ≤ 32 ∧ 32 + 15 < W
    omega
  · rw [if_neg hc]
    have hc2 : ¬ round_up (wadd n wsize) dsize < 32 := hc
    omega

/-- What a successful `malloc` of any request does to a well-formed heap: the
heap stays well formed, whatever the request, and a null result leaves the
state as it was, the arena having no room for the extension. -/
theorem malloc_inv_any (fuel : Nat) (s : Heap) (bs : List Blk) (fl : List Nat) (n : Nat)
    (h : Inv s bs fl) (h0 : n ≠ 0) (t : Heap) (p : Nat)
    (hr : malloc fuel s n = .ok (t, p)) :
    (p = 0 ∧ t = s ∧ ¬ s.brk + MM.max (adjusted n) chunksize ≤ s.cap) ∨
    (p ≠ 0 ∧ ∃ pre sz post fl2,
      Inv t (pre ++ ⟨sz, true⟩ :: post) fl2 ∧ p = s.lo + 8 + total pre + 8 ∧
      adjusted n ≤ sz ∧
      (live_ptrs (s.lo + 8) (pre ++ ⟨sz, true⟩ :: post)).Perm (p :: live_ptrs (s.lo + 8) bs) ∧
      t.lo = s.lo) := by
  have hW : W = 18446744073709551616 := rfl
  obtain ⟨a16, a32, aw⟩ := adjusted_wf n
  have hfits := h.fits
  have hble := h.brk_le
  have hlo := h.lo_pos
  have hs0 : s.heap_start ≠ 0 := by
    rw [h.hs]
    omega
  rw [malloc_unfold fuel s n hs0 h0] at hr
  have hff := (find_fit_spec fuel s bs fl (adjusted n) h).1
  cases hfr : find_fit fuel s (adjusted n) with
  | error e =>
    rw [hfr] at hr
    cases hr
  | ok block =>
    rw [hfr] at hr
    dsimp only at hr
    by_cases hb0 : block = 0
    · rw [if_pos hb0] at hr
      have hm16 : MM.max (adjusted n) chunksize % 16 = 0 := by
        rcases max_spec (adjusted n) with e | e <;> rw [e]
        exact a16
      have hm32 : 32 ≤ MM.max (adjusted n) chunksize := by
        have := max_ge (adjusted n)
        omega
      have hmw : MM.max (adjusted n) chunksize + 15 < W := by
        rcases max_spec (adjusted n) with e | e <;> rw [e]
        · exact aw
        · omega
      by_cases hcap : s.brk + MM.max (adjusted n) chunksize ≤ s.cap
      · obtain ⟨pre2, post2, sz, fl2, x1, x2, x3, x4, x5⟩ :=
          extend_spec s bs fl _ h hm16 hm32 hcap
        have hne : (extend_heap s (MM.max (adjusted n) chunksize)).2 ≠ 0 := by
          rw [x2]
          omega
        rw [if_neg hne] at hr
        have ht : t = place (extend_heap s (MM.max (adjusted n) chunksize)).1
            (extend_heap s (MM.max (adjusted n) chunksize)).2 (adjusted n) := by
          injection hr with hr
          exact (congrArg Prod.fst hr).symm
        have hp : p = header_to_payload (extend_heap s (MM.max (adjusted n) chunksize)).2 := by
          injection hr with hr
          exact (congrArg Prod.snd hr).symm
        obtain ⟨-, hbk, -, -, -, hbrk2⟩ := inv_block _ _ _ _ _ x1
        have hble2 := x1.brk_le
        have hfits2 := x1.fits
        dsimp only at hbk hbrk2
        rw [x5] at hbk hfits2
        rw [← x2] at hbk
        have hgs : get_size (extend_heap s (MM.max (adjusted n) chunksize)).1
            (extend_heap s (MM.max (adjusted n) chunksize)).2 = sz :=
          get_size_eq _ _ sz false _ hbk.2.2.1 hbk.1 (by omega)
        have hmg := max_ge (adjusted n)
        obtain ⟨pre, sz2, post, fl3, y1, y2, y3, y4, y5⟩ :=
          place_spec _ _ _ (extend_heap s (MM.max (adjusted n) chunksize)).2 (adjusted n) x1
            (List.mem_cons_self _ _) a16 a32 (by rw [hgs]; omega)
        rw [x5] at y2 y4
        rw [x4] at y4
        have hp2 : p = s.lo + 8 + total pre + 8 := by
          rw [hp, y2]
          unfold header_to_payload
          rw [wadd_eq]
          have hb3 := y1.brk_eq
          have hb4 := y1.brk_le
          have hb5 := y1.fits
          have hb6 := y5.1
          have hb7 := y5.2.2.1
          rw [total_append] at hb3
          omega
        refine Or.inr ⟨by omega, pre, sz2, post, fl3, by rw [ht]; exact y1, hp2, y3, ?_, ?_⟩
        · rw [hp2, ← y2]
          exact y4
        · rw [ht, y5.1, x5]
      · have hfail := extend_fail s _ hm16 hmw hcap
        rw [hfail] at hr
        dsimp only at hr
        rw [if_pos rfl] at hr
        injection hr with hr
        exact Or.inl ⟨(congrArg Prod.snd hr).symm, (congrArg Prod.fst hr).symm, hcap⟩
    · rw [if_neg hb0] at hr
      have ht : t = place s block (adjusted n) := by
        injection hr with hr
        exact (congrArg Prod.fst hr).symm
      have hp : p = header_to_payload block := by
        injection hr with hr
        exact (congrArg Prod.snd hr).symm
      rcases hff block hfr with hz | ⟨hmem, hfit⟩
      · exact absurd hz hb0
      · obtain ⟨pre, sz2, post, fl3, y1, y2, y3, y4, y5⟩ :=
          place_spec _ _ _ block (adjusted n) h hmem a16 a32 hfit
        have hp2 : p = s.lo + 8 + total pre + 8 := by
          rw [hp, y2]
          unfold header_to_payload
          rw [wadd_eq]
          have hb3 := y1.brk_eq
          have hb4 := y1.brk_le
          have hb5 := y1.fits
          have hb6 := y5.1
          have hb7 := y5.2.2.1
          rw [total_append] at hb3
          omega
        refine Or.inr ⟨by omega, pre, sz2, post, fl3, by rw [ht]; exact y1, hp2, y3, ?_, ?_⟩
        · rw [hp2, ← y2]
          exact y4
        · rw [ht, y5.1]

theorem boot_tiny : Boot tiny := by
  unfold Boot tiny
  decide

theorem reach_small_t1 : ReachSmall t1 [] :=
  ReachSmall.init tiny boot_tiny (by decide!)

/-- C13: on a well-formed heap, when `malloc(n)` with `n > 0` returns null, the
state after the call is the state before it, memory, arena size, `heap_start`
and `free_start` included, and the null comes from the memory-growth
collaborator, which has no room for the extension `malloc` asks for. -/
theorem C13_failed_malloc_keeps_state (fuel : Nat) (s : Heap) (live : List Nat) (n : Nat)
    (t : Heap) (hg : Good s live) (h0 : n ≠ 0) (hr : malloc fuel s n = .ok (t, 0)) :
    t = s ∧ mem_sbrk s (MM.max (adjusted n) chunksize) = none := by
  obtain ⟨bs, fl, hinv, -⟩ := hg
  rcases malloc_inv_any fuel s bs fl n hinv h0 t 0 hr with ⟨-, ht, hc⟩ | ⟨hp, -⟩
  · refine ⟨ht, ?_⟩
    unfold mem_sbrk
    rw [if_neg hc]
  · exact absurd rfl hp

theorem C13_failed_malloc_keeps_state_witness :
    ret (malloc 2 t1 2000) = some 0 ∧ after (malloc 2 t1 2000) t1 = t1 ∧
      mem_sbrk t1 (MM.max (adjusted 2000) chunksize) = none :=
  ⟨by decide!, C13_failed_malloc_keeps_state 2 t1 [] 2000 (after (malloc 2 t1 2000) t1)
    (reach_small_good t1 [] reach_small_t1) (by decide)
    (eq_ok_of_ret _ t1 0 (by decide!))⟩

/-- C14: when `count` is not zero and the exact product `count * size` does not
fit in 64 bits, the division check of `calloc` trips, and `calloc` returns null
and leaves the state as it was. -/
theorem C14_calloc_overflow_returns_null (fuel : Nat) (s : Heap) (count size : Nat)
    (hc : count ≠ 0) (hw : 18446744073709551615 < count * size) :
    wmul count size / count ≠ size ∧ calloc fuel s count size = .ok (s, 0) := by
  have hov := wmul_overflow count size hc (by show 18446744073709551616 ≤ count * size; omega)
  refine ⟨hov, ?_⟩
  unfold calloc
  rw [if_neg hc, if_pos hov]

theorem C14_calloc_overflow_returns_null_witness :
    wmul SIZE_MAX 2 / SIZE_MAX ≠ 2 ∧ calloc 2 h1 SIZE_MAX 2 = .ok (h1, 0) :=
  C14_calloc_overflow_returns_null 2 h1 SIZE_MAX 2 (by decide) (by decide)

/-- C15, evaluated on the code: `calloc(0, size)` divides by `elements = 0` in
its overflow check before anything else, for every state and every size, so the
call does not return.  The claim says the check never divides by zero and that
`calloc` is defined for every count, zero included. -/
theorem C15_calloc_zero_count_divides_by_zero (fuel : Nat) (s : Heap) (size : Nat) :
    calloc fuel s 0 size = .error .div_by_zero ∧ ret (calloc fuel s 0 size) = none := by
  have e : calloc fuel s 0 size = .error .div_by_zero := by
    unfold calloc
    rw [if_pos rfl]
  rw [e]
  exact ⟨rfl, rfl⟩

/-! ## Reuse of freed memory -/

/-- C16 as stated fails: after `p1 = malloc(24)`, `p2 = malloc(1800)`,
`p3 = malloc(16)` and `free(p2)` on a fresh heap, `malloc(32)` does not return
`p2 = 4144`. -/
theorem C16_reuse_is_not_the_freed_span :
    ret (malloc 2 h1 24) = some 4112 ∧ ret (malloc 3 u1 1800) = some 4144 ∧
      ret (malloc 3 u2 16) = some 5952 ∧ ret (malloc 4 u4 32) ≠ some 4144 := by
  refine ⟨by decide!, by decide!, by decide!, by decide!⟩

/-- C16, amended: in the same call sequence the free list holds two blocks
before `malloc(32)`, the freed span of 1808 bytes at 4136 and the remainder of
1728 bytes at 5976 that follows the block of `p3`; `find_fit` picks the smaller
one, `malloc(32)` returns its payload 5984, the freed span stays free, and the
arena is not grown. -/
theorem C16_reuse_takes_smallest_fit :
    ret (malloc 2 h1 24) = some 4112 ∧ ret (malloc 3 u1 1800) = some 4144 ∧
      ret (malloc 3 u2 16) = some 5952 ∧
      u4.free_start = 4136 ∧ get_size u4 4136 = 1808 ∧
      block_next u4 4136 = 5976 ∧ get_size u4 5976 = 1728 ∧ block_next u4 5976 = 0 ∧
      find_fit 4 u4 (adjusted 32) = .ok 5976 ∧
      ret (malloc 4 u4 32) = some 5984 ∧
      get_alloc u5 4136 = false ∧ get_size u5 4136 = 1808 ∧
      u5.brk = u4.brk ∧ u5.cap = u4.cap := by
  refine ⟨by decide!, by decide!, by decide!, by decide!, by decide!, by decide!, by decide!,
    by decide!, by decide!, by decide!, by decide!, by decide!, by decide!, by decide!⟩

/-! ## Tiling -/

theorem block_sizes_total (s : Heap) (fl : List Nat) (pre : List Blk) :
    ∀ post, Inv s (pre ++ post) fl → block_sizes s pre.length = total pre := by
  induction pre using List.reverseRecOn with
  | nil =>
    intro post h
    rfl
  | append_singleton l b ih =>
    intro post h
    have h2 : Inv s (l ++ b :: post) fl := by
      rw [List.append_assoc] at h
      exact h
    have e := ih (b :: post) h2
    have w := (walk_block s l (b :: post) fl h2).2.1
    rw [List.length_append, List.length_singleton]
    show block_sizes s l.length + get_size s (nth_block s l.length) = _
    rw [e, w, total_append]
    simp [total, first_size]

/-- A well-formed heap is tiled by its blocks. -/
theorem inv_tiles (s : Heap) (bs : List Blk) (fl : List Nat) (h : Inv s bs fl) : Tiles s := by
  have hW : W = 18446744073709551616 := rfl
  have hfits := h.fits
  have hble := h.brk_le
  have hbrk := h.brk_eq
  have h2 : Inv s (bs ++ []) fl := by
    rw [List.append_nil]
    exact h
  obtain ⟨w1, -, -, -, w5⟩ := walk_block s bs [] fl h2
  constructor
  · rw [h.hs, wsub_eq _ _ (by omega) (by omega)]
    have e : s.lo + 8 - 8 = s.lo := by omega
    rw [e]
    exact h.prologue
  · refine ⟨bs.length, (reaches_iff s bs fl h _).2 (Nat.le_refl _), w5, ?_, ?_⟩
    · rw [w1, h.brk_eq]
      omega
    · rw [block_sizes_total s fl bs [] h2, h.brk_eq]
      omega

theorem small_tiles (s : Heap) (live : List Nat) (h : ReachSmall s live) : Tiles s := by
  obtain ⟨bs, fl, hinv, -⟩ := reach_small_good s live h
  exact inv_tiles s bs fl hinv

theorem reach_e3 : Reach e3 [4112] :=
  Reach.write _ [4112] 4112 4136 1 reach_h2 (by simp) (by decide) (by decide!)

theorem reach_e4 : Reach e4 [4176] :=
  Reach.realloc 3 SIZE_MAX e3 e4 [4112] 4112 4176 reach_e3 (by simp) (by decide)
    (eq_ok_of_ret _ e3 4176 (by decide!))

/-- C11, evaluated on the code: after `mm_init`, `p = malloc(56)`, the word `1`
stored at `p + 24`, and `realloc(p, SIZE_MAX)`, the walk from `heap_start` stops
at 4200, at a header of size zero with the allocated bit set that the copy of
`realloc` wrote there, 1704 bytes before the end of the arena.  The claim says
the walk ends at the last eight bytes of the arena. -/
theorem C11_walk_stops_short_after_oversized_realloc :
    Reach e4 [4176] ∧ ¬ Tiles e4 := by
  refine ⟨reach_e4, fun h => ?_⟩
  obtain ⟨-, k, hr, he, ha, -⟩ := h
  have h0 : is_epilogue e4 (nth_block e4 0) = false := by decide!
  have h1 : is_epilogue e4 (nth_block e4 1) = false := by decide!
  have h2 : is_epilogue e4 (nth_block e4 2) = true := by decide!
  have h3 : nth_block e4 2 + 8 ≠ e4.lo + e4.brk := by decide!
  have hk : k = 0 ∨ k = 1 ∨ k = 2 ∨ 2 < k := by omega
  rcases hk with rfl | rfl | rfl | hk
  · rw [h0] at he
    cases he
  · rw [h1] at he
    cases he
  · exact h3 ha
  · have := hr 2 hk
    rw [h2] at this
    cases this

/-! ## Content copied by `realloc` -/

theorem reach_v4 : Reach v4 [4176] :=
  Reach.realloc 3 SIZE_MAX h2 v4 [4112] 4112 4176 reach_h2 (by simp) (by decide)
    (eq_ok_of_ret _ h2 4176 (by decide!))

/-- C12, evaluated on the code: on the well-formed heap left by `mm_init` and
`p = malloc(56)`, whose payload holds zeros, `realloc(p, SIZE_MAX)` returns
`q = 4176`, a block with a payload of 24 bytes, copies 56 bytes, and then
`free(p)` writes a free-list link over the copy: the byte at `q + 32` is `8`
where the byte at `p + 32` was `0`.  The claim says the first `min(n, m) = 56`
bytes at `q` are those that were at `p`. -/
theorem C12_copy_overwritten_after_oversized_realloc :
    Good h2 [4112] ∧ get_payload_size h2 (payload_to_header 4112) = 56 ∧
      ret (realloc 3 h2 4112 SIZE_MAX) = some 4176 ∧
      ¬ CopyKept h2 v4 4112 4176 SIZE_MAX := by
  refine ⟨good_h2, by decide!, by decide!, fun h => ?_⟩
  have h32 := h 32 (by decide!)
  revert h32
  decide!

/-! ## The fit policy -/

theorem chain_ne_zero (s : Heap) (fl : List Nat) :
    ∀ h, NextChain s h fl → ∀ x, x ∈ fl → x ≠ 0 := by
  induction fl with
  | nil =>
    intro h _ x hx
    simp at hx
  | cons y ys ih =>
    intro h hc x hx
    rcases List.mem_cons.1 hx with rfl | hx
    · exact hc.2.1
    · exact ih _ hc.2.2 x hx

theorem loop_fold (s : Heap) (asize : Nat) (fl : List Nat) :
    ∀ (fuel block best n : Nat), NextChain s block fl → fl.length < fuel → n < 18 →
      find_fit_loop s asize fuel block best n =
        .ok (((fl.filter (fits s asize)).take (18 - n)).foldl (pick s) best) := by
  induction fl with
  | nil =>
    intro fuel block best n hc hlen hn
    have hb : block = 0 := hc
    cases fuel with
    | zero => simp at hlen
    | succ f =>
      unfold find_fit_loop
      rw [if_pos hb]
      simp
  | cons x xs ih =>
    intro fuel block best n hc hlen hn
    obtain ⟨hbx, hx0, hrest⟩ := hc
    subst hbx
    cases fuel with
    | zero => simp at hlen
    | succ f =>
      have hlen2 : xs.length < f := by
        simp only [List.length_cons] at hlen
        omega
      unfold find_fit_loop
      rw [if_neg hx0]
      by_cases hf : fits s asize block = true
      · have hf2 : (!get_alloc s block && decide (asize ≤ get_size s block)) = true := hf
        rw [if_pos hf2, List.filter_cons_of_pos hf]
        dsimp only
        by_cases h18 : n + 1 ≥ 18
        · rw [if_pos h18]
          have e : 18 - n = 1 := by omega
          rw [e]
          rfl
        · rw [if_neg h18]
          have e : 18 - n = (18 - (n + 1)) + 1 := by omega
          rw [e, List.take_succ_cons, List.foldl_cons]
          exact ih f (block_next s block) _ (n + 1) hrest hlen2 (by omega)
      · have hf2 : ¬ (!get_alloc s block && decide (asize ≤ get_size s block)) = true := hf
        rw [if_neg hf2, List.filter_cons_of_neg hf]
        exact ih f (block_next s block) best n hrest hlen2 hn

theorem fold_min (s : Heap) (q : List Nat) :
    ∀ (p : List Nat) (best : Nat), best ≠ 0 → (∀ x, x ∈ q → x ≠ 0) → FirstMin s p best →
      FirstMin s (p ++ q) (q.foldl (pick s) best) := by
  induction q with
  | nil =>
    intro p best _ _ h
    rw [List.append_nil]
    exact h
  | cons x xs ih =>
    intro p best hb hq h
    obtain ⟨pre, post, hp, h1, h2⟩ := h
    have e : p ++ x :: xs = (p ++ [x]) ++ xs := by simp
    have hx0 : x ≠ 0 := hq x (List.mem_cons_self _ _)
    have hq2 : ∀ y, y ∈ xs → y ≠ 0 := fun y hy => hq y (List.mem_cons_of_mem _ hy)
    rw [e, List.foldl_cons]
    by_cases hc : get_size s best > get_size s x
    · have hpk : pick s best x = x := by
        unfold pick
        rw [if_pos hb]
        exact if_pos hc
      rw [hpk]
      refine ih (p ++ [x]) x hx0 hq2 ⟨p, [], rfl, fun y hy => ?_, fun y hy => by simp at hy⟩
      rw [hp] at hy
      rcases List.mem_append.1 hy with hy | hy
      · exact Nat.lt_trans hc (h1 y hy)
      · rcases List.mem_cons.1 hy with rfl | hy
        · exact hc
        · exact Nat.lt_of_lt_of_le hc (h2 y hy)
    · have hpk : pick s best x = best := by
        unfold pick
        rw [if_pos hb]
        exact if_neg hc
      rw [hpk]
      refine ih (p ++ [x]) best hb hq2 ⟨pre, post ++ [x], by rw [hp]; simp, h1, fun y hy => ?_⟩
      rcases List.mem_append.1 hy with hy | hy
      · exact h2 y hy
      · simp only [List.mem_singleton] at hy
        subst hy
        exact Nat.le_of_not_gt hc

theorem fold_first_min (s : Heap) (q : List Nat) (hq : ∀ x, x ∈ q → x ≠ 0) :
    (q.foldl (pick s) 0 = 0 ↔ q = []) ∧ (q ≠ [] → FirstMin s q (q.foldl (pick s) 0)) := by
  cases q with
  | nil => exact ⟨⟨fun _ => rfl, fun _ => rfl⟩, fun h => absurd rfl h⟩
  | cons x xs =>
    have hx0 : x ≠ 0 := hq x (List.mem_cons_self _ _)
    have hpk : pick s 0 x = x := by
      unfold pick
      rw [if_neg (by simp)]
    have hfm : FirstMin s ([x] ++ xs) (xs.foldl (pick s) x) :=
      fold_min s xs [x] x hx0 (fun y hy => hq y (List.mem_cons_of_mem _ hy))
        ⟨[], [], rfl, fun y hy => by simp at hy, fun y hy => by simp at hy⟩
    rw [List.foldl_cons, hpk]
    refine ⟨⟨fun h0 => ?_, fun h => by simp at h⟩, fun _ => hfm⟩
    obtain ⟨pre, post, hp, -, -⟩ := hfm
    have hm : xs.foldl (pick s) x ∈ x :: xs := by
      have : xs.foldl (pick s) x ∈ pre ++ xs.foldl (pick s) x :: post := by simp
      rw [← hp] at this
      exact this
    exact absurd h0 (hq _ hm)

/-- C18: for an acyclic free list with nodes `fl` and enough steps to walk it,
`find_fit` returns null exactly when no node among the candidates, the first 18
nodes whose allocated bit is clear and whose size is at least `asize`, exists,
and otherwise returns the first candidate of minimum size.  The function only
reads the heap: its embedding returns the block and no state. -/
theorem C18_find_fit_best_of_first_18 (fuel : Nat) (s : Heap) (asize : Nat) (fl : List Nat)
    (hc : NextChain s s.free_start fl) (hf : fl.length < fuel) :
    ∃ r, find_fit fuel s asize = .ok r ∧ (r = 0 ↔ candidates s asize fl = []) ∧
      (candidates s asize fl ≠ [] → FirstMin s (candidates s asize fl) r) := by
  have hq : ∀ x, x ∈ candidates s asize fl → x ≠ 0 := by
    intro x hx
    have h1 := List.mem_of_mem_take hx
    exact chain_ne_zero s fl _ hc x (List.mem_of_mem_filter h1)
  have hl := loop_fold s asize fl fuel s.free_start 0 0 hc hf (by decide)
  obtain ⟨f1, f2⟩ := fold_first_min s (candidates s asize fl) hq
  exact ⟨_, hl, f1, f2⟩

theorem C18_find_fit_best_of_first_18_witness :
    NextChain u4 u4.free_start [4136, 5976] ∧ [4136, 5976].length < 4 ∧
      ∃ r, find_fit 4 u4 48 = .ok r ∧ (r = 0 ↔ candidates u4 48 [4136, 5976] = []) ∧
        (candidates u4 48 [4136, 5976] ≠ [] → FirstMin u4 (candidates u4 48 [4136, 5976]) r) :=
  have hc : NextChain u4 u4.free_start [4136, 5976] :=
    ⟨by decide!, by decide, by decide!, by decide, by show block_next u4 5976 = 0; decide!⟩
  ⟨hc, by decide, C18_find_fit_best_of_first_18 4 u4 48 [4136, 5976] hc (by decide)⟩

/-! ## The exact result of `coalesce` and `free` -/

/-- The four cases of `coalesce` on a well-formed heap: the merged block starts
at the left neighbour when that is free, absorbs the right neighbour when that
is free, and becomes the head of the free list. -/
theorem coalesce_exact (s : Heap) (pre : List Blk) (bsize : Nat) (post : List Blk)
    (fl : List Nat) (h : PreCo s pre bsize post fl) :
    ∃ pre2 sz post2 fl2,
      Inv (coalesce s (s.lo + 8 + total pre)).1 (pre2 ++ ⟨sz, false⟩ :: post2)
        ((s.lo + 8 + total pre2) :: fl2) ∧
      (coalesce s (s.lo + 8 + total pre)).2 = s.lo + 8 + total pre2 ∧
      ((last_alloc true pre = true ∧ pre2 = pre) ∨
        (∃ l, pre = pre2 ++ [l] ∧ l.alloc = false ∧ last_alloc true pre = false)) ∧
      ((first_alloc post = true ∧ post2 = post) ∨
        (∃ c, post = c :: post2 ∧ c.alloc = false)) ∧
      total pre2 + sz + total post2 = total pre + bsize + total post ∧
      (∀ y, y ∈ fl2 → y ∈ fl) := by
  by_cases hpa : last_alloc true pre = true
  · cases post with
    | nil =>
      obtain ⟨h1, h2⟩ := coalesce_none s pre bsize [] fl h hpa rfl
      exact ⟨pre, bsize, [], fl, h1, h2, Or.inl ⟨hpa, rfl⟩, Or.inl ⟨rfl, rfl⟩, rfl,
        fun y hy => hy⟩
    | cons c rest =>
      by_cases hc : c.alloc = true
      · obtain ⟨h1, h2⟩ := coalesce_none s pre bsize (c :: rest) fl h hpa hc
        exact ⟨pre, bsize, c :: rest, fl, h1, h2, Or.inl ⟨hpa, rfl⟩, Or.inl ⟨hc, rfl⟩, rfl,
          fun y hy => hy⟩
      · have hc2 : c.alloc = false := by simpa using hc
        obtain ⟨h1, h2⟩ := coalesce_right s pre bsize c rest fl h hpa hc2
        refine ⟨pre, bsize + c.size, rest, _, h1, h2, Or.inl ⟨hpa, rfl⟩,
          Or.inr ⟨c, rfl, hc2⟩, ?_, fun y hy => List.mem_of_mem_erase hy⟩
        simp only [total]
        omega
  · have hpa2 : last_alloc true pre = false := by simpa using hpa
    obtain ⟨pre2, l, rfl, hl⟩ := last_alloc_false _ _ hpa2 rfl
    have ht : total (pre2 ++ [l]) = total pre2 + l.size := by
      rw [total_append]
      simp [total]
    cases post with
    | nil =>
      obtain ⟨h1, h2⟩ := coalesce_left s pre2 l bsize [] fl h hl rfl
      refine ⟨pre2, l.size + bsize, [], _, h1, h2, Or.inr ⟨l, rfl, hl, hpa2⟩,
        Or.inl ⟨rfl, rfl⟩, ?_, fun y hy => List.mem_of_mem_erase hy⟩
      rw [ht]
      omega
    | cons c rest =>
      by_cases hc : c.alloc = true
      · obtain ⟨h1, h2⟩ := coalesce_left s pre2 l bsize (c :: rest) fl h hl hc
        refine ⟨pre2, l.size + bsize, c :: rest, _, h1, h2, Or.inr ⟨l, rfl, hl, hpa2⟩,
          Or.inl ⟨hc, rfl⟩, ?_, fun y hy => List.mem_of_mem_erase hy⟩
        rw [ht]
        omega
      · have hc2 : c.alloc = false := by simpa using hc
        obtain ⟨h1, h2⟩ := coalesce_both s pre2 l bsize c rest fl h hl hc2
        refine ⟨pre2, l.size + bsize + c.size, rest, _, h1, h2, Or.inr ⟨l, rfl, hl, hpa2⟩,
          Or.inr ⟨c, rfl, hc2⟩, ?_,
          fun y hy => List.mem_of_mem_erase (List.mem_of_mem_erase hy)⟩
        rw [ht]
        simp only [total]
        omega

/-- The exact result of `free` on an allocated block of a well-formed heap. -/
theorem free_exact (s : Heap) (pre : List Blk) (size : Nat) (post : List Blk)
    (fl : List Nat) (h : Inv s (pre ++ ⟨size, true⟩ :: post) fl) :
    ∃ pre2 sz post2 fl2,
      Inv (free s (s.lo + 8 + total pre + 8)) (pre2 ++ ⟨sz, false⟩ :: post2)
        ((s.lo + 8 + total pre2) :: fl2) ∧
      ((last_alloc true pre = true ∧ pre2 = pre) ∨
        (∃ l, pre = pre2 ++ [l] ∧ l.alloc = false ∧ last_alloc true pre = false)) ∧
      ((first_alloc post = true ∧ post2 = post) ∨
        (∃ c, post = c :: post2 ∧ c.alloc = false)) ∧
      total pre2 + sz + total post2 = total pre + size + total post ∧
      (∀ y, y ∈ fl2 → y ∈ fl) ∧
      (free s (s.lo + 8 + total pre + 8)).lo = s.lo := by
  have hpc := release_preco _ _ _ _ _ h
  have heq := free_eq _ _ _ _ _ h
  obtain ⟨pre2, sz, post2, fl2, h1, h2, h3, h4, h5, h6⟩ := coalesce_exact _ _ _ _ _ hpc
  have hsame := same_coalesce (store (store (store s (s.lo + 8 + total pre) (hd size false false))
        (s.lo + 8 + total pre + size - 8) (hd size false false))
        (s.lo + 8 + total pre) (hd size false (last_alloc true pre))) (s.lo + 8 + total pre)
  simp only [store_lo] at h1
  rw [← heq] at h1 hsame
  exact ⟨pre2, sz, post2, fl2, h1, h3, h4, h5, h6, hsame.1⟩

/-! ## `free` seen from the walk -/

theorem total_pos (a : List Blk) (h : Sized a) (hne : a ≠ []) : 32 ≤ total a := by
  cases a with
  | nil => exact absurd rfl hne
  | cons x xs =>
    have := ((sized_cons x xs).1 h).1.2
    simp only [total]
    omega

theorem split_unique (pre post pre2 post2 : List Blk) (h : pre ++ post = pre2 ++ post2)
    (ht : total pre = total pre2) (hs : Sized (pre ++ post)) : pre = pre2 := by
  rcases List.append_eq_append_iff.1 h with ⟨a, ha, hb⟩ | ⟨c, hc, hd⟩
  · -- `pre2 = pre ++ a`
    by_cases hne : a = []
    · rw [ha, hne, List.append_nil]
    · have hsa : Sized a := by
        rw [hb] at hs
        exact ((sized_append _ _).1 ((sized_append _ _).1 hs).2).1
      have := total_pos a hsa hne
      rw [ha, total_append] at ht
      omega
  · by_cases hne : c = []
    · rw [hc, hne, List.append_nil]
    · have hsc : Sized c := by
        rw [hc] at hs
        exact ((sized_append _ _).1 ((sized_append _ _).1 hs).1).2
      have := total_pos c hsc hne
      rw [hc, total_append] at ht
      omega

theorem blk_snoc_cases (l : List Blk) : l = [] ∨ ∃ l2 q, l = l2 ++ [q] := by
  rcases List.eq_nil_or_concat l with h | ⟨l2, q, h⟩
  · exact Or.inl h
  · exact Or.inr ⟨l2, q, by simpa using h⟩

/-- The left neighbour of a block of the walk, read from the heap. -/
theorem left_view (s : Heap) (pre : List Blk) (b : Blk) (post : List Blk) (fl : List Nat)
    (h : Inv s (pre ++ b :: post) fl) :
    left_is_free s pre.length = !last_alloc true pre ∧
    ∀ pre2 l, pre = pre2 ++ [l] →
      nth_block s (pre.length - 1) = s.lo + 8 + total pre2 ∧
      get_size s (nth_block s (pre.length - 1)) = l.size := by
  rcases blk_snoc_cases pre with rfl | ⟨pre2, l, rfl⟩
  · refine ⟨rfl, fun pre2 l e => ?_⟩
    have := congrArg List.length e
    simp at this
  · have h2 : Inv s (pre2 ++ l :: b :: post) fl := by
      rw [List.append_assoc] at h
      exact h
    obtain ⟨w1, w2, w3, -, -⟩ := walk_block s pre2 (l :: b :: post) fl h2
    have hl : (pre2 ++ [l]).length - 1 = pre2.length := by simp
    have hne : (pre2 ++ [l]).length ≠ 0 := by simp
    constructor
    · unfold left_is_free
      rw [hl, w3, last_alloc_append]
      simp [first_alloc, last_alloc]
    · intro pre3 l3 e
      obtain ⟨e1, e2⟩ := List.append_inj' e rfl
      have e3 : l = l3 := by simpa using e2
      subst e1
      subst e3
      rw [hl]
      exact ⟨w1, w2⟩

/-- The right neighbour of a block of the walk, read from the heap. -/
theorem right_view (s : Heap) (pre : List Blk) (b : Blk) (post : List Blk) (fl : List Nat)
    (h : Inv s (pre ++ b :: post) fl) :
    right_is_free s pre.length = !first_alloc post ∧
    get_size s (nth_block s (pre.length + 1)) = first_size post := by
  have h2 : Inv s ((pre ++ [b]) ++ post) fl := by
    rw [List.append_assoc]
    exact h
  obtain ⟨-, w2, w3, -, -⟩ := walk_block s (pre ++ [b]) post fl h2
  have hl : (pre ++ [b]).length = pre.length + 1 := by simp
  rw [hl] at w2 w3
  refine ⟨?_, w2⟩
  unfold right_is_free
  rw [w3]

/-- The index in the walk of the block of a live pointer. -/
theorem live_index (s : Heap) (bs : List Blk) (fl : List Nat) (p k : Nat) (h : Inv s bs fl)
    (hp : p ∈ live_ptrs (s.lo + 8) bs) (hk : reaches s k)
    (hb : nth_block s k = payload_to_header p) :
    ∃ pre sz post, bs = pre ++ ⟨sz, true⟩ :: post ∧ pre.length = k ∧
      p = s.lo + 8 + total pre + 8 := by
  have hW : W = 18446744073709551616 := rfl
  obtain ⟨pre, b, post, rfl, hb1, rfl⟩ := live_ptrs_split _ _ _ hp
  obtain ⟨sz, al⟩ := b
  dsimp only at hb1
  subst hb1
  have hfits := h.fits
  have hble := h.brk_le
  have hbrk := h.brk_eq
  rw [total_append] at hbrk
  have e0 : payload_to_header (s.lo + 8 + total pre + 8) = s.lo + 8 + total pre := by
    unfold payload_to_header
    rw [wsub_eq _ _ (by omega) (by omega)]
    omega
  rw [e0] at hb
  have hk2 := (reaches_iff s _ fl h k).1 hk
  obtain ⟨preK, postK, e, hlen⟩ := split_len _ k hk2
  have h2 : Inv s (preK ++ postK) fl := by
    rw [← e]
    exact h
  have w := (walk_block s preK postK fl h2).1
  rw [hlen, hb] at w
  have hu := split_unique pre (⟨sz, true⟩ :: post) preK postK e (by omega)
    (seg_sized _ _ _ _ h.seg)
  exact ⟨pre, sz, post, rfl, by rw [hu]; exact hlen, rfl⟩

/-- The state of a call `free(p)` that returns, on a well-formed heap, for a
live pointer whose block is the `k`-th block of the walk, has one free block
that covers the block: it starts at
the left neighbour when that was free and at the block otherwise, its size
is the size of the block plus the sizes of the neighbours that were free, its
header and its footer, the last word of the merged span, hold that size with
the allocated bit clear, it is a block of the walk, and it is the head of the
free list. -/
theorem free_merges_neighbours (s : Heap) (live : List Nat) (p k : Nat)
    (hg : Good s live) (hp : p ∈ live) (hk : reaches s k)
    (hb : nth_block s k = payload_to_header p) :
    (free s p).free_start = merged_start s k ∧
    get_size (free s p) (merged_start s k) = merged_size s k ∧
    get_alloc (free s p) (merged_start s k) = false ∧
    load (free s p) (merged_start s k + merged_size s k - 8) = pack (merged_size s k) false ∧
    (∃ j, reaches (free s p) j ∧ nth_block (free s p) j = merged_start s k) ∧
    merged_start s k ≤ nth_block s k ∧
    nth_block s k + get_size s (nth_block s k) ≤ merged_start s k + merged_size s k := by
  obtain ⟨bs, fl, hinv, hperm⟩ := hg
  obtain ⟨pre, sz, post, rfl, hlen, rfl⟩ :=
    live_index s bs fl p k hinv (hperm.subset hp) hk hb
  subst hlen
  obtain ⟨pre2, sz2, post2, fl2, t1, t2, t3, t4, t5, t6⟩ := free_exact s pre sz post fl hinv
  obtain ⟨w1, w2, -, -, -⟩ := walk_block s pre (⟨sz, true⟩ :: post) fl hinv
  obtain ⟨l1, l2⟩ := left_view s pre ⟨sz, true⟩ post fl hinv
  obtain ⟨r1, r2⟩ := right_view s pre ⟨sz, true⟩ post fl hinv
  have hsz : get_size s (nth_block s pre.length) = sz := w2
  -- the start and the size of the merged block, from the heap before the call
  have hstart : merged_start s pre.length = s.lo + 8 + total pre2 := by
    unfold merged_start
    rw [l1]
    rcases t2 with ⟨ha, e⟩ | ⟨l, e, hl, ha⟩
    · rw [ha, e]
      exact w1
    · rw [ha]
      exact (l2 pre2 l e).1
  have hsize : merged_size s pre.length = sz2 ∧ total pre2 ≤ total pre ∧
      total pre + sz ≤ total pre2 + sz2 := by
    unfold merged_size
    rw [l1, r1, hsz, r2]
    rcases t2 with ⟨ha, e⟩ | ⟨l, e, hl, ha⟩
    · subst e
      rw [ha]
      rcases t3 with ⟨hf, e2⟩ | ⟨c, e2, hc⟩
      · subst e2
        rw [hf]
        simp only [Bool.not_true, Bool.false_eq_true, if_false]
        omega
      · subst e2
        simp only [first_alloc, first_size, hc, Bool.not_true, Bool.not_false,
          Bool.false_eq_true, if_false, if_true, total] at t4 ⊢
        omega
    · have e3 := (l2 pre2 l e).2
      rw [ha, e3]
      have ht : total pre = total pre2 + l.size := by
        rw [e, total_append]
        simp [total]
      rcases t3 with ⟨hf, e2⟩ | ⟨c, e2, hc⟩
      · subst e2
        rw [hf]
        simp only [Bool.not_true, Bool.not_false, Bool.false_eq_true, if_false, if_true]
        omega
      · subst e2
        simp only [first_alloc, first_size, hc, Bool.not_true, Bool.not_false,
          Bool.false_eq_true, if_false, if_true, total] at t4 ⊢
        omega
  obtain ⟨hsize, hle1, hle2⟩ := hsize
  rw [hstart, hsize, hsz, w1]
  -- the merged block in the heap after the call
  obtain ⟨v1, v2, v3, -, -⟩ := walk_block _ pre2 (⟨sz2, false⟩ :: post2) _ t1
  obtain ⟨-, hblk, -, -, -, -⟩ := inv_block _ _ _ _ _ t1
  rw [t6] at v1 hblk
  rw [v1] at v2 v3
  have hfs : (free s (s.lo + 8 + total pre + 8)).free_start = s.lo + 8 + total pre2 :=
    t1.flist.1
  refine ⟨hfs, v2, v3, ?_, ⟨pre2.length, ?_, v1⟩, by omega, by omega⟩
  · have := hblk.2.2.2 rfl
    dsimp only at this
    unfold load pack
    rw [this]
    rfl
  · refine (reaches_iff _ _ _ t1 _).2 ?_
    rw [List.length_append]
    omega

theorem reach_small_ab2 : ReachSmall ab2 [4224, 4112] :=
  ReachSmall.malloc 2 100 ab1 ab2 [4112] 4224
    (ReachSmall.malloc 2 100 h1 ab1 [] 4112 (ReachSmall.init fresh boot_fresh (by decide!))
      (by decide) (eq_ok_of_ret _ h1 4112 (by decide!)))
    (by decide) (eq_ok_of_ret _ ab1 4224 (by decide!))

theorem reach_small_ab3 : ReachSmall ab3 [4224] :=
  ReachSmall.free ab2 [4224, 4112] 4112 reach_small_ab2 (by simp)

theorem reaches_ab3 : reaches ab3 1 := by
  intro j hj
  have : j = 0 := by omega
  subst this
  decide!

theorem free_merges_neighbours_ab3 :
    Good ab3 [4224] ∧ 4224 ∈ [4224] ∧ reaches ab3 1 ∧
      nth_block ab3 1 = payload_to_header 4224 ∧
      merged_start ab3 1 = 4104 ∧ merged_size ab3 1 = 1792 ∧ block_next ab4 4104 = 0 ∧
      (ab4.free_start = merged_start ab3 1 ∧
        get_size ab4 (merged_start ab3 1) = merged_size ab3 1 ∧
        get_alloc ab4 (merged_start ab3 1) = false ∧
        load ab4 (merged_start ab3 1 + merged_size ab3 1 - 8) =
          pack (merged_size ab3 1) false ∧
        (∃ j, reaches ab4 j ∧ nth_block ab4 j = merged_start ab3 1) ∧
        merged_start ab3 1 ≤ nth_block ab3 1 ∧
        nth_block ab3 1 + get_size ab3 (nth_block ab3 1) ≤
          merged_start ab3 1 + merged_size ab3 1) :=
  ⟨reach_small_good ab3 [4224] reach_small_ab3, by simp, reaches_ab3, by decide!, by decide!,
    by decide!, by decide!,
    free_merges_neighbours ab3 [4224] 4224 1 (reach_small_good ab3 [4224] reach_small_ab3)
      (by simp) reaches_ab3 (by decide!)⟩

/-! ## The exact result of `place` -/

theorem place_split_exact (s : Heap) (pre : List Blk) (csize : Nat) (post : List Blk)
    (fl : List Nat) (asize : Nat) (h : Inv s (pre ++ ⟨csize, false⟩ :: post) fl)
    (h16 : asize % 16 = 0) (h32 : 32 ≤ asize) (hrem : asize + 32 ≤ csize) :
    Inv (place s (s.lo + 8 + total pre) asize)
      (pre ++ ⟨asize, true⟩ :: ⟨csize - asize, false⟩ :: post)
      ((s.lo + 8 + total pre + asize) :: fl.erase (s.lo + 8 + total pre)) ∧
    SameArena s (place s (s.lo + 8 + total pre) asize) := by
  have hW : W = 18446744073709551616 := rfl
  have heq := place_split_eq s pre csize post fl asize h h16 h32 hrem
  have hfits := h.fits
  have hble := h.brk_le
  have hbrk := h.brk_eq
  rw [total_append] at hbrk
  simp only [total] at hbrk
  obtain ⟨-, -, -, hpost, -, -⟩ := inv_block _ _ _ _ _ h
  have hfa : first_alloc post = true := seg_first_alloc _ _ _ hpost
  obtain ⟨f1, f2, f3, f4⟩ := split_remove s pre csize post fl asize h h16 (by omega)
  have hpc := split_preco s _ pre csize post fl asize h h16 h32 hrem f1 f2 f3 f4
  have hsame : SameArena s (store (store (store (remove_from_free_list
        (store (store s (s.lo + 8 + total pre) (hd asize true false))
          (s.lo + 8 + total pre) (hd asize true true)) (s.lo + 8 + total pre))
        (s.lo + 8 + total pre + asize) (hd (csize - asize) false false))
        (s.lo + 8 + total pre + csize - 8) (hd (csize - asize) false false))
        (s.lo + 8 + total pre + asize) (hd (csize - asize) false true)) :=
    same_trans _ _ _ f2 (same_trans _ _ _ (same_store _ _ _)
      (same_trans _ _ _ (same_store _ _ _) (same_store _ _ _)))
  have ht : total (pre ++ [⟨asize, true⟩]) = total pre + asize := by
    rw [total_append]
    simp [total]
  have hla : last_alloc true (pre ++ [⟨asize, true⟩]) = true := by
    rw [last_alloc_append]
    rfl
  obtain ⟨h1, -⟩ := coalesce_none _ _ _ _ _ hpc hla hfa
  rw [hsame.1, ht] at h1
  have ea : s.lo + 8 + (total pre + asize) = s.lo + 8 + total pre + asize := by omega
  rw [ea] at h1
  rw [← heq] at h1
  have hsc := same_coalesce (store (store (store (remove_from_free_list
        (store (store s (s.lo + 8 + total pre) (hd asize true false))
          (s.lo + 8 + total pre) (hd asize true true)) (s.lo + 8 + total pre))
        (s.lo + 8 + total pre + asize) (hd (csize - asize) false false))
        (s.lo + 8 + total pre + csize - 8) (hd (csize - asize) false false))
        (s.lo + 8 + total pre + asize) (hd (csize - asize) false true))
        (s.lo + 8 + total pre + asize)
  rw [← heq] at hsc
  exact ⟨by simpa using h1, same_trans _ _ _ hsame hsc⟩

/-- The nodes of the free list of a well-formed heap. -/
theorem inv_in_free_list (s : Heap) (bs : List Blk) (fl : List Nat) (h : Inv s bs fl)
    (b : Nat) : InFreeList s b ↔ b ∈ fl := by
  constructor
  · rintro ⟨hb0, k, hk⟩
    by_cases hlt : k < fl.length
    · rw [nth_free_get s bs fl h k hlt] at hk
      rw [← hk]
      exact List.get_mem _ _ _
    · have := nth_free_end s bs fl h (k - fl.length)
      rw [show fl.length + (k - fl.length) = k by omega, hk] at this
      exact absurd this hb0
  · intro hb
    obtain ⟨i, e⟩ := List.mem_iff_get.1 hb
    exact ⟨fseg_ne_zero _ _ _ _ _ h.flist _ hb, i.1, by rw [nth_free_get s bs fl h i.1 i.2]; exact e⟩

/-- The header of the block found where the blocks `post` start. -/
theorem inv_at (s : Heap) (pre post : List Blk) (fl : List Nat) (h : Inv s (pre ++ post) fl) :
    get_size s (s.lo + 8 + total pre) = first_size post ∧
    get_alloc s (s.lo + 8 + total pre) = first_alloc post ∧
    prev_alloc_bit s (s.lo + 8 + total pre) = last_alloc true pre := by
  obtain ⟨w1, w2, w3, w4, -⟩ := walk_block s pre post fl h
  rw [w1] at w2 w3 w4
  exact ⟨w2, w3, w4⟩

/-- On a well-formed heap, for a block `b` of the free list, of size `c`, and
a multiple `asize` of 16 with `32 ≤ asize ≤ c`, a call `place(b, asize)` that
returns takes `b` out of the free list, and (i) when `c - asize ≥ 32` the
header of `b` becomes
`(asize, allocated)` with the `prev_alloc` bit it had, and the block at
`b + asize` has the header and the footer `(c - asize, free)`, its `prev_alloc`
bit set, and is in the free list; (ii) when `c - asize < 32` the header of `b`
becomes `(c, allocated)` with the `prev_alloc` bit it had, the `prev_alloc` bit
of the block at `b + c` is set, and the free list gets no new node. -/
theorem place_splits_or_takes_whole (s : Heap) (live : List Nat) (b asize : Nat)
    (hg : Good s live) (hb : InFreeList s b) (h16 : asize % 16 = 0) (h32 : 32 ≤ asize)
    (hle : asize ≤ get_size s b) :
    ¬ InFreeList (place s b asize) b ∧
    (32 ≤ get_size s b - asize →
      get_size (place s b asize) b = asize ∧ get_alloc (place s b asize) b = true ∧
      prev_alloc_bit (place s b asize) b = prev_alloc_bit s b ∧
      get_size (place s b asize) (b + asize) = get_size s b - asize ∧
      get_alloc (place s b asize) (b + asize) = false ∧
      load (place s b asize) (b + get_size s b - 8) = pack (get_size s b - asize) false ∧
      prev_alloc_bit (place s b asize) (b + asize) = true ∧
      InFreeList (place s b asize) (b + asize)) ∧
    (get_size s b - asize < 32 →
      get_size (place s b asize) b = get_size s b ∧ get_alloc (place s b asize) b = true ∧
      prev_alloc_bit (place s b asize) b = prev_alloc_bit s b ∧
      prev_alloc_bit (place s b asize) (b + get_size s b) = true ∧
      ∀ x, InFreeList (place s b asize) x → InFreeList s x) := by
  obtain ⟨bs, fl, hinv, -⟩ := hg
  have hnodes := inv_nodes _ _ _ hinv
  have hbm : b ∈ fl := (inv_in_free_list s bs fl hinv b).1 hb
  obtain ⟨pre, blk, post, rfl, hal, rfl⟩ := free_addrs_split _ _ _ (hinv.perm.subset hbm)
  obtain ⟨c, al⟩ := blk
  dsimp only at hal
  subst hal
  obtain ⟨s1, -, s3⟩ := inv_at s pre (⟨c, false⟩ :: post) fl hinv
  have hc : get_size s (s.lo + 8 + total pre) = c := s1
  rw [hc] at hle ⊢
  rw [s3]
  have hnot : s.lo + 8 + total pre ∉ fl.erase (s.lo + 8 + total pre) :=
    List.Nodup.not_mem_erase hnodes.1
  by_cases hsp : asize + 32 ≤ c
  · obtain ⟨k1, k2⟩ := place_split_exact s pre c post fl asize hinv h16 h32 hsp
    have hlo : (place s (s.lo + 8 + total pre) asize).lo = s.lo := k2.1
    have hin := inv_in_free_list _ _ _ k1
    obtain ⟨a1, a2, a3⟩ := inv_at _ pre (⟨asize, true⟩ :: ⟨c - asize, false⟩ :: post) _ k1
    have k1b : Inv (place s (s.lo + 8 + total pre) asize)
        ((pre ++ [⟨asize, true⟩]) ++ ⟨c - asize, false⟩ :: post)
        ((s.lo + 8 + total pre + asize) :: fl.erase (s.lo + 8 + total pre)) := by
      rw [List.append_assoc]
      exact k1
    obtain ⟨b1, b2, b3⟩ := inv_at _ (pre ++ [⟨asize, true⟩]) (⟨c - asize, false⟩ :: post) _ k1b
    obtain ⟨-, hblk, -, -, -, -⟩ := inv_block _ _ _ _ _ k1b
    have ht : total (pre ++ [⟨asize, true⟩]) = total pre + asize := by
      rw [total_append]
      simp [total]
    have ea : s.lo + 8 + (total pre + asize) = s.lo + 8 + total pre + asize := by omega
    rw [hlo] at a1 a2 a3 b1 b2 b3 hblk
    rw [ht, ea] at b1 b2 b3 hblk
    rw [last_alloc_append] at b3
    refine ⟨fun hx => ?_, fun _ => ⟨a1, a2, a3, b1, b2, ?_, b3, (hin _).2 (List.mem_cons_self _ _)⟩,
      fun hlt => by omega⟩
    · rcases List.mem_cons.1 ((hin _).1 hx) with e | e
      · omega
      · exact hnot e
    · have := hblk.2.2.2 rfl
      dsimp only at this
      have e2 : s.lo + 8 + total pre + asize + (c - asize) - 8 = s.lo + 8 + total pre + c - 8 := by
        omega
      rw [e2] at this
      unfold load pack
      rw [this]
      rfl
  · obtain ⟨k1, k2⟩ := place_whole s pre c post fl asize hinv hle (by omega)
    have hlo : (place s (s.lo + 8 + total pre) asize).lo = s.lo := k2.1
    have hin := inv_in_free_list _ _ _ k1
    obtain ⟨a1, a2, a3⟩ := inv_at _ pre (⟨c, true⟩ :: post) _ k1
    have k1b : Inv (place s (s.lo + 8 + total pre) asize)
        ((pre ++ [⟨c, true⟩]) ++ post) (fl.erase (s.lo + 8 + total pre)) := by
      rw [List.append_assoc]
      exact k1
    obtain ⟨-, -, b3⟩ := inv_at _ (pre ++ [⟨c, true⟩]) post _ k1b
    have ht : total (pre ++ [⟨c, true⟩]) = total pre + c := by
      rw [total_append]
      simp [total]
    have ea : s.lo + 8 + (total pre + c) = s.lo + 8 + total pre + c := by omega
    rw [hlo] at a1 a2 a3 b3
    rw [ht, ea, last_alloc_append] at b3
    refine ⟨fun hx => hnot ((hin _).1 hx), fun hge => by omega,
      fun _ => ⟨a1, a2, a3, b3, fun x hx => ?_⟩⟩
    exact (inv_in_free_list s _ fl hinv x).2 (List.mem_of_mem_erase ((hin x).1 hx))

theorem place_splits_or_takes_whole_h1 :
    Good h1 [] ∧ InFreeList h1 4104 ∧ 32 % 16 = 0 ∧ 32 ≤ 32 ∧ 32 ≤ get_size h1 4104 ∧
    (¬ InFreeList (place h1 4104 32) 4104 ∧
    (32 ≤ get_size h1 4104 - 32 →
      get_size (place h1 4104 32) 4104 = 32 ∧ get_alloc (place h1 4104 32) 4104 = true ∧
      prev_alloc_bit (place h1 4104 32) 4104 = prev_alloc_bit h1 4104 ∧
      get_size (place h1 4104 32) (4104 + 32) = get_size h1 4104 - 32 ∧
      get_alloc (place h1 4104 32) (4104 + 32) = false ∧
      load (place h1 4104 32) (4104 + get_size h1 4104 - 8) = pack (get_size h1 4104 - 32) false ∧
      prev_alloc_bit (place h1 4104 32) (4104 + 32) = true ∧
      InFreeList (place h1 4104 32) (4104 + 32)) ∧
    (get_size h1 4104 - 32 < 32 →
      get_size (place h1 4104 32) 4104 = get_size h1 4104 ∧
      get_alloc (place h1 4104 32) 4104 = true ∧
      prev_alloc_bit (place h1 4104 32) 4104 = prev_alloc_bit h1 4104 ∧
      prev_alloc_bit (place h1 4104 32) (4104 + get_size h1 4104) = true ∧
      ∀ x, InFreeList (place h1 4104 32) x → InFreeList h1 x)) :=
  have hg : Good h1 [] := reach_small_good h1 [] (ReachSmall.init fresh boot_fresh (by decide!))
  have hb : InFreeList h1 4104 := ⟨by decide, 0, by decide!⟩
  ⟨hg, hb, by decide, by decide, by decide!,
    place_splits_or_takes_whole h1 [] 4104 32 hg hb (by decide) (by decide) (by decide!)⟩

/-! ## Twin runs -/

theorem twin_refl (a : Nat) (s1 s2 : Heap) (h : DifferOnlyBefore a s1 s2) :
    Twin a s1 s2 s1 s2 := ⟨h, fun _ _ _ => rfl, fun _ _ _ => rfl⟩

theorem twin_load (a : Nat) (s1 s2 r1 r2 : Heap) (h : Twin a s1 s2 r1 r2) (w : Nat)
    (hw : w + 16 ≤ a ∨ a ≤ w) : load r2 w = load r1 w := by
  unfold load
  exact read_word_congr _ _ _ (fun x h1 h2 => h.1.2.2.2.2.2 x (by omega))

theorem twin_header (a : Nat) (s1 s2 r1 r2 : Heap) (h : Twin a s1 s2 r1 r2) (w : Nat)
    (hw : w + 16 ≤ a ∨ a ≤ w) : header r2 w = header r1 w := twin_load a s1 s2 r1 r2 h w hw

theorem twin_get_size (a : Nat) (s1 s2 r1 r2 : Heap) (h : Twin a s1 s2 r1 r2) (w : Nat)
    (hw : w + 16 ≤ a ∨ a ≤ w) : get_size r2 w = get_size r1 w := by
  unfold get_size
  rw [twin_header a s1 s2 r1 r2 h w hw]

theorem twin_get_alloc (a : Nat) (s1 s2 r1 r2 : Heap) (h : Twin a s1 s2 r1 r2) (w : Nat)
    (hw : w + 16 ≤ a ∨ a ≤ w) : get_alloc r2 w = get_alloc r1 w := by
  unfold get_alloc
  rw [twin_header a s1 s2 r1 r2 h w hw]

theorem twin_find_next (a : Nat) (s1 s2 r1 r2 : Heap) (h : Twin a s1 s2 r1 r2) (w : Nat)
    (hw : w + 16 ≤ a ∨ a ≤ w) : find_next r2 w = find_next r1 w := by
  unfold find_next
  rw [twin_get_size a s1 s2 r1 r2 h w hw]

theorem twin_store (a : Nat) (s1 s2 r1 r2 : Heap) (h : Twin a s1 s2 r1 r2) (w v : Nat)
    (hw : w + 16 ≤ a ∨ a ≤ w) : Twin a s1 s2 (store r1 w v) (store r2 w v) := by
  obtain ⟨⟨d1, d2, d3, d4, d5, d6⟩, k1, k2⟩ := h
  refine ⟨⟨d1, d2, d3, d4, d5, fun x hx => ?_⟩, fun x h1 h2 => ?_, fun x h1 h2 => ?_⟩
  · show write_word r2.mem w v x = write_word r1.mem w v x
    unfold write_word
    rw [d6 x hx]
  · rw [store_mem_out _ _ _ _ (by omega)]
    exact k1 x h1 h2
  · rw [store_mem_out _ _ _ _ (by omega)]
    exact k2 x h1 h2

theorem twin_free_start (a : Nat) (s1 s2 r1 r2 : Heap) (h : Twin a s1 s2 r1 r2) (v : Nat) :
    Twin a s1 s2 { r1 with free_start := v } { r2 with free_start := v } := by
  obtain ⟨⟨d1, d2, d3, d4, d5, d6⟩, k1, k2⟩ := h
  exact ⟨⟨d1, d2, d3, d4, rfl, d6⟩, k1, k2⟩

theorem twin_set_prev_alloc (a : Nat) (s1 s2 r1 r2 : Heap) (h : Twin a s1 s2 r1 r2)
    (blk : Nat) (st : Bool) (hw : blk + 16 ≤ a ∨ a ≤ blk) :
    Twin a s1 s2 (set_prev_alloc r1 blk st) (set_prev_alloc r2 blk st) := by
  unfold set_prev_alloc
  rw [twin_header a s1 s2 r1 r2 h blk hw]
  by_cases h0 : blk ≠ 0
  · rw [if_pos h0, if_pos h0]
    cases st
    · exact twin_store a s1 s2 r1 r2 h _ _ hw
    · exact twin_store a s1 s2 r1 r2 h _ _ hw
  · rw [if_neg h0, if_neg h0]
    exact h

theorem twin_write_header (a : Nat) (s1 s2 r1 r2 : Heap) (h : Twin a s1 s2 r1 r2)
    (blk size : Nat) (al : Bool) (hw : blk + 16 ≤ a ∨ a ≤ blk) :
    Twin a s1 s2 (write_header r1 blk size al) (write_header r2 blk size al) :=
  twin_store a s1 s2 r1 r2 h _ _ hw

theorem twin_write_footer (a : Nat) (s1 s2 r1 r2 : Heap) (h : Twin a s1 s2 r1 r2)
    (blk size : Nat) (al : Bool) (hw : blk + 16 ≤ a ∨ a ≤ blk)
    (hf : wsub (wadd (wadd blk 8) (get_size r1 blk)) dsize + 16 ≤ a ∨
      a ≤ wsub (wadd (wadd blk 8) (get_size r1 blk)) dsize) :
    Twin a s1 s2 (write_footer r1 blk size al) (write_footer r2 blk size al) := by
  unfold write_footer
  rw [twin_get_size a s1 s2 r1 r2 h blk hw]
  exact twin_store a s1 s2 r1 r2 h _ _ hf

theorem twin_prepend (a : Nat) (s1 s2 r1 r2 : Heap) (h : Twin a s1 s2 r1 r2) (b : Nat)
    (h8 : wadd b 8 + 16 ≤ a ∨ a ≤ wadd b 8) (h16 : wadd b 16 + 16 ≤ a ∨ a ≤ wadd b 16)
    (hfs : r1.free_start ≠ 0 → wadd r1.free_start 8 + 16 ≤ a ∨ a ≤ wadd r1.free_start 8) :
    Twin a s1 s2 (prepend_to_free_list r1 b) (prepend_to_free_list r2 b) := by
  have hfe : r2.free_start = r1.free_start := h.1.2.2.2.2.1
  unfold prepend_to_free_list set_block_prev set_block_next
  rw [hfe]
  by_cases h0 : r1.free_start = 0
  · rw [if_pos h0, if_pos h0]
    exact twin_free_start a s1 s2 _ _
      (twin_store a s1 s2 _ _ (twin_store a s1 s2 r1 r2 h _ _ h8) _ _ h16) b
  · rw [if_neg h0, if_neg h0]
    simp only [store_free_start, hfe]
    exact twin_free_start a s1 s2 _ _
      (twin_store a s1 s2 _ _ (twin_store a s1 s2 _ _ (twin_store a s1 s2 r1 r2 h _ _ h8)
        _ _ h16) _ _ (hfs h0)) b

theorem twin_remove (a : Nat) (s1 s2 r1 r2 : Heap) (h : Twin a s1 s2 r1 r2) (b : Nat)
    (h8 : wadd b 8 + 16 ≤ a ∨ a ≤ wadd b 8) (h16 : wadd b 16 + 16 ≤ a ∨ a ≤ wadd b 16)
    (hp : block_prev r1 b ≠ 0 →
      wadd (block_prev r1 b) 16 + 16 ≤ a ∨ a ≤ wadd (block_prev r1 b) 16)
    (hn : block_next r1 b ≠ 0 →
      wadd (block_next r1 b) 8 + 16 ≤ a ∨ a ≤ wadd (block_next r1 b) 8) :
    Twin a s1 s2 (remove_from_free_list r1 b) (remove_from_free_list r2 b) := by
  have hfe : r2.free_start = r1.free_start := h.1.2.2.2.2.1
  have ep : block_prev r2 b = block_prev r1 b := twin_load a s1 s2 r1 r2 h _ h8
  have en : block_next r2 b = block_next r1 b := twin_load a s1 s2 r1 r2 h _ h16
  unfold remove_from_free_list
  rw [hfe, ep, en]
  by_cases h0 : r1.free_start = 0
  · rw [if_pos h0, if_pos h0]
    exact h
  · rw [if_neg h0, if_neg h0]
    dsimp only
    by_cases c1 : block_prev r1 b = 0 ∧ block_next r1 b = 0
    · rw [if_pos c1, if_pos c1]
      exact twin_free_start a s1 s2 r1 r2 h 0
    · rw [if_neg c1, if_neg c1]
      by_cases c2 : block_prev r1 b = 0 ∧ block_next r1 b ≠ 0
      · rw [if_pos c2, if_pos c2]
        unfold set_block_prev
        exact twin_store a s1 s2 _ _ (twin_free_start a s1 s2 r1 r2 h _) _ _ (hn c2.2)
      · rw [if_neg c2, if_neg c2]
        by_cases c3 : block_prev r1 b ≠ 0 ∧ block_next r1 b = 0
        · rw [if_pos c3, if_pos c3]
          unfold set_block_next
          exact twin_store a s1 s2 r1 r2 h _ _ (hp c3.1)
        · rw [if_neg c3, if_neg c3]
          by_cases c4 : block_prev r1 b ≠ 0 ∧ block_next r1 b ≠ 0
          · rw [if_pos c4, if_pos c4]
            unfold set_block_next set_block_prev
            exact twin_store a s1 s2 _ _ (twin_store a s1 s2 r1 r2 h _ _ (hp c4.1)) _ _
              (hn c4.2)
          · rw [if_neg c4, if_neg c4]
            exact h

/-! ## The cases of `coalesce` that leave the left neighbour alone -/

theorem coalesce_of_none (s : Heap) (a : Nat) (h1 : (coalesce_case s a).1 = false)
    (h2 : (coalesce_case s a).2 = false) :
    coalesce s a = (set_prev_alloc (prepend_to_free_list s a) (find_next s a) false, a) := by
  unfold coalesce_case at h1 h2
  dsimp only at h1 h2
  unfold coalesce
  simp only [h1, h2]
  simp

theorem coalesce_of_right (s : Heap) (a : Nat) (h1 : (coalesce_case s a).1 = false)
    (h2 : (coalesce_case s a).2 = true) :
    coalesce s a =
      (prepend_to_free_list (set_prev_alloc (write_footer (write_header
        (remove_from_free_list (set_prev_alloc s (find_next s (find_next s a)) false)
          (find_next s a)) a (wadd (get_size s a) (get_size s (find_next s a))) false)
        a (wadd (get_size s a) (get_size s (find_next s a))) false) a
        (extract_prev_alloc (header (remove_from_free_list
          (set_prev_alloc s (find_next s (find_next s a)) false) (find_next s a)) a) != 0)) a,
       a) := by
  unfold coalesce_case at h1 h2
  dsimp only at h1 h2
  unfold coalesce
  simp only [h1, h2]
  simp

theorem last_or_mem (l : List Nat) (p : Nat) : last_or p l = p ∨ last_or p l ∈ l := by
  induction l generalizing p with
  | nil => exact Or.inl rfl
  | cons x xs ih =>
    rcases ih x with h | h
    · exact Or.inr (by simp only [last_or]; rw [h]; exact List.mem_cons_self _ _)
    · exact Or.inr (List.mem_cons_of_mem _ h)

theorem head_or_mem (l : List Nat) (p : Nat) : head_or p l = p ∨ head_or p l ∈ l := by
  cases l with
  | nil => exact Or.inl rfl
  | cons x xs => exact Or.inr (List.mem_cons_self _ _)

/-- The links of a node of a free list are null or nodes of the list. -/
theorem flist_links (m : Mem) (fl : List Nat) (h0 : Nat) (hf : FList m 0 h0 fl) (b : Nat)
    (hb : b ∈ fl) :
    (read_word m (b + 8) = 0 ∨ read_word m (b + 8) ∈ fl) ∧
    (read_word m (b + 16) = 0 ∨ read_word m (b + 16) ∈ fl) := by
  obtain ⟨l1, l2, rfl⟩ := List.append_of_mem hb
  unfold FList at hf
  rw [fseg_append] at hf
  obtain ⟨mid, -, hm, -, hp, hrest⟩ := hf
  have hn := fseg_head _ _ _ _ _ hrest
  constructor
  · rw [hp]
    rcases last_or_mem l1 0 with h | h
    · exact Or.inl h
    · exact Or.inr (List.mem_append_left _ h)
  · rw [hn]
    rcases head_or_mem l2 0 with h | h
    · exact Or.inl h
    · exact Or.inr (List.mem_append_right _ (List.mem_cons_of_mem _ h))

theorem flist_head (m : Mem) (fl : List Nat) (h0 : Nat) (hf : FList m 0 h0 fl) :
    h0 = 0 ∨ h0 ∈ fl := by
  have := fseg_head _ _ _ _ _ hf
  rw [this]
  exact head_or_mem fl 0

theorem fs_set_prev_alloc (s : Heap) (b : Nat) (st : Bool) :
    (set_prev_alloc s b st).free_start = s.free_start := by
  unfold set_prev_alloc
  split
  · split <;> rfl
  · rfl

theorem fs_write_header (s : Heap) (b size : Nat) (al : Bool) :
    (write_header s b size al).free_start = s.free_start := by
  unfold write_header
  exact store_free_start _ _ _

theorem fs_write_footer (s : Heap) (b size : Nat) (al : Bool) :
    (write_footer s b size al).free_start = s.free_start := by
  unfold write_footer
  exact store_free_start _ _ _

theorem footer_addr (blk gs : Nat) (h8 : 8 ≤ gs) (hw : blk + 8 + gs < W) :
    wsub (wadd (wadd blk 8) gs) dsize = blk + gs - 8 := by
  have hW : W = 18446744073709551616 := rfl
  have hd16 : dsize = 16 := rfl
  rw [hd16, wadd_eq blk 8 (by omega), wadd_eq (blk + 8) gs hw, wsub_eq _ _ (by omega) hw]
  omega

/-- The setting of the two runs: what the two heaps share. -/
theorem twin_cases (s1 s2 : Heap) (pre : List Blk) (bsize : Nat) (post : List Blk)
    (fl : List Nat) (h : PreCo s1 pre bsize post fl)
    (hpa : last_alloc true pre = true)
    (hd : DifferOnlyBefore (s1.lo + 8 + total pre) s1 s2) :
    (coalesce_case s1 (s1.lo + 8 + total pre)).1 = false ∧
    (coalesce_case s1 (s1.lo + 8 + total pre)).2 = !first_alloc post ∧
    (coalesce_case s2 (s1.lo + 8 + total pre)).1 = false ∧
    (coalesce_case s2 (s1.lo + 8 + total pre)).2 = !first_alloc post ∧
    find_next s2 (s1.lo + 8 + total pre) = s1.lo + 8 + total pre + bsize ∧
    find_next s1 (s1.lo + 8 + total pre) = s1.lo + 8 + total pre + bsize ∧
    get_size s2 (s1.lo + 8 + total pre) = bsize := by
  have T0 := twin_refl _ s1 s2 hd
  have g := preco_geo _ _ _ _ _ h
  have e2 := co_next _ _ _ _ _ h
  have e1 := co_size _ _ _ _ _ h
  have hh := twin_header _ _ _ _ _ T0 (s1.lo + 8 + total pre) (Or.inr (Nat.le_refl _))
  have hfn := twin_find_next _ _ _ _ _ T0 (s1.lo + 8 + total pre) (Or.inr (Nat.le_refl _))
  have hgs := twin_get_size _ _ _ _ _ T0 (s1.lo + 8 + total pre) (Or.inr (Nat.le_refl _))
  have hga := twin_get_alloc _ _ _ _ _ T0 (s1.lo + 8 + total pre + bsize) (Or.inr (by omega))
  have c1 : (coalesce_case s1 (s1.lo + 8 + total pre)).1 = false :=
    co_left_alloc _ _ _ _ _ h hpa
  have c2 : (coalesce_case s1 (s1.lo + 8 + total pre)).2 = !first_alloc post := by
    unfold coalesce_case
    dsimp only
    rw [e2]
    exact co_right _ _ _ _ _ h
  have hp2 : extract_prev_alloc (header s1 (s1.lo + 8 + total pre)) = 2 := by
    rw [prev_alloc_eq s1 _ bsize false _ (co_header _ _ _ _ _ h) g.bs16, hpa]
    rfl
  refine ⟨c1, c2, ?_, ?_, by rw [hfn, e2], e2, by rw [hgs, e1]⟩
  · unfold coalesce_case
    dsimp only
    rw [hh, hp2]
    split <;> rfl
  · rw [← c2]
    unfold coalesce_case
    dsimp only
    rw [hfn, e2, hga]

/-- Where the links of the nodes are, relative to the word before the block. -/
theorem node_apart (s : Heap) (pre : List Blk) (bsize : Nat) (post : List Blk)
    (fl : List Nat) (h : PreCo s pre bsize post fl) (y : Nat) (hy : y = 0 ∨ y ∈ fl)
    (h0 : y ≠ 0) :
    (wadd y 8 + 16 ≤ s.lo + 8 + total pre ∨ s.lo + 8 + total pre ≤ wadd y 8) ∧
    (wadd y 16 + 16 ≤ s.lo + 8 + total pre ∨ s.lo + 8 + total pre ≤ wadd y 16) := by
  have hW : W = 18446744073709551616 := rfl
  have g := preco_geo _ _ _ _ _ h
  have hn := geo_nodes _ _ _ _ _ g
  rcases hy with hy | hy
  · exact absurd hy h0
  · have h1 := g.node y hy
    have h2 := hn.2 y hy
    rw [wadd_eq y 8 (by omega), wadd_eq y 16 (by omega)]
    omega

theorem c20_none (s1 s2 : Heap) (pre : List Blk) (bsize : Nat) (post : List Blk)
    (fl : List Nat) (h : PreCo s1 pre bsize post fl)
    (hpa : last_alloc true pre = true) (hfa : first_alloc post = true)
    (hd : DifferOnlyBefore (s1.lo + 8 + total pre) s1 s2) :
    (coalesce s2 (s1.lo + 8 + total pre)).2 = (coalesce s1 (s1.lo + 8 + total pre)).2 ∧
    Twin (s1.lo + 8 + total pre) s1 s2 (coalesce s1 (s1.lo + 8 + total pre)).1
      (coalesce s2 (s1.lo + 8 + total pre)).1 := by
  have hW : W = 18446744073709551616 := rfl
  obtain ⟨c1, c2, c3, c4, n2, n1, -⟩ := twin_cases s1 s2 pre bsize post fl h hpa hd
  rw [hfa] at c2 c4
  rw [coalesce_of_none s1 _ c1 c2, coalesce_of_none s2 _ c3 c4, n1, n2]
  refine ⟨rfl, ?_⟩
  dsimp only
  have T0 := twin_refl _ s1 s2 hd
  have g := preco_geo _ _ _ _ _ h
  have hwl := g.wlim
  have hb32 := g.bs32
  have T1 := twin_prepend _ _ _ _ _ T0 (s1.lo + 8 + total pre)
    (by rw [wadd_eq (s1.lo + 8 + total pre) 8 (by omega)]; omega)
    (by rw [wadd_eq (s1.lo + 8 + total pre) 16 (by omega)]; omega)
    (fun h0 => (node_apart s1 pre bsize post fl h _ (flist_head _ _ _ h.flist) h0).1)
  exact twin_set_prev_alloc _ _ _ _ _ T1 _ false (Or.inr (by omega))

theorem c20_right (s1 s2 : Heap) (pre : List Blk) (bsize : Nat) (c : Blk) (rest : List Blk)
    (fl : List Nat) (h : PreCo s1 pre bsize (c :: rest) fl)
    (hpa : last_alloc true pre = true) (hc : c.alloc = false)
    (hdf : DifferOnlyBefore (s1.lo + 8 + total pre) s1 s2) :
    (coalesce s2 (s1.lo + 8 + total pre)).2 = (coalesce s1 (s1.lo + 8 + total pre)).2 ∧
    Twin (s1.lo + 8 + total pre) s1 s2 (coalesce s1 (s1.lo + 8 + total pre)).1
      (coalesce s2 (s1.lo + 8 + total pre)).1 := by
  have hW : W = 18446744073709551616 := rfl
  obtain ⟨c1, c2, c3, c4, n2, n1, gs2⟩ := twin_cases s1 s2 pre bsize (c :: rest) fl h hpa hdf
  have hfa : first_alloc (c :: rest) = false := hc
  rw [hfa] at c2 c4
  have T0 := twin_refl _ s1 s2 hdf
  have g := preco_geo _ _ _ _ _ h
  have hn := geo_nodes _ _ _ _ _ g
  have hwl := g.wlim
  have hb16 := g.bs16
  have hb32 := g.bs32
  obtain ⟨⟨q, hcb⟩, hrest, hepi⟩ := h.tail
  have hc16 := hcb.1
  have hc32 := hcb.2.1
  simp only [total] at hwl
  have hfr : first_alloc rest = true := by
    rw [hc] at hrest
    exact seg_first_alloc _ _ _ hrest
  obtain ⟨hR0, hfs16⟩ := seg_head _ _ _ _ hrest hepi
  rw [hc, hfr] at hR0
  have hfsle := first_size_le rest
  have hrm : s1.lo + 8 + total pre + bsize ∈ fl := by
    refine h.perm.symm.subset (List.mem_append_right _ ?_)
    simp [free_addrs, hc]
  -- what the first heap holds at the block and at its right neighbour
  have e1 : get_size s1 (s1.lo + 8 + total pre) = bsize := co_size _ _ _ _ _ h
  have e3 : get_size s1 (s1.lo + 8 + total pre + bsize) = c.size :=
    get_size_eq s1 _ c.size c.alloc q hcb.2.2.1 hc16 (by omega)
  have e4 : find_next s1 (s1.lo + 8 + total pre + bsize) =
      s1.lo + 8 + total pre + bsize + c.size := find_next_eq s1 _ _ e3 (by omega)
  have e5 : set_prev_alloc s1 (s1.lo + 8 + total pre + bsize + c.size) false =
      store s1 (s1.lo + 8 + total pre + bsize + c.size) (hd (first_size rest) true false) :=
    set_prev_alloc_eq s1 _ _ true false false (by omega) hR0 hfs16 (by omega)
  have e3b : get_size s2 (s1.lo + 8 + total pre + bsize) = c.size := by
    rw [twin_get_size _ _ _ _ _ T0 _ (Or.inr (by omega)), e3]
  have e4b : find_next s2 (s1.lo + 8 + total pre + bsize) =
      s1.lo + 8 + total pre + bsize + c.size := by
    rw [twin_find_next _ _ _ _ _ T0 _ (Or.inr (by omega)), e4]
  have e7 : wadd bsize c.size = bsize + c.size := wadd_eq _ _ (by omega)
  have hsz16 : (bsize + c.size) % 16 = 0 := by omega
  have hvs0 : hd (bsize + c.size) false false < W := hd_lt _ _ _ hsz16 (by omega)
  -- the free list after the header that follows the right neighbour is rewritten
  have f1 : FList (set_prev_alloc s1 (s1.lo + 8 + total pre + bsize + c.size) false).mem 0
      (set_prev_alloc s1 (s1.lo + 8 + total pre + bsize + c.size) false).free_start fl := by
    rw [e5]
    refine flist_store _ _ _ _ _ (fun y hy => ?_) h.flist
    have h1 := g.node y hy
    simp only [total] at h1
    have hy2 : y + 32 ≤ s1.lo + 8 + total pre ∨
        y + 32 ≤ s1.lo + 8 + total pre + bsize + (c.size + total rest) := by omega
    by_cases hy3 : y = s1.lo + 8 + total pre + bsize
    · omega
    · rcases h1.2.2 with h3 | h3
      · omega
      · have h4 := h3.2.2
        simp only [free_addrs, hc, Bool.false_eq_true, if_false, List.mem_cons] at h4
        rcases h4 with h4 | h4
        · exact absurd h4 hy3
        · have := free_addrs_range _ _ ((sized_cons c rest).1 g.szpost).2 _ h4
          have := post_node_far _ _ ((sized_cons c rest).1 g.szpost).2 hfr y h4
          omega
  obtain ⟨lp, ln⟩ := flist_links _ fl _ f1 _ hrm
  obtain ⟨r1, -, -, -, -, -⟩ := remove_spec _ fl (s1.lo + 8 + total pre + bsize) f1 hn hrm
  have hhead := flist_head _ _ _ r1
  have hsub : ∀ y, y = 0 ∨ y ∈ fl.erase (s1.lo + 8 + total pre + bsize) → y = 0 ∨ y ∈ fl := by
    rintro y (hy | hy)
    · exact Or.inl hy
    · exact Or.inr (List.mem_of_mem_erase hy)
  have w8 : wadd (s1.lo + 8 + total pre + bsize) 8 = s1.lo + 8 + total pre + bsize + 8 :=
    wadd_eq _ _ (by omega)
  have w16 : wadd (s1.lo + 8 + total pre + bsize) 16 = s1.lo + 8 + total pre + bsize + 16 :=
    wadd_eq _ _ (by omega)
  -- the twin runs
  have T1 := twin_set_prev_alloc _ _ _ _ _ T0 (s1.lo + 8 + total pre + bsize + c.size) false
    (Or.inr (by omega))
  have lp2 : block_prev (set_prev_alloc s1 (s1.lo + 8 + total pre + bsize + c.size) false)
      (s1.lo + 8 + total pre + bsize) = 0 ∨
      block_prev (set_prev_alloc s1 (s1.lo + 8 + total pre + bsize + c.size) false)
      (s1.lo + 8 + total pre + bsize) ∈ fl := by
    unfold block_prev load
    rw [w8]
    exact lp
  have ln2 : block_next (set_prev_alloc s1 (s1.lo + 8 + total pre + bsize + c.size) false)
      (s1.lo + 8 + total pre + bsize) = 0 ∨
      block_next (set_prev_alloc s1 (s1.lo + 8 + total pre + bsize + c.size) false)
      (s1.lo + 8 + total pre + bsize) ∈ fl := by
    unfold block_next load
    rw [w16]
    exact ln
  have T2 := twin_remove _ _ _ _ _ T1 (s1.lo + 8 + total pre + bsize)
    (by rw [w8]; omega) (by rw [w16]; omega)
    (fun h0 => (node_apart s1 pre bsize (c :: rest) fl h
      (block_prev (set_prev_alloc s1 (s1.lo + 8 + total pre + bsize + c.size) false)
        (s1.lo + 8 + total pre + bsize)) lp2 h0).2)
    (fun h0 => (node_apart s1 pre bsize (c :: rest) fl h
      (block_next (set_prev_alloc s1 (s1.lo + 8 + total pre + bsize + c.size) false)
        (s1.lo + 8 + total pre + bsize)) ln2 h0).1)
  have T3 := twin_write_header _ _ _ _ _ T2 (s1.lo + 8 + total pre) (bsize + c.size) false
    (Or.inr (Nat.le_refl _))
  have hgs3 : get_size (write_header (remove_from_free_list
      (set_prev_alloc s1 (s1.lo + 8 + total pre + bsize + c.size) false)
      (s1.lo + 8 + total pre + bsize)) (s1.lo + 8 + total pre) (bsize + c.size) false)
      (s1.lo + 8 + total pre) = bsize + c.size := by
    rw [write_header_eq _ _ _ _ hsz16]
    exact get_size_eq _ _ _ false false (load_store_eq _ _ _ hvs0) hsz16 (by omega)
  have T4 := twin_write_footer _ _ _ _ _ T3 (s1.lo + 8 + total pre) (bsize + c.size) false
    (Or.inr (Nat.le_refl _))
    (by rw [hgs3, footer_addr _ _ (by omega) (by omega)]; omega)
  have T5 := twin_set_prev_alloc _ _ _ _ _ T4 (s1.lo + 8 + total pre)
    (extract_prev_alloc (header (remove_from_free_list
      (set_prev_alloc s1 (s1.lo + 8 + total pre + bsize + c.size) false)
      (s1.lo + 8 + total pre + bsize)) (s1.lo + 8 + total pre)) != 0)
    (Or.inr (Nat.le_refl _))
  have T6 := twin_prepend _ _ _ _ _ T5 (s1.lo + 8 + total pre)
    (by rw [wadd_eq (s1.lo + 8 + total pre) 8 (by omega)]; omega)
    (by rw [wadd_eq (s1.lo + 8 + total pre) 16 (by omega)]; omega)
    (fun h0 => by
      rw [fs_set_prev_alloc, fs_write_footer, fs_write_header] at h0 ⊢
      exact (node_apart s1 pre bsize (c :: rest) fl h _ (hsub _ hhead) h0).1)
  have hh2 := twin_header _ _ _ _ _ T2 (s1.lo + 8 + total pre) (Or.inr (Nat.le_refl _))
  rw [coalesce_of_right s1 _ c1 c2, coalesce_of_right s2 _ c3 c4]
  simp only [n1, n2, e1, gs2, e3, e3b, e4, e4b, e7, hh2]
  exact ⟨trivial, T6⟩

/-- The state `fb1` is a state at a call of `coalesce`: the block of `A` lies
before the block at 4216, the free remainder after it. -/
theorem preco_fb1 : PreCo fb1 [⟨112, true⟩] 112 [⟨1568, false⟩] [4328] := by
  have hlo : fb1.lo = 4096 := by decide!
  refine ⟨by decide!, by decide!, by decide!, by decide!, by decide!, by decide!, by decide!,
    ?_, ?_, ?_, ?_, ?_⟩
  · rw [hlo]
    simp only [Seg, BlockAt, total, last_alloc, hd]
    decide!
  · rw [hlo]
    simp only [BlockAt, total, last_alloc, hd]
    decide!
  · rw [hlo]
    simp only [Tail, Seg, BlockAt, total, last_alloc, hd]
    refine ⟨⟨true, ?_⟩, trivial, ?_⟩ <;> decide!
  · simp only [FList, FSeg]
    decide!
  · rw [hlo]
    simp [free_addrs, total]

/-- A store into the word before an address changes nothing else. -/
theorem differ_store (s : Heap) (w v : Nat) : DifferOnlyBefore (w + 8) s (store s w v) :=
  ⟨rfl, rfl, rfl, rfl, rfl, fun x hx => write_word_out _ _ _ _ (by omega)⟩

/-- The state `fb1` is the one that `free(B)` hands to `coalesce`. -/
theorem free_ab2 : free ab2 4224 = (coalesce fb1 4216).1 := by
  have e1 : payload_to_header 4224 = 4216 := by decide!
  have e2 : get_size ab2 4216 = 112 := by decide!
  have e3 : (extract_prev_alloc (header ab2 4216) != 0) = true := by decide!
  unfold free fb1
  simp only [e1, e2, e3]
  rfl

/-- The word that `find_prev` reads does reach `coalesce`: the pointer `left`
it computes is another one in `fb2` than in `fb1`. -/
theorem find_prev_fb2 : find_prev fb1 4216 = 4216 ∧ find_prev fb2 4216 = 18446744073708507256 := by
  decide!

/-- At a call of `coalesce` on a block whose `prev_alloc` bit is set, in a
well-formed heap `s1`, and for every heap `s2` that differs from `s1` at most
in the word before the header of the block, two runs that return give the
same block, they
pass the same two tests and so take the same case, leave the word before the
header as it was, and end in states that agree everywhere else: they have
written the same values at the same addresses. -/
theorem coalesce_result_ignores_word (s1 s2 : Heap) (a : Nat) (pre : List Blk)
    (bsize : Nat) (post : List Blk) (fl : List Nat) (h : PreCo s1 pre bsize post fl)
    (ha : a = s1.lo + 8 + total pre) (hbit : extract_prev_alloc (header s1 a) ≠ 0)
    (hdf : DifferOnlyBefore a s1 s2) :
    (coalesce s2 a).2 = (coalesce s1 a).2 ∧
    coalesce_case s2 a = coalesce_case s1 a ∧
    (coalesce_case s1 a).1 = false ∧
    DifferOnlyBefore a (coalesce s1 a).1 (coalesce s2 a).1 ∧
    WordKept a s1 (coalesce s1 a).1 ∧ WordKept a s2 (coalesce s2 a).1 := by
  subst ha
  have g := preco_geo _ _ _ _ _ h
  have hpa : last_alloc true pre = true := by
    rw [prev_alloc_eq s1 _ bsize false (last_alloc true pre) (co_header _ _ _ _ _ h) g.bs16]
      at hbit
    cases hl : last_alloc true pre
    · rw [hl] at hbit
      exact absurd rfl hbit
    · rfl
  obtain ⟨c1, c2, c3, c4, -, -, -⟩ := twin_cases s1 s2 pre bsize post fl h hpa hdf
  have hcase : coalesce_case s2 (s1.lo + 8 + total pre) =
      coalesce_case s1 (s1.lo + 8 + total pre) :=
    Prod.ext (c3.trans c1.symm) (c4.trans c2.symm)
  cases post with
  | nil =>
    obtain ⟨r, T⟩ := c20_none s1 s2 pre bsize [] fl h hpa rfl hdf
    exact ⟨r, hcase, c1, T.1, T.2.1, T.2.2⟩
  | cons c rest =>
    cases hc : c.alloc
    · obtain ⟨r, T⟩ := c20_right s1 s2 pre bsize c rest fl h hpa hc hdf
      exact ⟨r, hcase, c1, T.1, T.2.1, T.2.2⟩
    · obtain ⟨r, T⟩ := c20_none s1 s2 pre bsize (c :: rest) fl h hpa hc hdf
      exact ⟨r, hcase, c1, T.1, T.2.1, T.2.2⟩

theorem coalesce_result_ignores_word_fb :
    load fb1 4208 = 0 ∧ load fb2 4208 = 1048576 ∧
    coalesce_case fb1 4216 = (false, true) ∧
    ((coalesce fb2 4216).2 = (coalesce fb1 4216).2 ∧
      coalesce_case fb2 4216 = coalesce_case fb1 4216 ∧
      (coalesce_case fb1 4216).1 = false ∧
      DifferOnlyBefore 4216 (coalesce fb1 4216).1 (coalesce fb2 4216).1 ∧
      WordKept 4216 fb1 (coalesce fb1 4216).1 ∧ WordKept 4216 fb2 (coalesce fb2 4216).1) :=
  ⟨by decide!, by decide!, by decide!,
    coalesce_result_ignores_word fb1 fb2 4216 [⟨112, true⟩] 112 [⟨1568, false⟩]
      [4328] preco_fb1 (by decide!) (by decide!) (differ_store fb1 4208 1048576)⟩

/-! # Part V: the header word, the free list, the checker, fragmentation -/

/-! ## The header word -/

theorem testBit_or_two (h i : Nat) (hi : i ≠ 1) : (h ||| 2).testBit i = h.testBit i := by
  have e : (2 : Nat) = 2 ^ 1 := by norm_num
  rw [Nat.testBit_or, e, Nat.testBit_two_pow]
  have : decide (1 = i) = false := by simp; omega
  rw [this, Bool.or_false]

theorem testBit_or_two_one (h : Nat) : (h ||| 2).testBit 1 = true := by
  have e : (2 : Nat) = 2 ^ 1 := by norm_num
  rw [Nat.testBit_or, e, Nat.testBit_two_pow]
  simp

theorem testBit_mask (i : Nat) (hi : i < 64) :
    (18446744073709551613 : Nat).testBit i = decide (i ≠ 1) := by
  interval_cases i <;> decide

theorem testBit_and_mask (h i : Nat) (hh : h < W) (hi : i ≠ 1) :
    (h &&& 18446744073709551613).testBit i = h.testBit i := by
  rw [Nat.testBit_and]
  by_cases h64 : i < 64
  · rw [testBit_mask i h64]
    simp [hi]
  · have : h.testBit i = false := by
      apply Nat.testBit_lt_two_pow
      have hW : W = 2 ^ 64 := by norm_num
      rw [hW] at hh
      exact Nat.lt_of_lt_of_le hh (Nat.pow_le_pow_right (by norm_num) (by omega))
    rw [this, Bool.false_and]

theorem testBit_and_mask_one (h : Nat) : (h &&& 18446744073709551613).testBit 1 = false := by
  rw [Nat.testBit_and, testBit_mask 1 (by norm_num)]
  simp

theorem land_congr (x y m : Nat) (hm : m.testBit 1 = false)
    (hxy : ∀ i, i ≠ 1 → x.testBit i = y.testBit i) : x &&& m = y &&& m := by
  apply Nat.eq_of_testBit_eq
  intro i
  rw [Nat.testBit_and, Nat.testBit_and]
  by_cases hi : i = 1
  · rw [hi, hm, Bool.and_false, Bool.and_false]
  · rw [hxy i hi]

/-- What `set_prev_alloc` does to an arbitrary header word `h`: bit 1 becomes
the state, every other bit is kept. -/
theorem set_prev_alloc_word (s : Heap) (block h : Nat) (p : Bool) (hb : block ≠ 0)
    (hh : h < W) :
    (header (set_prev_alloc (store s block h) block p) block).testBit 1 = p ∧
    ∀ i, i ≠ 1 →
      (header (set_prev_alloc (store s block h) block p) block).testBit i = h.testBit i := by
  have hW : W = 2 ^ 64 := by norm_num
  have e0 : header (store s block h) block = h := load_store_eq s block h hh
  unfold set_prev_alloc
  rw [if_pos hb, e0]
  cases p
  · have hlt : h &&& not_prev_alloc_mask < W := Nat.lt_of_le_of_lt Nat.and_le_left hh
    have e1 : header (store (store s block h) block (h &&& not_prev_alloc_mask)) block =
        h &&& not_prev_alloc_mask := load_store_eq _ block _ hlt
    simp only [Bool.false_eq_true, if_false]
    rw [e1]
    exact ⟨testBit_and_mask_one h, fun i hi => testBit_and_mask h i hh hi⟩
  · have hlt : h ||| prev_alloc_mask < W := by
      rw [hW] at hh ⊢
      exact Nat.or_lt_two_pow hh (by norm_num)
    have e1 : header (store (store s block h) block (h ||| prev_alloc_mask)) block =
        h ||| prev_alloc_mask := load_store_eq _ block _ hlt
    simp only [if_true]
    rw [e1]
    exact ⟨testBit_or_two_one h, fun i hi => testBit_or_two h i hi⟩

/-- C21: for every size below `2 ^ 64` that is a multiple of 16 and all
booleans `a` and `p`, the header that `write_header(block, size, a)`, which
stores `pack(size, a)`, and then `set_prev_alloc(block, p)` leave at a non-null
block has the size `size`, the allocated flag `a` and the `prev_alloc` flag
`p`; and for every header word `h`, `set_prev_alloc(block, p)` sets bit 1 to
`p` and changes no other bit, so that the size and the allocated flag read
from the header are those of `h`. -/
theorem C21_header_round_trip (s : Heap) (block size h : Nat) (a p : Bool)
    (h16 : size % 16 = 0) (hlt : size < W) (hb : block ≠ 0) (hh : h < W) :
    extract_size (pack size a) = size ∧ extract_alloc (pack size a) = a ∧
    extract_size (header (set_prev_alloc (write_header s block size a) block p) block) = size ∧
    extract_alloc (header (set_prev_alloc (write_header s block size a) block p) block) = a ∧
    (extract_prev_alloc (header (set_prev_alloc (write_header s block size a) block p) block)
      != 0) = p ∧
    (header (set_prev_alloc (store s block h) block p) block).testBit 1 = p ∧
    (∀ i, i ≠ 1 →
      (header (set_prev_alloc (store s block h) block p) block).testBit i = h.testBit i) ∧
    extract_size (header (set_prev_alloc (store s block h) block p) block) = extract_size h ∧
    extract_alloc (header (set_prev_alloc (store s block h) block p) block) =
      extract_alloc h := by
  have hp0 : hd size a false < W := hd_lt size a false h16 hlt
  have hp1 : hd size a p < W := hd_lt size a p h16 hlt
  have e1 : load (store s block (hd size a false)) block = hd size a false :=
    load_store_eq s block _ hp0
  have e2 : header (set_prev_alloc (write_header s block size a) block p) block =
      hd size a p := by
    rw [write_header_eq s block size a h16,
      set_prev_alloc_eq _ block size a false p hb e1 h16 hlt]
    exact load_store_eq _ block _ hp1
  obtain ⟨b1, b2⟩ := set_prev_alloc_word s block h p hb hh
  refine ⟨?_, ?_, ?_, ?_, ?_, b1, b2, ?_, ?_⟩
  · rw [pack_eq size a h16]
    exact extract_size_hd size a false h16 hlt
  · rw [pack_eq size a h16]
    exact extract_alloc_hd size a false h16
  · rw [e2]
    exact extract_size_hd size a p h16 hlt
  · rw [e2]
    exact extract_alloc_hd size a p h16
  · rw [e2, extract_prev_alloc_hd size a p h16]
    cases p <;> rfl
  · unfold extract_size
    exact land_congr _ _ _ (by decide) b2
  · unfold extract_alloc
    rw [land_congr _ _ alloc_mask (by decide) b2]

theorem C21_header_round_trip_witness :
    48 % 16 = 0 ∧ 48 < W ∧ 4104 ≠ 0 ∧ 1709 < W ∧
    (extract_size (pack 48 true) = 48 ∧ extract_alloc (pack 48 true) = true ∧
    extract_size (header (set_prev_alloc (write_header h1 4104 48 true) 4104 true) 4104) = 48 ∧
    extract_alloc (header (set_prev_alloc (write_header h1 4104 48 true) 4104 true) 4104) =
      true ∧
    (extract_prev_alloc (header (set_prev_alloc (write_header h1 4104 48 true) 4104 true) 4104)
      != 0) = true ∧
    (header (set_prev_alloc (store h1 4104 1709) 4104 true) 4104).testBit 1 = true ∧
    (∀ i, i ≠ 1 →
      (header (set_prev_alloc (store h1 4104 1709) 4104 true) 4104).testBit i =
        (1709 : Nat).testBit i) ∧
    extract_size (header (set_prev_alloc (store h1 4104 1709) 4104 true) 4104) =
      extract_size 1709 ∧
    extract_alloc (header (set_prev_alloc (store h1 4104 1709) 4104 true) 4104) =
      extract_alloc 1709) :=
  ⟨by decide, by decide, by decide, by decide,
    C21_header_round_trip h1 4104 48 1709 true true (by decide) (by decide) (by decide)
      (by decide)⟩

/-! ## The count check and the `prev_alloc` check -/

theorem reach_small_k2 : ReachSmall k2 [4112] :=
  ReachSmall.write h2 [4112] 4112 4160 1 reach_small_h2 (by decide) (by decide) (by decide!)

/-- C23: `correct_num_free_blocks` never returns false: both branches of its
final comparison return `1`.  In the state `e4`, reached by `mm_init`,
`p = malloc(56)`, a store into the payload and `realloc(p, SIZE_MAX)`, the
address-order walk ends after one free block, the free list ends after two
nodes and has no cycle, and the check returns true. -/
theorem C23_count_check_never_fails :
    (∀ fuel s, correct_num_free_blocks fuel s ≠ .ok false) ∧
    Reach e4 [4176] ∧
    implicit_count_loop e4 4 e4.heap_start 0 = .ok 1 ∧
    explicit_count_loop e4 4 e4.free_start 0 = .ok 2 ∧
    detect_cycle 4 e4 = .ok false ∧
    correct_num_free_blocks 4 e4 = .ok true := by
  refine ⟨fun fuel s => ?_, reach_e4, by decide!, by decide!, by decide!, by decide!⟩
  unfold correct_num_free_blocks
  cases implicit_count_loop s fuel s.heap_start 0 with
  | error e => simp
  | ok a =>
    cases explicit_count_loop s fuel s.free_start 0 with
    | error e => simp
    | ok b => simp

/-- C24: `checkAllPrevAllocBits` compares the `prev_alloc` bit of a block with
bit 0 of the word before its header, which is payload when the block before
is allocated.  In the state `h2`, where every `prev_alloc` bit is right, the
check returns false at the block 4168, whose predecessor is allocated and has
a zero last payload word; after the caller stores 1 in that word the check
returns true, the headers being the same. -/
theorem C24_prev_alloc_check_reads_payload :
    ReachSmall h2 [4112] ∧ Tiles h2 ∧ PrevAllocExact h2 ∧
    nth_block h2 1 = 4168 ∧ prev_alloc_bit h2 4168 = true ∧ get_alloc h2 4104 = true ∧
    find_prev_footer 4168 = 4160 ∧ load h2 4160 = 0 ∧
    4112 + get_payload_size h2 (payload_to_header 4112) = 4168 ∧
    (∀ k, checkAllPrevAllocBits (k + 2) h2 = .ok false) ∧
    ReachSmall k2 [4112] ∧ Tiles k2 ∧ PrevAllocExact k2 ∧
    (∀ b, header k2 (nth_block k2 b) = header h2 (nth_block h2 b)) ∧
    (∀ k, checkAllPrevAllocBits (k + 3) k2 = .ok true) := by
  refine ⟨reach_small_h2, small_tiles _ _ reach_small_h2, small_prev_alloc _ _ reach_small_h2,
    by decide!, by decide!, by decide!, by decide!, by decide!, by decide!, ?_,
    reach_small_k2, small_tiles _ _ reach_small_k2, small_prev_alloc _ _ reach_small_k2, ?_, ?_⟩
  · intro k
    have e0 : is_epilogue h2 h2.heap_start = false := by decide!
    have p0 : (extract_prev_alloc (header h2 h2.heap_start) == 2) = true := by decide!
    have q0 : extract_alloc (load h2 (find_prev_footer h2.heap_start)) = true := by decide!
    have e1 : is_epilogue h2 (find_next h2 h2.heap_start) = false := by decide!
    have p1 : (extract_prev_alloc (header h2 (find_next h2 h2.heap_start)) == 2) = true := by
      decide!
    have q1 : extract_alloc (load h2 (find_prev_footer (find_next h2 h2.heap_start))) =
        false := by decide!
    simp [checkAllPrevAllocBits, checkAllPrevAllocBits_loop, e0, p0, q0, e1, p1, q1]
  · intro b
    have hm : ∀ a, a + 8 ≤ 4160 ∨ 4161 ≤ a → load k2 a = load h2 a := by
      intro a ha
      unfold load read_word k2 poke write_byte
      have c0 : ¬ a = 4160 := by omega
      have c1 : ¬ a + 1 = 4160 := by omega
      have c2 : ¬ a + 2 = 4160 := by omega
      have c3 : ¬ a + 3 = 4160 := by omega
      have c4 : ¬ a + 4 = 4160 := by omega
      have c5 : ¬ a + 5 = 4160 := by omega
      have c6 : ¬ a + 6 = 4160 := by omega
      have c7 : ¬ a + 7 = 4160 := by omega
      simp [c0, c1, c2, c3, c4, c5, c6, c7]
    have hs : k2.heap_start = h2.heap_start := rfl
    have h0 : nth_block k2 0 = nth_block h2 0 := rfl
    have v0 : nth_block h2 0 = 4104 := by decide!
    have v1 : nth_block h2 1 = 4168 := by decide!
    have v2 : nth_block h2 2 = 5896 := by decide!
    have z2 : get_size h2 5896 = 0 := by decide!
    have hfix : ∀ j, nth_block h2 (j + 2) = 5896 := by
      intro j
      induction j with
      | zero => exact v2
      | succ j ih =>
        show find_next h2 (nth_block h2 (j + 2)) = 5896
        rw [ih]
        decide!
    have hcases : ∀ b, nth_block h2 b = 4104 ∨ nth_block h2 b = 4168 ∨ nth_block h2 b = 5896 := by
      intro b
      match b with
      | 0 => exact Or.inl v0
      | 1 => exact Or.inr (Or.inl v1)
      | j + 2 => exact Or.inr (Or.inr (hfix j))
    have hh : ∀ a, a = 4104 ∨ a = 4168 ∨ a = 5896 → header k2 a = header h2 a := by
      intro a ha
      exact hm a (by omega)
    have hnb : ∀ b, nth_block k2 b = nth_block h2 b := by
      intro b
      induction b with
      | zero => rfl
      | succ j ih =>
        show wadd (nth_block k2 j) (extract_size (header k2 (nth_block k2 j))) =
          wadd (nth_block h2 j) (extract_size (header h2 (nth_block h2 j)))
        rw [ih, hh _ (hcases j)]
    rw [hnb b]
    exact hh _ (hcases b)
  · intro k
    have e0 : is_epilogue k2 k2.heap_start = false := by decide!
    have p0 : (extract_prev_alloc (header k2 k2.heap_start) == 2) = true := by decide!
    have q0 : extract_alloc (load k2 (find_prev_footer k2.heap_start)) = true := by decide!
    have e1 : is_epilogue k2 (find_next k2 k2.heap_start) = false := by decide!
    have p1 : (extract_prev_alloc (header k2 (find_next k2 k2.heap_start)) == 2) = true := by
      decide!
    have q1 : extract_alloc (load k2 (find_prev_footer (find_next k2 k2.heap_start))) =
        true := by decide!
    have e2 : is_epilogue k2 (find_next k2 (find_next k2 k2.heap_start)) = true := by decide!
    simp [checkAllPrevAllocBits, checkAllPrevAllocBits_loop, e0, p0, q0, e1, p1, q1, e2]

/-! ## The size of the block that `malloc` returns -/

theorem least_multiple_16_spec (n : Nat) :
    least_multiple_16 n % 16 = 0 ∧ n ≤ least_multiple_16 n ∧
    ∀ m, m % 16 = 0 → n ≤ m → least_multiple_16 n ≤ m := by
  unfold least_multiple_16
  refine ⟨by omega, by omega, fun m h1 h2 => by omega⟩

theorem adjusted_eq (n : Nat) (hn : n ≤ 18446744073709551592) : adjusted n = asize_of n := by
  have hW : W = 18446744073709551616 := rfl
  have e : wadd n wsize = n + 8 := wadd_eq n 8 (by omega)
  have hr : round_up (n + 8) dsize = 16 * ((n + 8 + 15) / 16) := by
    unfold round_up
    have e1 : wsub dsize 1 = 15 := by decide
    have e2 : wadd (n + 8) 15 = n + 8 + 15 := wadd_eq _ _ (by omega)
    rw [e1, e2]
    exact wmul_eq _ _ (by show 16 * ((n + 8 + 15) / 16) < W; omega)
  unfold adjusted asize_of least_multiple_16
  rw [e, hr]
  by_cases hc : 16 * ((n + 8 + 15) / 16) < min_block_size
  · rw [if_pos hc]
    have hc2 : 16 * ((n + 8 + 15) / 16) < 32 := hc
    show 32 = Max.max 32 (16 * ((n + 8 + 15) / 16))
    omega
  · rw [if_neg hc]
    have hc2 : ¬ 16 * ((n + 8 + 15) / 16) < 32 := hc
    show 16 * ((n + 8 + 15) / 16) = Max.max 32 (16 * ((n + 8 + 15) / 16))
    omega

/-- The size of the block that `place` marks allocated: the requested size
when it splits, the whole block, less than 32 bytes larger, when it does
not. -/
theorem place_size (s : Heap) (bs : List Blk) (fl : List Nat) (a asize : Nat)
    (h : Inv s bs fl) (ha : a ∈ fl) (h16 : asize % 16 = 0) (h32 : 32 ≤ asize)
    (hfit : asize ≤ get_size s a) :
    asize ≤ get_size (place s a asize) a ∧ get_size (place s a asize) a < asize + 32 ∧
    get_alloc (place s a asize) a = true := by
  obtain ⟨pre, blk, post, rfl, hal, rfl⟩ := free_addrs_split _ _ _ (h.perm.subset ha)
  obtain ⟨c, al⟩ := blk
  dsimp only at hal
  subst hal
  obtain ⟨s1, -, -⟩ := inv_at s pre (⟨c, false⟩ :: post) fl h
  have hc : get_size s (s.lo + 8 + total pre) = c := s1
  rw [hc] at hfit
  by_cases hsp : asize + 32 ≤ c
  · obtain ⟨k1, k2⟩ := place_split_exact s pre c post fl asize h h16 h32 hsp
    have hlo : (place s (s.lo + 8 + total pre) asize).lo = s.lo := k2.1
    obtain ⟨a1, a2, -⟩ := inv_at _ pre (⟨asize, true⟩ :: ⟨c - asize, false⟩ :: post) _ k1
    rw [hlo] at a1 a2
    have a1b : get_size (place s (s.lo + 8 + total pre) asize) (s.lo + 8 + total pre) = asize :=
      a1
    rw [a1b]
    exact ⟨Nat.le_refl _, by omega, a2⟩
  · obtain ⟨k1, k2⟩ := place_whole s pre c post fl asize h hfit (by omega)
    have hlo : (place s (s.lo + 8 + total pre) asize).lo = s.lo := k2.1
    obtain ⟨a1, a2, -⟩ := inv_at _ pre (⟨c, true⟩ :: post) _ k1
    rw [hlo] at a1 a2
    have a1b : get_size (place s (s.lo + 8 + total pre) asize) (s.lo + 8 + total pre) = c := a1
    rw [a1b]
    exact ⟨hfit, by omega, a2⟩

/-- The size of the block a successful `malloc` returns, for a request without
overflow on a well-formed heap. -/
theorem malloc_block (fuel : Nat) (s : Heap) (bs : List Blk) (fl : List Nat) (n : Nat)
    (h : Inv s bs fl) (h0 : n ≠ 0) (hn : n ≤ 18446744073709551592) (t : Heap) (p : Nat)
    (hr : malloc fuel s n = .ok (t, p)) (hp0 : p ≠ 0) :
    adjusted n ≤ get_size t (payload_to_header p) ∧
    get_size t (payload_to_header p) < adjusted n + 32 ∧
    get_alloc t (payload_to_header p) = true := by
  have hW : W = 18446744073709551616 := rfl
  obtain ⟨a16, a32, a8, ale, aw⟩ := adjusted_spec n hn
  have hfits := h.fits
  have hble := h.brk_le
  have hlo := h.lo_pos
  have hs0 : s.heap_start ≠ 0 := by
    rw [h.hs]
    omega
  have hback : ∀ b, b + 8 < W → payload_to_header (header_to_payload b) = b := by
    intro b hb
    unfold payload_to_header header_to_payload
    rw [wadd_eq b 8 hb, wsub_eq (b + 8) 8 (by omega) hb]
    omega
  rw [malloc_unfold fuel s n hs0 h0] at hr
  have hff := (find_fit_spec fuel s bs fl (adjusted n) h).1
  cases hfr : find_fit fuel s (adjusted n) with
  | error e =>
    rw [hfr] at hr
    cases hr
  | ok block =>
    rw [hfr] at hr
    dsimp only at hr
    by_cases hb0 : block = 0
    · rw [if_pos hb0] at hr
      have hm16 : MM.max (adjusted n) chunksize % 16 = 0 := by
        rcases max_spec (adjusted n) with e | e <;> rw [e]
        exact a16
      have hm32 : 32 ≤ MM.max (adjusted n) chunksize := by
        have := max_ge (adjusted n)
        omega
      have hmw : MM.max (adjusted n) chunksize + 15 < W := by
        rcases max_spec (adjusted n) with e | e <;> rw [e]
        · exact aw
        · omega
      by_cases hcap : s.brk + MM.max (adjusted n) chunksize ≤ s.cap
      · obtain ⟨pre2, post2, sz, fl2, x1, x2, x3, x4, x5⟩ :=
          extend_spec s bs fl _ h hm16 hm32 hcap
        have hne : (extend_heap s (MM.max (adjusted n) chunksize)).2 ≠ 0 := by
          rw [x2]
          omega
        rw [if_neg hne] at hr
        have ht : t = place (extend_heap s (MM.max (adjusted n) chunksize)).1
            (extend_heap s (MM.max (adjusted n) chunksize)).2 (adjusted n) := by
          injection hr with hr
          exact (congrArg Prod.fst hr).symm
        have hp : p = header_to_payload (extend_heap s (MM.max (adjusted n) chunksize)).2 := by
          injection hr with hr
          exact (congrArg Prod.snd hr).symm
        obtain ⟨-, hbk, -, -, -, hbrk2⟩ := inv_block _ _ _ _ _ x1
        have hble2 := x1.brk_le
        have hfits2 := x1.fits
        have hbrk3 := x1.brk_eq
        rw [total_append] at hbrk3
        dsimp only at hbk hbrk2
        rw [x5] at hbk hfits2
        rw [← x2] at hbk
        have hgs : get_size (extend_heap s (MM.max (adjusted n) chunksize)).1
            (extend_heap s (MM.max (adjusted n) chunksize)).2 = sz :=
          get_size_eq _ _ sz false _ hbk.2.2.1 hbk.1 (by omega)
        have hmg := max_ge (adjusted n)
        have hps := place_size _ _ _ (extend_heap s (MM.max (adjusted n) chunksize)).2
          (adjusted n) x1 (List.mem_cons_self _ _) a16 a32 (by rw [hgs]; omega)
        rw [ht, hp, hback _ (by rw [x2]; simp only [total] at hbrk3; omega)]
        exact hps
      · have hfail := extend_fail s _ hm16 hmw hcap
        rw [hfail] at hr
        dsimp only at hr
        rw [if_pos rfl] at hr
        injection hr with hr
        exact absurd (congrArg Prod.snd hr).symm hp0
    · rw [if_neg hb0] at hr
      have ht : t = place s block (adjusted n) := by
        injection hr with hr
        exact (congrArg Prod.fst hr).symm
      have hp : p = header_to_payload block := by
        injection hr with hr
        exact (congrArg Prod.snd hr).symm
      rcases hff block hfr with hz | ⟨hmem, hfit⟩
      · exact absurd hz hb0
      · have hps := place_size _ _ _ block (adjusted n) h hmem a16 a32 hfit
        have hnodes := inv_nodes _ _ _ h
        have := (hnodes.2 block hmem).2
        rw [ht, hp, hback _ (by omega)]
        exact hps

/-- C25: on a well-formed heap, for a request of `n` bytes with
`0 < n ≤ SIZE_MAX - 23`, the size of the block a successful `malloc(n)`
returns is at least `asize` and less than `asize + 32`, where `asize` is the
larger of 32 and the least multiple of 16 that is at least `n + 8`; the payload
holds the request, exceeds it by fewer than 47 bytes when `n ≥ 24`, and is at
most 56 bytes when `n < 24`. -/
theorem C25_fragmentation_bounded (fuel : Nat) (s : Heap) (live : List Nat) (n : Nat)
    (t : Heap) (p : Nat) (hg : Good s live) (h0 : 0 < n) (hn : n ≤ SIZE_MAX - 23)
    (hr : malloc fuel s n = .ok (t, p)) (hp : p ≠ 0) :
    asize_of n ≤ get_size t (payload_to_header p) ∧
    get_size t (payload_to_header p) < asize_of n + 32 ∧
    n ≤ get_payload_size t (payload_to_header p) ∧
    (24 ≤ n → get_payload_size t (payload_to_header p) < n + 47) ∧
    (n < 24 → get_payload_size t (payload_to_header p) ≤ 56) := by
  have hW : W = 18446744073709551616 := rfl
  have hn2 : n ≤ 18446744073709551592 := hn
  obtain ⟨bs, fl, hinv, -⟩ := hg
  obtain ⟨b1, b2, -⟩ := malloc_block fuel s bs fl n hinv (by omega) hn2 t p hr hp
  rw [adjusted_eq n hn2] at b1 b2
  have ha : asize_of n = Max.max 32 (16 * ((n + 8 + 15) / 16)) := rfl
  have hlt : get_size t (payload_to_header p) < W :=
    Nat.lt_of_le_of_lt Nat.and_le_left (load_lt t (payload_to_header p))
  have hps : get_payload_size t (payload_to_header p) = get_size t (payload_to_header p) - 8 := by
    unfold get_payload_size
    exact wsub_eq _ 8 (by omega) (by omega)
  rw [hps]
  refine ⟨b1, b2, by omega, fun h24 => by omega, fun h24 => by omega⟩

theorem C25_fragmentation_bounded_witness :
    Good h1 [] ∧ 0 < 56 ∧ 56 ≤ SIZE_MAX - 23 ∧ ret (malloc 2 h1 56) = some 4112 ∧
    asize_of 56 = 64 ∧
    (asize_of 56 ≤ get_size h2 (payload_to_header 4112) ∧
    get_size h2 (payload_to_header 4112) < asize_of 56 + 32 ∧
    56 ≤ get_payload_size h2 (payload_to_header 4112) ∧
    (24 ≤ 56 → get_payload_size h2 (payload_to_header 4112) < 56 + 47) ∧
    (56 < 24 → get_payload_size h2 (payload_to_header 4112) ≤ 56)) :=
  ⟨reach_small_good h1 [] (ReachSmall.init fresh boot_fresh (by decide!)), by decide, by decide,
    by decide!, by decide,
    C25_fragmentation_bounded 2 h1 [] 56 h2 4112
      (reach_small_good h1 [] (ReachSmall.init fresh boot_fresh (by decide!))) (by decide)
      (by decide) (eq_ok_of_ret _ h1 4112 (by decide!)) (by decide)⟩

/-! ## The free list as a sequence -/

theorem fseg_unique (m : Mem) (l1 : List Nat) :
    ∀ (l2 : List Nat) (p q h : Nat), FSeg m p h l1 0 → FSeg m q h l2 0 → l1 = l2 := by
  induction l1 with
  | nil =>
    intro l2 p q h h1 h2
    cases l2 with
    | nil => rfl
    | cons y ys =>
      have e1 : h = 0 := h1
      have e2 : h = y := h2.1
      exact absurd (e2.symm.trans e1) h2.2.1
  | cons x xs ih =>
    intro l2 p q h h1 h2
    cases l2 with
    | nil =>
      have e1 : h = 0 := h2
      have e2 : h = x := h1.1
      exact absurd (e2.symm.trans e1) h1.2.1
    | cons y ys =>
      have e1 : h = x := h1.1
      have e2 : h = y := h2.1
      have e : x = y := e1.symm.trans e2
      subst e
      rw [ih ys _ _ _ h1.2.2.2 h2.2.2.2]

theorem fseg_nodup (m : Mem) (l : List Nat) : ∀ (p h : Nat), FSeg m p h l 0 → l.Nodup := by
  induction l with
  | nil => intro p h _; exact List.nodup_nil
  | cons x xs ih =>
    intro p h hf
    refine List.nodup_cons.2 ⟨fun hx => ?_, ih _ _ hf.2.2.2⟩
    obtain ⟨l1, l2, e⟩ := List.append_of_mem hx
    have h2 := hf.2.2.2
    have hfull : FSeg m p h (x :: xs) 0 := hf
    rw [e, fseg_append] at h2
    obtain ⟨mid, -, hm, hm0, hmp, hrest⟩ := h2
    have hsecond : FSeg m (last_or x l1) x (x :: l2) 0 := ⟨rfl, hm0, hmp, hrest⟩
    have hhx : h = x := hf.1
    rw [hhx] at hfull
    have := fseg_unique m _ _ _ _ _ hfull hsecond
    have hl := congrArg List.length this
    rw [e] at hl
    simp at hl
    omega

/-- The walk along the `next` links returns the nodes of a well-linked list. -/
theorem walk_of_fseg (s : Heap) (l : List Nat) :
    ∀ (p h fuel : Nat), FSeg s.mem p h l 0 → (∀ y, y ∈ l → y + 24 < W) → l.length < fuel →
      free_list_nodes s fuel h = .ok l := by
  induction l with
  | nil =>
    intro p h fuel hf _ hfuel
    have e : h = 0 := hf
    cases fuel with
    | zero => omega
    | succ f =>
      unfold free_list_nodes
      rw [if_pos e]
  | cons x xs ih =>
    intro p h fuel hf hw hfuel
    obtain ⟨e, hx0, -, hrest⟩ := hf
    cases fuel with
    | zero => omega
    | succ f =>
      have hnext : block_next s x = read_word s.mem (x + 16) := by
        unfold block_next load
        rw [wadd_eq _ _ (by have := hw x (List.mem_cons_self _ _); omega)]
      unfold free_list_nodes
      rw [e, if_neg hx0, hnext,
        ih _ _ f hrest (fun y hy => hw y (List.mem_cons_of_mem _ hy))
          (by simp only [List.length_cons] at hfuel; omega)]

/-- The links of a well-linked list are consistent. -/
theorem flist_consistent (s : Heap) (fl : List Nat) (hf : FList s.mem 0 s.free_start fl)
    (hn : ∀ y, y ∈ fl → y + 24 < W) : LinksConsistent s := by
  have node : ∀ (pre : List Nat) (x : Nat) (post : List Nat), fl = pre ++ x :: post →
      nth_free s pre.length = x ∧ x ≠ 0 ∧ block_prev s x = last_or 0 pre ∧
      block_next s x = head_or 0 post ∧
      (∀ y, head_or 0 post = y → y ≠ 0 → block_prev s y = x) := by
    intro pre x post e
    obtain ⟨hx, hx0, hp, hrest⟩ := chain s fl hn pre (x :: post) e hf
    have hxm : x ∈ fl := by
      rw [e]
      simp
    have hnext : block_next s x = read_word s.mem (x + 16) := by
      unfold block_next load
      rw [wadd_eq _ _ (by have := hn x hxm; omega)]
    have hprev : block_prev s x = read_word s.mem (x + 8) := by
      unfold block_prev load
      rw [wadd_eq _ _ (by have := hn x hxm; omega)]
    refine ⟨hx, hx0, hprev.trans hp, hnext.trans (fseg_head _ _ _ _ _ hrest), ?_⟩
    intro y hy hy0
    cases post with
    | nil => exact absurd hy.symm hy0
    | cons z zs =>
      have hz : z = y := hy
      subst hz
      have hzm : z ∈ fl := by
        rw [e]
        simp
      unfold block_prev load
      rw [wadd_eq _ _ (by have := hn z hzm; omega)]
      exact hrest.2.2.1
  have hend : ∀ j, nth_free s (fl.length + j) = 0 := by
    intro j
    induction j with
    | zero => exact chain s fl hn fl [] (List.append_nil fl).symm hf
    | succ j ih =>
      show (if nth_free s (fl.length + j) = 0 then 0
        else block_next s (nth_free s (fl.length + j))) = 0
      rw [if_pos ih]
  constructor
  · intro h0
    cases hfl : fl with
    | nil =>
      rw [hfl] at hf
      exact absurd hf h0
    | cons x xs =>
      obtain ⟨h1, -, h3, -, -⟩ := node [] x xs hfl
      have e : s.free_start = x := h1
      rw [e]
      exact h3
  · intro k hk hnx
    by_cases hlt : k < fl.length
    · obtain ⟨pre, post, e, hlen⟩ := split_len_nat fl k (by omega)
      cases post with
      | nil =>
        have := congrArg List.length e
        rw [List.append_nil] at this
        omega
      | cons x post2 =>
        obtain ⟨h1, -, -, h4, h5⟩ := node pre x post2 e
        rw [hlen] at h1
        rw [h1] at hnx ⊢
        rw [h4] at hnx ⊢
        exact h5 _ rfl hnx
    · have := hend (k - fl.length)
      rw [show fl.length + (k - fl.length) = k by omega] at this
      exact absurd this hk

/-- A walk that ends, over consistent links, is a well-linked list. -/
theorem fseg_of_walk (s : Heap) (hl : LinksConsistent s) (l : List Nat) :
    ∀ (k h p fuel : Nat), nth_free s k = h → (h ≠ 0 → block_prev s h = p) →
      (∀ y, y ∈ l → y + 24 < W) → free_list_nodes s fuel h = .ok l → FSeg s.mem p h l 0 := by
  induction l with
  | nil =>
    intro k h p fuel _ _ _ hr
    cases fuel with
    | zero => cases hr
    | succ f =>
      unfold free_list_nodes at hr
      by_cases h0 : h = 0
      · exact h0
      · rw [if_neg h0] at hr
        cases hw : free_list_nodes s f (block_next s h) with
        | error e =>
          rw [hw] at hr
          cases hr
        | ok l2 =>
          rw [hw] at hr
          cases hr
  | cons x xs ih =>
    intro k h p fuel hk hp hw hr
    cases fuel with
    | zero => cases hr
    | succ f =>
      unfold free_list_nodes at hr
      by_cases h0 : h = 0
      · rw [if_pos h0] at hr
        cases hr
      · rw [if_neg h0] at hr
        cases hwk : free_list_nodes s f (block_next s h) with
        | error e =>
          rw [hwk] at hr
          cases hr
        | ok l2 =>
          rw [hwk] at hr
          have hinj : h :: l2 = x :: xs := by
            injection hr
          have e1 : h = x := (List.cons.inj hinj).1
          have e2 : l2 = xs := (List.cons.inj hinj).2
          subst e1
          subst e2
          have hb := hw h (List.mem_cons_self _ _)
          have hnext : block_next s h = read_word s.mem (h + 16) := by
            unfold block_next load
            rw [wadd_eq _ _ (by omega)]
          have hprev : block_prev s h = read_word s.mem (h + 8) := by
            unfold block_prev load
            rw [wadd_eq _ _ (by omega)]
          refine ⟨rfl, h0, hprev.symm.trans (hp h0), ?_⟩
          rw [← hnext]
          refine ih (k + 1) _ _ f ?_ ?_ (fun y hy => hw y (List.mem_cons_of_mem _ hy)) hwk
          · show (if nth_free s k = 0 then 0 else block_next s (nth_free s k)) = block_next s h
            rw [hk, if_neg h0]
          · intro hn0
            have := hl.2 k (by rw [hk]; exact h0) (by rw [hk]; exact hn0)
            rw [hk] at this
            exact this

/-- C22: let the walk along the `next` links from `free_start` end with the
node sequence `L`, the links be consistent (the `prev` link of the head is
null and `a->next->prev == a`), and the nodes be block addresses.  Then (i) for
every block `b` not in `L`, after `prepend_to_free_list(b)` the walk gives
`b :: L`; (ii) for every `c` in `L`, wherever it stands, after
`remove_from_free_list(c)` the walk gives `L` without `c`; and in both cases
the links are consistent again. -/
theorem C22_free_list_ops_are_cons_and_erase (s : Heap) (L : List Nat) (b c fuel : Nat)
    (hw : free_list_nodes s fuel s.free_start = .ok L) (hl : LinksConsistent s)
    (ha : BlockAddrs L) :
    (b % 16 = 8 → b + 24 < W → b ∉ L →
      (∀ f, L.length + 1 < f →
        free_list_nodes (prepend_to_free_list s b) f (prepend_to_free_list s b).free_start =
          .ok (seq_insert b L)) ∧
      LinksConsistent (prepend_to_free_list s b)) ∧
    (c ∈ L →
      (∀ f, L.length < f →
        free_list_nodes (remove_from_free_list s c) f (remove_from_free_list s c).free_start =
          .ok (seq_remove c L)) ∧
      LinksConsistent (remove_from_free_list s c)) := by
  have hf : FList s.mem 0 s.free_start L :=
    fseg_of_walk s hl L 0 s.free_start 0 fuel rfl hl.1 (fun y hy => (ha y hy).2) hw
  have hnd : L.Nodup := fseg_nodup _ _ _ _ hf
  constructor
  · intro hb8 hbw hbn
    have hn : Nodes (b :: L) := by
      refine ⟨List.nodup_cons.2 ⟨hbn, hnd⟩, fun x hx => ?_⟩
      rcases List.mem_cons.1 hx with e | e
      · rw [e]
        exact ⟨hb8, hbw⟩
      · exact ha x e
    obtain ⟨h1, -⟩ := prepend_spec s L b hf hn (by omega)
    refine ⟨fun f hlen => ?_, flist_consistent _ _ h1 (fun y hy => (hn.2 y hy).2)⟩
    exact walk_of_fseg _ _ _ _ f h1 (fun y hy => (hn.2 y hy).2)
      (by show L.length + 1 < f; omega)
  · intro hc
    obtain ⟨h1, -⟩ := remove_spec s L c hf ⟨hnd, ha⟩ hc
    have hw2 : ∀ y, y ∈ L.erase c → y + 24 < W :=
      fun y hy => (ha y (List.mem_of_mem_erase hy)).2
    refine ⟨fun f hlen => ?_, flist_consistent _ _ h1 hw2⟩
    refine walk_of_fseg _ _ _ _ f h1 hw2 ?_
    have := List.length_erase_of_mem hc
    show (L.erase c).length < f
    omega

theorem C22_free_list_ops_are_cons_and_erase_witness :
    free_list_nodes ab3 3 ab3.free_start = .ok [4104, 4328] ∧ LinksConsistent ab3 ∧
    BlockAddrs [4104, 4328] ∧
    ((∀ f, [4104, 4328].length + 1 < f →
        free_list_nodes (prepend_to_free_list ab3 4216) f
          (prepend_to_free_list ab3 4216).free_start = .ok (seq_insert 4216 [4104, 4328])) ∧
      LinksConsistent (prepend_to_free_list ab3 4216)) ∧
    ((∀ f, [4104, 4328].length < f →
        free_list_nodes (remove_from_free_list ab3 4328) f
          (remove_from_free_list ab3 4328).free_start = .ok (seq_remove 4328 [4104, 4328])) ∧
      LinksConsistent (remove_from_free_list ab3 4328)) :=
  have hw : free_list_nodes ab3 3 ab3.free_start = .ok [4104, 4328] := by decide!
  have hl : LinksConsistent ab3 := small_links _ _ reach_small_ab3
  have ha : BlockAddrs [4104, 4328] := by
    intro x hx
    simp only [List.mem_cons, List.mem_singleton, List.not_mem_nil, or_false] at hx
    rcases hx with e | e <;> rw [e] <;> decide
  ⟨hw, hl, ha,
    (C22_free_list_ops_are_cons_and_erase ab3 [4104, 4328] 4216 4328 3 hw hl ha).1
      (by decide) (by decide) (by decide),
    (C22_free_list_ops_are_cons_and_erase ab3 [4104, 4328] 4216 4328 3 hw hl ha).2
      (by decide)⟩

/-! # Part VI: the load of `coalesce` through the word before a block -/

/-! ## What a checked call returns -/

theorem eq_error_of_fault {α : Type} (r : Except Fault α) (e : Fault)
    (h : fault_of r = some e) : r = .error e := by
  cases r with
  | error e2 =>
    simp only [fault_of, Option.some.injEq] at h
    rw [h]
  | ok v => simp [fault_of] at h

/-- A call of `coalesce` whose load lies in the arena, or whose `left` is
null, returns what `coalesce` gives. -/
theorem coalesce_checked_ok (s : Heap) (block : Nat)
    (h : fault_of (coalesce_checked s block) = none) :
    coalesce_checked s block = .ok (coalesce s block) := by
  unfold coalesce_checked at h ⊢
  by_cases h0 : find_prev s block = 0
  · simp only [if_pos h0]
  · simp only [if_neg h0] at h ⊢
    by_cases h1 : in_arena s (find_prev s block) = true
    · simp only [if_pos h1]
    · simp only [if_neg h1, fault_of] at h
      cases h

/-- A call of `coalesce` returns exactly when `left` is null or the word at
`left` lies in the arena, and then it returns what `coalesce` gives. -/
theorem coalesce_checked_returns (s : Heap) (block : Nat) (r : Heap × Nat) :
    coalesce_checked s block = .ok r ↔
      r = coalesce s block ∧
        (find_prev s block = 0 ∨ in_arena s (find_prev s block) = true) := by
  unfold coalesce_checked
  by_cases h0 : find_prev s block = 0
  · simp only [if_pos h0]
    constructor
    · intro h
      injection h with h
      exact ⟨h.symm, Or.inl h0⟩
    · rintro ⟨h, -⟩
      rw [h]
  · simp only [if_neg h0]
    by_cases h1 : in_arena s (find_prev s block) = true
    · simp only [if_pos h1]
      constructor
      · intro h
        injection h with h
        exact ⟨h.symm, Or.inr h1⟩
      · rintro ⟨h, -⟩
        rw [h]
    · simp only [if_neg h1]
      constructor
      · intro h
        cases h
      · rintro ⟨-, h | h⟩
        · exact absurd h h0
        · exact absurd h h1

/-- The state of a call of `free` that returns is the one `free` gives. -/
theorem free_checked_returns (s : Heap) (bp : Nat) (t : Heap)
    (h : free_checked s bp = .ok t) : t = free s bp := by
  unfold free_checked at h
  unfold free
  by_cases h0 : bp = 0
  · rw [if_pos h0] at h ⊢
    injection h with h
    exact h.symm
  · rw [if_neg h0] at h ⊢
    dsimp only at h ⊢
    cases hc : coalesce_checked (set_prev_alloc (write_footer (write_header s
        (payload_to_header bp) (get_size s (payload_to_header bp)) false)
        (payload_to_header bp) (get_size s (payload_to_header bp)) false)
        (payload_to_header bp) (extract_prev_alloc (header s (payload_to_header bp)) != 0))
        (payload_to_header bp) with
    | error e =>
      rw [hc] at h
      cases h
    | ok r =>
      rw [hc] at h
      injection h with h
      rw [← h, ((coalesce_checked_returns _ _ r).1 hc).1]

/-- The state of a call of `place` that returns is the one `place` gives. -/
theorem place_checked_returns (s : Heap) (block asize : Nat) (t : Heap)
    (h : place_checked s block asize = .ok t) : t = place s block asize := by
  unfold place_checked at h
  unfold place
  by_cases h0 : wsub (get_size s block) asize ≥ min_block_size
  · simp only [if_pos h0] at h ⊢
    generalize hS : set_prev_alloc _ _ true = S at h ⊢
    generalize hB : find_next _ block = B at h ⊢
    cases hc : coalesce_checked S B with
    | error e =>
      rw [hc] at h
      cases h
    | ok r =>
      rw [hc] at h
      injection h with h
      rw [← h, ((coalesce_checked_returns _ _ r).1 hc).1]
  · simp only [if_neg h0] at h ⊢
    injection h with h
    exact h.symm

/-- A call `free(p)` that returns, on a well-formed heap, leaves the merged
free block that `free_merges_neighbours` describes. -/
theorem free_checked_merges (s : Heap) (live : List Nat) (p k : Nat) (t : Heap)
    (hg : Good s live) (hp : p ∈ live) (hk : reaches s k)
    (hb : nth_block s k = payload_to_header p) (hr : free_checked s p = .ok t) :
    t.free_start = merged_start s k ∧
    get_size t (merged_start s k) = merged_size s k ∧
    get_alloc t (merged_start s k) = false ∧
    load t (merged_start s k + merged_size s k - 8) = pack (merged_size s k) false := by
  rw [free_checked_returns s p t hr]
  obtain ⟨h1, h2, h3, h4, -⟩ := free_merges_neighbours s live p k hg hp hk hb
  exact ⟨h1, h2, h3, h4⟩

/-- A call `place(b, asize)` that returns, on a well-formed heap, takes `b` out
of the free list and gives it the size `place_splits_or_takes_whole`
describes. -/
theorem place_checked_places (s : Heap) (live : List Nat) (b asize : Nat) (t : Heap)
    (hg : Good s live) (hb : InFreeList s b) (h16 : asize % 16 = 0) (h32 : 32 ≤ asize)
    (hle : asize ≤ get_size s b) (hr : place_checked s b asize = .ok t) :
    ¬ InFreeList t b ∧ get_alloc t b = true ∧
    (32 ≤ get_size s b - asize → get_size t b = asize) ∧
    (get_size s b - asize < 32 → get_size t b = get_size s b) := by
  rw [place_checked_returns s b asize t hr]
  obtain ⟨h1, h2, h3⟩ := place_splits_or_takes_whole s live b asize hg hb h16 h32 hle
  refine ⟨h1, ?_, fun h => (h2 h).1, fun h => (h3 h).1⟩
  by_cases hc : 32 ≤ get_size s b - asize
  · exact (h2 hc).2.1
  · exact (h3 (by omega)).2.1

/-- Two calls of `coalesce` that both return, on heaps that differ only in the
word before the block, return the same block. -/
theorem coalesce_checked_twin (s1 s2 : Heap) (a : Nat) (pre : List Blk) (bsize : Nat)
    (post : List Blk) (fl : List Nat) (r1 r2 : Heap × Nat) (h : PreCo s1 pre bsize post fl)
    (ha : a = s1.lo + 8 + total pre) (hbit : extract_prev_alloc (header s1 a) ≠ 0)
    (hdf : DifferOnlyBefore a s1 s2) (h1 : coalesce_checked s1 a = .ok r1)
    (h2 : coalesce_checked s2 a = .ok r2) :
    r2.2 = r1.2 ∧ DifferOnlyBefore a r1.1 r2.1 := by
  rw [((coalesce_checked_returns _ _ r1).1 h1).1, ((coalesce_checked_returns _ _ r2).1 h2).1]
  obtain ⟨c1, -, -, c4, -, -⟩ := coalesce_result_ignores_word s1 s2 a pre bsize post fl h ha hbit hdf
  exact ⟨c1, c4⟩

/-! ## Calls that load outside the arena -/

theorem reach_small_abw : ReachSmall abw [4224, 4112] :=
  ReachSmall.write ab2 [4224, 4112] 4112 4210 16 reach_small_ab2 (by simp) (by decide)
    (by decide!)

theorem reach_small_pw1 : ReachSmall pw1 [4112] :=
  ReachSmall.write ab1 [4112] 4112 4130 16
    (ReachSmall.malloc 2 100 h1 ab1 [] 4112 (ReachSmall.init fresh boot_fresh (by decide!))
      (by decide) (eq_ok_of_ret _ h1 4112 (by decide!)))
    (by simp) (by decide) (by decide!)

theorem reach_small_pw2 : ReachSmall pw2 [] :=
  ReachSmall.free pw1 [4112] 4112 reach_small_pw1 (by simp)

/-- C17: on the well-formed heap reached by `mm_init`, `A = malloc(100)`,
`B = malloc(100)` and a store of the byte `16` at `A + 98`, the call `free(B)`
does not return: `coalesce` computes `left` from the word before the header of
the block of `B`, which is the last payload word of `A` and holds `1048576`,
and loads the header at `left = 4216 - 1048576` modulo `2 ^ 64`, outside the
arena from 4096 to 5904.  Without the caller's store the same call returns. -/
theorem C17_free_loads_outside_arena :
    ReachSmall abw [4224, 4112] ∧ Good abw [4224, 4112] ∧
    abw.lo = 4096 ∧ abw.lo + abw.brk = 5904 ∧
    payload_to_header 4224 = 4216 ∧ find_prev_footer 4216 = 4208 ∧
    4112 ≤ 4208 ∧ 4208 + 8 ≤ 4112 + get_payload_size abw (payload_to_header 4112) ∧
    prev_alloc_bit (free_entry abw 4224) 4216 = true ∧
    load (free_entry abw 4224) 4208 = 1048576 ∧
    find_prev (free_entry abw 4224) 4216 = 18446744073708507256 ∧
    in_arena (free_entry abw 4224) 18446744073708507256 = false ∧
    free_checked abw 4224 = .error .bad_load ∧
    free_checked ab2 4224 = .ok (free ab2 4224) := by
  refine ⟨reach_small_abw, reach_small_good _ _ reach_small_abw, by decide!, by decide!,
    by decide!, by decide!, by decide, by decide!, by decide!, by decide!, by decide!,
    by decide!, eq_error_of_fault _ _ (by decide!), ?_⟩
  have h : fault_of (free_checked ab2 4224) = none := by decide!
  cases hr : free_checked ab2 4224 with
  | error e =>
    rw [hr] at h
    cases h
  | ok t => rw [free_checked_returns ab2 4224 t hr]

/-- C19: on the well-formed heap reached by `mm_init`, `A = malloc(100)`, a
store of the byte `16` at `A + 18` and `free(A)`, the block 4104 is in the free
list with 1792 bytes, and the call `place(4104, 32)`, which splits, does not
return: it calls `coalesce` on the rest of the block, at 4136, and `coalesce`
computes `left` from the word before that header, the caller's stale word
`1048576` at 4128, and loads the header at `left = 4136 - 1048576` modulo
`2 ^ 64`, outside the arena from 4096 to 5904. -/
theorem C19_place_loads_outside_arena :
    ReachSmall pw2 [] ∧ Good pw2 [] ∧ free_checked pw1 4112 = .ok pw2 ∧
    pw2.lo = 4096 ∧ pw2.lo + pw2.brk = 5904 ∧
    InFreeList pw2 4104 ∧ get_size pw2 4104 = 1792 ∧ get_alloc pw2 4104 = false ∧
    32 % 16 = 0 ∧ 32 ≤ 32 ∧ 32 ≤ get_size pw2 4104 ∧ 32 ≤ get_size pw2 4104 - 32 ∧
    find_next (place_entry pw2 4104 32) 4104 = 4136 ∧ find_prev_footer 4136 = 4128 ∧
    load (place_entry pw2 4104 32) 4128 = 1048576 ∧
    find_prev (place_entry pw2 4104 32) 4136 = 18446744073708507176 ∧
    in_arena (place_entry pw2 4104 32) 18446744073708507176 = false ∧
    place_checked pw2 4104 32 = .error .bad_load := by
  refine ⟨reach_small_pw2, reach_small_good _ _ reach_small_pw2, ?_, by decide!, by decide!,
    ⟨by decide, 0, by decide!⟩, by decide!, by decide!, by decide, by decide, by decide!,
    by decide!, by decide!, by decide!, by decide!, by decide!, by decide!,
    eq_error_of_fault _ _ (by decide!)⟩
  have h : fault_of (free_checked pw1 4112) = none := by decide!
  cases hr : free_checked pw1 4112 with
  | error e =>
    rw [hr] at h
    cases h
  | ok t =>
    rw [free_checked_returns pw1 4112 t hr]
    rfl

/-- C20: the heaps `fb1` and `fb2` differ only in the word before the header
of the block 4216, the last payload word of the allocated block before it, and
the `prev_alloc` bit of the block is set in both; `fb1` is well formed.  In
`fb1` the pointer `left` that `coalesce` computes from that word is the block
itself and the call returns; in `fb2` it is `4216 - 1048576` modulo `2 ^ 64`,
the load `get_size(left)` falls outside the arena from 4096 to 5904, and the
call does not return. -/
theorem C20_coalesce_loads_through_word_before_header :
    PreCo fb1 [⟨112, true⟩] 112 [⟨1568, false⟩] [4328] ∧
    DifferOnlyBefore 4216 fb1 fb2 ∧
    extract_prev_alloc (header fb1 4216) ≠ 0 ∧ extract_prev_alloc (header fb2 4216) ≠ 0 ∧
    get_alloc fb1 4104 = true ∧ find_next fb1 4104 = 4216 ∧
    find_prev_footer 4216 = 4208 ∧ load fb1 4208 = 0 ∧ load fb2 4208 = 1048576 ∧
    fb2.lo = 4096 ∧ fb2.lo + fb2.brk = 5904 ∧
    find_prev fb1 4216 = 4216 ∧ in_arena fb1 4216 = true ∧
    coalesce_checked fb1 4216 = .ok (coalesce fb1 4216) ∧
    find_prev fb2 4216 = 18446744073708507256 ∧
    in_arena fb2 18446744073708507256 = false ∧
    coalesce_checked fb2 4216 = .error .bad_load := by
  refine ⟨preco_fb1, differ_store fb1 4208 1048576, by decide!, by decide!, by decide!,
    by decide!, by decide!, by decide!, by decide!, by decide!, by decide!, by decide!,
    by decide!, coalesce_checked_ok _ _ (by decide!), by decide!, by decide!,
    eq_error_of_fault _ _ (by decide!)⟩

end MM
